import Mathlib

/-!
# Monkey front end: lexer and Pratt parser

A shallow embedding of `token/token.go`, `token/lexer.go`, `ast/ast.go` and
`ast/parser.go`.

* A Go `string` is a byte sequence; it is embedded as a `List Nat`, each
  element being one byte.  `bytes` turns an ASCII Lean string into that form.
* A Go run-time panic (index out of range, nil dereference) is an explicit
  failure value: `none` in the lexer and in the renderers, `Fault.panic` in
  the parser.
* The parser is recursive and has loops that need not terminate, so every
  parser function takes a fuel argument and answers `Fault.outOfFuel` when it
  is used up.
-/

namespace Monkey

/-- The bytes of an ASCII string. -/
def bytes (s : String) : List Nat := s.toList.map Char.toNat

/-! ## token/token.go -/

/-- The token kinds, one per constant of `token.go` (`Type = string` there). -/
inductive TokenType
  | Illegal | Eof | Ident | Int
  | Assign | Plus | Minus | Bang | Asterisk | Slash | Lt | Gt | Eq | Ne
  | Comma | Semicolon | Lparen | Rparen | Lbrace | Rbrace
  | Function | Let | If | Else | True | False | Return
  deriving DecidableEq, Repr

/-- The string value of each kind constant. -/
def TokenType.name : TokenType → List Nat
  | .Illegal => bytes "ILLEGAL" | .Eof => bytes "EOF" | .Ident => bytes "IDENT"
  | .Int => bytes "INT" | .Assign => bytes "=" | .Plus => bytes "+"
  | .Minus => bytes "-" | .Bang => bytes "!" | .Asterisk => bytes "*"
  | .Slash => bytes "/" | .Lt => bytes "<" | .Gt => bytes ">"
  | .Eq => bytes "==" | .Ne => bytes "!=" | .Comma => bytes ","
  | .Semicolon => bytes ";" | .Lparen => bytes "(" | .Rparen => bytes ")"
  | .Lbrace => bytes "\x7b" | .Rbrace => bytes "\x7d" | .Function => bytes "FUNCTION"
  | .Let => bytes "LET" | .If => bytes "IF" | .Else => bytes "ELSE"
  | .True => bytes "TRUE" | .False => bytes "FALSE" | .Return => bytes "RETURN"

/-- `Token` of `token.go`: a kind and the literal text. -/
structure Token where
  Typ : TokenType
  Literal : List Nat
  deriving DecidableEq, Repr

/-- `newToken`. -/
def newToken (tokenType : TokenType) (literal : List Nat) : Token :=
  { Typ := tokenType, Literal := literal }

/-- `KEYWORDS` together with `isKeyword`: the lookup of a word in the table. -/
def isKeyword (word : List Nat) : Option TokenType :=
  if word = bytes "fn" then some .Function
  else if word = bytes "let" then some .Let
  else if word = bytes "if" then some .If
  else if word = bytes "else" then some .Else
  else if word = bytes "true" then some .True
  else if word = bytes "false" then some .False
  else if word = bytes "return" then some .Return
  else none

/-- `isLetter`: `'a' <= c <= 'z'` or `'A' <= c <= 'Z'`. -/
def isLetter (char : Nat) : Bool :=
  (97 ≤ char && char ≤ 122) || (65 ≤ char && char ≤ 90)

/-- `isDigit`: `'0' <= c <= '9'`. -/
def isDigit (value : Nat) : Bool :=
  48 ≤ value && value ≤ 57

/-! ## token/lexer.go -/

/-- `Lexer` of `lexer.go`. -/
structure Lexer where
  input : List Nat
  pos : Nat
  toReadPos : Nat
  char : Nat
  deriving DecidableEq, Repr

namespace Lexer

/-- `readChar`: load the byte at `toReadPos`, or 0 past the end. -/
def readChar (lexer : Lexer) : Lexer :=
  if lexer.toReadPos < lexer.input.length then
    { lexer with
      char := lexer.input.getD lexer.toReadPos 0
      pos := lexer.toReadPos
      toReadPos := lexer.toReadPos + 1 }
  else
    { lexer with char := 0, pos := lexer.toReadPos }

/-- `HasNext`. -/
def HasNext (lexer : Lexer) : Bool :=
  lexer.pos != lexer.input.length

/-- `peekChar`: `input[toReadPos]` guarded by `HasNext`; `none` is the
index-out-of-range panic of the unchecked index expression. -/
def peekChar (lexer : Lexer) : Option Nat :=
  if lexer.HasNext then lexer.input[lexer.toReadPos]? else some 0

/-- The `for isLetter(lexer.char)` loop of `readWord`.  Every iteration
performs one `readChar`; after `input.length + 1` of them the current byte
is 0, so that many iterations are always enough. -/
def readWordLoop : Nat → Lexer → Lexer
  | 0, lexer => lexer
  | n + 1, lexer =>
    if isLetter lexer.char then readWordLoop n lexer.readChar else lexer

/-- `readWord`: returns the slice `input[pos:lexer.pos]` and the new state. -/
def readWord (lexer : Lexer) : List Nat × Lexer :=
  let pos := lexer.pos
  let lexer1 := readWordLoop (lexer.input.length + 1) lexer
  ((lexer1.input.drop pos).take (lexer1.pos - pos), lexer1)

/-- The `for isDigit(lexer.char)` loop of `readNumber`. -/
def readNumberLoop : Nat → Lexer → Lexer
  | 0, lexer => lexer
  | n + 1, lexer =>
    if isDigit lexer.char then readNumberLoop n lexer.readChar else lexer

/-- `readNumber`. -/
def readNumber (lexer : Lexer) : List Nat × Lexer :=
  let pos := lexer.pos
  let lexer1 := readNumberLoop (lexer.input.length + 1) lexer
  ((lexer1.input.drop pos).take (lexer1.pos - pos), lexer1)

/-- The loop of `skipWhitespaces` (space, tab, carriage return, newline). -/
def skipWhitespacesLoop : Nat → Lexer → Lexer
  | 0, lexer => lexer
  | n + 1, lexer =>
    if lexer.char = 32 ∨ lexer.char = 9 ∨ lexer.char = 13 ∨ lexer.char = 10 then
      skipWhitespacesLoop n lexer.readChar
    else lexer

/-- `skipWhitespaces`. -/
def skipWhitespaces (lexer : Lexer) : Lexer :=
  skipWhitespacesLoop (lexer.input.length + 1) lexer

/-- `NextToken`.  `none` is a panic (raised by `peekChar`). -/
def NextToken (lexer0 : Lexer) : Option (Token × Lexer) :=
  let lexer := lexer0.skipWhitespaces
  let currentChar := lexer.char
  if currentChar = 61 then            -- '='
    match lexer.peekChar with
    | none => none
    | some c =>
      if c = 61 then some (newToken .Eq (bytes "=="), lexer.readChar.readChar)
      else some (newToken .Assign (bytes "="), lexer.readChar)
  else if currentChar = 59 then some (newToken .Semicolon (bytes ";"), lexer.readChar)
  else if currentChar = 44 then some (newToken .Comma (bytes ","), lexer.readChar)
  else if currentChar = 40 then some (newToken .Lparen (bytes "("), lexer.readChar)
  else if currentChar = 41 then some (newToken .Rparen (bytes ")"), lexer.readChar)
  else if currentChar = 123 then some (newToken .Lbrace (bytes "\x7b"), lexer.readChar)
  else if currentChar = 125 then some (newToken .Rbrace (bytes "\x7d"), lexer.readChar)
  else if currentChar = 43 then some (newToken .Plus (bytes "+"), lexer.readChar)
  else if currentChar = 45 then some (newToken .Minus (bytes "-"), lexer.readChar)
  else if currentChar = 33 then       -- '!'
    match lexer.peekChar with
    | none => none
    | some c =>
      if c = 61 then some (newToken .Ne (bytes "!="), lexer.readChar.readChar)
      else some (newToken .Bang (bytes "!"), lexer.readChar)
  else if currentChar = 42 then some (newToken .Asterisk (bytes "*"), lexer.readChar)
  else if currentChar = 47 then some (newToken .Slash (bytes "/"), lexer.readChar)
  else if currentChar = 60 then some (newToken .Lt (bytes "<"), lexer.readChar)
  else if currentChar = 62 then some (newToken .Gt (bytes ">"), lexer.readChar)
  else if currentChar = 0 then some (newToken .Eof (bytes ""), lexer.readChar)
  else if isLetter currentChar then
    let (word, lexer1) := lexer.readWord
    match isKeyword word with
    | some tokenType => some ({ newToken .Ident word with Typ := tokenType }, lexer1)
    | none => some (newToken .Ident word, lexer1)
  else if isDigit currentChar then
    let (number, lexer1) := lexer.readNumber
    some (newToken .Int number, lexer1)
  else some (newToken .Illegal (bytes ""), lexer.readChar)

end Lexer

/-- `NewLexer`. -/
def NewLexer (input : List Nat) : Lexer :=
  Lexer.readChar { input := input, pos := 0, toReadPos := 0, char := 0 }

/-- The first `n` results of repeated `NextToken`, in order; `none` entries
are calls that panicked (the panic ends the run). -/
def lexTokens : Nat → Lexer → List (Option Token)
  | 0, _ => []
  | n + 1, lexer =>
    match lexer.NextToken with
    | none => [none]
    | some (t, lexer1) => some t :: lexTokens n lexer1


/-! ## strconv.ParseInt (Go standard library), as used by `parseInteger` -/

/-- The error kinds of `strconv.NumError`. -/
inductive NumError
  | ErrSyntax | ErrRange | ErrBase | ErrBitSize
  deriving DecidableEq, Repr

/-- `lower(c)`: `c | ('x' - 'X')`. -/
def strconvLower (c : Nat) : Nat := c ||| 32

/-- The scanning loop of `underscoreOK`; `saw` is `'^'` (94), `'0'` (48),
`'_'` (95) or `'!'` (33). -/
def underscoreOKLoop (hex : Bool) : List Nat → Nat → Bool
  | [], saw => saw != 95
  | c :: rest, saw =>
    if (48 ≤ c && c ≤ 57) || (hex && 97 ≤ strconvLower c && strconvLower c ≤ 102) then
      underscoreOKLoop hex rest 48
    else if c = 95 then
      if saw != 48 then false else underscoreOKLoop hex rest 95
    else if saw = 95 then false
    else underscoreOKLoop hex rest 33

/-- `underscoreOK`. -/
def underscoreOK (s0 : List Nat) : Bool :=
  let s := match s0 with
    | c :: rest => if c = 45 ∨ c = 43 then rest else s0
    | [] => s0
  match s with
  | 48 :: c :: rest =>
    if strconvLower c = 98 ∨ strconvLower c = 111 ∨ strconvLower c = 120 then
      underscoreOKLoop (strconvLower c = 120) rest 48
    else underscoreOKLoop false s 94
  | _ => underscoreOKLoop false s 94

/-- The digit loop of `ParseUint`: `n` is a `uint64`, so sums are taken
modulo `2^64`.  Returns the value, whether an underscore was seen, and the
error. -/
def parseUintLoop (base : Nat) (base0 : Bool) (cutoff maxVal : Nat) :
    List Nat → Nat → Bool → Nat × Bool × Option NumError
  | [], n, underscores => (n, underscores, none)
  | c :: rest, n, underscores =>
    if c = 95 ∧ base0 then parseUintLoop base base0 cutoff maxVal rest n true
    else
      let d : Option Nat :=
        if 48 ≤ c ∧ c ≤ 57 then some (c - 48)
        else if 97 ≤ strconvLower c ∧ strconvLower c ≤ 122 then some (strconvLower c - 97 + 10)
        else none
      match d with
      | none => (0, underscores, some .ErrSyntax)
      | some d =>
        if d ≥ base then (0, underscores, some .ErrSyntax)
        else if n ≥ cutoff then (maxVal, underscores, some .ErrRange)
        else
          let n0 := n * base % 2 ^ 64
          let n1 := (n0 + d) % 2 ^ 64
          if n1 < n0 ∨ n1 > maxVal then (maxVal, underscores, some .ErrRange)
          else parseUintLoop base base0 cutoff maxVal rest n1 underscores

/-- `strconv.ParseUint(s, base, bitSize)`: the value and the error. -/
def ParseUint (s0 : List Nat) (base0 : Nat) (bitSize0 : Nat) : Nat × Option NumError :=
  if s0 = [] then (0, some .ErrSyntax)
  else
    let sel : Option (Nat × List Nat) :=
      if 2 ≤ base0 ∧ base0 ≤ 36 then some (base0, s0)
      else if base0 = 0 then
        match s0 with
        | 48 :: rest =>
          match rest with
          | c :: rest2 =>
            if s0.length ≥ 3 ∧ strconvLower c = 98 then some (2, rest2)
            else if s0.length ≥ 3 ∧ strconvLower c = 111 then some (8, rest2)
            else if s0.length ≥ 3 ∧ strconvLower c = 120 then some (16, rest2)
            else some (8, rest)
          | [] => some (8, rest)
        | _ => some (10, s0)
      else none
    match sel with
    | none => (0, some .ErrBase)
    | some (base, s) =>
      if bitSize0 > 64 then (0, some .ErrBitSize)
      else
        let bitSize := if bitSize0 = 0 then 64 else bitSize0
        let cutoff := (2 ^ 64 - 1) / base + 1
        let maxVal := 2 ^ bitSize - 1
        match parseUintLoop base (base0 = 0) cutoff maxVal s 0 false with
        | (n, _, some e) => (n, some e)
        | (n, underscores, none) =>
          if underscores ∧ ¬ underscoreOK s0 then (0, some .ErrSyntax) else (n, none)

/-- `strconv.ParseInt(s, base, bitSize)`: the `int64` value and the error. -/
def ParseInt (s0 : List Nat) (base : Nat) (bitSize0 : Nat) : Int × Option NumError :=
  if s0 = [] then (0, some .ErrSyntax)
  else
    let (neg, s) : Bool × List Nat := match s0 with
      | 43 :: rest => (false, rest)
      | 45 :: rest => (true, rest)
      | _ => (false, s0)
    match ParseUint s base bitSize0 with
    | (un, err) =>
      if err.isSome ∧ err ≠ some .ErrRange then (0, err)
      else
        let bitSize := if bitSize0 = 0 then 64 else bitSize0
        let cutoff := 2 ^ (bitSize - 1)
        if ¬ neg ∧ un ≥ cutoff then ((cutoff : Int) - 1, some .ErrRange)
        else if neg ∧ un > cutoff then (-(cutoff : Int), some .ErrRange)
        else if neg then (-(un : Int), none) else ((un : Int), none)

/-! ## ast/ast.go -/

/-- `Identifier`. -/
structure Identifier where
  Token : Monkey.Token
  Value : List Nat
  deriving DecidableEq, Repr

mutual
/-- A value of the `Expression` interface: `nil`, or a pointer to one of the
expression node structs.  `IfExpression.Token` is a pointer that the parser
leaves `nil`, hence the `Option`; an absent `Alternative` is `none`. -/
inductive Expression
  | nil
  | Identifier (id : Monkey.Identifier)
  | Integer (tok : Token) (value : Int)
  | Boolean (tok : Token) (value : Bool)
  | PrefixExpression (tok : Token) (operator : List Nat) (right : Expression)
  | InfixExpression (tok : Token) (left : Expression) (operator : List Nat)
      (right : Expression)
  | IfExpression (tok : Option Token) (condition : Expression)
      (consequence : BlockStatement) (alternative : Option BlockStatement)
  | CallExpression (tok : Token) (function : Expression) (arguments : List Expression)
  | Function (tok : Token) (params : List Monkey.Identifier) (body : BlockStatement)
/-- A value of the `Statement` interface: `nil` (the interface itself is
nil), `nilLetStatement` (the interface holds a nil `*LetStatement`, which is
what `parseStatement` returns when `parseLetStatement` gives up), or a
pointer to a statement struct. -/
inductive Statement
  | nil
  | nilLetStatement
  | LetStatement (tok : Token) (name : Monkey.Identifier) (value : Expression)
  | ReturnStatement (tok : Token) (returnValue : Expression)
  | ExpressionStatement (tok : Token) (expression : Expression)
/-- `BlockStatement`. -/
inductive BlockStatement
  | mk (tok : Token) (statements : List Statement)
end

/-- `Program`. -/
structure Program where
  Statements : List Statement

/-- `strings.Join`. -/
def stringsJoin : List (List Nat) → List Nat → List Nat
  | [], _ => []
  | [a], _ => a
  | a :: b :: rest, sep => a ++ sep ++ stringsJoin (b :: rest) sep

mutual
/-- The `String()` method of the expression nodes; `none` is a nil
dereference. -/
def Expression.String : Expression → Option (List Nat)
  | .nil => none
  | .Identifier id => some id.Value
  | .Integer tok _ => some tok.Literal
  | .Boolean _ value => some (if value then bytes "true" else bytes "false")
  | .PrefixExpression _ operator right =>
    match right.String with
    | none => none
    | some r => some (bytes "(" ++ operator ++ r ++ bytes ")")
  | .InfixExpression _ left operator right =>
    match left.String, right.String with
    | some l, some r => some (bytes "(" ++ l ++ operator ++ r ++ bytes ")")
    | _, _ => none
  | .IfExpression _ condition consequence alternative =>
    match condition.String, consequence.String, BlockStatement.StringElse alternative with
    | some c, some k, some a => some (bytes "if " ++ c ++ bytes " " ++ k ++ a ++ bytes "\n")
    | _, _, _ => none
  | .CallExpression _ function arguments =>
    match function.String, Expression.StringAll arguments with
    | some f, some t => some (f ++ bytes "(" ++ stringsJoin t (bytes ",") ++ bytes ")")
    | _, _ => none
  | .Function _ params body =>
    match body.String with
    | none => none
    | some b =>
      some (bytes "(" ++ stringsJoin (params.map (fun p => p.Value)) (bytes ",") ++
        bytes ") " ++ b)
/-- The renderings of the arguments of a call, in order. -/
def Expression.StringAll : List Expression → Option (List (List Nat))
  | [] => some []
  | e :: rest =>
    match e.String, Expression.StringAll rest with
    | some s, some t => some (s :: t)
    | _, _ => none
/-- The `String()` method of the statement nodes.  `LetStatement.String` has
a value receiver, so it panics on a nil pointer. -/
def Statement.String : Statement → Option (List Nat)
  | .nil => none
  | .nilLetStatement => none
  | .LetStatement tok name value =>
    match value with
    | .nil => some (tok.Literal ++ bytes " " ++ name.Value ++ bytes " = " ++ bytes "nil" ++
        bytes "\n")
    | value =>
      match value.String with
      | none => none
      | some v => some (tok.Literal ++ bytes " " ++ name.Value ++ bytes " = " ++ v ++ bytes "\n")
  | .ReturnStatement _ returnValue =>
    match returnValue.String with
    | none => none
    | some v => some (bytes "return " ++ v)
  | .ExpressionStatement _ expression => expression.String
/-- The loop of `BlockStatement.String`. -/
def Statement.StringAll : List Statement → Option (List Nat)
  | [] => some []
  | s :: rest =>
    match s.String, Statement.StringAll rest with
    | some a, some b => some (bytes "\t" ++ a ++ b)
    | _, _ => none
/-- `BlockStatement.String`. -/
def BlockStatement.String : BlockStatement → Option (List Nat)
  | .mk _ statements =>
    match Statement.StringAll statements with
    | none => none
    | some s => some (bytes "\x7b\n" ++ s ++ bytes "\n\x7d\n")
/-- The `else` part of `IfExpression.String`. -/
def BlockStatement.StringElse : Option BlockStatement → Option (List Nat)
  | none => some []
  | some b =>
    match b.String with
    | none => none
    | some s => some (bytes "else " ++ s)
end


/-- `Program.String`: the renderings of the non-nil statements, each followed
by a newline. -/
def Program.String (program : Program) : Option (List Nat) :=
  program.Statements.foldl
    (fun acc stmt =>
      match acc, stmt with
      | none, _ => none
      | some s, .nil => some s
      | some s, stmt =>
        match stmt.String with
        | none => none
        | some t => some (s ++ t ++ bytes "\n"))
    (some [])

/-- The `Literal()` method of the expression nodes. -/
def Expression.Literal : Expression → Option (List Nat)
  | .nil => none
  | .Identifier id => some id.Token.Literal
  | .Integer tok _ => some tok.Literal
  | .Boolean tok _ => some tok.Literal
  | .PrefixExpression tok _ _ => some tok.Literal
  | .InfixExpression tok _ _ _ => some tok.Literal
  | .IfExpression tok _ _ _ => tok.map (fun t => t.Literal)
  | .CallExpression tok _ _ => some tok.Literal
  | .Function tok _ _ => some tok.Literal

/-- The `Literal()` method of the statement nodes. -/
def Statement.Literal : Statement → Option (List Nat)
  | .nil => none
  | .nilLetStatement => none
  | .LetStatement tok _ _ => some tok.Literal
  | .ReturnStatement _ returnValue => returnValue.Literal
  | .ExpressionStatement tok _ => some tok.Literal

/-- `BlockStatement.Literal`. -/
def BlockStatement.Literal : BlockStatement → Option (List Nat)
  | .mk tok _ => some tok.Literal

/-- `Program.Literal`. -/
def Program.Literal (program : Program) : Option (List Nat) :=
  match program.Statements with
  | stmt :: _ => stmt.Literal
  | [] => some []

/-! ## ast/parser.go -/

/-- The precedence constants (`iota` starts at 1 after the blank). -/
def Lowest : Nat := 1
def Equals : Nat := 2
def LessGreater : Nat := 3
def Sum : Nat := 4
def Product : Nat := 5
def Prefix : Nat := 6
def Call : Nat := 7

/-- The `Precedences` map. -/
def Precedences : TokenType → Option Nat
  | .Eq => some Equals
  | .Ne => some Equals
  | .Lt => some LessGreater
  | .Gt => some LessGreater
  | .Plus => some Sum
  | .Minus => some Sum
  | .Asterisk => some Product
  | .Slash => some Product
  | .Lparen => some Call
  | _ => none

/-- The errors the parser records, one constructor per message format:
`no prefix for %s found`, `expected next token is %s, but got %s` and
`could not parse %q as integer`. -/
inductive ParseError
  | noPrefixFound (kind : TokenType)
  | expectedNext (expected actual : TokenType)
  | couldNotParse (tok : Token)
  deriving DecidableEq, Repr

/-- How a parser call can fail to return: a Go panic, `log.Fatal` at the end
of `Parse`, or the fuel of the embedding running out. -/
inductive Fault
  | panic
  | fatal (errors : List ParseError)
  | outOfFuel
  deriving DecidableEq, Repr

/-- The functions registered as prefix rules. -/
inductive PrefixExpressionResolver
  | parseIdentifier | parseInteger | parsePrefixExpression | parseBoolean
  | parseGroupedExpression | parseIfExpression | parseFunction
  deriving DecidableEq, Repr

/-- The functions registered as infix rules. -/
inductive InfixExpressionResolver
  | parseInfixExpression | parseCallExpression
  deriving DecidableEq, Repr

/-- The `prefixExprResolvers` map as filled by `NewParser`. -/
def prefixExprResolvers : TokenType → Option PrefixExpressionResolver
  | .Ident => some .parseIdentifier
  | .Int => some .parseInteger
  | .Bang => some .parsePrefixExpression
  | .Minus => some .parsePrefixExpression
  | .True => some .parseBoolean
  | .False => some .parseBoolean
  | .Lparen => some .parseGroupedExpression
  | .If => some .parseIfExpression
  | .Function => some .parseFunction
  | _ => none

/-- The `infixExprResolvers` map as filled by `NewParser`. -/
def infixExprResolvers : TokenType → Option InfixExpressionResolver
  | .Plus => some .parseInfixExpression
  | .Minus => some .parseInfixExpression
  | .Asterisk => some .parseInfixExpression
  | .Slash => some .parseInfixExpression
  | .Eq => some .parseInfixExpression
  | .Ne => some .parseInfixExpression
  | .Lt => some .parseInfixExpression
  | .Gt => some .parseInfixExpression
  | .Lparen => some .parseCallExpression
  | _ => none

/-- `Parser`.  The two resolver maps are the constant tables above.  The
token pointers are never nil once `NewParser` has returned, so they are
plain tokens here. -/
structure Parser where
  lexer : Lexer
  errors : List ParseError
  currentToken : Token
  peekToken : Token
  deriving DecidableEq, Repr

namespace Parser

/-- `nextToken`. -/
def nextToken (parser : Parser) : Except Fault Parser :=
  match parser.lexer.NextToken with
  | none => .error .panic
  | some (t, lexer) =>
    .ok { parser with currentToken := parser.peekToken, peekToken := t, lexer := lexer }

/-- `error`: append to the error list. -/
def error (parser : Parser) (err : ParseError) : Parser :=
  { parser with errors := parser.errors ++ [err] }

/-- `currentTokenIs`. -/
def currentTokenIs (parser : Parser) (tokenType : TokenType) : Bool :=
  parser.currentToken.Typ == tokenType

/-- `peekTokenIs`. -/
def peekTokenIs (parser : Parser) (tokenType : TokenType) : Bool :=
  parser.peekToken.Typ == tokenType

/-- `assertPeekTokenIs`. -/
def assertPeekTokenIs (parser : Parser) (tokenType : TokenType) :
    Except Fault (Bool × Parser) :=
  if parser.peekTokenIs tokenType then
    match parser.nextToken with
    | .error f => .error f
    | .ok parser1 => .ok (true, parser1)
  else
    .ok (false, parser.error (.expectedNext tokenType parser.peekToken.Typ))

/-- `currentPrecedence`. -/
def currentPrecedence (parser : Parser) : Nat :=
  match Precedences parser.currentToken.Typ with
  | some precedence => precedence
  | none => Lowest

/-- `peekPrecedence`. -/
def peekPrecedence (parser : Parser) : Nat :=
  match Precedences parser.peekToken.Typ with
  | some precedence => precedence
  | none => Lowest

/-- `parseIdentifier`. -/
def parseIdentifier (parser : Parser) : Expression :=
  .Identifier { Token := parser.currentToken, Value := parser.currentToken.Literal }

/-- `parseInteger`: the value returned by `ParseInt` is stored whether or not
an error came with it. -/
def parseInteger (parser : Parser) : Expression × Parser :=
  match ParseInt parser.currentToken.Literal 0 64 with
  | (value, some _) =>
    (.Integer parser.currentToken value, parser.error (.couldNotParse parser.currentToken))
  | (value, none) => (.Integer parser.currentToken value, parser)

/-- `parseBoolean`. -/
def parseBoolean (parser : Parser) : Expression :=
  .Boolean parser.currentToken (parser.currentTokenIs .True)

/-- The parameter loop of `parseFunction` (`for { ... }`): the result of
`assertPeekTokenIs` is not looked at, the current token is appended as a
parameter, and the loop goes round again unless the token after it is `)`. -/
def parseFunctionParams : Nat → List Identifier → Parser →
    Except Fault (List Identifier × Parser)
  | 0, _, _ => .error .outOfFuel
  | fuel + 1, params, parser =>
    match parser.assertPeekTokenIs .Ident with
    | .error f => .error f
    | .ok (_, parser1) =>
      let params1 := params ++
        [{ Token := parser1.currentToken, Value := parser1.currentToken.Literal }]
      match parser1.nextToken with
      | .error f => .error f
      | .ok parser2 =>
        if parser2.currentTokenIs .Comma then parseFunctionParams fuel params1 parser2
        else if parser2.currentTokenIs .Rparen then .ok (params1, parser2)
        else parseFunctionParams fuel params1 parser2

mutual

/-- `parseStatement`. -/
def parseStatement : Nat → Parser → Except Fault (Statement × Parser)
  | 0, _ => .error .outOfFuel
  | fuel + 1, parser =>
    match parser.currentToken.Typ with
    | .Let => parseLetStatement fuel parser
    | .Return => parseReturnStatement fuel parser
    | _ => parseExpressionStatement fuel parser

/-- `parseLetStatement`. -/
def parseLetStatement : Nat → Parser → Except Fault (Statement × Parser)
  | 0, _ => .error .outOfFuel
  | fuel + 1, parser =>
    match parser.assertPeekTokenIs .Ident with
    | .error f => .error f
    | .ok (false, parser1) => .ok (.nilLetStatement, parser1)
    | .ok (true, parser1) =>
      let name : Identifier :=
        { Token := parser1.currentToken, Value := parser1.currentToken.Literal }
      match parser1.assertPeekTokenIs .Assign with
      | .error f => .error f
      | .ok (false, parser2) => .ok (.nilLetStatement, parser2)
      | .ok (true, parser2) =>
        match parser2.nextToken with
        | .error f => .error f
        | .ok parser3 =>
          match parseExpression fuel Lowest parser3 with
          | .error f => .error f
          | .ok (value, parser4) =>
            if !parser4.currentTokenIs .Semicolon then
              match parser4.nextToken with
              | .error f => .error f
              | .ok parser5 => .ok (.LetStatement parser.currentToken name value, parser5)
            else .ok (.LetStatement parser.currentToken name value, parser4)

/-- `parseReturnStatement`. -/
def parseReturnStatement : Nat → Parser → Except Fault (Statement × Parser)
  | 0, _ => .error .outOfFuel
  | fuel + 1, parser =>
    match parser.nextToken with
    | .error f => .error f
    | .ok parser1 =>
      match parseExpression fuel Lowest parser1 with
      | .error f => .error f
      | .ok (value, parser2) =>
        if !parser2.currentTokenIs .Semicolon then
          match parser2.nextToken with
          | .error f => .error f
          | .ok parser3 => .ok (.ReturnStatement parser.currentToken value, parser3)
        else .ok (.ReturnStatement parser.currentToken value, parser2)

/-- `parseExpressionStatement`.  The node is built by one composite literal,
`&ExpressionStatement{Token: parser.currentToken, Expression:
parser.parseExpression(Lowest)}`.  The call is evaluated before the field
`parser.currentToken` is read (Go orders the calls of an expression among
themselves only, and the compiler does the call first), so `Token` is the
token that is current when `parseExpression` has returned: the last token of
the expression, not its first. -/
def parseExpressionStatement : Nat → Parser → Except Fault (Statement × Parser)
  | 0, _ => .error .outOfFuel
  | fuel + 1, parser =>
    match parseExpression fuel Lowest parser with
    | .error f => .error f
    | .ok (expression, parser1) =>
      if parser1.peekTokenIs .Semicolon then
        match parser1.nextToken with
        | .error f => .error f
        | .ok parser2 => .ok (.ExpressionStatement parser1.currentToken expression, parser2)
      else .ok (.ExpressionStatement parser1.currentToken expression, parser1)

/-- `parseExpression`. -/
def parseExpression : Nat → Nat → Parser → Except Fault (Expression × Parser)
  | 0, _, _ => .error .outOfFuel
  | fuel + 1, precedence, parser =>
    match prefixExprResolvers parser.currentToken.Typ with
    | none => .ok (.nil, parser.error (.noPrefixFound parser.currentToken.Typ))
    | some resolver =>
      let r : Except Fault (Expression × Parser) :=
        match resolver with
        | .parseIdentifier => .ok (parser.parseIdentifier, parser)
        | .parseInteger => .ok parser.parseInteger
        | .parsePrefixExpression => parsePrefixExpression fuel parser
        | .parseBoolean => .ok (parser.parseBoolean, parser)
        | .parseGroupedExpression => parseGroupedExpression fuel parser
        | .parseIfExpression => parseIfExpression fuel parser
        | .parseFunction => parseFunction fuel parser
      match r with
      | .error f => .error f
      | .ok (left, parser1) => parseExpressionLoop fuel precedence left parser1

/-- The `for precedence < parser.peekPrecedence()` loop of `parseExpression`. -/
def parseExpressionLoop : Nat → Nat → Expression → Parser →
    Except Fault (Expression × Parser)
  | 0, _, _, _ => .error .outOfFuel
  | fuel + 1, precedence, left, parser =>
    if precedence < parser.peekPrecedence then
      match infixExprResolvers parser.peekToken.Typ with
      | none => .ok (left, parser)
      | some resolver =>
        match parser.nextToken with
        | .error f => .error f
        | .ok parser1 =>
          let r : Except Fault (Expression × Parser) :=
            match resolver with
            | .parseInfixExpression => parseInfixExpression fuel left parser1
            | .parseCallExpression => parseCallExpression fuel left parser1
          match r with
          | .error f => .error f
          | .ok (left1, parser2) => parseExpressionLoop fuel precedence left1 parser2
    else .ok (left, parser)

/-- `parseGroupedExpression`. -/
def parseGroupedExpression : Nat → Parser → Except Fault (Expression × Parser)
  | 0, _ => .error .outOfFuel
  | fuel + 1, parser =>
    match parser.nextToken with
    | .error f => .error f
    | .ok parser1 =>
      match parseExpression fuel Lowest parser1 with
      | .error f => .error f
      | .ok (groupedExpr, parser2) =>
        match parser2.assertPeekTokenIs .Rparen with
        | .error f => .error f
        | .ok (false, parser3) => .ok (.nil, parser3)
        | .ok (true, parser3) => .ok (groupedExpr, parser3)

/-- `parsePrefixExpression`. -/
def parsePrefixExpression : Nat → Parser → Except Fault (Expression × Parser)
  | 0, _ => .error .outOfFuel
  | fuel + 1, parser =>
    match parser.nextToken with
    | .error f => .error f
    | .ok parser1 =>
      match parseExpression fuel Prefix parser1 with
      | .error f => .error f
      | .ok (right, parser2) =>
        .ok (.PrefixExpression parser.currentToken parser.currentToken.Literal right, parser2)

/-- `parseInfixExpression`. -/
def parseInfixExpression : Nat → Expression → Parser → Except Fault (Expression × Parser)
  | 0, _, _ => .error .outOfFuel
  | fuel + 1, leftExpr, parser =>
    let precedence := parser.currentPrecedence
    match parser.nextToken with
    | .error f => .error f
    | .ok parser1 =>
      match parseExpression fuel precedence parser1 with
      | .error f => .error f
      | .ok (right, parser2) =>
        .ok (.InfixExpression parser.currentToken leftExpr parser.currentToken.Literal right,
          parser2)

/-- `parseIfExpression`: the node's `Token` is set to `nil` and never
assigned. -/
def parseIfExpression : Nat → Parser → Except Fault (Expression × Parser)
  | 0, _ => .error .outOfFuel
  | fuel + 1, parser =>
    match parser.assertPeekTokenIs .Lparen with
    | .error f => .error f
    | .ok (false, parser1) => .ok (.nil, parser1)
    | .ok (true, parser1) =>
      match parser1.nextToken with
      | .error f => .error f
      | .ok parser2 =>
        match parseExpression fuel Lowest parser2 with
        | .error f => .error f
        | .ok (condition, parser3) =>
          match parser3.assertPeekTokenIs .Rparen with
          | .error f => .error f
          | .ok (false, parser4) => .ok (.nil, parser4)
          | .ok (true, parser4) =>
            match parser4.assertPeekTokenIs .Lbrace with
            | .error f => .error f
            | .ok (false, parser5) => .ok (.nil, parser5)
            | .ok (true, parser5) =>
              match parseBlockStatement fuel parser5 with
              | .error f => .error f
              | .ok (consequence, parser6) =>
                if parser6.peekTokenIs .Else then
                  match parser6.nextToken with
                  | .error f => .error f
                  | .ok parser7 =>
                    match parser7.assertPeekTokenIs .Lbrace with
                    | .error f => .error f
                    | .ok (false, parser8) => .ok (.nil, parser8)
                    | .ok (true, parser8) =>
                      match parseBlockStatement fuel parser8 with
                      | .error f => .error f
                      | .ok (alternative, parser9) =>
                        .ok (.IfExpression none condition consequence (some alternative),
                          parser9)
                else .ok (.IfExpression none condition consequence none, parser6)

/-- `parseFunction`. -/
def parseFunction : Nat → Parser → Except Fault (Expression × Parser)
  | 0, _ => .error .outOfFuel
  | fuel + 1, parser =>
    match parser.assertPeekTokenIs .Lparen with
    | .error f => .error f
    | .ok (false, parser1) => .ok (.nil, parser1)
    | .ok (true, parser1) =>
      let r : Except Fault (List Identifier × Parser) :=
        if !parser1.peekTokenIs .Rparen then parseFunctionParams fuel [] parser1
        else .ok ([], parser1)
      match r with
      | .error f => .error f
      | .ok (params, parser2) =>
        match parser2.assertPeekTokenIs .Lbrace with
        | .error f => .error f
        | .ok (false, parser3) => .ok (.nil, parser3)
        | .ok (true, parser3) =>
          match parseBlockStatement fuel parser3 with
          | .error f => .error f
          | .ok (body, parser4) => .ok (.Function parser.currentToken params body, parser4)

/-- `parseCallExpression`. -/
def parseCallExpression : Nat → Expression → Parser → Except Fault (Expression × Parser)
  | 0, _, _ => .error .outOfFuel
  | fuel + 1, function, parser =>
    match parser.nextToken with
    | .error f => .error f
    | .ok parser1 =>
      if !parser1.currentTokenIs .Rparen then
        match parseExpression fuel Lowest parser1 with
        | .error f => .error f
        | .ok (argument, parser2) =>
          match parseCallArguments fuel [argument] parser2 with
          | .error f => .error f
          | .ok (arguments, parser3) =>
            match parser3.assertPeekTokenIs .Rparen with
            | .error f => .error f
            | .ok (false, parser4) => .ok (.nil, parser4)
            | .ok (true, parser4) =>
              .ok (.CallExpression parser.currentToken function arguments, parser4)
      else .ok (.CallExpression parser.currentToken function [], parser1)

/-- The `for parser.peekTokenIs(token2.Comma)` loop of `parseCallExpression`. -/
def parseCallArguments : Nat → List Expression → Parser →
    Except Fault (List Expression × Parser)
  | 0, _, _ => .error .outOfFuel
  | fuel + 1, arguments, parser =>
    if parser.peekTokenIs .Comma then
      match parser.nextToken with
      | .error f => .error f
      | .ok parser1 =>
        match parser1.nextToken with
        | .error f => .error f
        | .ok parser2 =>
          match parseExpression fuel Lowest parser2 with
          | .error f => .error f
          | .ok (argument, parser3) =>
            parseCallArguments fuel (arguments ++ [argument]) parser3
    else .ok (arguments, parser)

/-- `parseBlockStatement`. -/
def parseBlockStatement : Nat → Parser → Except Fault (BlockStatement × Parser)
  | 0, _ => .error .outOfFuel
  | fuel + 1, parser =>
    match parser.nextToken with
    | .error f => .error f
    | .ok parser1 =>
      match parseBlockStatementLoop fuel [] parser1 with
      | .error f => .error f
      | .ok (statements, parser2) => .ok (.mk parser.currentToken statements, parser2)

/-- The statement loop of `parseBlockStatement`; `stmt != nil` compares the
interface value with nil. -/
def parseBlockStatementLoop : Nat → List Statement → Parser →
    Except Fault (List Statement × Parser)
  | 0, _, _ => .error .outOfFuel
  | fuel + 1, statements, parser =>
    if !parser.currentTokenIs .Rbrace && !parser.currentTokenIs .Eof then
      match parseStatement fuel parser with
      | .error f => .error f
      | .ok (stmt, parser1) =>
        let statements1 :=
          match stmt with
          | .nil => statements
          | stmt => statements ++ [stmt]
        match parser1.nextToken with
        | .error f => .error f
        | .ok parser2 => parseBlockStatementLoop fuel statements1 parser2
    else .ok (statements, parser)

end

/-- The `for parser.currentToken.Type != token2.Eof` loop of `Parse`. -/
def parseLoop : Nat → List Statement → Parser → Except Fault (List Statement × Parser)
  | 0, _, _ => .error .outOfFuel
  | fuel + 1, statements, parser =>
    if parser.currentToken.Typ != .Eof then
      match parseStatement fuel parser with
      | .error f => .error f
      | .ok (statement, parser1) =>
        match parser1.nextToken with
        | .error f => .error f
        | .ok parser2 => parseLoop fuel (statements ++ [statement]) parser2
    else .ok (statements, parser)

/-- `Parse` up to the error check: the statement slice starts as
`make([]Statement, 2)`, two nil entries, and the loop appends to it. -/
def parseProgram (fuel : Nat) (parser : Parser) : Except Fault (Program × Parser) :=
  match parseLoop fuel [.nil, .nil] parser with
  | .error f => .error f
  | .ok (statements, parser1) => .ok ({ Statements := statements }, parser1)

/-- `Parse`: `log.Fatal` ends the process when an error was recorded. -/
def Parse (fuel : Nat) (parser : Parser) : Except Fault (Program × Parser) :=
  match parseProgram fuel parser with
  | .error f => .error f
  | .ok (program, parser1) =>
    if parser1.errors.length != 0 then .error (.fatal parser1.errors)
    else .ok (program, parser1)

end Parser

/-- `NewParser`: the two `nextToken` calls load the first two tokens. -/
def NewParser (l : Lexer) : Except Fault Parser :=
  match l.NextToken with
  | none => .error .panic
  | some (t1, l1) =>
    match l1.NextToken with
    | none => .error .panic
    | some (t2, l2) =>
      .ok { lexer := l2, errors := [], currentToken := t1, peekToken := t2 }

/-! ## Vocabulary of the properties -/

/-- The end-of-input token `newToken(Eof, "")`. -/
def eofToken : Token := { Typ := .Eof, Literal := [] }

/-- The whitespace bytes skipped by the lexer. -/
def isSpace (c : Nat) : Bool := c == 32 || c == 9 || c == 13 || c == 10

/-- The lexer state reached on the input `pre ++ suf` once `pre` has been
consumed: it stands on the first byte of `suf`, or past the end. -/
def lexAt (pre suf : List Nat) : Lexer :=
  match suf with
  | [] => { input := pre, pos := pre.length, toReadPos := pre.length, char := 0 }
  | c :: _ => { input := pre ++ suf, pos := pre.length, toReadPos := pre.length + 1, char := c }

/-- The source spelling of the kinds that have a fixed one. -/
def spelling : TokenType → Option (List Nat)
  | .Assign => some [61] | .Plus => some [43] | .Minus => some [45] | .Bang => some [33]
  | .Asterisk => some [42] | .Slash => some [47] | .Lt => some [60] | .Gt => some [62]
  | .Eq => some [61, 61] | .Ne => some [33, 61] | .Comma => some [44] | .Semicolon => some [59]
  | .Lparen => some [40] | .Rparen => some [41] | .Lbrace => some [123] | .Rbrace => some [125]
  | .Function => some (bytes "fn") | .Let => some (bytes "let") | .If => some (bytes "if")
  | .Else => some (bytes "else") | .True => some (bytes "true") | .False => some (bytes "false")
  | .Return => some (bytes "return")
  | .Illegal => none | .Eof => none | .Ident => none | .Int => none

/-- A token whose literal is its own source text: an identifier is a
non-empty run of letters that is not a keyword, an integer a non-empty run of
digits, and every other kind carries its fixed spelling. -/
def lexable (t : Token) : Bool :=
  match t.Typ with
  | .Ident => t.Literal ≠ [] && t.Literal.all isLetter && isKeyword t.Literal == none
  | .Int => t.Literal ≠ [] && t.Literal.all isDigit
  | k => spelling k == some t.Literal

/-- Whether the text of token `t` ends where it is written when the next
byte of the input is `next` (`none` at the end of the input): a word must not
be followed by a letter, a number not by a digit, and `=` and `!` need a next
byte other than `=`. -/
def canFollow (t : Token) (next : Option Nat) : Bool :=
  match t.Typ with
  | .Int => !isDigit (next.getD 0)
  | .Assign => next.isSome && next != some 61
  | .Bang => next.isSome && next != some 61
  | .Plus | .Minus | .Asterisk | .Slash | .Lt | .Gt | .Eq | .Ne | .Comma | .Semicolon
  | .Lparen | .Rparen | .Lbrace | .Rbrace => true
  | _ => !isLetter (next.getD 0)

/-- The source text made of the given tokens, each preceded by its own run of
whitespace, followed by `trail`. -/
def sourceOf : List (List Nat × Token) → List Nat → List Nat
  | [], trail => trail
  | (ws, t) :: ps, trail => ws ++ (t.Literal ++ sourceOf ps trail)

/-- The side conditions under which `sourceOf ps trail` lexes back to the
tokens of `ps`. -/
def separated : List (List Nat × Token) → List Nat → Bool
  | [], trail => trail.all isSpace
  | (ws, t) :: ps, trail =>
    ws.all isSpace && lexable t && canFollow t (sourceOf ps trail).head? && separated ps trail

/-- Repeated `NextToken` from `l` returns exactly the tokens `ts`, then the
end-of-input token, and the end-of-input token again from the state reached. -/
def Yields (l : Lexer) : List Token → Prop
  | [] => ∃ l1, l.NextToken = some (eofToken, l1) ∧ l1.NextToken = some (eofToken, l1)
  | t :: ts => ∃ l1, l.NextToken = some (t, l1) ∧ Yields l1 ts

/-- The tokens the parser has ahead of the current one are `ts`, then end of
input. -/
def Parser.Sees (p : Parser) : List Token → Prop
  | [] => p.peekToken = eofToken ∧ p.lexer.NextToken = some (eofToken, p.lexer)
  | t :: ts => p.peekToken = t ∧ Yields p.lexer ts

/-- The parser stands on `cur`, has `rest` ahead and has recorded `errs`. -/
def Parser.At (p : Parser) (cur : Token) (rest : List Token) (errs : List ParseError) : Prop :=
  p.currentToken = cur ∧ p.errors = errs ∧ p.Sees rest

/-- A parser call returned `a`, leaving the parser on `cur` with `rest` ahead
and `errs` recorded. -/
def Returns {α : Type} (r : Except Fault (α × Parser)) (a : α) (cur : Token)
    (rest : List Token) (errs : List ParseError) : Prop :=
  ∃ p, r = .ok (a, p) ∧ p.At cur rest errs

/-- `NewParser(NewLexer(src))` followed by the statement loop of `Parse`: the
statement slice of the program and the errors recorded. -/
def parseSource (fuel : Nat) (src : List Nat) :
    Except Fault (List Statement × List ParseError) :=
  match NewParser (NewLexer src) with
  | .error f => .error f
  | .ok parser =>
    match parser.parseProgram fuel with
    | .error f => .error f
    | .ok (program, parser1) => .ok (program.Statements, parser1.errors)

/-- `NewParser(NewLexer(src))` followed by `Parse`: the statement slice of the
program that `Parse` returns. -/
def ParseSource (fuel : Nat) (src : List Nat) : Except Fault (List Statement) :=
  match NewParser (NewLexer src) with
  | .error f => .error f
  | .ok parser =>
    match parser.Parse fuel with
    | .error f => .error f
    | .ok (program, _) => .ok program.Statements

/-- The precedence the parser reads off the table for a token kind
(`peekPrecedence`, `currentPrecedence`). -/
def precedenceOf (k : TokenType) : Nat :=
  match Precedences k with
  | some precedence => precedence
  | none => Lowest

/-- An atom: an identifier or an integer literal, given by its text. -/
inductive Atom
  | ident (name : List Nat)
  | int (digits : List Nat)
  deriving DecidableEq, Repr

/-- The token of an atom. -/
def Atom.token : Atom → Token
  | .ident name => { Typ := .Ident, Literal := name }
  | .int digits => { Typ := .Int, Literal := digits }

/-- The source text of an atom. -/
def Atom.text (a : Atom) : List Nat := a.token.Literal

/-- The node `parseIdentifier` or `parseInteger` builds for an atom. -/
def Atom.expr : Atom → Expression
  | .ident name => .Identifier { Token := { Typ := .Ident, Literal := name }, Value := name }
  | .int digits => .Integer { Typ := .Int, Literal := digits } (ParseInt digits 0 64).1

/-- The errors `parseInteger` records for an atom: one when `ParseInt`
reports an error on its digits. -/
def Atom.errors : Atom → List ParseError
  | .ident _ => []
  | .int digits =>
    if (ParseInt digits 0 64).2.isSome then [.couldNotParse { Typ := .Int, Literal := digits }]
    else []

/-- The token of a kind with a fixed spelling. -/
def TokenType.token (k : TokenType) : Token :=
  { Typ := k, Literal := (spelling k).getD [] }

/-- The binary operators: the kinds registered with `parseInfixExpression`. -/
def TokenType.isBinary (k : TokenType) : Bool :=
  infixExprResolvers k == some .parseInfixExpression

/-- The infix node for operator `k`. -/
def TokenType.infixNode (k : TokenType) (left right : Expression) : Expression :=
  .InfixExpression k.token left k.token.Literal right

/-- The prefix node for operator `k`. -/
def TokenType.prefixNode (k : TokenType) (right : Expression) : Expression :=
  .PrefixExpression k.token k.token.Literal right

/-- The tokens of ` o1 a1 o2 a2 ...`. -/
def chainTokens : List (TokenType × Atom) → List Token
  | [] => []
  | (o, b) :: rest => o.token :: b.token :: chainTokens rest

/-- The text ` o1 a1 o2 a2 ...`: every operator and every atom preceded by
one space. -/
def chainText : List (TokenType × Atom) → List Nat
  | [] => []
  | (o, b) :: rest => [32] ++ o.token.Literal ++ [32] ++ b.text ++ chainText rest

/-- The left-nested tree `Infix(...Infix(Infix(left, o1, a1), o2, a2)...)`. -/
def leftNested : Expression → List (TokenType × Atom) → Expression
  | left, [] => left
  | left, (o, b) :: rest => leftNested (o.infixNode left b.expr) rest

/-- The errors `parseInteger` records for a list of atoms, in order. -/
def atomErrors : List Atom → List ParseError
  | [] => []
  | a :: rest => a.errors ++ atomErrors rest

/-- The tokens of `, e1, e2 ...`: every atom preceded by a comma. -/
def commaTokens : List Atom → List Token
  | [] => []
  | e :: rest => TokenType.Comma.token :: e.token :: commaTokens rest

/-- The text `, e1, e2 ...`: every atom preceded by a comma and a space. -/
def commaText : List Atom → List Nat
  | [] => []
  | e :: rest => [44, 32] ++ e.text ++ commaText rest

/-- The tokens of the argument list `e1, e2, ..., en)`, closing parenthesis
included. -/
def argumentTokens : List Atom → List Token
  | [] => [TokenType.Rparen.token]
  | e :: rest => e.token :: (commaTokens rest ++ [TokenType.Rparen.token])

/-- The text `e1, e2, ..., en)`. -/
def argumentText : List Atom → List Nat
  | [] => [41]
  | e :: rest => e.text ++ commaText rest ++ [41]

/-- The prefix operators: the kinds registered with `parsePrefixExpression`. -/
def TokenType.isPrefixOperator (k : TokenType) : Bool :=
  prefixExprResolvers k == some .parsePrefixExpression

/-- The block `{ s }` holding the expression statement of one atom. -/
def Atom.block (s : Atom) : BlockStatement :=
  .mk TokenType.Lbrace.token [.ExpressionStatement s.token s.expr]

/-- `Triple f cur rest errs a cur1 rest1 errs1`: from every parser state on
`cur` with `rest` ahead and `errs` recorded, `f` returns `a` and leaves the
parser on `cur1` with `rest1` ahead and `errs1` recorded. -/
def Triple {α : Type} (f : Parser → Except Fault (α × Parser)) (cur : Token)
    (rest : List Token) (errs : List ParseError) (a : α) (cur1 : Token)
    (rest1 : List Token) (errs1 : List ParseError) : Prop :=
  ∀ p : Parser, p.At cur rest errs → Returns (f p) a cur1 rest1 errs1


/-! ### Comparing syntax trees and results -/

mutual
/-- Comparison of two `Expression` values down to depth `fuel`. -/
def Expression.same : Nat → Expression → Expression → Bool
  | 0, _, _ => false
  | _ + 1, .nil, .nil => true
  | _ + 1, .Identifier a0, .Identifier b0 =>
    decide (a0 = b0)
  | _ + 1, .Integer a0 a1, .Integer b0 b1 =>
    decide (a0 = b0) && decide (a1 = b1)
  | _ + 1, .Boolean a0 a1, .Boolean b0 b1 =>
    decide (a0 = b0) && decide (a1 = b1)
  | fuel + 1, .PrefixExpression a0 a1 a2, .PrefixExpression b0 b1 b2 =>
    decide (a0 = b0) && decide (a1 = b1) && Expression.same fuel a2 b2
  | fuel + 1, .InfixExpression a0 a1 a2 a3, .InfixExpression b0 b1 b2 b3 =>
    decide (a0 = b0) && Expression.same fuel a1 b1 && decide (a2 = b2) && Expression.same fuel a3 b3
  | fuel + 1, .IfExpression a0 a1 a2 a3, .IfExpression b0 b1 b2 b3 =>
    decide (a0 = b0) && Expression.same fuel a1 b1 && BlockStatement.same fuel a2 b2 && BlockStatement.sameOption fuel a3 b3
  | fuel + 1, .CallExpression a0 a1 a2, .CallExpression b0 b1 b2 =>
    decide (a0 = b0) && Expression.same fuel a1 b1 && Expression.sameList fuel a2 b2
  | fuel + 1, .Function a0 a1 a2, .Function b0 b1 b2 =>
    decide (a0 = b0) && decide (a1 = b1) && BlockStatement.same fuel a2 b2
  | _ + 1, _, _ => false
/-- Comparison of two `Statement` values down to depth `fuel`. -/
def Statement.same : Nat → Statement → Statement → Bool
  | 0, _, _ => false
  | _ + 1, .nil, .nil => true
  | _ + 1, .nilLetStatement, .nilLetStatement => true
  | fuel + 1, .LetStatement a0 a1 a2, .LetStatement b0 b1 b2 =>
    decide (a0 = b0) && decide (a1 = b1) && Expression.same fuel a2 b2
  | fuel + 1, .ReturnStatement a0 a1, .ReturnStatement b0 b1 =>
    decide (a0 = b0) && Expression.same fuel a1 b1
  | fuel + 1, .ExpressionStatement a0 a1, .ExpressionStatement b0 b1 =>
    decide (a0 = b0) && Expression.same fuel a1 b1
  | _ + 1, _, _ => false
/-- Comparison of two `BlockStatement` values down to depth `fuel`. -/
def BlockStatement.same : Nat → BlockStatement → BlockStatement → Bool
  | 0, _, _ => false
  | fuel + 1, .mk a0 a1, .mk b0 b1 =>
    decide (a0 = b0) && Statement.sameList fuel a1 b1
/-- Comparison of two lists of expressions. -/
def Expression.sameList : Nat → List Expression → List Expression → Bool
  | 0, _, _ => false
  | _ + 1, [], [] => true
  | fuel + 1, x :: xs, y :: ys => Expression.same fuel x y && Expression.sameList fuel xs ys
  | _ + 1, _, _ => false
/-- Comparison of two lists of statements. -/
def Statement.sameList : Nat → List Statement → List Statement → Bool
  | 0, _, _ => false
  | _ + 1, [], [] => true
  | fuel + 1, x :: xs, y :: ys => Statement.same fuel x y && Statement.sameList fuel xs ys
  | _ + 1, _, _ => false
/-- Comparison of two optional blocks. -/
def BlockStatement.sameOption : Nat → Option BlockStatement → Option BlockStatement → Bool
  | 0, _, _ => false
  | _ + 1, none, none => true
  | fuel + 1, some x, some y => BlockStatement.same fuel x y
  | _ + 1, _, _ => false
end

/-- Whether a result of `parseSource` is the given statement slice with the
given errors. -/
def yieldsResult (r : Except Fault (List Statement × List ParseError))
    (statements : List Statement) (errors : List ParseError) : Bool :=
  match r with
  | .ok (s, e) => Statement.sameList 1000 s statements && decide (e = errors)
  | .error _ => false

/-- Whether a result of `ParseSource` is the given statement slice. -/
def yieldsStatements (r : Except Fault (List Statement)) (statements : List Statement) :
    Bool :=
  match r with
  | .ok s => Statement.sameList 1000 s statements
  | .error _ => false

instance {ε α : Type} [DecidableEq ε] [DecidableEq α] : DecidableEq (Except ε α)
  | .ok a, .ok b => if h : a = b then isTrue (by rw [h]) else isFalse (fun h1 => by cases h1; exact h rfl)
  | .error a, .error b =>
    if h : a = b then isTrue (by rw [h]) else isFalse (fun h1 => by cases h1; exact h rfl)
  | .ok _, .error _ => isFalse (fun h => by cases h)
  | .error _, .ok _ => isFalse (fun h => by cases h)

/-- Whether a statement value is the nil interface. -/
def Statement.isNil : Statement → Bool
  | .nil => true
  | _ => false

/-- The renderings (`String()`) of the non-nil statements parsed from `src`,
in order, and the errors recorded. -/
def renderSource (fuel : Nat) (src : List Nat) :
    Except Fault (List (Option (List Nat)) × List ParseError) :=
  match parseSource fuel src with
  | .error f => .error f
  | .ok (statements, errors) =>
    .ok ((statements.filter (fun s => !s.isNil)).map Statement.String, errors)

/-! ### Integer literals -/

/-- The value of a run of digit bytes read in base `base`. -/
def digitsValue (base : Nat) (ds : List Nat) : Nat :=
  ds.foldl (fun n c => n * base + (c - 48)) 0

/-- A parser standing on `cur` with `peek` after it, at the end of the input
`src`, with `errs` recorded. -/
def parserAt (src : List Nat) (cur peek : Token) (errs : List ParseError) : Parser :=
  { lexer := lexAt src [], errors := errs, currentToken := cur, peekToken := peek }

/-- A parser standing on `cur` with `peek` after it, its lexer in the input
`pre ++ suf` with `pre` consumed, with `errs` recorded. -/
def parserIn (pre suf : List Nat) (cur peek : Token) (errs : List ParseError) : Parser :=
  { lexer := lexAt pre suf, errors := errs, currentToken := cur, peekToken := peek }

/-! ### Error texts -/

/-- The text of the error that `parseExpression` records:
`fmt.Sprintf("no prefix for %s found", kind)`. -/
def noPrefixText (kind : TokenType) : List Nat :=
  bytes "no prefix for " ++ kind.name ++ bytes " found"

/-- The text of the error that `assertPeekTokenIs` records:
`fmt.Sprintf("expected next token is %s, but got %s", expected, actual)`. -/
def expectedNextText (expected actual : TokenType) : List Nat :=
  bytes "expected next token is " ++ expected.name ++ bytes ", but got " ++ actual.name

/-! ### Tokens as the lexer builds them -/

/-- A token the lexer can return: a token whose literal is its source text,
the end-of-input token, or the token of an unknown byte. -/
def Token.genuine (t : Token) : Bool :=
  lexable t || t == eofToken || t == ⟨.Illegal, []⟩

/-- A parser whose two tokens came from the lexer and whose lexer stands
somewhere in its input. -/
def Parser.genuine (p : Parser) : Prop :=
  p.currentToken.genuine = true ∧ p.peekToken.genuine = true ∧
    ∃ pre suf, p.lexer = lexAt pre suf

/-- From `p` to `q` the error list has only grown, `q` is genuine, and `P`
holds when nothing was added. -/
def Parser.Extends (p q : Parser) (P : Prop) : Prop :=
  q.genuine ∧ ∃ new, q.errors = p.errors ++ new ∧ (new = [] → P)

/-- Whenever `f` returns from a genuine parser that satisfies `Pre`, the
parser it returns is genuine, has only added errors, and the result satisfies
`Post` when no error was added. -/
def Parser.Builds {α : Type} (f : Parser → Except Fault (α × Parser)) (Pre : Parser → Prop)
    (Post : α → Prop) : Prop :=
  ∀ p a q, p.genuine → Pre p → f p = .ok (a, q) → p.Extends q (Post a)

/-! ### Syntax trees as the parser builds them -/

/-- An identifier node made from an identifier token. -/
def Identifier.wellFormed (id : Identifier) : Bool :=
  id.Token.Typ == .Ident && lexable id.Token && id.Value == id.Token.Literal

mutual
/-- The token discipline of the nodes the parser builds when it records no
error: every node carries the token it was built from, identifiers and
integers carry the value of their literal, and no part is nil. -/
def Expression.wellFormed : Expression → Bool
  | .nil => false
  | .Identifier id => id.wellFormed
  | .Integer tok value =>
    tok.Typ == .Int && lexable tok && ParseInt tok.Literal 0 64 == (value, none)
  | .Boolean tok value =>
    (tok.Typ == .True || tok.Typ == .False) && lexable tok && value == (tok.Typ == .True)
  | .PrefixExpression tok operator right =>
    tok.Typ.isPrefixOperator && lexable tok && operator == tok.Literal && right.wellFormed
  | .InfixExpression tok left operator right =>
    tok.Typ.isBinary && lexable tok && operator == tok.Literal && left.wellFormed &&
      right.wellFormed
  | .IfExpression tok condition consequence alternative =>
    tok.isNone && condition.wellFormed && consequence.wellFormed &&
      BlockStatement.wellFormedElse alternative
  | .CallExpression tok function arguments =>
    tok.Typ == .Lparen && lexable tok && function.wellFormed &&
      Expression.wellFormedAll arguments
  | .Function tok params body =>
    tok.Typ == .Function && lexable tok && params.all Identifier.wellFormed &&
      body.wellFormed
/-- Every expression of a list is well formed. -/
def Expression.wellFormedAll : List Expression → Bool
  | [] => true
  | e :: rest => e.wellFormed && Expression.wellFormedAll rest
/-- The token discipline of statements. -/
def Statement.wellFormed : Statement → Bool
  | .nil => false
  | .nilLetStatement => false
  | .LetStatement tok name value =>
    tok.Typ == .Let && lexable tok && name.wellFormed && value.wellFormed
  | .ReturnStatement tok returnValue =>
    tok.Typ == .Return && lexable tok && returnValue.wellFormed
  | .ExpressionStatement _ expression => expression.wellFormed
/-- Every statement of a list is well formed. -/
def Statement.wellFormedAll : List Statement → Bool
  | [] => true
  | s :: rest => s.wellFormed && Statement.wellFormedAll rest
/-- The token discipline of blocks. -/
def BlockStatement.wellFormed : BlockStatement → Bool
  | .mk tok statements => tok.Typ == .Lbrace && lexable tok && Statement.wellFormedAll statements
/-- The token discipline of an alternative, when there is one. -/
def BlockStatement.wellFormedElse : Option BlockStatement → Bool
  | none => true
  | some b => b.wellFormed
end

mutual
/-- An expression built only from identifier, integer, boolean, prefix, infix
and call nodes. -/
def Expression.operatorOnly : Expression → Bool
  | .Identifier _ => true
  | .Integer _ _ => true
  | .Boolean _ _ => true
  | .PrefixExpression _ _ right => right.operatorOnly
  | .InfixExpression _ left _ right => left.operatorOnly && right.operatorOnly
  | .CallExpression _ function arguments =>
    function.operatorOnly && Expression.operatorOnlyAll arguments
  | _ => false
/-- Every expression of a list is operator-only. -/
def Expression.operatorOnlyAll : List Expression → Bool
  | [] => true
  | e :: rest => e.operatorOnly && Expression.operatorOnlyAll rest
end

mutual
/-- The tokens of the rendering of an operator-only expression. -/
def Expression.tokens : Expression → List Token
  | .Identifier id => [id.Token]
  | .Integer tok _ => [tok]
  | .Boolean tok _ => [tok]
  | .PrefixExpression tok _ right =>
    TokenType.Lparen.token :: tok :: (right.tokens ++ [TokenType.Rparen.token])
  | .InfixExpression tok left _ right =>
    TokenType.Lparen.token :: (left.tokens ++ tok :: (right.tokens ++ [TokenType.Rparen.token]))
  | .CallExpression tok function arguments =>
    function.tokens ++ tok :: (Expression.tokensAll arguments ++ [TokenType.Rparen.token])
  | _ => []
/-- The tokens of the rendering of an argument list: `e1 , e2 , ...`. -/
def Expression.tokensAll : List Expression → List Token
  | [] => []
  | e :: rest => e.tokens ++ Expression.tokensRest rest
/-- The tokens of `, e2 , e3 ...`. -/
def Expression.tokensRest : List Expression → List Token
  | [] => []
  | e :: rest => TokenType.Comma.token :: (e.tokens ++ Expression.tokensRest rest)
end

/-- The last token of the rendering of an operator-only expression. -/
def Expression.lastToken : Expression → Token
  | .Identifier id => id.Token
  | .Integer tok _ => tok
  | .Boolean tok _ => tok
  | _ => TokenType.Rparen.token

/-- The token the argument loop of a call ends on: the last token of the last
argument, or `c` when there is none. -/
def lastArgumentToken : Token → List Expression → Token
  | c, [] => c
  | _, e :: rest => lastArgumentToken e.lastToken rest

/-- The text of a run of tokens written without whitespace. -/
def textOf : List Token → List Nat
  | [] => []
  | t :: ts => t.Literal ++ textOf ts

/-- The expression of a let, return or expression statement. -/
def Statement.expression : Statement → Expression
  | .LetStatement _ _ value => value
  | .ReturnStatement _ returnValue => returnValue
  | .ExpressionStatement _ expression => expression
  | _ => .nil

/-- The statement that parsing the rendering of `s` yields: `s` itself, but
that an expression statement takes the last token of the rendering as its
token, the token current when the expression has been parsed. -/
def Statement.reparsed : Statement → Statement
  | .ExpressionStatement _ expression => .ExpressionStatement expression.lastToken expression
  | s => s

/-- The side conditions of `separated` on the tokens alone: every token is
lexable and ends where it is written, in the text `sourceOf ps suffix`. -/
def adjoining : List (List Nat × Token) → List Nat → Bool
  | [], _ => true
  | (ws, t) :: ps, suffix =>
    ws.all isSpace && lexable t && canFollow t (sourceOf ps suffix).head? && adjoining ps suffix

/-- Tokens written without whitespace before them. -/
def bare (ts : List Token) : List (List Nat × Token) := ts.map (fun t => ([], t))

mutual
/-- The number of nodes of an expression. -/
def Expression.size : Expression → Nat
  | .PrefixExpression _ _ right => right.size + 1
  | .InfixExpression _ left _ right => left.size + right.size + 1
  | .CallExpression _ function arguments => function.size + Expression.sizeAll arguments + 1
  | _ => 1
/-- The number of nodes of a list of expressions. -/
def Expression.sizeAll : List Expression → Nat
  | [] => 0
  | e :: rest => e.size + Expression.sizeAll rest
end

/-! ### The nodes of a syntax tree -/

/-- An expression node or a statement node of a syntax tree. -/
inductive Node
  | expression (e : Expression)
  | statement (s : Statement)

mutual
/-- The expression and statement nodes of an expression, itself first; a nil
expression is no node. -/
def Expression.nodes : Expression → List Node
  | .nil => []
  | .Identifier id => [.expression (.Identifier id)]
  | .Integer tok value => [.expression (.Integer tok value)]
  | .Boolean tok value => [.expression (.Boolean tok value)]
  | .PrefixExpression tok operator right =>
    .expression (.PrefixExpression tok operator right) :: right.nodes
  | .InfixExpression tok left operator right =>
    .expression (.InfixExpression tok left operator right) :: (left.nodes ++ right.nodes)
  | .IfExpression tok condition consequence alternative =>
    .expression (.IfExpression tok condition consequence alternative) ::
      (condition.nodes ++ (consequence.nodes ++ BlockStatement.nodesElse alternative))
  | .CallExpression tok function arguments =>
    .expression (.CallExpression tok function arguments) ::
      (function.nodes ++ Expression.nodesAll arguments)
  | .Function tok params body =>
    .expression (.Function tok params body) ::
      (params.map (fun p => Node.expression (.Identifier p)) ++ body.nodes)
/-- The nodes of the expressions of a list. -/
def Expression.nodesAll : List Expression → List Node
  | [] => []
  | e :: rest => e.nodes ++ Expression.nodesAll rest
/-- The expression and statement nodes of a statement, itself first; a nil
statement is no node. -/
def Statement.nodes : Statement → List Node
  | .nil => []
  | .nilLetStatement => []
  | .LetStatement tok name value =>
    .statement (.LetStatement tok name value) :: .expression (.Identifier name) :: value.nodes
  | .ReturnStatement tok returnValue =>
    .statement (.ReturnStatement tok returnValue) :: returnValue.nodes
  | .ExpressionStatement tok expression =>
    .statement (.ExpressionStatement tok expression) :: expression.nodes
/-- The nodes of the statements of a list. -/
def Statement.nodesAll : List Statement → List Node
  | [] => []
  | s :: rest => s.nodes ++ Statement.nodesAll rest
/-- The expression and statement nodes inside a block. -/
def BlockStatement.nodes : BlockStatement → List Node
  | .mk _ statements => Statement.nodesAll statements
/-- The nodes inside an alternative, when there is one. -/
def BlockStatement.nodesElse : Option BlockStatement → List Node
  | none => []
  | some b => b.nodes
end

/-- The token discipline of a node. -/
def Node.wellFormed : Node → Bool
  | .expression e => e.wellFormed
  | .statement s => s.wellFormed

/-- The `String()` rendering of a node. -/
def Node.String : Node → Option (List Nat)
  | .expression e => e.String
  | .statement s => s.String

/-- The expression at the root of a node: the node itself, or the expression
of the statement. -/
def Node.root : Node → Expression
  | .expression e => e
  | .statement s => s.expression

/-- A node free of if-expressions and function literals: an expression built
only from identifier, integer, boolean, prefix, infix and call nodes, or a
let, return or expression statement over such an expression. -/
def Node.plain (n : Node) : Bool := n.root.operatorOnly

/-- The statement that parsing the rendering of a node yields: the statement
itself for a let or return statement, and for an expression or an expression
statement the expression statement of that expression, whose token is the
last token of the rendering. -/
def Node.reparsed : Node → Statement
  | .expression e => .ExpressionStatement e.lastToken e
  | .statement s => s.reparsed

/-! ### Running the lexer to the end of the input -/

/-- The tokens that repeated `NextToken` returns before the first end-of-input
token, in order; `none` when a call panics or `fuel` calls did not reach the
end-of-input token. -/
def tokensUntilEof : Nat → Lexer → Option (List Token)
  | 0, _ => none
  | fuel + 1, lexer =>
    match lexer.NextToken with
    | none => none
    | some (t, lexer1) =>
      if t.Typ = .Eof then some []
      else
        match tokensUntilEof fuel lexer1 with
        | none => none
        | some ts => some (t :: ts)

/-- The symbol bytes `= + - ! * / < > , ; ( ) \x7b \x7d`. -/
def isSymbol (c : Nat) : Bool :=
  c ∈ [61, 43, 45, 33, 42, 47, 60, 62, 44, 59, 40, 41, 123, 125]

/-- A letter, a digit, a whitespace byte or a symbol byte. -/
def inAlphabet (c : Nat) : Bool :=
  isLetter c || isDigit c || isSpace c || isSymbol c

/-- The input ends in `=` or `!`. -/
def endsOpen (s : List Nat) : Bool :=
  s.getLast? == some 61 || s.getLast? == some 33

/-! ## Theorems -/

open Lexer Parser

/-! ### Soundness of the tree comparison -/

theorem same_sound (fuel : Nat) :
    (∀ a b, Expression.same fuel a b = true → a = b) ∧
    (∀ a b, Expression.sameList fuel a b = true → a = b) ∧
    (∀ a b, Statement.same fuel a b = true → a = b) ∧
    (∀ a b, Statement.sameList fuel a b = true → a = b) ∧
    (∀ a b, BlockStatement.same fuel a b = true → a = b) ∧
    (∀ a b, BlockStatement.sameOption fuel a b = true → a = b) := by
  induction fuel with
  | zero =>
    simp [Expression.same, Expression.sameList, Statement.same, Statement.sameList,
      BlockStatement.same, BlockStatement.sameOption]
  | succ n ih =>
    obtain ⟨ihE, ihEL, ihS, ihSL, ihB, ihOB⟩ := ih
    refine ⟨?_, ?_, ?_, ?_, ?_, ?_⟩
    · intro a b h
      cases a with
      | nil =>
        cases b with
        | nil =>
          rfl
        | _ => simp [Expression.same] at h
      | Identifier a0 =>
        cases b with
        | Identifier b0 =>
          simp only [Expression.same, Bool.and_eq_true, decide_eq_true_eq] at h
          have e0 : a0 = b0 := h
          subst e0
          rfl
        | _ => simp [Expression.same] at h
      | Integer a0 a1 =>
        cases b with
        | Integer b0 b1 =>
          simp only [Expression.same, Bool.and_eq_true, decide_eq_true_eq] at h
          have e0 : a0 = b0 := h.1
          have e1 : a1 = b1 := h.2
          subst e0 e1
          rfl
        | _ => simp [Expression.same] at h
      | Boolean a0 a1 =>
        cases b with
        | Boolean b0 b1 =>
          simp only [Expression.same, Bool.and_eq_true, decide_eq_true_eq] at h
          have e0 : a0 = b0 := h.1
          have e1 : a1 = b1 := h.2
          subst e0 e1
          rfl
        | _ => simp [Expression.same] at h
      | PrefixExpression a0 a1 a2 =>
        cases b with
        | PrefixExpression b0 b1 b2 =>
          simp only [Expression.same, Bool.and_eq_true, decide_eq_true_eq] at h
          have e0 : a0 = b0 := h.1.1
          have e1 : a1 = b1 := h.1.2
          have e2 : a2 = b2 := ihE _ _ h.2
          subst e0 e1 e2
          rfl
        | _ => simp [Expression.same] at h
      | InfixExpression a0 a1 a2 a3 =>
        cases b with
        | InfixExpression b0 b1 b2 b3 =>
          simp only [Expression.same, Bool.and_eq_true, decide_eq_true_eq] at h
          have e0 : a0 = b0 := h.1.1.1
          have e1 : a1 = b1 := ihE _ _ h.1.1.2
          have e2 : a2 = b2 := h.1.2
          have e3 : a3 = b3 := ihE _ _ h.2
          subst e0 e1 e2 e3
          rfl
        | _ => simp [Expression.same] at h
      | IfExpression a0 a1 a2 a3 =>
        cases b with
        | IfExpression b0 b1 b2 b3 =>
          simp only [Expression.same, Bool.and_eq_true, decide_eq_true_eq] at h
          have e0 : a0 = b0 := h.1.1.1
          have e1 : a1 = b1 := ihE _ _ h.1.1.2
          have e2 : a2 = b2 := ihB _ _ h.1.2
          have e3 : a3 = b3 := ihOB _ _ h.2
          subst e0 e1 e2 e3
          rfl
        | _ => simp [Expression.same] at h
      | CallExpression a0 a1 a2 =>
        cases b with
        | CallExpression b0 b1 b2 =>
          simp only [Expression.same, Bool.and_eq_true, decide_eq_true_eq] at h
          have e0 : a0 = b0 := h.1.1
          have e1 : a1 = b1 := ihE _ _ h.1.2
          have e2 : a2 = b2 := ihEL _ _ h.2
          subst e0 e1 e2
          rfl
        | _ => simp [Expression.same] at h
      | Function a0 a1 a2 =>
        cases b with
        | Function b0 b1 b2 =>
          simp only [Expression.same, Bool.and_eq_true, decide_eq_true_eq] at h
          have e0 : a0 = b0 := h.1.1
          have e1 : a1 = b1 := h.1.2
          have e2 : a2 = b2 := ihB _ _ h.2
          subst e0 e1 e2
          rfl
        | _ => simp [Expression.same] at h
    · intro a b h
      cases a with
      | nil =>
        cases b with
        | nil => rfl
        | cons y ys => simp [Expression.sameList] at h
      | cons x xs =>
        cases b with
        | nil => simp [Expression.sameList] at h
        | cons y ys =>
          simp only [Expression.sameList, Bool.and_eq_true] at h
          rw [ihE _ _ h.1, ihEL _ _ h.2]
    · intro a b h
      cases a with
      | nil =>
        cases b with
        | nil =>
          rfl
        | _ => simp [Statement.same] at h
      | nilLetStatement =>
        cases b with
        | nilLetStatement =>
          rfl
        | _ => simp [Statement.same] at h
      | LetStatement a0 a1 a2 =>
        cases b with
        | LetStatement b0 b1 b2 =>
          simp only [Statement.same, Bool.and_eq_true, decide_eq_true_eq] at h
          have e0 : a0 = b0 := h.1.1
          have e1 : a1 = b1 := h.1.2
          have e2 : a2 = b2 := ihE _ _ h.2
          subst e0 e1 e2
          rfl
        | _ => simp [Statement.same] at h
      | ReturnStatement a0 a1 =>
        cases b with
        | ReturnStatement b0 b1 =>
          simp only [Statement.same, Bool.and_eq_true, decide_eq_true_eq] at h
          have e0 : a0 = b0 := h.1
          have e1 : a1 = b1 := ihE _ _ h.2
          subst e0 e1
          rfl
        | _ => simp [Statement.same] at h
      | ExpressionStatement a0 a1 =>
        cases b with
        | ExpressionStatement b0 b1 =>
          simp only [Statement.same, Bool.and_eq_true, decide_eq_true_eq] at h
          have e0 : a0 = b0 := h.1
          have e1 : a1 = b1 := ihE _ _ h.2
          subst e0 e1
          rfl
        | _ => simp [Statement.same] at h
    · intro a b h
      cases a with
      | nil =>
        cases b with
        | nil => rfl
        | cons y ys => simp [Statement.sameList] at h
      | cons x xs =>
        cases b with
        | nil => simp [Statement.sameList] at h
        | cons y ys =>
          simp only [Statement.sameList, Bool.and_eq_true] at h
          rw [ihS _ _ h.1, ihSL _ _ h.2]
    · intro a b h
      cases a with
      | mk a0 a1 =>
        cases b with
        | mk b0 b1 =>
          simp only [BlockStatement.same, Bool.and_eq_true, decide_eq_true_eq] at h
          have e0 : a0 = b0 := h.1
          have e1 : a1 = b1 := ihSL _ _ h.2
          subst e0 e1
          rfl
    · intro a b h
      cases a with
      | none =>
        cases b with
        | none => rfl
        | some y => simp [BlockStatement.sameOption] at h
      | some x =>
        cases b with
        | none => simp [BlockStatement.sameOption] at h
        | some y =>
          simp only [BlockStatement.sameOption] at h
          rw [ihB _ _ h]

theorem of_yieldsResult {r : Except Fault (List Statement × List ParseError)}
    {statements : List Statement} {errors : List ParseError}
    (h : yieldsResult r statements errors = true) : r = .ok (statements, errors) := by
  cases r with
  | error f => simp [yieldsResult] at h
  | ok v =>
    obtain ⟨s, e⟩ := v
    simp only [yieldsResult, Bool.and_eq_true, decide_eq_true_eq] at h
    rw [(same_sound 1000).2.2.2.1 _ _ h.1, h.2]

theorem of_yieldsStatements {r : Except Fault (List Statement)}
    {statements : List Statement} (h : yieldsStatements r statements = true) :
    r = .ok statements := by
  cases r with
  | error f => simp [yieldsStatements] at h
  | ok s =>
    simp only [yieldsStatements] at h
    rw [(same_sound 1000).2.2.2.1 _ _ h]

/-! ### The lexer loops leave by their own condition

The loops of `skipWhitespaces`, `readWord` and `readNumber` are run for at
most `input.length + 1` iterations; that bound is never what stops them. -/

theorem readChar_toReadPos (l : Lexer) :
    l.readChar.input = l.input ∧
    (l.toReadPos < l.input.length → l.readChar.toReadPos = l.toReadPos + 1) ∧
    (¬ l.toReadPos < l.input.length → l.readChar.char = 0 ∧
      l.readChar.toReadPos = l.toReadPos) := by
  unfold readChar
  by_cases h : l.toReadPos < l.input.length <;> simp [h]

theorem skipWhitespacesLoop_exit (n : Nat) :
    ∀ l : Lexer, l.input.length - l.toReadPos < n →
      isSpace (skipWhitespacesLoop n l).char = false := by
  induction n with
  | zero => intro l h; omega
  | succ n ih =>
    intro l h
    obtain ⟨h1, h2, h3⟩ := readChar_toReadPos l
    unfold skipWhitespacesLoop
    by_cases hc : l.char = 32 ∨ l.char = 9 ∨ l.char = 13 ∨ l.char = 10
    · rw [if_pos hc]
      by_cases ht : l.toReadPos < l.input.length
      · exact ih _ (by rw [h1, h2 ht]; omega)
      · cases n with
        | zero => simp [skipWhitespacesLoop, (h3 ht).1, isSpace]
        | succ n => exact ih _ (by rw [h1, (h3 ht).2]; omega)
    · rw [if_neg hc]
      simp only [isSpace, Bool.or_eq_false_iff, beq_eq_false_iff_ne]
      omega

theorem readWordLoop_exit (n : Nat) :
    ∀ l : Lexer, l.input.length - l.toReadPos < n →
      isLetter (readWordLoop n l).char = false := by
  induction n with
  | zero => intro l h; omega
  | succ n ih =>
    intro l h
    obtain ⟨h1, h2, h3⟩ := readChar_toReadPos l
    unfold readWordLoop
    by_cases hc : isLetter l.char = true
    · rw [if_pos hc]
      by_cases ht : l.toReadPos < l.input.length
      · exact ih _ (by rw [h1, h2 ht]; omega)
      · cases n with
        | zero => simp [readWordLoop, (h3 ht).1, isLetter]
        | succ n => exact ih _ (by rw [h1, (h3 ht).2]; omega)
    · rw [if_neg hc]
      simpa using hc

theorem readNumberLoop_exit (n : Nat) :
    ∀ l : Lexer, l.input.length - l.toReadPos < n →
      isDigit (readNumberLoop n l).char = false := by
  induction n with
  | zero => intro l h; omega
  | succ n ih =>
    intro l h
    obtain ⟨h1, h2, h3⟩ := readChar_toReadPos l
    unfold readNumberLoop
    by_cases hc : isDigit l.char = true
    · rw [if_pos hc]
      by_cases ht : l.toReadPos < l.input.length
      · exact ih _ (by rw [h1, h2 ht]; omega)
      · cases n with
        | zero => simp [readNumberLoop, (h3 ht).1, isDigit]
        | succ n => exact ih _ (by rw [h1, (h3 ht).2]; omega)
    · rw [if_neg hc]
      simpa using hc

/-- Whatever the lexer state, `skipWhitespaces` stops on a byte that is not
whitespace, `readWord` on a byte that is not a letter and `readNumber` on a
byte that is not a digit. -/
theorem lexer_loops_exit (l : Lexer) :
    isSpace l.skipWhitespaces.char = false ∧ isLetter l.readWord.2.char = false ∧
    isDigit l.readNumber.2.char = false :=
  ⟨skipWhitespacesLoop_exit _ l (by omega), readWordLoop_exit _ l (by omega),
    readNumberLoop_exit _ l (by omega)⟩

theorem NewLexer_eq (s : List Nat) : NewLexer s = lexAt [] s := by
  cases s <;> simp [NewLexer, readChar, lexAt]

theorem lexAt_input (pre suf) : (lexAt pre suf).input = pre ++ suf := by
  cases suf <;> simp [lexAt]

theorem lexAt_char (pre suf) : (lexAt pre suf).char = suf.headD 0 := by
  cases suf <;> simp [lexAt]

theorem lexAt_pos (pre suf) : (lexAt pre suf).pos = pre.length := by
  cases suf <;> simp [lexAt]

theorem getElem?_mid (pre : List Nat) (c d : Nat) (suf : List Nat) :
    (pre ++ c :: d :: suf)[pre.length + 1]? = some d := by
  induction pre with
  | nil => simp
  | cons x pre ih => simpa using ih

theorem getD_mid (pre : List Nat) (c d : Nat) (suf : List Nat) :
    (pre ++ c :: d :: suf).getD (pre.length + 1) 0 = d := by
  rw [List.getD_eq_getElem?_getD, getElem?_mid]
  rfl

theorem readChar_lexAt_cons (pre : List Nat) (c : Nat) (suf : List Nat) :
    (lexAt pre (c :: suf)).readChar = lexAt (pre ++ [c]) suf := by
  cases suf with
  | nil => simp [lexAt, readChar]
  | cons d suf =>
    have h : pre.length + 1 < (pre ++ c :: d :: suf).length := by simp
    simp only [lexAt, readChar, h, if_true, getD_mid]
    simp

theorem readChar_lexAt_nil (pre : List Nat) : (lexAt pre []).readChar = lexAt pre [] := by
  simp [lexAt, readChar]

theorem skipWhitespacesLoop_lexAt (ws : List Nat) :
    ∀ (n : Nat) (pre rest : List Nat), (∀ c ∈ ws, isSpace c = true) →
      isSpace (rest.headD 0) = false → ws.length < n →
      skipWhitespacesLoop n (lexAt pre (ws ++ rest)) = lexAt (pre ++ ws) rest := by
  induction ws with
  | nil =>
    intro n pre rest _ hr hn
    obtain ⟨m, rfl⟩ : ∃ m, n = m + 1 := ⟨n - 1, by simp at hn; omega⟩
    simp only [isSpace, Bool.or_eq_false_iff, beq_eq_false_iff_ne] at hr
    simp only [skipWhitespacesLoop, lexAt_char, List.nil_append, List.append_nil]
    rw [if_neg (by omega)]
  | cons c ws ih =>
    intro n pre rest hws hr hn
    obtain ⟨m, rfl⟩ : ∃ m, n = m + 1 := ⟨n - 1, by simp at hn; omega⟩
    have hc := hws c (by simp)
    simp only [isSpace, Bool.or_eq_true, beq_iff_eq] at hc
    have hc' : c = 32 ∨ c = 9 ∨ c = 13 ∨ c = 10 := by omega
    simp only [skipWhitespacesLoop, lexAt_char, List.cons_append, List.headD_cons, hc', if_true,
      readChar_lexAt_cons]
    rw [ih m (pre ++ [c]) rest (fun x hx => hws x (by simp [hx])) hr (by simp at hn; omega)]
    simp

theorem skipWhitespaces_lexAt (ws pre rest : List Nat) (hws : ∀ c ∈ ws, isSpace c = true)
    (hr : isSpace (rest.headD 0) = false) :
    (lexAt pre (ws ++ rest)).skipWhitespaces = lexAt (pre ++ ws) rest := by
  unfold skipWhitespaces
  apply skipWhitespacesLoop_lexAt _ _ _ _ hws hr
  simp [lexAt_input]; omega

theorem readWordLoop_lexAt (w : List Nat) :
    ∀ (n : Nat) (pre rest : List Nat), (∀ c ∈ w, isLetter c = true) →
      isLetter (rest.headD 0) = false → w.length < n →
      readWordLoop n (lexAt pre (w ++ rest)) = lexAt (pre ++ w) rest := by
  induction w with
  | nil =>
    intro n pre rest _ hr hn
    obtain ⟨m, rfl⟩ : ∃ m, n = m + 1 := ⟨n - 1, by simp at hn; omega⟩
    simp only [readWordLoop, lexAt_char, List.nil_append, List.append_nil, hr]
    simp
  | cons c w ih =>
    intro n pre rest hw hr hn
    obtain ⟨m, rfl⟩ : ∃ m, n = m + 1 := ⟨n - 1, by simp at hn; omega⟩
    have hc := hw c (by simp)
    simp only [readWordLoop, lexAt_char, List.cons_append, List.headD_cons, hc, if_true,
      readChar_lexAt_cons]
    rw [ih m (pre ++ [c]) rest (fun x hx => hw x (by simp [hx])) hr (by simp at hn; omega)]
    simp

theorem readNumberLoop_lexAt (w : List Nat) :
    ∀ (n : Nat) (pre rest : List Nat), (∀ c ∈ w, isDigit c = true) →
      isDigit (rest.headD 0) = false → w.length < n →
      readNumberLoop n (lexAt pre (w ++ rest)) = lexAt (pre ++ w) rest := by
  induction w with
  | nil =>
    intro n pre rest _ hr hn
    obtain ⟨m, rfl⟩ : ∃ m, n = m + 1 := ⟨n - 1, by simp at hn; omega⟩
    simp only [readNumberLoop, lexAt_char, List.nil_append, List.append_nil, hr]
    simp
  | cons c w ih =>
    intro n pre rest hw hr hn
    obtain ⟨m, rfl⟩ : ∃ m, n = m + 1 := ⟨n - 1, by simp at hn; omega⟩
    have hc := hw c (by simp)
    simp only [readNumberLoop, lexAt_char, List.cons_append, List.headD_cons, hc, if_true,
      readChar_lexAt_cons]
    rw [ih m (pre ++ [c]) rest (fun x hx => hw x (by simp [hx])) hr (by simp at hn; omega)]
    simp

theorem readWord_lexAt (w pre rest : List Nat) (hw : ∀ c ∈ w, isLetter c = true)
    (hr : isLetter (rest.headD 0) = false) :
    (lexAt pre (w ++ rest)).readWord = (w, lexAt (pre ++ w) rest) := by
  unfold readWord
  simp only [lexAt_input, lexAt_pos]
  rw [readWordLoop_lexAt w _ pre rest hw hr (by simp; omega)]
  simp [lexAt_input, lexAt_pos]

theorem readNumber_lexAt (w pre rest : List Nat) (hw : ∀ c ∈ w, isDigit c = true)
    (hr : isDigit (rest.headD 0) = false) :
    (lexAt pre (w ++ rest)).readNumber = (w, lexAt (pre ++ w) rest) := by
  unfold readNumber
  simp only [lexAt_input, lexAt_pos]
  rw [readNumberLoop_lexAt w _ pre rest hw hr (by simp; omega)]
  simp [lexAt_input, lexAt_pos]

theorem peekChar_lexAt_cons (pre : List Nat) (c d : Nat) (suf : List Nat) :
    (lexAt pre (c :: d :: suf)).peekChar = some d := by
  have h : (lexAt pre (c :: d :: suf)).HasNext = true := by simp [lexAt, HasNext]
  unfold peekChar
  rw [if_pos h]
  exact getElem?_mid pre c d suf

theorem peekChar_lexAt_last (pre : List Nat) (c : Nat) :
    (lexAt pre [c]).peekChar = none := by
  simp [lexAt, peekChar, HasNext]

theorem NextToken_of_letter (l : Lexer) (h : isLetter l.skipWhitespaces.char = true) :
    l.NextToken = 
      match isKeyword l.skipWhitespaces.readWord.1 with
      | some tokenType => some (⟨tokenType, l.skipWhitespaces.readWord.1⟩, l.skipWhitespaces.readWord.2)
      | none => some (⟨.Ident, l.skipWhitespaces.readWord.1⟩, l.skipWhitespaces.readWord.2) := by
  have h' := h
  simp only [isLetter, Bool.or_eq_true, Bool.and_eq_true, decide_eq_true_eq] at h'
  unfold NextToken
  simp only [h, if_true]
  repeat rw [if_neg (by omega)]
  cases isKeyword l.skipWhitespaces.readWord.1 <;> rfl

theorem NextToken_of_digit (l : Lexer) (h : isDigit l.skipWhitespaces.char = true) :
    l.NextToken = some (⟨.Int, l.skipWhitespaces.readNumber.1⟩, l.skipWhitespaces.readNumber.2) := by
  have h' := h
  simp only [isDigit, Bool.and_eq_true, decide_eq_true_eq] at h'
  have hl : isLetter l.skipWhitespaces.char = false := by
    simp only [isLetter, Bool.or_eq_false_iff, Bool.and_eq_false_iff, decide_eq_false_iff_not]
    omega
  unfold NextToken
  simp only [h, hl, if_true]
  repeat rw [if_neg (by omega)]
  rfl

theorem bytes_lits :
    bytes "==" = [61, 61] ∧ bytes "=" = [61] ∧ bytes ";" = [59] ∧ bytes "," = [44] ∧
    bytes "(" = [40] ∧ bytes ")" = [41] ∧ bytes "\x7b" = [123] ∧ bytes "\x7d" = [125] ∧
    bytes "+" = [43] ∧ bytes "-" = [45] ∧ bytes "!=" = [33, 61] ∧ bytes "!" = [33] ∧
    bytes "*" = [42] ∧ bytes "/" = [47] ∧ bytes "<" = [60] ∧ bytes ">" = [62] ∧
    bytes "" = [] := by decide

theorem NextToken_lexAt (t : Token) (ws pre rest : List Nat)
    (hws : ∀ c ∈ ws, isSpace c = true) (ht : lexable t = true)
    (hf : canFollow t rest.head? = true) :
    (lexAt pre (ws ++ (t.Literal ++ rest))).NextToken =
      some (t, lexAt (pre ++ ws ++ t.Literal) rest) := by
  obtain ⟨k, lit⟩ := t
  cases k
  case Ident =>
    simp only [lexable, Bool.and_eq_true, decide_eq_true_eq, List.all_eq_true, beq_iff_eq] at ht
    obtain ⟨⟨hne, hall⟩, hkw⟩ := ht
    obtain ⟨c, w, rfl⟩ := List.exists_cons_of_ne_nil hne
    have hc := hall c (by simp)
    have hsp : isSpace (((c :: w) ++ rest).headD 0) = false := by
      simp only [isLetter, Bool.or_eq_true, Bool.and_eq_true, decide_eq_true_eq] at hc
      simp only [List.cons_append, List.headD_cons, isSpace, Bool.or_eq_false_iff, beq_eq_false_iff_ne]
      omega
    have hr : isLetter (rest.headD 0) = false := by
      simpa [canFollow, List.headD_eq_head?_getD] using hf
    rw [NextToken_of_letter]
    · rw [skipWhitespaces_lexAt ws pre _ hws hsp, readWord_lexAt (c :: w) (pre ++ ws) rest hall hr]
      simp only [hkw]
    · rw [skipWhitespaces_lexAt ws pre _ hws hsp, lexAt_char]
      simpa using hc
  case Int =>
    simp only [lexable, Bool.and_eq_true, decide_eq_true_eq, List.all_eq_true] at ht
    obtain ⟨hne, hall⟩ := ht
    obtain ⟨c, w, rfl⟩ := List.exists_cons_of_ne_nil hne
    have hc := hall c (by simp)
    have hsp : isSpace (((c :: w) ++ rest).headD 0) = false := by
      simp only [isDigit, Bool.and_eq_true, decide_eq_true_eq] at hc
      simp only [List.cons_append, List.headD_cons, isSpace, Bool.or_eq_false_iff, beq_eq_false_iff_ne]
      omega
    have hr : isDigit (rest.headD 0) = false := by
      simpa [canFollow, List.headD_eq_head?_getD] using hf
    rw [NextToken_of_digit]
    · rw [skipWhitespaces_lexAt ws pre _ hws hsp, readNumber_lexAt (c :: w) (pre ++ ws) rest hall hr]
    · rw [skipWhitespaces_lexAt ws pre _ hws hsp, lexAt_char]
      simpa using hc
  case Illegal => simp [lexable, spelling] at ht
  case Eof => simp [lexable, spelling] at ht
  case Function | Let | If | Else | True | False | Return =>
    simp only [lexable, spelling, beq_iff_eq, Option.some.injEq] at ht
    subst ht
    have hr : isLetter (rest.headD 0) = false := by
      simpa [canFollow, List.headD_eq_head?_getD] using hf
    rw [NextToken_of_letter]
    · rw [skipWhitespaces_lexAt ws pre _ hws (by rfl), readWord_lexAt _ (pre ++ ws) rest (by decide) hr]
      rfl
    · rw [skipWhitespaces_lexAt ws pre _ hws (by rfl), lexAt_char]
      rfl
  case Assign | Bang =>
    simp only [lexable, spelling, beq_iff_eq, Option.some.injEq] at ht
    subst ht
    obtain ⟨d, rest, rfl⟩ : ∃ d r, rest = d :: r := by
      cases rest with
      | nil => simp [canFollow] at hf
      | cons d r => exact ⟨d, r, rfl⟩
    have hd : d ≠ 61 := by simpa [canFollow] using hf
    unfold NextToken
    rw [skipWhitespaces_lexAt ws pre _ hws (by rfl)]
    simp [lexAt_char, readChar_lexAt_cons, peekChar_lexAt_cons, newToken, bytes_lits, hd]
  case Eq | Ne =>
    simp only [lexable, spelling, beq_iff_eq, Option.some.injEq] at ht
    subst ht
    unfold NextToken
    rw [skipWhitespaces_lexAt ws pre _ hws (by rfl)]
    simp [lexAt_char, readChar_lexAt_cons, peekChar_lexAt_cons, newToken, bytes_lits]
  all_goals
    simp only [lexable, spelling, beq_iff_eq, Option.some.injEq] at ht
    subst ht
    unfold NextToken
    rw [skipWhitespaces_lexAt ws pre _ hws (by rfl)]
    simp [lexAt_char, readChar_lexAt_cons, newToken, bytes_lits]

/-! ### The lexer on a source made of separated tokens -/

theorem NextToken_lexAt_end (pre ws : List Nat) (hws : ∀ c ∈ ws, isSpace c = true) :
    (lexAt pre ws).NextToken = some (eofToken, lexAt (pre ++ ws) []) := by
  have h := skipWhitespaces_lexAt ws pre [] hws (by rfl)
  rw [List.append_nil] at h
  unfold NextToken
  rw [h]
  simp [lexAt_char, readChar_lexAt_nil, newToken, bytes_lits, eofToken]

theorem yields_sourceOf (ps : List (List Nat × Token)) :
    ∀ (trail pre : List Nat), separated ps trail = true →
      Yields (lexAt pre (sourceOf ps trail)) (ps.map Prod.snd) := by
  induction ps with
  | nil =>
    intro trail pre h
    simp only [separated, List.all_eq_true] at h
    refine ⟨lexAt (pre ++ trail) [], NextToken_lexAt_end pre trail h, ?_⟩
    simpa using NextToken_lexAt_end (pre ++ trail) [] (by simp)
  | cons p ps ih =>
    intro trail pre h
    obtain ⟨ws, t⟩ := p
    simp only [separated, Bool.and_eq_true, List.all_eq_true] at h
    obtain ⟨⟨⟨hws, ht⟩, hf⟩, hs⟩ := h
    exact ⟨lexAt (pre ++ ws ++ t.Literal) (sourceOf ps trail),
      NextToken_lexAt t ws pre _ hws ht hf, ih trail _ hs⟩

/-! ### Moving the parser over the token stream -/

theorem NewParser_of_yields (l : Lexer) (c : Token) (ts : List Token)
    (h : Yields l (c :: ts)) : ∃ p, NewParser l = .ok p ∧ p.At c ts [] := by
  obtain ⟨l1, h1, h2⟩ := h
  cases ts with
  | nil =>
    obtain ⟨l2, h3, h4⟩ := h2
    exact ⟨⟨l2, [], c, eofToken⟩, by simp only [NewParser, h1, h3], rfl, rfl, rfl, h4⟩
  | cons t ts =>
    obtain ⟨l2, h3, h4⟩ := h2
    exact ⟨⟨l2, [], c, t⟩, by simp only [NewParser, h1, h3], rfl, rfl, rfl, h4⟩

theorem Parser.At.peek {p : Parser} {c : Token} {ts : List Token} {es : List ParseError}
    (h : p.At c ts es) : p.peekToken = ts.headD eofToken := by
  obtain ⟨_, _, hs⟩ := h
  cases ts with
  | nil => exact hs.1
  | cons t ts => exact hs.1

theorem Parser.At.next {p : Parser} {c t : Token} {ts : List Token} {es : List ParseError}
    (h : p.At c (t :: ts) es) : ∃ p1, p.nextToken = .ok p1 ∧ p1.At t ts es := by
  obtain ⟨_, he, hp, hy⟩ := h
  cases ts with
  | nil =>
    obtain ⟨l1, h1, h2⟩ := hy
    exact ⟨⟨l1, p.errors, p.peekToken, eofToken⟩, by simp only [nextToken, h1], hp, he, rfl, h2⟩
  | cons u ts =>
    obtain ⟨l1, h1, h2⟩ := hy
    exact ⟨⟨l1, p.errors, p.peekToken, u⟩, by simp only [nextToken, h1], hp, he, rfl, h2⟩

theorem Parser.At.next_nil {p : Parser} {c : Token} {es : List ParseError}
    (h : p.At c [] es) : ∃ p1, p.nextToken = .ok p1 ∧ p1.At eofToken [] es := by
  obtain ⟨_, he, hp, hy⟩ := h
  exact ⟨⟨p.lexer, p.errors, p.peekToken, eofToken⟩, by simp only [nextToken, hy], hp, he, rfl, hy⟩

theorem Parser.At.error {p : Parser} {c : Token} {ts : List Token} {es : List ParseError}
    (h : p.At c ts es) (e : ParseError) : (p.error e).At c ts (es ++ [e]) := by
  obtain ⟨hc, he, hs⟩ := h
  refine ⟨hc, by simp [Parser.error, he], ?_⟩
  cases ts with
  | nil => exact hs
  | cons t ts => exact hs

theorem Parser.At.assert_ok {p : Parser} {c t : Token} {ts : List Token} {es : List ParseError}
    (h : p.At c (t :: ts) es) (k : TokenType) (hk : t.Typ = k) :
    Returns (p.assertPeekTokenIs k) true t ts es := by
  obtain ⟨p1, h1, h2⟩ := h.next
  refine ⟨p1, ?_, h2⟩
  simp [assertPeekTokenIs, peekTokenIs, h.peek, hk, h1]

theorem Parser.At.assert_fail {p : Parser} {c : Token} {ts : List Token} {es : List ParseError}
    (h : p.At c ts es) (k : TokenType) (hk : (ts.headD eofToken).Typ ≠ k) :
    Returns (p.assertPeekTokenIs k) false c ts
      (es ++ [.expectedNext k (ts.headD eofToken).Typ]) := by
  refine ⟨_, ?_, h.error _⟩
  unfold assertPeekTokenIs peekTokenIs
  rw [h.peek, if_neg (by simpa using hk)]

theorem peekPrecedence_at {p : Parser} {c : Token} {ts : List Token} {es : List ParseError}
    (h : p.At c ts es) : p.peekPrecedence = precedenceOf (ts.headD eofToken).Typ := by
  unfold peekPrecedence precedenceOf
  rw [h.peek] <;> (try cases Precedences (ts.headD eofToken).Typ <;> rfl)

theorem currentPrecedence_at {p : Parser} {c : Token} {ts : List Token} {es : List ParseError}
    (h : p.At c ts es) : p.currentPrecedence = precedenceOf c.Typ := by
  unfold currentPrecedence precedenceOf
  rw [h.1] <;> (try cases Precedences c.Typ <;> rfl)

theorem triple_loop_stop (fuel prec : Nat) (left : Expression) (c : Token) (ts : List Token)
    (es : List ParseError) (hp : ¬ prec < precedenceOf (ts.headD eofToken).Typ) :
    Triple (parseExpressionLoop (fuel + 1) prec left) c ts es left c ts es := by
  intro p h
  refine ⟨p, ?_, h⟩
  rw [parseExpressionLoop, peekPrecedence_at h, if_neg hp]

theorem triple_loop_binary (fuel prec : Nat) (left left1 res : Expression) (c o c1 c2 : Token)
    (ts ts1 ts2 : List Token) (es es1 es2 : List ParseError)
    (ho : o.Typ.isBinary = true) (hp : prec < precedenceOf o.Typ)
    (h1 : Triple (parseInfixExpression fuel left) o ts es left1 c1 ts1 es1)
    (h2 : Triple (parseExpressionLoop fuel prec left1) c1 ts1 es1 res c2 ts2 es2) :
    Triple (parseExpressionLoop (fuel + 1) prec left) c (o :: ts) es res c2 ts2 es2 := by
  intro p h
  obtain ⟨p1, hn, hat1⟩ := h.next
  obtain ⟨p2, hi, hat2⟩ := h1 p1 hat1
  have hr : infixExprResolvers p.peekToken.Typ = some .parseInfixExpression := by
    rw [h.peek]; simpa [TokenType.isBinary] using ho
  rw [parseExpressionLoop, peekPrecedence_at h, if_pos (by simpa using hp)]
  simp only [hr, hn, hi]
  exact h2 p2 hat2

theorem triple_infixExpression (fuel : Nat) (left right : Expression) (o t c1 : Token)
    (ts ts1 : List Token) (es es1 : List ParseError)
    (h1 : Triple (parseExpression fuel (precedenceOf o.Typ)) t ts es right c1 ts1 es1) :
    Triple (parseInfixExpression (fuel + 1) left) o (t :: ts) es
      (.InfixExpression o left o.Literal right) c1 ts1 es1 := by
  intro p h
  obtain ⟨p1, hn, hat1⟩ := h.next
  obtain ⟨p2, hi, hat2⟩ := h1 p1 hat1
  refine ⟨p2, ?_, hat2⟩
  rw [parseInfixExpression]
  simp only [hn, currentPrecedence_at h, hi, h.1]

theorem triple_expr_atom (fuel prec : Nat) (a : Atom) (res : Expression) (c1 : Token)
    (ts ts1 : List Token) (es es1 : List ParseError)
    (h1 : Triple (parseExpressionLoop fuel prec a.expr) a.token ts (es ++ a.errors)
      res c1 ts1 es1) :
    Triple (parseExpression (fuel + 1) prec) a.token ts es res c1 ts1 es1 := by
  intro p h
  cases a with
  | ident name =>
    have hat : p.At (Atom.ident name).token ts (es ++ (Atom.ident name).errors) := by
      simpa [Atom.errors] using h
    obtain ⟨p2, hi, hat2⟩ := h1 p hat
    refine ⟨p2, ?_, hat2⟩
    rw [parseExpression]
    simp only [h.1, Atom.token, prefixExprResolvers, parseIdentifier]
    exact hi
  | int digits =>
    rw [parseExpression]
    simp only [h.1, Atom.token, prefixExprResolvers, parseInteger]
    cases hpi : ParseInt digits 0 64 with
    | mk value err =>
      cases err with
      | none =>
        have hat : p.At (Atom.int digits).token ts (es ++ (Atom.int digits).errors) := by
          simpa [Atom.errors, hpi] using h
        obtain ⟨p2, hi, hat2⟩ := h1 p hat
        refine ⟨p2, ?_, hat2⟩
        simpa [Atom.expr, hpi] using hi
      | some e =>
        have hat : (p.error (.couldNotParse ⟨.Int, digits⟩)).At (Atom.int digits).token ts
            (es ++ (Atom.int digits).errors) := by
          simpa [Atom.errors, hpi] using h.error (.couldNotParse ⟨.Int, digits⟩)
        obtain ⟨p2, hi, hat2⟩ := h1 _ hat
        refine ⟨p2, ?_, hat2⟩
        simpa [Atom.expr, hpi] using hi

theorem triple_atom (fuel prec : Nat) (a : Atom) (ts : List Token) (es : List ParseError)
    (hp : ¬ prec < precedenceOf (ts.headD eofToken).Typ) :
    Triple (parseExpression (fuel + 2) prec) a.token ts es a.expr a.token ts
      (es ++ a.errors) :=
  triple_expr_atom _ _ _ _ _ _ _ _ _ (triple_loop_stop _ _ _ _ _ _ hp)

theorem triple_expressionStatement (fuel : Nat) (e : Expression) (c c1 : Token)
    (ts ts1 : List Token) (es es1 : List ParseError)
    (h1 : Triple (parseExpression fuel Lowest) c ts es e c1 ts1 es1)
    (hs : (ts1.headD eofToken).Typ ≠ .Semicolon) :
    Triple (parseExpressionStatement (fuel + 1)) c ts es (.ExpressionStatement c1 e)
      c1 ts1 es1 := by
  intro p h
  obtain ⟨p1, hi, hat1⟩ := h1 p h
  refine ⟨p1, ?_, hat1⟩
  rw [parseExpressionStatement]
  simp only [hi, peekTokenIs, hat1.peek, hat1.1]
  rw [if_neg (by simpa using hs)]

theorem triple_expressionStatement_semicolon (fuel : Nat) (e : Expression) (c c1 t : Token)
    (ts ts1 : List Token) (es es1 : List ParseError)
    (h1 : Triple (parseExpression fuel Lowest) c ts es e c1 (t :: ts1) es1)
    (hs : t.Typ = .Semicolon) :
    Triple (parseExpressionStatement (fuel + 1)) c ts es (.ExpressionStatement c1 e)
      t ts1 es1 := by
  intro p h
  obtain ⟨p1, hi, hat1⟩ := h1 p h
  obtain ⟨p2, hn, hat2⟩ := hat1.next
  refine ⟨p2, ?_, hat2⟩
  rw [parseExpressionStatement]
  simp only [hi, peekTokenIs, hat1.peek, hat1.1, List.headD_cons, hs, hn, beq_self_eq_true,
    if_true]

theorem triple_statement_expression (fuel : Nat) (s : Statement) (c c1 : Token)
    (ts ts1 : List Token) (es es1 : List ParseError)
    (hl : c.Typ ≠ .Let) (hr : c.Typ ≠ .Return)
    (h1 : Triple (parseExpressionStatement fuel) c ts es s c1 ts1 es1) :
    Triple (parseStatement (fuel + 1)) c ts es s c1 ts1 es1 := by
  intro p h
  obtain ⟨p1, hi, hat1⟩ := h1 p h
  refine ⟨p1, ?_, hat1⟩
  rw [parseStatement, h.1]
  rw [← hi]
  split
  · exact absurd ‹_› hl
  · exact absurd ‹_› hr
  · rfl

theorem parseLoop_eof (fuel : Nat) (stmts : List Statement) (p : Parser)
    (h : p.currentToken.Typ = .Eof) : parseLoop (fuel + 1) stmts p = .ok (stmts, p) := by
  rw [parseLoop]; simp [h]

/-- A source whose tokens form one statement that the statement rule consumes
to the last token. -/
theorem parseSource_single (fuel : Nat) (src : List Nat) (c c1 : Token) (ts : List Token)
    (s : Statement) (es : List ParseError) (hy : Yields (NewLexer src) (c :: ts))
    (hc : c.Typ ≠ .Eof)
    (h1 : Triple (parseStatement (fuel + 1)) c ts [] s c1 [] es) :
    parseSource (fuel + 2) src = .ok ([.nil, .nil, s], es) := by
  obtain ⟨p, hp, hat⟩ := NewParser_of_yields _ _ _ hy
  obtain ⟨p1, hs, hat1⟩ := h1 p hat
  obtain ⟨p2, hn, hat2⟩ := hat1.next_nil
  have he : p2.currentToken.Typ = .Eof := by rw [hat2.1]; rfl
  unfold parseSource parseProgram
  rw [hp]
  simp only []
  rw [parseLoop]
  have hc' : (p.currentToken.Typ != TokenType.Eof) = true := by rw [hat.1]; simpa using hc
  simp only [hc', if_true, hs, hn, parseLoop_eof fuel _ p2 he, hat2.2.1, List.cons_append, List.nil_append]

theorem canFollow_space (t : Token) : canFollow t (some 32) = true := by
  obtain ⟨k, lit⟩ := t
  cases k <;> rfl

theorem canFollow_of_fixed (t : Token) (next : Option Nat) (h : t.Typ ≠ .Assign)
    (h1 : t.Typ ≠ .Bang) (hn : isLetter (next.getD 0) = false) (hd : isDigit (next.getD 0) = false) :
    canFollow t next = true := by
  obtain ⟨k, lit⟩ := t
  cases k <;> simp_all [canFollow]

theorem isBinary_cases {k : TokenType} (h : k.isBinary = true) :
    k = .Plus ∨ k = .Minus ∨ k = .Asterisk ∨ k = .Slash ∨ k = .Eq ∨ k = .Ne ∨ k = .Lt ∨
      k = .Gt := by
  cases k <;> simp_all [TokenType.isBinary, infixExprResolvers]

theorem lexable_binary {k : TokenType} (h : k.isBinary = true) : lexable k.token = true := by
  rcases isBinary_cases h with h | h | h | h | h | h | h | h <;> subst h <;> rfl

theorem precedenceOf_binary {k : TokenType} (h : k.isBinary = true) :
    Lowest < precedenceOf k ∧ precedenceOf k < Prefix := by
  rcases isBinary_cases h with h | h | h | h | h | h | h | h <;> subst h <;> decide

theorem atom_not_eof (a : Atom) : a.token.Typ ≠ .Eof := by cases a <;> simp [Atom.token]
theorem atom_not_let (a : Atom) : a.token.Typ ≠ .Let := by cases a <;> simp [Atom.token]
theorem atom_not_return (a : Atom) : a.token.Typ ≠ .Return := by cases a <;> simp [Atom.token]

theorem triple_infix_atom (fuel : Nat) (left : Expression) (o : TokenType) (b : Atom)
    (ts : List Token) (es : List ParseError)
    (hp : ¬ precedenceOf o < precedenceOf (ts.headD eofToken).Typ) :
    Triple (parseInfixExpression (fuel + 3) left) o.token (b.token :: ts) es
      (o.infixNode left b.expr) b.token ts (es ++ b.errors) :=
  triple_infixExpression _ _ _ _ _ _ _ _ _ _ (triple_atom _ _ _ _ _ hp)

theorem canFollow_atom_none (a : Atom) : canFollow a.token none = true := by
  cases a <;> rfl

theorem not_lt_end (n : Nat) (h : Lowest ≤ n) :
    ¬ n < precedenceOf (([] : List Token).headD eofToken).Typ := by
  have : precedenceOf (([] : List Token).headD eofToken).Typ = Lowest := rfl
  omega

theorem C1_tokens (a b c : Atom) (o1 o2 : TokenType)
    (h1 : o1.isBinary = true) (h2 : o2.isBinary = true) (fuel : Nat) :
    Triple (parseStatement (fuel + 10)) a.token [o1.token, b.token, o2.token, c.token] []
      (.ExpressionStatement c.token
        (if precedenceOf o1 < precedenceOf o2 then
          o1.infixNode a.expr (o2.infixNode b.expr c.expr)
        else o2.infixNode (o1.infixNode a.expr b.expr) c.expr))
      c.token [] (a.errors ++ b.errors ++ c.errors) := by
  have hl1 := (precedenceOf_binary h1).1
  have hl2 := (precedenceOf_binary h2).1
  apply triple_statement_expression _ _ _ _ _ _ _ _ (atom_not_let a) (atom_not_return a)
  apply triple_expressionStatement _ _ _ _ _ _ _ _ _ (by simp [eofToken])
  apply triple_expr_atom
  by_cases hlt : precedenceOf o1 < precedenceOf o2
  · rw [if_pos hlt]
    apply triple_loop_binary _ _ _ _ _ _ _ _ _ _ _ _ _ _ _ h1 hl1
    · apply triple_infixExpression
      apply triple_expr_atom
      apply triple_loop_binary _ _ _ _ _ _ _ _ _ _ _ _ _ _ _ h2 hlt
      · exact triple_infix_atom _ _ _ _ _ _ (not_lt_end _ (le_of_lt hl2))
      · exact triple_loop_stop _ _ _ _ _ _ (not_lt_end _ (le_of_lt hl1))
    · simp only [List.nil_append, List.append_assoc]
      exact triple_loop_stop _ _ _ _ _ _ (not_lt_end _ (le_refl _))
  · rw [if_neg hlt]
    apply triple_loop_binary _ _ _ _ _ _ _ _ _ _ _ _ _ _ _ h1 hl1
    · exact triple_infix_atom _ _ _ _ _ _ hlt
    · apply triple_loop_binary _ _ _ _ _ _ _ _ _ _ _ _ _ _ _ h2 hl2
      · exact triple_infix_atom _ _ _ _ _ _ (not_lt_end _ (le_of_lt hl2))
      · simp only [List.nil_append, List.append_assoc]
        exact triple_loop_stop _ _ _ _ _ _ (not_lt_end _ (le_refl _))

theorem triple_expr_prefixExpression (fuel prec : Nat) (left res : Expression)
    (c c1 c2 : Token) (ts ts1 ts2 : List Token) (es es1 es2 : List ParseError)
    (hc : c.Typ = .Bang ∨ c.Typ = .Minus)
    (h1 : Triple (parsePrefixExpression fuel) c ts es left c1 ts1 es1)
    (h2 : Triple (parseExpressionLoop fuel prec left) c1 ts1 es1 res c2 ts2 es2) :
    Triple (parseExpression (fuel + 1) prec) c ts es res c2 ts2 es2 := by
  intro p h
  obtain ⟨p1, hi, hat1⟩ := h1 p h
  obtain ⟨p2, hj, hat2⟩ := h2 p1 hat1
  refine ⟨p2, ?_, hat2⟩
  rw [parseExpression]
  rcases hc with hc | hc <;> simp only [h.1, hc, prefixExprResolvers, hi, hj]

theorem triple_expr_grouped (fuel prec : Nat) (left res : Expression)
    (c c1 c2 : Token) (ts ts1 ts2 : List Token) (es es1 es2 : List ParseError)
    (hc : c.Typ = .Lparen)
    (h1 : Triple (parseGroupedExpression fuel) c ts es left c1 ts1 es1)
    (h2 : Triple (parseExpressionLoop fuel prec left) c1 ts1 es1 res c2 ts2 es2) :
    Triple (parseExpression (fuel + 1) prec) c ts es res c2 ts2 es2 := by
  intro p h
  obtain ⟨p1, hi, hat1⟩ := h1 p h
  obtain ⟨p2, hj, hat2⟩ := h2 p1 hat1
  refine ⟨p2, ?_, hat2⟩
  rw [parseExpression]
  simp only [h.1, hc, prefixExprResolvers, hi, hj]

theorem triple_expr_if (fuel prec : Nat) (left res : Expression)
    (c c1 c2 : Token) (ts ts1 ts2 : List Token) (es es1 es2 : List ParseError)
    (hc : c.Typ = .If)
    (h1 : Triple (parseIfExpression fuel) c ts es left c1 ts1 es1)
    (h2 : Triple (parseExpressionLoop fuel prec left) c1 ts1 es1 res c2 ts2 es2) :
    Triple (parseExpression (fuel + 1) prec) c ts es res c2 ts2 es2 := by
  intro p h
  obtain ⟨p1, hi, hat1⟩ := h1 p h
  obtain ⟨p2, hj, hat2⟩ := h2 p1 hat1
  refine ⟨p2, ?_, hat2⟩
  rw [parseExpression]
  simp only [h.1, hc, prefixExprResolvers, hi, hj]

theorem triple_expr_function (fuel prec : Nat) (left res : Expression)
    (c c1 c2 : Token) (ts ts1 ts2 : List Token) (es es1 es2 : List ParseError)
    (hc : c.Typ = .Function)
    (h1 : Triple (parseFunction fuel) c ts es left c1 ts1 es1)
    (h2 : Triple (parseExpressionLoop fuel prec left) c1 ts1 es1 res c2 ts2 es2) :
    Triple (parseExpression (fuel + 1) prec) c ts es res c2 ts2 es2 := by
  intro p h
  obtain ⟨p1, hi, hat1⟩ := h1 p h
  obtain ⟨p2, hj, hat2⟩ := h2 p1 hat1
  refine ⟨p2, ?_, hat2⟩
  rw [parseExpression]
  simp only [h.1, hc, prefixExprResolvers, hi, hj]

theorem triple_prefixExpression (fuel : Nat) (right : Expression) (o t c1 : Token)
    (ts ts1 : List Token) (es es1 : List ParseError)
    (h1 : Triple (parseExpression fuel Prefix) t ts es right c1 ts1 es1) :
    Triple (parsePrefixExpression (fuel + 1)) o (t :: ts) es
      (.PrefixExpression o o.Literal right) c1 ts1 es1 := by
  intro p h
  obtain ⟨p1, hn, hat1⟩ := h.next
  obtain ⟨p2, hi, hat2⟩ := h1 p1 hat1
  refine ⟨p2, ?_, hat2⟩
  rw [parsePrefixExpression]
  simp only [hn, hi, h.1]

theorem triple_grouped (fuel : Nat) (e : Expression) (o t c1 r : Token)
    (ts ts1 : List Token) (es es1 : List ParseError)
    (h1 : Triple (parseExpression fuel Lowest) t ts es e c1 (r :: ts1) es1)
    (hr : r.Typ = .Rparen) :
    Triple (parseGroupedExpression (fuel + 1)) o (t :: ts) es e r ts1 es1 := by
  intro p h
  obtain ⟨p1, hn, hat1⟩ := h.next
  obtain ⟨p2, hi, hat2⟩ := h1 p1 hat1
  obtain ⟨p3, ha, hat3⟩ := hat2.assert_ok .Rparen hr
  refine ⟨p3, ?_, hat3⟩
  rw [parseGroupedExpression]
  simp only [hn, hi, ha]

theorem triple_loop_call (fuel prec : Nat) (left left1 res : Expression) (c o c1 c2 : Token)
    (ts ts1 ts2 : List Token) (es es1 es2 : List ParseError)
    (ho : o.Typ = .Lparen) (hp : prec < Call)
    (h1 : Triple (parseCallExpression fuel left) o ts es left1 c1 ts1 es1)
    (h2 : Triple (parseExpressionLoop fuel prec left1) c1 ts1 es1 res c2 ts2 es2) :
    Triple (parseExpressionLoop (fuel + 1) prec left) c (o :: ts) es res c2 ts2 es2 := by
  intro p h
  obtain ⟨p1, hn, hat1⟩ := h.next
  obtain ⟨p2, hi, hat2⟩ := h1 p1 hat1
  have hr : infixExprResolvers p.peekToken.Typ = some .parseCallExpression := by
    rw [h.peek]; simp [ho, infixExprResolvers]
  have hq : precedenceOf ((o :: ts).headD eofToken).Typ = Call := by
    simp [ho, precedenceOf, Precedences]
  rw [parseExpressionLoop, peekPrecedence_at h, hq, if_pos hp]
  simp only [hr, hn, hi]
  exact h2 p2 hat2

theorem triple_call_empty (fuel : Nat) (function : Expression) (o r : Token)
    (ts : List Token) (es : List ParseError) (hr : r.Typ = .Rparen) :
    Triple (parseCallExpression (fuel + 1) function) o (r :: ts) es
      (.CallExpression o function []) r ts es := by
  intro p h
  obtain ⟨p1, hn, hat1⟩ := h.next
  refine ⟨p1, ?_, hat1⟩
  rw [parseCallExpression]
  simp only [hn, currentTokenIs, hat1.1, hr, h.1, beq_self_eq_true, Bool.not_true]
  rfl

theorem triple_call (fuel : Nat) (function argument : Expression)
    (arguments : List Expression) (o t c1 c2 r : Token)
    (ts ts1 ts2 : List Token) (es es1 es2 : List ParseError)
    (ht : t.Typ ≠ .Rparen)
    (h1 : Triple (parseExpression fuel Lowest) t ts es argument c1 ts1 es1)
    (h2 : Triple (parseCallArguments fuel [argument]) c1 ts1 es1 arguments c2 (r :: ts2) es2)
    (hr : r.Typ = .Rparen) :
    Triple (parseCallExpression (fuel + 1) function) o (t :: ts) es
      (.CallExpression o function arguments) r ts2 es2 := by
  intro p h
  obtain ⟨p1, hn, hat1⟩ := h.next
  obtain ⟨p2, hi, hat2⟩ := h1 p1 hat1
  obtain ⟨p3, hj, hat3⟩ := h2 p2 hat2
  obtain ⟨p4, ha, hat4⟩ := hat3.assert_ok .Rparen hr
  refine ⟨p4, ?_, hat4⟩
  rw [parseCallExpression]
  have hne : (p1.currentTokenIs .Rparen) = false := by
    simp [currentTokenIs, hat1.1, ht]
  simp only [hn, hne, hi, hj, ha, h.1, Bool.not_false, if_true]

theorem triple_callArguments_stop (fuel : Nat) (arguments : List Expression) (c : Token)
    (ts : List Token) (es : List ParseError) (hc : (ts.headD eofToken).Typ ≠ .Comma) :
    Triple (parseCallArguments (fuel + 1) arguments) c ts es arguments c ts es := by
  intro p h
  refine ⟨p, ?_, h⟩
  rw [parseCallArguments]
  simp only [peekTokenIs, h.peek]
  rw [if_neg (by simpa using hc)]

theorem triple_callArguments_step (fuel : Nat) (arguments res : List Expression)
    (argument : Expression) (c k t c1 c2 : Token)
    (ts ts1 ts2 : List Token) (es es1 es2 : List ParseError) (hk : k.Typ = .Comma)
    (h1 : Triple (parseExpression fuel Lowest) t ts es argument c1 ts1 es1)
    (h2 : Triple (parseCallArguments fuel (arguments ++ [argument])) c1 ts1 es1 res c2 ts2 es2) :
    Triple (parseCallArguments (fuel + 1) arguments) c (k :: t :: ts) es res c2 ts2 es2 := by
  intro p h
  obtain ⟨p1, hn, hat1⟩ := h.next
  obtain ⟨p2, hm, hat2⟩ := hat1.next
  obtain ⟨p3, hi, hat3⟩ := h1 p2 hat2
  obtain ⟨p4, hj, hat4⟩ := h2 p3 hat3
  refine ⟨p4, ?_, hat4⟩
  rw [parseCallArguments]
  simp only [peekTokenIs, h.peek, List.headD_cons, hk, beq_self_eq_true, if_true, hn, hm, hi, hj]

theorem triple_block (fuel : Nat) (statements : List Statement) (o t c1 : Token)
    (ts ts1 : List Token) (es es1 : List ParseError)
    (h1 : Triple (parseBlockStatementLoop fuel []) t ts es statements c1 ts1 es1) :
    Triple (parseBlockStatement (fuel + 1)) o (t :: ts) es (.mk o statements) c1 ts1 es1 := by
  intro p h
  obtain ⟨p1, hn, hat1⟩ := h.next
  obtain ⟨p2, hi, hat2⟩ := h1 p1 hat1
  refine ⟨p2, ?_, hat2⟩
  rw [parseBlockStatement]
  simp only [hn, hi, h.1]

theorem triple_blockLoop_stop (fuel : Nat) (statements : List Statement) (c : Token)
    (ts : List Token) (es : List ParseError) (hc : c.Typ = .Rbrace ∨ c.Typ = .Eof) :
    Triple (parseBlockStatementLoop (fuel + 1) statements) c ts es statements c ts es := by
  intro p h
  refine ⟨p, ?_, h⟩
  rw [parseBlockStatementLoop]
  rcases hc with hc | hc <;> simp [currentTokenIs, h.1, hc]

theorem triple_blockLoop_step (fuel : Nat) (statements res : List Statement)
    (s : Statement) (c c1 t c2 : Token)
    (ts ts1 ts2 : List Token) (es es1 es2 : List ParseError)
    (hc : c.Typ ≠ .Rbrace) (hc1 : c.Typ ≠ .Eof) (hs : s ≠ .nil)
    (h1 : Triple (parseStatement fuel) c ts es s c1 (t :: ts1) es1)
    (h2 : Triple (parseBlockStatementLoop fuel (statements ++ [s])) t ts1 es1 res c2 ts2 es2) :
    Triple (parseBlockStatementLoop (fuel + 1) statements) c ts es res c2 ts2 es2 := by
  intro p h
  obtain ⟨p1, hi, hat1⟩ := h1 p h
  obtain ⟨p2, hn, hat2⟩ := hat1.next
  obtain ⟨p3, hj, hat3⟩ := h2 p2 hat2
  refine ⟨p3, ?_, hat3⟩
  rw [parseBlockStatementLoop]
  have hcond : (!p.currentTokenIs .Rbrace && !p.currentTokenIs .Eof) = true := by
    simp [currentTokenIs, h.1, hc, hc1]
  simp only [hcond, if_true, hi, hn]
  exact hj

theorem triple_if (fuel : Nat) (condition : Expression) (consequence : BlockStatement)
    (o lp t c1 rp lb c2 : Token) (ts ts1 ts2 : List Token) (es es1 es2 : List ParseError)
    (hlp : lp.Typ = .Lparen) (hrp : rp.Typ = .Rparen) (hlb : lb.Typ = .Lbrace)
    (h1 : Triple (parseExpression fuel Lowest) t ts es condition c1 (rp :: lb :: ts1) es1)
    (h2 : Triple (parseBlockStatement fuel) lb ts1 es1 consequence c2 ts2 es2)
    (he : (ts2.headD eofToken).Typ ≠ .Else) :
    Triple (parseIfExpression (fuel + 1)) o (lp :: t :: ts) es
      (.IfExpression none condition consequence none) c2 ts2 es2 := by
  intro p h
  obtain ⟨p1, ha1, hat1⟩ := h.assert_ok .Lparen hlp
  obtain ⟨p2, hn, hat2⟩ := hat1.next
  obtain ⟨p3, hi, hat3⟩ := h1 p2 hat2
  obtain ⟨p4, ha2, hat4⟩ := hat3.assert_ok .Rparen hrp
  obtain ⟨p5, ha3, hat5⟩ := hat4.assert_ok .Lbrace hlb
  obtain ⟨p6, hj, hat6⟩ := h2 p5 hat5
  refine ⟨p6, ?_, hat6⟩
  rw [parseIfExpression]
  simp only [ha1, hn, hi, ha2, ha3, hj, peekTokenIs, hat6.peek]
  rw [if_neg (by simpa using he)]

theorem triple_if_else (fuel : Nat) (condition : Expression)
    (consequence alternative : BlockStatement)
    (o lp t c1 rp lb c2 el lb2 c3 : Token) (ts ts1 ts2 ts3 : List Token)
    (es es1 es2 es3 : List ParseError)
    (hlp : lp.Typ = .Lparen) (hrp : rp.Typ = .Rparen) (hlb : lb.Typ = .Lbrace)
    (hel : el.Typ = .Else) (hlb2 : lb2.Typ = .Lbrace)
    (h1 : Triple (parseExpression fuel Lowest) t ts es condition c1 (rp :: lb :: ts1) es1)
    (h2 : Triple (parseBlockStatement fuel) lb ts1 es1 consequence c2 (el :: lb2 :: ts2) es2)
    (h3 : Triple (parseBlockStatement fuel) lb2 ts2 es2 alternative c3 ts3 es3) :
    Triple (parseIfExpression (fuel + 1)) o (lp :: t :: ts) es
      (.IfExpression none condition consequence (some alternative)) c3 ts3 es3 := by
  intro p h
  obtain ⟨p1, ha1, hat1⟩ := h.assert_ok .Lparen hlp
  obtain ⟨p2, hn, hat2⟩ := hat1.next
  obtain ⟨p3, hi, hat3⟩ := h1 p2 hat2
  obtain ⟨p4, ha2, hat4⟩ := hat3.assert_ok .Rparen hrp
  obtain ⟨p5, ha3, hat5⟩ := hat4.assert_ok .Lbrace hlb
  obtain ⟨p6, hj, hat6⟩ := h2 p5 hat5
  obtain ⟨p7, hn2, hat7⟩ := hat6.next
  obtain ⟨p8, ha4, hat8⟩ := hat7.assert_ok .Lbrace hlb2
  obtain ⟨p9, hk, hat9⟩ := h3 p8 hat8
  refine ⟨p9, ?_, hat9⟩
  rw [parseIfExpression]
  simp only [ha1, hn, hi, ha2, ha3, hj, peekTokenIs, hat6.peek, List.headD_cons, hel,
    beq_self_eq_true, if_true, hn2, ha4, hk]

/-! ### Chains of binary operators -/

/-- The pieces of ` o1 a1 o2 a2 ...`. -/
theorem chain_pieces (rest : List (TokenType × Atom))
    (hb : ∀ ob ∈ rest, ob.1.isBinary = true ∧ lexable ob.2.token = true) :
    ∃ ps : List (List Nat × Token), sourceOf ps [] = chainText rest ∧
      ps.map Prod.snd = chainTokens rest ∧ separated ps [] = true ∧
      ((sourceOf ps []).head? = none ∨ (sourceOf ps []).head? = some 32) := by
  induction rest with
  | nil => exact ⟨[], rfl, rfl, rfl, Or.inl rfl⟩
  | cons ob rest ih =>
    obtain ⟨o, b⟩ := ob
    obtain ⟨ps, h1, h2, h3, h4⟩ := ih (fun x hx => hb x (by simp [hx]))
    obtain ⟨ho, hl⟩ := hb (o, b) (by simp)
    refine ⟨([32], o.token) :: ([32], b.token) :: ps, ?_, ?_, ?_, Or.inr ?_⟩
    · simp [sourceOf, chainText, h1, Atom.text]
    · simp [chainTokens, h2]
    · have hcf : canFollow b.token (sourceOf ps []).head? = true := by
        rcases h4 with h | h <;> rw [h]
        · exact canFollow_atom_none b
        · exact canFollow_space _
      simp [separated, sourceOf, lexable_binary ho, hl, canFollow_space, h3, hcf, isSpace]
    · simp [sourceOf]

theorem chainTokens_head (rest : List (TokenType × Atom)) :
    (chainTokens rest).headD eofToken =
      match rest with
      | [] => eofToken
      | (o, _) :: _ => o.token := by
  cases rest with
  | nil => rfl
  | cons ob rest => obtain ⟨o, b⟩ := ob; rfl

theorem getLastD_cons_eq {α : Type} (x : α) (l : List α) (d : α) :
    (x :: l).getLastD d = l.getLastD x := by
  cases l with
  | nil => rfl
  | cons y l =>
    have h : (y :: l).getLast? = some ((y :: l).getLast (by simp)) :=
      List.getLast?_eq_getLast _ _
    simp [List.getLastD_cons, h]

theorem triple_chain (k prec : Nat) (hk : Lowest ≤ prec) (hpk : prec < k)
    (rest : List (TokenType × Atom)) :
    ∀ (fuel : Nat) (left : Expression) (c : Token) (es : List ParseError),
      (∀ ob ∈ rest, ob.1.isBinary = true ∧ precedenceOf ob.1 = k) →
      rest.length + 3 ≤ fuel →
      Triple (parseExpressionLoop fuel prec left) c (chainTokens rest) es
        (leftNested left rest) ((chainTokens rest).getLastD c) []
        (es ++ atomErrors (rest.map Prod.snd)) := by
  induction rest with
  | nil =>
    intro fuel left c es _ hf
    obtain ⟨m, rfl⟩ : ∃ m, fuel = m + 1 := ⟨fuel - 1, by simp at hf; omega⟩
    simpa [atomErrors, leftNested, chainTokens] using
      triple_loop_stop m prec left c [] es (not_lt_end _ hk)
  | cons ob rest ih =>
    intro fuel left c es hb hf
    obtain ⟨o, b⟩ := ob
    have ho : o.isBinary = true := (hb (o, b) (by simp)).1
    have hpo : precedenceOf o = k := (hb (o, b) (by simp)).2
    simp only [List.length_cons] at hf
    obtain ⟨m, rfl⟩ : ∃ m, fuel = m + 3 + 1 := ⟨fuel - 4, by omega⟩
    have hrest := ih (m + 3) (o.infixNode left b.expr) b.token (es ++ b.errors)
      (fun x hx => hb x (by simp [hx])) (by omega)
    have hstop : ¬ precedenceOf o < precedenceOf ((chainTokens rest).headD eofToken).Typ := by
      rw [chainTokens_head]
      cases rest with
      | nil => exact not_lt_end _ (by omega)
      | cons ob1 rest1 =>
        obtain ⟨o1, b1⟩ := ob1
        have h1 : precedenceOf o1 = k := (hb (o1, b1) (by simp)).2
        simp only [TokenType.token]
        omega
    have hinf := triple_infix_atom m left o b (chainTokens rest) es hstop
    have := triple_loop_binary (m + 3) prec left _ _ c o.token _ _ _ _ _ es _ _
      ho (by simp only [TokenType.token]; omega) hinf hrest
    have hlast : (chainTokens ((o, b) :: rest)).getLastD c = (chainTokens rest).getLastD b.token := by
      rw [chainTokens, getLastD_cons_eq, getLastD_cons_eq]
    rw [hlast]
    simpa [chainTokens, leftNested, atomErrors, List.append_assoc] using this

/-! ### Call arguments -/

theorem canFollow_atom_of (a : Atom) (next : Option Nat) (hl : isLetter (next.getD 0) = false)
    (hd : isDigit (next.getD 0) = false) : canFollow a.token next = true := by
  cases a <;> simp [canFollow, Atom.token, hl, hd]

/-- The pieces of `, e1, e2 ...)`. -/
theorem comma_pieces (rest : List Atom) (hb : ∀ e ∈ rest, lexable e.token = true) :
    ∃ ps : List (List Nat × Token), sourceOf ps [] = commaText rest ++ [41] ∧
      ps.map Prod.snd = commaTokens rest ++ [TokenType.Rparen.token] ∧
      separated ps [] = true ∧
      ((sourceOf ps []).head? = some 44 ∨ (sourceOf ps []).head? = some 41) := by
  induction rest with
  | nil =>
    exact ⟨[([], TokenType.Rparen.token)], rfl, rfl, rfl, Or.inr rfl⟩
  | cons e rest ih =>
    obtain ⟨ps, h1, h2, h3, h4⟩ := ih (fun x hx => hb x (by simp [hx]))
    have hl := hb e (by simp)
    refine ⟨([], TokenType.Comma.token) :: ([32], e.token) :: ps, ?_, ?_, ?_, Or.inl ?_⟩
    · simp [sourceOf, commaText, h1, Atom.text, TokenType.token, spelling]
    · simp [commaTokens, h2]
    · have hcf : canFollow e.token (sourceOf ps []).head? = true := by
        rcases h4 with h | h <;> rw [h] <;> exact canFollow_atom_of _ _ (by rfl) (by rfl)
      have hlc : lexable TokenType.Comma.token = true := by rfl
      have hcc : ∀ n, canFollow TokenType.Comma.token n = true := fun _ => rfl
      simp [separated, sourceOf, hl, h3, hcf, hlc, hcc, isSpace]
    · simp [sourceOf, TokenType.token, spelling]

theorem commaTokens_head (rest : List Atom) (ts : List Token) :
    ((commaTokens rest ++ TokenType.Rparen.token :: ts).headD eofToken).Typ = .Comma ∨
    ((commaTokens rest ++ TokenType.Rparen.token :: ts).headD eofToken).Typ = .Rparen := by
  cases rest with
  | nil => exact Or.inr rfl
  | cons e rest => exact Or.inl rfl

theorem not_lt_comma_or_rparen (rest : List Atom) (ts : List Token) :
    ¬ Lowest < precedenceOf
      ((commaTokens rest ++ TokenType.Rparen.token :: ts).headD eofToken).Typ := by
  rcases commaTokens_head rest ts with h | h <;> rw [h] <;> decide

theorem triple_commaArguments (rest : List Atom) (ts : List Token) :
    ∀ (fuel : Nat) (arguments : List Expression) (c : Token) (es : List ParseError),
      rest.length + 3 ≤ fuel →
      ∃ c1, Triple (parseCallArguments fuel arguments) c
        (commaTokens rest ++ TokenType.Rparen.token :: ts) es
        (arguments ++ rest.map Atom.expr) c1 (TokenType.Rparen.token :: ts)
        (es ++ atomErrors rest) := by
  induction rest with
  | nil =>
    intro fuel arguments c es hf
    obtain ⟨m, rfl⟩ : ∃ m, fuel = m + 1 := ⟨fuel - 1, by simp at hf; omega⟩
    refine ⟨c, ?_⟩
    simpa [commaTokens, atomErrors] using
      triple_callArguments_stop m arguments c (TokenType.Rparen.token :: ts) es
        (by simp [TokenType.token])
  | cons e rest ih =>
    intro fuel arguments c es hf
    simp only [List.length_cons] at hf
    obtain ⟨m, rfl⟩ : ∃ m, fuel = m + 2 + 1 := ⟨fuel - 3, by omega⟩
    obtain ⟨c1, hrest⟩ := ih (m + 2) (arguments ++ [e.expr]) e.token (es ++ e.errors)
      (by omega)
    refine ⟨c1, ?_⟩
    have hatom := triple_atom m Lowest e (commaTokens rest ++ TokenType.Rparen.token :: ts) es
      (not_lt_comma_or_rparen rest ts)
    have := triple_callArguments_step (m + 2) arguments _ e.expr c TokenType.Comma.token
      e.token _ _ _ _ _ es _ _ rfl hatom hrest
    simpa [commaTokens, atomErrors, List.append_assoc] using this

theorem atom_not_rparen (a : Atom) : a.token.Typ ≠ .Rparen := by cases a <;> simp [Atom.token]

/-- The call rule on an argument list of atoms. -/
theorem triple_call_atoms (function : Expression) (arguments : List Atom) (ts : List Token)
    (es : List ParseError) (fuel : Nat) (hf : arguments.length + 4 ≤ fuel) :
    Triple (parseCallExpression fuel function) TokenType.Lparen.token
      (argumentTokens arguments ++ ts) es
      (.CallExpression TokenType.Lparen.token function (arguments.map Atom.expr))
      TokenType.Rparen.token ts (es ++ atomErrors arguments) := by
  obtain ⟨m, rfl⟩ : ∃ m, fuel = m + 2 + 1 := ⟨fuel - 3, by omega⟩
  cases arguments with
  | nil =>
    simpa [argumentTokens, atomErrors] using
      triple_call_empty (m + 2) function TokenType.Lparen.token TokenType.Rparen.token ts es rfl
  | cons e rest =>
    simp only [List.length_cons] at hf
    obtain ⟨c1, hrest⟩ := triple_commaArguments rest ts (m + 2) [e.expr] e.token
      (es ++ e.errors) (by omega)
    have hatom := triple_atom m Lowest e (commaTokens rest ++ TokenType.Rparen.token :: ts) es
      (not_lt_comma_or_rparen rest ts)
    have := triple_call (m + 2) function e.expr _ TokenType.Lparen.token e.token _ _
      TokenType.Rparen.token _ _ _ es _ _ (atom_not_rparen e) hatom hrest rfl
    simpa [argumentTokens, atomErrors, List.append_assoc] using this

/-! ## Fuel

The parsing functions of the model take a fuel argument.  A result other than
running out of fuel does not depend on it: more fuel gives the same result. -/

/-- One more unit of fuel leaves a settled result of the parameter loop
unchanged. -/
theorem parseFunctionParams_mono (fuel : Nat) :
    ∀ params p, parseFunctionParams fuel params p ≠ .error .outOfFuel →
      parseFunctionParams (fuel + 1) params p = parseFunctionParams fuel params p := by
  induction fuel with
  | zero => intro params p h; simp [parseFunctionParams] at h
  | succ n ih =>
    intro params p h
    rw [parseFunctionParams] at h
    rw [parseFunctionParams, parseFunctionParams]
    simp only [] at h ⊢
    (repeat' split at h) <;> simp_all

/-- One more unit of fuel leaves a settled result of `parseStatement` unchanged, given
the same of the functions it calls. -/
theorem parseStatement_step (n : Nat)
    (i0 : (∀ p, parseLetStatement n p ≠ .error .outOfFuel →
      parseLetStatement (n + 1) p = parseLetStatement n p))
    (i1 : (∀ p, parseReturnStatement n p ≠ .error .outOfFuel →
      parseReturnStatement (n + 1) p = parseReturnStatement n p))
    (i2 : (∀ p, parseExpressionStatement n p ≠ .error .outOfFuel →
      parseExpressionStatement (n + 1) p = parseExpressionStatement n p))
    (p : _) (h : parseStatement (n + 1) p ≠ .error .outOfFuel) :
    parseStatement (n + 1 + 1) p = parseStatement (n + 1) p := by
  rw [parseStatement] at h
  conv_lhs => rw [parseStatement]
  conv_rhs => rw [parseStatement]
  (repeat' split at h) <;> simp_all

/-- One more unit of fuel leaves a settled result of `parseLetStatement` unchanged, given
the same of the functions it calls. -/
theorem parseLetStatement_step (n : Nat)
    (i0 : (∀ prec p, parseExpression n prec p ≠ .error .outOfFuel →
      parseExpression (n + 1) prec p = parseExpression n prec p))
    (p : _) (h : parseLetStatement (n + 1) p ≠ .error .outOfFuel) :
    parseLetStatement (n + 1 + 1) p = parseLetStatement (n + 1) p := by
  rw [parseLetStatement] at h
  conv_lhs => rw [parseLetStatement]
  conv_rhs => rw [parseLetStatement]
  (repeat' split at h) <;> simp_all

/-- One more unit of fuel leaves a settled result of `parseReturnStatement` unchanged, given
the same of the functions it calls. -/
theorem parseReturnStatement_step (n : Nat)
    (i0 : (∀ prec p, parseExpression n prec p ≠ .error .outOfFuel →
      parseExpression (n + 1) prec p = parseExpression n prec p))
    (p : _) (h : parseReturnStatement (n + 1) p ≠ .error .outOfFuel) :
    parseReturnStatement (n + 1 + 1) p = parseReturnStatement (n + 1) p := by
  rw [parseReturnStatement] at h
  conv_lhs => rw [parseReturnStatement]
  conv_rhs => rw [parseReturnStatement]
  (repeat' split at h) <;> simp_all

/-- One more unit of fuel leaves a settled result of `parseExpressionStatement` unchanged, given
the same of the functions it calls. -/
theorem parseExpressionStatement_step (n : Nat)
    (i0 : (∀ prec p, parseExpression n prec p ≠ .error .outOfFuel →
      parseExpression (n + 1) prec p = parseExpression n prec p))
    (p : _) (h : parseExpressionStatement (n + 1) p ≠ .error .outOfFuel) :
    parseExpressionStatement (n + 1 + 1) p = parseExpressionStatement (n + 1) p := by
  rw [parseExpressionStatement] at h
  conv_lhs => rw [parseExpressionStatement]
  conv_rhs => rw [parseExpressionStatement]
  (repeat' split at h) <;> simp_all

/-- One more unit of fuel leaves a settled result of `parseExpression` unchanged, given
the same of the functions it calls. -/
theorem parseExpression_step (n : Nat)
    (i0 : (∀ p, parsePrefixExpression n p ≠ .error .outOfFuel →
      parsePrefixExpression (n + 1) p = parsePrefixExpression n p))
    (i1 : (∀ p, parseGroupedExpression n p ≠ .error .outOfFuel →
      parseGroupedExpression (n + 1) p = parseGroupedExpression n p))
    (i2 : (∀ p, parseIfExpression n p ≠ .error .outOfFuel →
      parseIfExpression (n + 1) p = parseIfExpression n p))
    (i3 : (∀ p, parseFunction n p ≠ .error .outOfFuel →
      parseFunction (n + 1) p = parseFunction n p))
    (i4 : (∀ prec left p, parseExpressionLoop n prec left p ≠ .error .outOfFuel →
      parseExpressionLoop (n + 1) prec left p = parseExpressionLoop n prec left p))
    (prec p : _) (h : parseExpression (n + 1) prec p ≠ .error .outOfFuel) :
    parseExpression (n + 1 + 1) prec p = parseExpression (n + 1) prec p := by
  rw [parseExpression] at h
  conv_lhs => rw [parseExpression]
  conv_rhs => rw [parseExpression]
  cases hr : prefixExprResolvers p.currentToken.Typ with
  | none => rfl
  | some r =>
    rw [hr] at h
    cases r <;> simp only [] at h ⊢ <;> (repeat' split at h) <;> simp_all

/-- One more unit of fuel leaves a settled result of `parseExpressionLoop` unchanged, given
the same of the functions it calls. -/
theorem parseExpressionLoop_step (n : Nat)
    (i0 : (∀ left p, parseInfixExpression n left p ≠ .error .outOfFuel →
      parseInfixExpression (n + 1) left p = parseInfixExpression n left p))
    (i1 : (∀ function p, parseCallExpression n function p ≠ .error .outOfFuel →
      parseCallExpression (n + 1) function p = parseCallExpression n function p))
    (i2 : (∀ prec left p, parseExpressionLoop n prec left p ≠ .error .outOfFuel →
      parseExpressionLoop (n + 1) prec left p = parseExpressionLoop n prec left p))
    (prec left p : _) (h : parseExpressionLoop (n + 1) prec left p ≠ .error .outOfFuel) :
    parseExpressionLoop (n + 1 + 1) prec left p = parseExpressionLoop (n + 1) prec left p := by
  rw [parseExpressionLoop] at h
  conv_lhs => rw [parseExpressionLoop]
  conv_rhs => rw [parseExpressionLoop]
  by_cases hlt : prec < p.peekPrecedence
  · rw [if_pos hlt] at h ⊢
    rw [if_pos hlt]
    cases hr : infixExprResolvers p.peekToken.Typ with
    | none => rfl
    | some r =>
      rw [hr] at h
      cases r <;> simp only [] at h ⊢ <;> (repeat' split at h) <;> simp_all
  · rw [if_neg hlt, if_neg hlt]

/-- One more unit of fuel leaves a settled result of `parseGroupedExpression` unchanged, given
the same of the functions it calls. -/
theorem parseGroupedExpression_step (n : Nat)
    (i0 : (∀ prec p, parseExpression n prec p ≠ .error .outOfFuel →
      parseExpression (n + 1) prec p = parseExpression n prec p))
    (p : _) (h : parseGroupedExpression (n + 1) p ≠ .error .outOfFuel) :
    parseGroupedExpression (n + 1 + 1) p = parseGroupedExpression (n + 1) p := by
  rw [parseGroupedExpression] at h
  conv_lhs => rw [parseGroupedExpression]
  conv_rhs => rw [parseGroupedExpression]
  (repeat' split at h) <;> simp_all

/-- One more unit of fuel leaves a settled result of `parsePrefixExpression` unchanged, given
the same of the functions it calls. -/
theorem parsePrefixExpression_step (n : Nat)
    (i0 : (∀ prec p, parseExpression n prec p ≠ .error .outOfFuel →
      parseExpression (n + 1) prec p = parseExpression n prec p))
    (p : _) (h : parsePrefixExpression (n + 1) p ≠ .error .outOfFuel) :
    parsePrefixExpression (n + 1 + 1) p = parsePrefixExpression (n + 1) p := by
  rw [parsePrefixExpression] at h
  conv_lhs => rw [parsePrefixExpression]
  conv_rhs => rw [parsePrefixExpression]
  (repeat' split at h) <;> simp_all

/-- One more unit of fuel leaves a settled result of `parseInfixExpression` unchanged, given
the same of the functions it calls. -/
theorem parseInfixExpression_step (n : Nat)
    (i0 : (∀ prec p, parseExpression n prec p ≠ .error .outOfFuel →
      parseExpression (n + 1) prec p = parseExpression n prec p))
    (left p : _) (h : parseInfixExpression (n + 1) left p ≠ .error .outOfFuel) :
    parseInfixExpression (n + 1 + 1) left p = parseInfixExpression (n + 1) left p := by
  rw [parseInfixExpression] at h
  conv_lhs => rw [parseInfixExpression]
  conv_rhs => rw [parseInfixExpression]
  (repeat' split at h) <;> simp_all

/-- One more unit of fuel leaves a settled result of `parseIfExpression` unchanged, given
the same of the functions it calls. -/
theorem parseIfExpression_step (n : Nat)
    (i0 : (∀ prec p, parseExpression n prec p ≠ .error .outOfFuel →
      parseExpression (n + 1) prec p = parseExpression n prec p))
    (i1 : (∀ p, parseBlockStatement n p ≠ .error .outOfFuel →
      parseBlockStatement (n + 1) p = parseBlockStatement n p))
    (p : _) (h : parseIfExpression (n + 1) p ≠ .error .outOfFuel) :
    parseIfExpression (n + 1 + 1) p = parseIfExpression (n + 1) p := by
  rw [parseIfExpression] at h
  conv_lhs => rw [parseIfExpression]
  conv_rhs => rw [parseIfExpression]
  (repeat' split at h) <;> simp_all

/-- One more unit of fuel leaves a settled result of `parseFunction` unchanged, given
the same of the functions it calls. -/
theorem parseFunction_step (n : Nat)
    (i0 : (∀ p, parseBlockStatement n p ≠ .error .outOfFuel →
      parseBlockStatement (n + 1) p = parseBlockStatement n p))
    (p : _) (h : parseFunction (n + 1) p ≠ .error .outOfFuel) :
    parseFunction (n + 1 + 1) p = parseFunction (n + 1) p := by
  rw [parseFunction] at h
  conv_lhs => rw [parseFunction]
  conv_rhs => rw [parseFunction]
  have iP := parseFunctionParams_mono n
  (repeat' split at h) <;> (try simp only [] at h ⊢) <;> (repeat' split at h) <;> simp_all

/-- One more unit of fuel leaves a settled result of `parseCallExpression` unchanged, given
the same of the functions it calls. -/
theorem parseCallExpression_step (n : Nat)
    (i0 : (∀ prec p, parseExpression n prec p ≠ .error .outOfFuel →
      parseExpression (n + 1) prec p = parseExpression n prec p))
    (i1 : (∀ arguments p, parseCallArguments n arguments p ≠ .error .outOfFuel →
      parseCallArguments (n + 1) arguments p = parseCallArguments n arguments p))
    (function p : _) (h : parseCallExpression (n + 1) function p ≠ .error .outOfFuel) :
    parseCallExpression (n + 1 + 1) function p = parseCallExpression (n + 1) function p := by
  rw [parseCallExpression] at h
  conv_lhs => rw [parseCallExpression]
  conv_rhs => rw [parseCallExpression]
  (repeat' split at h) <;> simp_all

/-- One more unit of fuel leaves a settled result of `parseCallArguments` unchanged, given
the same of the functions it calls. -/
theorem parseCallArguments_step (n : Nat)
    (i0 : (∀ prec p, parseExpression n prec p ≠ .error .outOfFuel →
      parseExpression (n + 1) prec p = parseExpression n prec p))
    (i1 : (∀ arguments p, parseCallArguments n arguments p ≠ .error .outOfFuel →
      parseCallArguments (n + 1) arguments p = parseCallArguments n arguments p))
    (arguments p : _) (h : parseCallArguments (n + 1) arguments p ≠ .error .outOfFuel) :
    parseCallArguments (n + 1 + 1) arguments p = parseCallArguments (n + 1) arguments p := by
  rw [parseCallArguments] at h
  conv_lhs => rw [parseCallArguments]
  conv_rhs => rw [parseCallArguments]
  (repeat' split at h) <;> simp_all

/-- One more unit of fuel leaves a settled result of `parseBlockStatement` unchanged, given
the same of the functions it calls. -/
theorem parseBlockStatement_step (n : Nat)
    (i0 : (∀ statements p, parseBlockStatementLoop n statements p ≠ .error .outOfFuel →
      parseBlockStatementLoop (n + 1) statements p = parseBlockStatementLoop n statements p))
    (p : _) (h : parseBlockStatement (n + 1) p ≠ .error .outOfFuel) :
    parseBlockStatement (n + 1 + 1) p = parseBlockStatement (n + 1) p := by
  rw [parseBlockStatement] at h
  conv_lhs => rw [parseBlockStatement]
  conv_rhs => rw [parseBlockStatement]
  (repeat' split at h) <;> simp_all

/-- One more unit of fuel leaves a settled result of `parseBlockStatementLoop` unchanged, given
the same of the functions it calls. -/
theorem parseBlockStatementLoop_step (n : Nat)
    (i0 : (∀ p, parseStatement n p ≠ .error .outOfFuel →
      parseStatement (n + 1) p = parseStatement n p))
    (i1 : (∀ statements p, parseBlockStatementLoop n statements p ≠ .error .outOfFuel →
      parseBlockStatementLoop (n + 1) statements p = parseBlockStatementLoop n statements p))
    (statements p : _) (h : parseBlockStatementLoop (n + 1) statements p ≠ .error .outOfFuel) :
    parseBlockStatementLoop (n + 1 + 1) statements p =
      parseBlockStatementLoop (n + 1) statements p := by
  rw [parseBlockStatementLoop] at h
  conv_lhs => rw [parseBlockStatementLoop]
  conv_rhs => rw [parseBlockStatementLoop]
  by_cases hc : (!p.currentTokenIs .Rbrace && !p.currentTokenIs .Eof) = true
  · rw [if_pos hc] at h ⊢
    rw [if_pos hc]
    (repeat' split at h) <;> (try simp only [] at h ⊢) <;> simp_all
  · rw [if_neg hc, if_neg hc]

/-- Fuel monotonicity of the mutually recursive parsing functions: a result
other than running out of fuel is the result at every larger fuel. -/
theorem parse_mono (fuel : Nat) :
    (∀ p, parseStatement fuel p ≠ .error .outOfFuel →
      parseStatement (fuel + 1) p = parseStatement fuel p) ∧
    (∀ p, parseLetStatement fuel p ≠ .error .outOfFuel →
      parseLetStatement (fuel + 1) p = parseLetStatement fuel p) ∧
    (∀ p, parseReturnStatement fuel p ≠ .error .outOfFuel →
      parseReturnStatement (fuel + 1) p = parseReturnStatement fuel p) ∧
    (∀ p, parseExpressionStatement fuel p ≠ .error .outOfFuel →
      parseExpressionStatement (fuel + 1) p = parseExpressionStatement fuel p) ∧
    (∀ prec p, parseExpression fuel prec p ≠ .error .outOfFuel →
      parseExpression (fuel + 1) prec p = parseExpression fuel prec p) ∧
    (∀ prec left p, parseExpressionLoop fuel prec left p ≠ .error .outOfFuel →
      parseExpressionLoop (fuel + 1) prec left p = parseExpressionLoop fuel prec left p) ∧
    (∀ p, parseGroupedExpression fuel p ≠ .error .outOfFuel →
      parseGroupedExpression (fuel + 1) p = parseGroupedExpression fuel p) ∧
    (∀ p, parsePrefixExpression fuel p ≠ .error .outOfFuel →
      parsePrefixExpression (fuel + 1) p = parsePrefixExpression fuel p) ∧
    (∀ left p, parseInfixExpression fuel left p ≠ .error .outOfFuel →
      parseInfixExpression (fuel + 1) left p = parseInfixExpression fuel left p) ∧
    (∀ p, parseIfExpression fuel p ≠ .error .outOfFuel →
      parseIfExpression (fuel + 1) p = parseIfExpression fuel p) ∧
    (∀ p, parseFunction fuel p ≠ .error .outOfFuel →
      parseFunction (fuel + 1) p = parseFunction fuel p) ∧
    (∀ function p, parseCallExpression fuel function p ≠ .error .outOfFuel →
      parseCallExpression (fuel + 1) function p = parseCallExpression fuel function p) ∧
    (∀ arguments p, parseCallArguments fuel arguments p ≠ .error .outOfFuel →
      parseCallArguments (fuel + 1) arguments p = parseCallArguments fuel arguments p) ∧
    (∀ p, parseBlockStatement fuel p ≠ .error .outOfFuel →
      parseBlockStatement (fuel + 1) p = parseBlockStatement fuel p) ∧
    (∀ statements p, parseBlockStatementLoop fuel statements p ≠ .error .outOfFuel →
      parseBlockStatementLoop (fuel + 1) statements p =
        parseBlockStatementLoop fuel statements p) := by
  induction fuel with
  | zero =>
    simp [parseStatement, parseLetStatement, parseReturnStatement, parseExpressionStatement,
      parseExpression, parseExpressionLoop, parseGroupedExpression, parsePrefixExpression,
      parseInfixExpression, parseIfExpression, parseFunction, parseCallExpression,
      parseCallArguments, parseBlockStatement, parseBlockStatementLoop]
  | succ n ih =>
    obtain ⟨h1, h2, h3, h4, h5, h6, h7, h8, h9, h10, h11, h12, h13, h14, h15⟩ := ih
    exact ⟨parseStatement_step n h2 h3 h4,
      parseLetStatement_step n h5,
      parseReturnStatement_step n h5,
      parseExpressionStatement_step n h5,
      parseExpression_step n h8 h7 h10 h11 h6,
      parseExpressionLoop_step n h9 h12 h6,
      parseGroupedExpression_step n h5,
      parsePrefixExpression_step n h5,
      parseInfixExpression_step n h5,
      parseIfExpression_step n h5 h14,
      parseFunction_step n h14,
      parseCallExpression_step n h5 h13,
      parseCallArguments_step n h5 h13,
      parseBlockStatement_step n h15,
      parseBlockStatementLoop_step n h1 h15⟩

/-- One more unit of fuel leaves a settled result of the statement loop of
`Parse` unchanged. -/
theorem parseLoop_mono (fuel : Nat) :
    ∀ statements p, parseLoop fuel statements p ≠ .error .outOfFuel →
      parseLoop (fuel + 1) statements p = parseLoop fuel statements p := by
  induction fuel with
  | zero => intro statements p h; simp [parseLoop] at h
  | succ n ih =>
    intro statements p h
    have hs := (parse_mono n).1
    rw [parseLoop] at h
    conv_lhs => rw [parseLoop]
    conv_rhs => rw [parseLoop]
    by_cases hc : (p.currentToken.Typ != .Eof) = true
    · rw [if_pos hc] at h ⊢
      rw [if_pos hc]
      (repeat' split at h) <;> simp_all
    · rw [if_neg hc, if_neg hc]

theorem parseProgram_mono (fuel : Nat) (p : Parser)
    (h : parseProgram fuel p ≠ .error .outOfFuel) :
    parseProgram (fuel + 1) p = parseProgram fuel p := by
  have hl := parseLoop_mono fuel [.nil, .nil] p
  unfold parseProgram at h ⊢
  (repeat' split at h) <;> simp_all

/-- A result of `parseSource` other than running out of fuel is its result at
every larger fuel. -/
theorem parseSource_mono (fuel : Nat) (src : List Nat)
    (h : parseSource fuel src ≠ .error .outOfFuel) (extra : Nat) :
    parseSource (fuel + extra) src = parseSource fuel src := by
  induction extra with
  | zero => rfl
  | succ k ih =>
    rw [← ih] at h
    rw [← ih, ← Nat.add_assoc]
    unfold parseSource at h ⊢
    cases hp : NewParser (NewLexer src) with
    | error f => rfl
    | ok parser =>
      rw [hp] at h
      simp only [] at h ⊢
      have hm := parseProgram_mono (fuel + k) parser
      (repeat' split at h) <;> simp_all

theorem Parse_mono (fuel : Nat) (p : Parser)
    (h : Parse fuel p ≠ .error .outOfFuel) :
    Parse (fuel + 1) p = Parse fuel p := by
  have hm := parseProgram_mono fuel p
  unfold Parse at h ⊢
  cases hpp : parseProgram fuel p with
  | error f =>
    rw [hpp] at h hm
    rw [hm (by simpa using h)]
  | ok r =>
    rw [hpp] at hm
    rw [hm (by simp)]

/-- A result of `ParseSource` other than running out of fuel is its result at
every larger fuel. -/
theorem ParseSource_mono (fuel : Nat) (src : List Nat)
    (h : ParseSource fuel src ≠ .error .outOfFuel) (extra : Nat) :
    ParseSource (fuel + extra) src = ParseSource fuel src := by
  induction extra with
  | zero => rfl
  | succ k ih =>
    rw [← ih] at h
    rw [← ih, ← Nat.add_assoc]
    unfold ParseSource at h ⊢
    cases hp : NewParser (NewLexer src) with
    | error f => rfl
    | ok parser =>
      rw [hp] at h
      simp only [] at h ⊢
      have hm := Parse_mono (fuel + k) parser
      (repeat' split at h) <;> simp_all

/-- A result of `renderSource` other than running out of fuel is its result
at every larger fuel. -/
theorem renderSource_mono (fuel : Nat) (src : List Nat)
    (h : renderSource fuel src ≠ .error .outOfFuel) (extra : Nat) :
    renderSource (fuel + extra) src = renderSource fuel src := by
  have hm := parseSource_mono fuel src
  unfold renderSource at h ⊢
  (repeat' split at h) <;> simp_all

theorem parseSource_add {fuel : Nat} {src : List Nat}
    {r : List Statement × List ParseError} (h : parseSource fuel src = .ok r) (extra : Nat) :
    parseSource (fuel + extra) src = .ok r := by
  rw [parseSource_mono fuel src (by rw [h]; simp) extra, h]

theorem ParseSource_add {fuel : Nat} {src : List Nat} {r : List Statement}
    (h : ParseSource fuel src = .ok r) (extra : Nat) :
    ParseSource (fuel + extra) src = .ok r := by
  rw [ParseSource_mono fuel src (by rw [h]; simp) extra, h]

theorem renderSource_add {fuel : Nat} {src : List Nat}
    {r : List (Option (List Nat)) × List ParseError} (h : renderSource fuel src = .ok r)
    (extra : Nat) : renderSource (fuel + extra) src = .ok r := by
  rw [renderSource_mono fuel src (by rw [h]; simp) extra, h]

/-! ## C1: precedence grouping -/

theorem C1_source (a b c : Atom) (o1 o2 : TokenType)
    (ha : lexable a.token = true) (hb : lexable b.token = true) (hc : lexable c.token = true)
    (h1 : o1.isBinary = true) (h2 : o2.isBinary = true) (fuel : Nat) (hf : 11 ≤ fuel) :
    parseSource fuel (a.text ++ [32] ++ o1.token.Literal ++ [32] ++ b.text ++ [32] ++
        o2.token.Literal ++ [32] ++ c.text) =
      .ok ([.nil, .nil, .ExpressionStatement c.token
        (if precedenceOf o1 < precedenceOf o2 then
          o1.infixNode a.expr (o2.infixNode b.expr c.expr)
        else o2.infixNode (o1.infixNode a.expr b.expr) c.expr)],
        a.errors ++ b.errors ++ c.errors) := by
  obtain ⟨m, rfl⟩ : ∃ m, fuel = m + 9 + 2 := ⟨fuel - 11, by omega⟩
  have hy := yields_sourceOf
    [([], a.token), ([32], o1.token), ([32], b.token), ([32], o2.token), ([32], c.token)] [] []
    (by simp [separated, sourceOf, ha, hb, hc, lexable_binary h1, lexable_binary h2,
      canFollow_space, canFollow_atom_none, isSpace])
  rw [← NewLexer_eq] at hy
  have hsrc : sourceOf [([], a.token), ([32], o1.token), ([32], b.token), ([32], o2.token),
      ([32], c.token)] [] = a.text ++ [32] ++ o1.token.Literal ++ [32] ++ b.text ++ [32] ++
        o2.token.Literal ++ [32] ++ c.text := by
    simp [sourceOf, Atom.text]
  rw [hsrc] at hy
  exact parseSource_single _ _ _ _ _ _ _ hy (atom_not_eof a) (C1_tokens a b c o1 o2 h1 h2 m)

/-- C1 (as amended).  For all atoms `a`, `b`, `c` (identifiers or integer
literals) and all binary operators `o1`, `o2`, parsing `a o1 b o2 c` yields
`Infix(a, o1, Infix(b, o2, c))` when the table precedence of `o2` is strictly
greater than that of `o1` and `Infix(Infix(a, o1, b), o2, c)` otherwise, and
the errors recorded are exactly those of the integer rule on `a`, `b`, `c`:
none when `ParseInt` accepts every integer literal among them.  The statement
carries the token of `c`, the token current when the expression has been
parsed.  In particular
`a + b * c` renders `(a+(b*c))` and `1 < 2 == 3 > 4` renders
`((1<2)==(3>4))`, both without error, at every fuel from 11 and 15 on. -/
theorem C1_precedence_grouping (a b c : Atom) (o1 o2 : TokenType)
    (ha : lexable a.token = true) (hb : lexable b.token = true) (hc : lexable c.token = true)
    (h1 : o1.isBinary = true) (h2 : o2.isBinary = true) (fuel : Nat) (hf : 11 ≤ fuel) :
    parseSource fuel (a.text ++ [32] ++ o1.token.Literal ++ [32] ++ b.text ++ [32] ++
        o2.token.Literal ++ [32] ++ c.text) =
      .ok ([.nil, .nil, .ExpressionStatement c.token
        (if precedenceOf o1 < precedenceOf o2 then
          o1.infixNode a.expr (o2.infixNode b.expr c.expr)
        else o2.infixNode (o1.infixNode a.expr b.expr) c.expr)],
        a.errors ++ b.errors ++ c.errors) ∧
    (∀ extra : Nat, renderSource (11 + extra) (bytes "a + b * c") =
      .ok ([some (bytes "(a+(b*c))")], [])) ∧
    (∀ extra : Nat, renderSource (15 + extra) (bytes "1 < 2 == 3 > 4") =
      .ok ([some (bytes "((1<2)==(3>4))")], [])) :=
  ⟨C1_source a b c o1 o2 ha hb hc h1 h2 fuel hf, renderSource_add (by decide!),
    renderSource_add (by decide!)⟩

/-- C1, witness: the theorem at `x + 7 * y`. -/
theorem C1_precedence_grouping_witness :
    lexable (Atom.ident (bytes "x")).token = true ∧ lexable (Atom.int (bytes "7")).token = true ∧
    lexable (Atom.ident (bytes "y")).token = true ∧ TokenType.Plus.isBinary = true ∧
    TokenType.Asterisk.isBinary = true ∧ 11 ≤ 11 ∧
    parseSource 11 (bytes "x + 7 * y") =
      .ok ([.nil, .nil, .ExpressionStatement ⟨.Ident, bytes "y"⟩
        (TokenType.Plus.infixNode (Atom.ident (bytes "x")).expr
          (TokenType.Asterisk.infixNode (Atom.int (bytes "7")).expr
            (Atom.ident (bytes "y")).expr))], []) :=
  ⟨by decide, by decide, by decide, by decide, by decide, by decide,
    (C1_precedence_grouping (.ident (bytes "x")) (.int (bytes "7")) (.ident (bytes "y"))
      .Plus .Asterisk (by decide) (by decide) (by decide) (by decide) (by decide) 11
      (by decide)).1⟩

/-- C1, counterexample to the claim as stated: the atoms of
`99999999999999999999 + b * c` are an integer literal and two identifiers,
and parsing it records an error. -/
theorem C1_counterexample :
    lexable (Atom.int (bytes "99999999999999999999")).token = true ∧
    (parseSource 11 (bytes "99999999999999999999 + b * c")).map Prod.snd =
      .ok [.couldNotParse ⟨.Int, bytes "99999999999999999999"⟩] := by
  decide!

/-! ## C2: left associativity -/

theorem C2_source (a : Atom) (rest : List (TokenType × Atom)) (k : Nat)
    (ha : lexable a.token = true)
    (hb : ∀ ob ∈ rest, ob.1.isBinary = true ∧ precedenceOf ob.1 = k ∧
      lexable ob.2.token = true)
    (fuel : Nat) (hf : rest.length + 7 ≤ fuel) :
    parseSource fuel (a.text ++ chainText rest) =
      .ok ([.nil, .nil,
        .ExpressionStatement ((chainTokens rest).getLastD a.token) (leftNested a.expr rest)],
        atomErrors (a :: rest.map Prod.snd)) := by
  obtain ⟨m, rfl⟩ : ∃ m, fuel = m + 2 := ⟨fuel - 2, by omega⟩
  obtain ⟨ps, hs1, hs2, hs3, hs4⟩ := chain_pieces rest (fun x hx => ⟨(hb x hx).1, (hb x hx).2.2⟩)
  have hcf : canFollow a.token (sourceOf ps []).head? = true := by
    rcases hs4 with h | h <;> rw [h]
    · exact canFollow_atom_none a
    · exact canFollow_space _
  have hy := yields_sourceOf (([], a.token) :: ps) [] []
    (by simp [separated, ha, hcf, hs3])
  rw [← NewLexer_eq] at hy
  simp only [sourceOf, List.nil_append, hs1, List.map_cons, hs2] at hy
  obtain ⟨n, rfl⟩ : ∃ n, m = n + 3 + 1 + 1 := ⟨m - 5, by omega⟩
  have hk : Lowest < (if rest = [] then Lowest + 1 else k) := by
    cases rest with
    | nil => simp
    | cons ob rest =>
      have h1 := (hb ob (by simp)).1
      have h2 := (hb ob (by simp)).2.1
      have := (precedenceOf_binary h1).1
      simp only [reduceCtorEq, if_false]
      omega
  have hb' : ∀ ob ∈ rest, ob.1.isBinary = true ∧
      precedenceOf ob.1 = (if rest = [] then Lowest + 1 else k) := by
    intro ob hob
    have hne : rest ≠ [] := List.ne_nil_of_mem hob
    simp only [hne, if_false]
    exact ⟨(hb ob hob).1, (hb ob hob).2.1⟩
  have hch := triple_chain _ Lowest (le_refl _) hk rest (n + 3) a.expr a.token
    ([] ++ a.errors) hb' (by omega)
  refine parseSource_single _ _ a.token ((chainTokens rest).getLastD a.token) (chainTokens rest)
    _ _ hy (atom_not_eof a) ?_
  apply triple_statement_expression _ _ _ _ _ _ _ _ (atom_not_let a) (atom_not_return a)
  apply triple_expressionStatement _ _ _ _ _ _ _ _ _ (by simp [eofToken])
  apply triple_expr_atom
  simpa [atomErrors] using hch

/-- C2.  For every sequence of atoms `a, a1, ..., an` and binary operators
`o1, ..., on` that all have the same table precedence `k`, parsing
`a o1 a1 o2 a2 ... on an` yields the left-nested tree
`Infix(...Infix(Infix(a, o1, a1), o2, a2)..., on, an)`, in an expression
statement that carries the last token of the chain; `a - b - c` renders
`((a-b)-c)` and the test input `daw+a+add(1,2,3);` renders
`((daw+a)+add(1,2,3))`, at every fuel from 9 and 20 on. -/
theorem C2_left_associativity (a : Atom) (rest : List (TokenType × Atom)) (k : Nat)
    (ha : lexable a.token = true)
    (hb : ∀ ob ∈ rest, ob.1.isBinary = true ∧ precedenceOf ob.1 = k ∧
      lexable ob.2.token = true)
    (fuel : Nat) (hf : rest.length + 7 ≤ fuel) :
    parseSource fuel (a.text ++ chainText rest) =
      .ok ([.nil, .nil,
        .ExpressionStatement ((chainTokens rest).getLastD a.token) (leftNested a.expr rest)],
        atomErrors (a :: rest.map Prod.snd)) ∧
    (∀ extra : Nat, renderSource (9 + extra) (bytes "a - b - c") =
      .ok ([some (bytes "((a-b)-c)")], [])) ∧
    (∀ extra : Nat, renderSource (20 + extra) (bytes "\ndaw+a+add(1,2,3);\n") =
      .ok ([some (bytes "((daw+a)+add(1,2,3))")], [])) :=
  ⟨C2_source a rest k ha hb fuel hf, renderSource_add (by decide!),
    renderSource_add (by decide!)⟩

/-- C2, witness: the theorem at `a - b + c - 4`. -/
theorem C2_left_associativity_witness :
    lexable (Atom.ident (bytes "a")).token = true ∧
    (∀ ob ∈ [(TokenType.Minus, Atom.ident (bytes "b")), (.Plus, .ident (bytes "c")),
        (.Minus, .int (bytes "4"))],
      ob.1.isBinary = true ∧ precedenceOf ob.1 = Sum ∧ lexable ob.2.token = true) ∧
    parseSource 10 (bytes "a - b + c - 4") =
      .ok ([.nil, .nil, .ExpressionStatement ⟨.Int, bytes "4"⟩
        (leftNested (Atom.ident (bytes "a")).expr
          [(.Minus, .ident (bytes "b")), (.Plus, .ident (bytes "c")),
            (.Minus, .int (bytes "4"))])], []) :=
  ⟨by decide, by decide,
    (C2_left_associativity (.ident (bytes "a"))
      [(.Minus, .ident (bytes "b")), (.Plus, .ident (bytes "c")), (.Minus, .int (bytes "4"))]
      Sum (by decide) (by decide) 10 (by decide)).1⟩

/-! ## C3, C4: the lexer at the end of the input -/

/-- C3 (code bug).  `peekChar` guards `input[toReadPos]` with `HasNext`, which
tests `pos`, not `toReadPos`: when the last byte of the input is `=` or `!`
the index is out of range and `NextToken` panics instead of returning a
token. -/
theorem C3_peekChar_out_of_range :
    (NewLexer (bytes "=")).NextToken = none ∧ (NewLexer (bytes "!")).NextToken = none ∧
    lexTokens 3 (NewLexer (bytes "a =")) = [some ⟨.Ident, bytes "a"⟩, none] := by
  decide

/-- C4 (code bug).  On the two-byte input `0x00 'a'` the first `NextToken`
returns the end-of-input token and the second returns the identifier `a`: a
zero byte inside the input is taken for the end-of-input sentinel.  (Past the
last byte of any input the lexer does stay put: `NextToken` returns the
end-of-input token and the same state.) -/
theorem C4_eof_then_identifier :
    lexTokens 3 (NewLexer [0, 97]) =
      [some eofToken, some ⟨.Ident, bytes "a"⟩, some eofToken] ∧
    ∀ s : List Nat, (lexAt s []).NextToken = some (eofToken, lexAt s []) :=
  ⟨by decide, fun s => by simpa using NextToken_lexAt_end s [] (by simp)⟩

/-! ## C5: let and return statements -/

/-- C5 (code bug).  `Parse` on `let x = 5;` and on `return 10;` returns a
program whose statement slice has three entries: the two nil entries of
`make([]Statement, 2)` and then the parsed statement (at every fuel from 5
on). -/
theorem C5_statement_slice_starts_with_two_nils :
    (∀ extra : Nat, ParseSource (5 + extra) (bytes "let x = 5;") =
      .ok [.nil, .nil, .LetStatement ⟨.Let, bytes "let"⟩ ⟨⟨.Ident, bytes "x"⟩, bytes "x"⟩
        (.Integer ⟨.Int, bytes "5"⟩ 5)]) ∧
    (∀ extra : Nat, ParseSource (5 + extra) (bytes "return 10;") =
      .ok [.nil, .nil, .ReturnStatement ⟨.Return, bytes "return"⟩
        (.Integer ⟨.Int, bytes "10"⟩ 10)]) :=
  ⟨ParseSource_add (of_yieldsStatements (by decide!)),
    ParseSource_add (of_yieldsStatements (by decide!))⟩

/-! ## C6: function literals -/

/-- C6 (code bug).  On `fn() { }` the function rule does not step over the
`)` of the empty parameter list, so its check for `{` fails: it records
`expected next token is {, but got )` and returns nil, and the three tokens
left over become three more failed expression statements.  With parameters
(`fn(x, y) { x + y; }`) the rule yields the function literal.  Each
expression statement carries the token on which its expression ended: `(` for
the failed function literal, `}` for the parsed one.  Both hold at every fuel
from 7 and 14 on. -/
theorem C6_empty_parameter_list_rejected :
    (∀ extra : Nat, parseSource (7 + extra) (bytes "fn() \x7b \x7d") =
      .ok ([.nil, .nil,
          .ExpressionStatement ⟨.Lparen, bytes "("⟩ .nil,
          .ExpressionStatement ⟨.Rparen, bytes ")"⟩ .nil,
          .ExpressionStatement ⟨.Lbrace, bytes "\x7b"⟩ .nil,
          .ExpressionStatement ⟨.Rbrace, bytes "\x7d"⟩ .nil],
        [.expectedNext .Lbrace .Rparen, .noPrefixFound .Rparen, .noPrefixFound .Lbrace,
          .noPrefixFound .Rbrace])) ∧
    (∀ extra : Nat, parseSource (14 + extra) (bytes "fn(x, y) \x7b x + y; \x7d") =
      .ok ([.nil, .nil,
          .ExpressionStatement ⟨.Rbrace, bytes "\x7d"⟩
            (.Function ⟨.Function, bytes "fn"⟩
              [⟨⟨.Ident, bytes "x"⟩, bytes "x"⟩, ⟨⟨.Ident, bytes "y"⟩, bytes "y"⟩]
              (.mk ⟨.Lbrace, bytes "\x7b"⟩
                [.ExpressionStatement ⟨.Ident, bytes "y"⟩
                  (TokenType.Plus.infixNode (Atom.ident (bytes "x")).expr
                    (Atom.ident (bytes "y")).expr)]))],
        [])) :=
  ⟨parseSource_add (of_yieldsResult (by decide!)),
    parseSource_add (of_yieldsResult (by decide!))⟩

/-! ## C7: call arguments -/

theorem canFollow_fixed (k : TokenType) (next : Option Nat)
    (h : k = .Lparen ∨ k = .Rparen ∨ k = .Lbrace ∨ k = .Rbrace ∨ k = .Comma ∨
      k = .Semicolon) : canFollow k.token next = true := by
  rcases h with h | h | h | h | h | h <;> subst h <;> rfl

theorem C7_tokens (f : List Nat) (arguments : List Atom) (fuel : Nat)
    (hf : arguments.length + 8 ≤ fuel) :
    Triple (parseStatement fuel) (Atom.ident f).token
      (TokenType.Lparen.token :: argumentTokens arguments) []
      (.ExpressionStatement TokenType.Rparen.token
        (.CallExpression TokenType.Lparen.token (Atom.ident f).expr
          (arguments.map Atom.expr)))
      TokenType.Rparen.token [] (atomErrors arguments) := by
  obtain ⟨m, rfl⟩ : ∃ m, fuel = m + 1 + 1 + 1 + 1 + 1 := ⟨fuel - 5, by omega⟩
  have hcall := triple_call_atoms (Atom.ident f).expr arguments [] [] (m + 1) (by omega)
  simp only [List.append_nil, List.nil_append] at hcall
  apply triple_statement_expression _ _ _ _ _ _ _ _ (by simp [Atom.token]) (by simp [Atom.token])
  apply triple_expressionStatement _ _ _ _ _ _ _ _ _ (by simp [eofToken])
  apply triple_expr_atom
  exact triple_loop_call (m + 1) Lowest _ _ _ _ TokenType.Lparen.token _ _ _ _ _ _ _ _ rfl
    (by decide) hcall (triple_loop_stop _ _ _ _ _ _ (not_lt_end _ (le_refl _)))

theorem C7_source (f : List Nat) (arguments : List Atom)
    (hf : lexable (Atom.ident f).token = true)
    (ha : ∀ e ∈ arguments, lexable e.token = true) (fuel : Nat)
    (hfuel : arguments.length + 9 ≤ fuel) :
    parseSource fuel (f ++ [40] ++ argumentText arguments) =
      .ok ([.nil, .nil, .ExpressionStatement TokenType.Rparen.token
        (.CallExpression TokenType.Lparen.token (Atom.ident f).expr
          (arguments.map Atom.expr))], atomErrors arguments) := by
  obtain ⟨m, rfl⟩ : ∃ m, fuel = m + 2 := ⟨fuel - 2, by omega⟩
  have hl1 : lexable TokenType.Lparen.token = true := rfl
  have hl2 : lexable TokenType.Rparen.token = true := rfl
  have hc1 : ∀ n, canFollow TokenType.Lparen.token n = true := fun _ => rfl
  have hc2 : ∀ n, canFollow TokenType.Rparen.token n = true := fun _ => rfl
  have hc3 : canFollow (Atom.ident f).token (some 40) = true := rfl
  have ht1 : TokenType.Lparen.token.Literal = [40] := rfl
  have hy : Yields (NewLexer (f ++ [40] ++ argumentText arguments))
      ((Atom.ident f).token :: TokenType.Lparen.token :: argumentTokens arguments) := by
    rw [NewLexer_eq]
    cases arguments with
    | nil =>
      have := yields_sourceOf [([], (Atom.ident f).token), ([], TokenType.Lparen.token),
        ([], TokenType.Rparen.token)] [] [] (by
          simp [separated, sourceOf, hf, hl1, hl2, hc1, hc2, hc3, ht1])
      simpa [sourceOf, argumentText, argumentTokens, Atom.token, TokenType.token, spelling]
        using this
    | cons e rest =>
      obtain ⟨ps, h1, h2, h3, h4⟩ := comma_pieces rest (fun x hx => ha x (by simp [hx]))
      have he := ha e (by simp)
      have hcf : canFollow e.token (sourceOf ps []).head? = true := by
        rcases h4 with h | h <;> rw [h] <;> exact canFollow_atom_of _ _ (by rfl) (by rfl)
      have := yields_sourceOf (([], (Atom.ident f).token) :: ([], TokenType.Lparen.token) ::
        ([], e.token) :: ps) [] [] (by
          simp [separated, sourceOf, hf, he, hcf, h3, hl1, hc1, hc3, ht1])
      simpa [sourceOf, argumentText, argumentTokens, Atom.token, TokenType.token, spelling,
        h1, h2, Atom.text] using this
  exact parseSource_single m _ _ _ _ _ _ hy (by simp [Atom.token])
    (C7_tokens f arguments (m + 1) (by omega))

/-- C7 (as amended).  For every callee identifier `f` and every list of atoms
`e1 .. en` (`n >= 0`), parsing `f(e1, ..., en)` yields the call expression
with callee `f` and exactly the arguments `e1 .. en` in source order, and the
errors recorded are exactly those of the integer rule on the arguments: none
when `ParseInt` accepts every integer literal among them.  The expression
statement carries the closing `)`, the token current when the call has been
parsed.  Parsing
`add(1, 2 * 3, fn(x){x}(4))` yields, without error, a call with three
arguments, the second an infix `*` expression and the third a call whose
callee is a function literal, at every fuel from 16 on. -/
theorem C7_call_arguments (f : List Nat) (arguments : List Atom)
    (hf : lexable (Atom.ident f).token = true)
    (ha : ∀ e ∈ arguments, lexable e.token = true) (fuel : Nat)
    (hfuel : arguments.length + 9 ≤ fuel) :
    parseSource fuel (f ++ [40] ++ argumentText arguments) =
      .ok ([.nil, .nil, .ExpressionStatement TokenType.Rparen.token
        (.CallExpression TokenType.Lparen.token (Atom.ident f).expr
          (arguments.map Atom.expr))], atomErrors arguments) ∧
    (∀ extra : Nat, parseSource (16 + extra) (bytes "add(1, 2 * 3, fn(x)\x7bx\x7d(4))") =
      .ok ([.nil, .nil,
        .ExpressionStatement ⟨.Rparen, bytes ")"⟩
          (.CallExpression ⟨.Lparen, bytes "("⟩ (Atom.ident (bytes "add")).expr
            [(Atom.int (bytes "1")).expr,
              TokenType.Asterisk.infixNode (Atom.int (bytes "2")).expr
                (Atom.int (bytes "3")).expr,
              .CallExpression ⟨.Lparen, bytes "("⟩
                (.Function ⟨.Function, bytes "fn"⟩ [⟨⟨.Ident, bytes "x"⟩, bytes "x"⟩]
                  (Atom.ident (bytes "x")).block)
                [(Atom.int (bytes "4")).expr]])],
        [])) :=
  ⟨C7_source f arguments hf ha fuel hfuel, parseSource_add (of_yieldsResult (by decide!))⟩

/-- C7, witness: the theorem at `f(x, 2, y)`, and at `f()`. -/
theorem C7_call_arguments_witness :
    lexable (Atom.ident (bytes "f")).token = true ∧
    (∀ e ∈ [Atom.ident (bytes "x"), .int (bytes "2"), .ident (bytes "y")],
      lexable e.token = true) ∧
    parseSource 12 (bytes "f(x, 2, y)") =
      .ok ([.nil, .nil, .ExpressionStatement ⟨.Rparen, bytes ")"⟩
        (.CallExpression ⟨.Lparen, bytes "("⟩ (Atom.ident (bytes "f")).expr
          [(Atom.ident (bytes "x")).expr, (Atom.int (bytes "2")).expr,
            (Atom.ident (bytes "y")).expr])], []) ∧
    parseSource 9 (bytes "f()") =
      .ok ([.nil, .nil, .ExpressionStatement ⟨.Rparen, bytes ")"⟩
        (.CallExpression ⟨.Lparen, bytes "("⟩ (Atom.ident (bytes "f")).expr [])], []) :=
  ⟨by decide, by decide,
    (C7_call_arguments (bytes "f") [.ident (bytes "x"), .int (bytes "2"), .ident (bytes "y")]
      (by decide) (by decide) 12 (by decide)).1,
    (C7_call_arguments (bytes "f") [] (by decide) (by decide) 9 (by decide)).1⟩

/-- C7, counterexample to the claim as stated: the argument of
`f(99999999999999999999)` is an integer literal, and parsing the call records
an error. -/
theorem C7_counterexample :
    lexable (Atom.int (bytes "99999999999999999999")).token = true ∧
    (parseSource 10 (bytes "f(99999999999999999999)")).map Prod.snd =
      .ok [.couldNotParse ⟨.Int, bytes "99999999999999999999"⟩] := by
  decide!

/-! ## C8: conditionals -/

theorem atom_not_rbrace (a : Atom) : a.token.Typ ≠ .Rbrace := by cases a <;> simp [Atom.token]

theorem not_lowest_lt (t : Token) (ts : List Token) (h : Precedences t.Typ = none) :
    ¬ Lowest < precedenceOf ((t :: ts).headD eofToken).Typ := by
  simp [precedenceOf, h]

theorem triple_block_atom (s : Atom) (ts : List Token) (es : List ParseError) (fuel : Nat)
    (hf : 6 ≤ fuel) :
    Triple (parseBlockStatement fuel) TokenType.Lbrace.token
      (s.token :: TokenType.Rbrace.token :: ts) es s.block TokenType.Rbrace.token ts
      (es ++ s.errors) := by
  obtain ⟨m, rfl⟩ : ∃ m, fuel = m + 2 + 1 + 1 + 1 + 1 := ⟨fuel - 6, by omega⟩
  have hatom := triple_atom m Lowest s (TokenType.Rbrace.token :: ts) es
    (not_lowest_lt _ _ rfl)
  have hstmt := triple_statement_expression _ _ _ _ _ _ _ _ (atom_not_let s)
    (atom_not_return s)
    (triple_expressionStatement _ _ _ _ _ _ _ _ hatom (by simp [TokenType.token]))
  have hstop := triple_blockLoop_stop (m + 3)
    [Statement.ExpressionStatement s.token s.expr] TokenType.Rbrace.token ts (es ++ s.errors)
    (Or.inl rfl)
  have hloop := triple_blockLoop_step (m + 2 + 1 + 1) [] _ _ s.token s.token
    TokenType.Rbrace.token _ _ ts _ es _ _ (atom_not_rbrace s) (atom_not_eof s) (by simp)
    hstmt hstop
  exact triple_block _ _ TokenType.Lbrace.token _ _ _ _ _ _ hloop

theorem C8_tokens (c s : Atom) (fuel : Nat) (hf : 10 ≤ fuel) :
    Triple (parseStatement fuel) TokenType.If.token
      [TokenType.Lparen.token, c.token, TokenType.Rparen.token, TokenType.Lbrace.token,
        s.token, TokenType.Rbrace.token] []
      (.ExpressionStatement TokenType.Rbrace.token (.IfExpression none c.expr s.block none))
      TokenType.Rbrace.token [] (c.errors ++ s.errors) := by
  obtain ⟨m, rfl⟩ : ∃ m, fuel = m + 6 + 1 + 1 + 1 + 1 := ⟨fuel - 10, by omega⟩
  have hcond := triple_atom (m + 4) Lowest c
    [TokenType.Rparen.token, TokenType.Lbrace.token, s.token, TokenType.Rbrace.token] []
    (not_lowest_lt _ _ rfl)
  have hblock := triple_block_atom s [] ([] ++ c.errors) (m + 6) (by omega)
  have hif := triple_if (m + 6) c.expr s.block TokenType.If.token TokenType.Lparen.token
    c.token c.token TokenType.Rparen.token TokenType.Lbrace.token TokenType.Rbrace.token
    _ _ [] [] _ _ rfl rfl rfl hcond hblock (by simp [eofToken])
  have hexpr := triple_expr_if (m + 6 + 1) Lowest _ _ _ _ _ _ _ _ _ _ _ rfl hif
    (triple_loop_stop _ _ _ _ _ _ (not_lt_end _ (le_refl _)))
  have := triple_statement_expression _ _ _ _ _ _ _ _ (by decide) (by decide)
    (triple_expressionStatement _ _ _ _ _ _ _ _ hexpr (by simp [eofToken]))
  simpa using this

theorem C8_tokens_else (c s t : Atom) (fuel : Nat) (hf : 10 ≤ fuel) :
    Triple (parseStatement fuel) TokenType.If.token
      [TokenType.Lparen.token, c.token, TokenType.Rparen.token, TokenType.Lbrace.token,
        s.token, TokenType.Rbrace.token, TokenType.Else.token, TokenType.Lbrace.token,
        t.token, TokenType.Rbrace.token] []
      (.ExpressionStatement TokenType.Rbrace.token
        (.IfExpression none c.expr s.block (some t.block)))
      TokenType.Rbrace.token [] (c.errors ++ s.errors ++ t.errors) := by
  obtain ⟨m, rfl⟩ : ∃ m, fuel = m + 6 + 1 + 1 + 1 + 1 := ⟨fuel - 10, by omega⟩
  have hcond := triple_atom (m + 4) Lowest c
    [TokenType.Rparen.token, TokenType.Lbrace.token, s.token, TokenType.Rbrace.token,
      TokenType.Else.token, TokenType.Lbrace.token, t.token, TokenType.Rbrace.token] []
    (not_lowest_lt _ _ rfl)
  have hblock := triple_block_atom s
    [TokenType.Else.token, TokenType.Lbrace.token, t.token, TokenType.Rbrace.token]
    ([] ++ c.errors) (m + 6) (by omega)
  have hblock2 := triple_block_atom t [] ([] ++ c.errors ++ s.errors) (m + 6) (by omega)
  have hif := triple_if_else (m + 6) c.expr s.block t.block TokenType.If.token
    TokenType.Lparen.token c.token c.token TokenType.Rparen.token TokenType.Lbrace.token
    TokenType.Rbrace.token TokenType.Else.token TokenType.Lbrace.token TokenType.Rbrace.token
    _ _ _ [] [] _ _ _ rfl rfl rfl rfl rfl hcond hblock hblock2
  have hexpr := triple_expr_if (m + 6 + 1) Lowest _ _ _ _ _ _ _ _ _ _ _ rfl hif
    (triple_loop_stop _ _ _ _ _ _ (not_lt_end _ (le_refl _)))
  have := triple_statement_expression _ _ _ _ _ _ _ _ (by decide) (by decide)
    (triple_expressionStatement _ _ _ _ _ _ _ _ hexpr (by simp [eofToken]))
  simpa using this

theorem canFollow_binary {k : TokenType} (h : k.isBinary = true) (next : Option Nat) :
    canFollow k.token next = true := by
  rcases isBinary_cases h with h | h | h | h | h | h | h | h <;> subst h <;> rfl

theorem isPrefixOperator_cases {k : TokenType} (h : k.isPrefixOperator = true) :
    k = .Bang ∨ k = .Minus := by
  cases k <;> simp_all [TokenType.isPrefixOperator, prefixExprResolvers]

theorem lexable_prefixOperator {k : TokenType} (h : k.isPrefixOperator = true) :
    lexable k.token = true := by
  rcases isPrefixOperator_cases h with h | h <;> subst h <;> rfl

theorem C8_source (c s t : Atom) (hc : lexable c.token = true) (hs : lexable s.token = true)
    (ht : lexable t.token = true) (fuel : Nat) (hf : 12 ≤ fuel) :
    parseSource fuel (bytes "if (" ++ c.text ++ bytes ") \x7b " ++ s.text ++ bytes " \x7d") =
      .ok ([.nil, .nil, .ExpressionStatement TokenType.Rbrace.token
        (.IfExpression none c.expr s.block none)], c.errors ++ s.errors) ∧
    parseSource fuel (bytes "if (" ++ c.text ++ bytes ") \x7b " ++ s.text ++
        bytes " \x7d else \x7b " ++ t.text ++ bytes " \x7d") =
      .ok ([.nil, .nil, .ExpressionStatement TokenType.Rbrace.token
        (.IfExpression none c.expr s.block (some t.block))],
        c.errors ++ s.errors ++ t.errors) := by
  obtain ⟨m, rfl⟩ : ∃ m, fuel = m + 2 := ⟨fuel - 2, by omega⟩
  have b1 : bytes "if (" = [105, 102, 32, 40] := by decide
  have b2 : bytes ") \x7b " = [41, 32, 123, 32] := by decide
  have b3 : bytes " \x7d" = [32, 125] := by decide
  have b4 : bytes " \x7d else \x7b " = [32, 125, 32, 101, 108, 115, 101, 32, 123, 32] := by
    decide
  have t1 : TokenType.If.token.Literal = [105, 102] := by decide
  have t2 : TokenType.Lparen.token.Literal = [40] := rfl
  have t3 : TokenType.Rparen.token.Literal = [41] := rfl
  have t4 : TokenType.Lbrace.token.Literal = [123] := rfl
  have t5 : TokenType.Rbrace.token.Literal = [125] := rfl
  have t6 : TokenType.Else.token.Literal = [101, 108, 115, 101] := by decide
  have l1 : lexable TokenType.If.token = true := by decide
  have l2 : lexable TokenType.Lparen.token = true := rfl
  have l3 : lexable TokenType.Rparen.token = true := rfl
  have l4 : lexable TokenType.Lbrace.token = true := rfl
  have l5 : lexable TokenType.Rbrace.token = true := rfl
  have l6 : lexable TokenType.Else.token = true := by decide
  have f2 : ∀ n, canFollow TokenType.Lparen.token n = true := fun _ => rfl
  have f3 : ∀ n, canFollow TokenType.Rparen.token n = true := fun _ => rfl
  have f4 : ∀ n, canFollow TokenType.Lbrace.token n = true := fun _ => rfl
  have f5 : ∀ n, canFollow TokenType.Rbrace.token n = true := fun _ => rfl
  have fc : canFollow c.token (some 41) = true := canFollow_atom_of _ _ (by rfl) (by rfl)
  constructor
  · have hy := yields_sourceOf [([], TokenType.If.token), ([32], TokenType.Lparen.token),
      ([], c.token), ([], TokenType.Rparen.token), ([32], TokenType.Lbrace.token),
      ([32], s.token), ([32], TokenType.Rbrace.token)] [] []
      (by simp [separated, sourceOf, hc, hs, l1, l2, l3, l4, l5, f2, f3, f4, f5, fc, t3,
        canFollow_space, isSpace])
    rw [← NewLexer_eq] at hy
    have hsrc : sourceOf [([], TokenType.If.token), ([32], TokenType.Lparen.token),
        ([], c.token), ([], TokenType.Rparen.token), ([32], TokenType.Lbrace.token),
        ([32], s.token), ([32], TokenType.Rbrace.token)] [] =
        bytes "if (" ++ c.text ++ bytes ") \x7b " ++ s.text ++ bytes " \x7d" := by
      simp [sourceOf, Atom.text, b1, b2, b3, t1, t2, t3, t4, t5]
    rw [hsrc] at hy
    exact parseSource_single m _ _ _ _ _ _ hy (by decide) (C8_tokens c s (m + 1) (by omega))
  · have hy := yields_sourceOf [([], TokenType.If.token), ([32], TokenType.Lparen.token),
      ([], c.token), ([], TokenType.Rparen.token), ([32], TokenType.Lbrace.token),
      ([32], s.token), ([32], TokenType.Rbrace.token), ([32], TokenType.Else.token),
      ([32], TokenType.Lbrace.token), ([32], t.token), ([32], TokenType.Rbrace.token)] [] []
      (by simp [separated, sourceOf, hc, hs, ht, l1, l2, l3, l4, l5, l6, f2, f3, f4, f5, fc,
        t3, canFollow_space, isSpace])
    rw [← NewLexer_eq] at hy
    have hsrc : sourceOf [([], TokenType.If.token), ([32], TokenType.Lparen.token),
        ([], c.token), ([], TokenType.Rparen.token), ([32], TokenType.Lbrace.token),
        ([32], s.token), ([32], TokenType.Rbrace.token), ([32], TokenType.Else.token),
        ([32], TokenType.Lbrace.token), ([32], t.token), ([32], TokenType.Rbrace.token)] [] =
        bytes "if (" ++ c.text ++ bytes ") \x7b " ++ s.text ++ bytes " \x7d else \x7b " ++
          t.text ++ bytes " \x7d" := by
      simp [sourceOf, Atom.text, b1, b2, b3, b4, t1, t2, t3, t4, t5, t6]
    rw [hsrc] at hy
    exact parseSource_single m _ _ _ _ _ _ hy (by decide)
      (C8_tokens_else c s t (m + 1) (by omega))

/-- C8 (as amended).  For all atoms `c`, `s`, `t`, parsing `if (c) { s }`
yields an if-expression with condition `c`, a consequence block of exactly
one statement `s` and no alternative, and parsing `if (c) { s } else { t }`
yields the same condition and consequence and an alternative block of exactly
one statement `t`; the errors recorded are exactly those of the integer rule
on `c`, `s`, `t`: none when `ParseInt` accepts every integer literal among
them.  The expression statement carries the closing `}`, the token current
when the if-expression has been parsed. -/
theorem C8_conditional (c s t : Atom) (hc : lexable c.token = true)
    (hs : lexable s.token = true) (ht : lexable t.token = true) (fuel : Nat)
    (hf : 12 ≤ fuel) :
    parseSource fuel (bytes "if (" ++ c.text ++ bytes ") \x7b " ++ s.text ++ bytes " \x7d") =
      .ok ([.nil, .nil, .ExpressionStatement TokenType.Rbrace.token
        (.IfExpression none c.expr s.block none)], c.errors ++ s.errors) ∧
    parseSource fuel (bytes "if (" ++ c.text ++ bytes ") \x7b " ++ s.text ++
        bytes " \x7d else \x7b " ++ t.text ++ bytes " \x7d") =
      .ok ([.nil, .nil, .ExpressionStatement TokenType.Rbrace.token
        (.IfExpression none c.expr s.block (some t.block))],
        c.errors ++ s.errors ++ t.errors) :=
  C8_source c s t hc hs ht fuel hf

/-- C8, witness: the theorem at `if (x) { 1 }` and `if (x) { 1 } else { y }`. -/
theorem C8_conditional_witness :
    lexable (Atom.ident (bytes "x")).token = true ∧
    lexable (Atom.int (bytes "1")).token = true ∧
    lexable (Atom.ident (bytes "y")).token = true ∧
    parseSource 12 (bytes "if (x) \x7b 1 \x7d") =
      .ok ([.nil, .nil, .ExpressionStatement ⟨.Rbrace, bytes "\x7d"⟩
        (.IfExpression none (Atom.ident (bytes "x")).expr (Atom.int (bytes "1")).block
          none)], []) ∧
    parseSource 12 (bytes "if (x) \x7b 1 \x7d else \x7b y \x7d") =
      .ok ([.nil, .nil, .ExpressionStatement ⟨.Rbrace, bytes "\x7d"⟩
        (.IfExpression none (Atom.ident (bytes "x")).expr (Atom.int (bytes "1")).block
          (some (Atom.ident (bytes "y")).block))], []) :=
  ⟨by decide, by decide, by decide,
    (C8_conditional (.ident (bytes "x")) (.int (bytes "1")) (.ident (bytes "y"))
      (by decide) (by decide) (by decide) 12 (by decide)).1,
    (C8_conditional (.ident (bytes "x")) (.int (bytes "1")) (.ident (bytes "y"))
      (by decide) (by decide) (by decide) 12 (by decide)).2⟩

/-- C8, counterexample to the claim as stated: the condition of
`if (99999999999999999999) { s }` is an integer literal, and parsing the
conditional records an error. -/
theorem C8_counterexample :
    lexable (Atom.int (bytes "99999999999999999999")).token = true ∧
    (parseSource 12 (bytes "if (99999999999999999999) \x7b s \x7d")).map Prod.snd =
      .ok [.couldNotParse ⟨.Int, bytes "99999999999999999999"⟩] := by
  decide!

/-! ## C9: grouping -/

theorem not_lt_of_none (n : Nat) (hn : Lowest ≤ n) (t : Token) (ts : List Token)
    (h : Precedences t.Typ = none) :
    ¬ n < precedenceOf ((t :: ts).headD eofToken).Typ := by
  simp only [List.headD_cons, precedenceOf, h]
  omega

theorem C9_tokens_left (a b c : Atom) (o1 o2 : TokenType)
    (h1 : o1.isBinary = true) (h2 : o2.isBinary = true) (fuel : Nat) :
    Triple (parseStatement (fuel + 10)) TokenType.Lparen.token
      [a.token, o1.token, b.token, TokenType.Rparen.token, o2.token, c.token] []
      (.ExpressionStatement c.token
        (o2.infixNode (o1.infixNode a.expr b.expr) c.expr))
      c.token [] (a.errors ++ b.errors ++ c.errors) := by
  have hl1 := (precedenceOf_binary h1).1
  have hl2 := (precedenceOf_binary h2).1
  apply triple_statement_expression _ _ _ _ _ _ _ _ (by decide) (by decide)
  apply triple_expressionStatement _ _ _ _ _ _ _ _ _ (by simp [eofToken])
  refine triple_expr_grouped _ _ (o1.infixNode a.expr b.expr) _ _ TokenType.Rparen.token _ _
    [o2.token, c.token] _ _ ([] ++ a.errors ++ b.errors) _ rfl ?_ ?_
  · refine triple_grouped _ _ _ _ b.token TokenType.Rparen.token _ _ _ _ ?_ rfl
    refine triple_expr_atom _ _ _ _ _ _ _ _ _ ?_
    refine triple_loop_binary _ _ _ (o1.infixNode a.expr b.expr) _ _ _ b.token _ _
      [TokenType.Rparen.token, o2.token, c.token] _ _ ([] ++ a.errors ++ b.errors) _ h1 hl1
      ?_ ?_
    · exact triple_infix_atom _ _ _ _ _ _ (not_lt_of_none _ (le_of_lt hl1) _ _ rfl)
    · exact triple_loop_stop _ _ _ _ _ _ (not_lt_of_none _ (le_refl _) _ _ rfl)
  · refine triple_loop_binary _ _ _ (o2.infixNode (o1.infixNode a.expr b.expr) c.expr) _ _ _
      c.token _ _ [] _ _ ([] ++ a.errors ++ b.errors ++ c.errors) _ h2 hl2 ?_ ?_
    · exact triple_infix_atom _ _ _ _ _ _ (not_lt_end _ (le_of_lt hl2))
    · simp only [List.nil_append, List.append_assoc]
      exact triple_loop_stop _ _ _ _ _ _ (not_lt_end _ (le_refl _))

theorem C9_tokens_right (a b c : Atom) (o1 o2 : TokenType)
    (h1 : o1.isBinary = true) (h2 : o2.isBinary = true) (fuel : Nat) :
    Triple (parseStatement (fuel + 12)) a.token
      [o1.token, TokenType.Lparen.token, b.token, o2.token, c.token, TokenType.Rparen.token]
      []
      (.ExpressionStatement TokenType.Rparen.token
        (o1.infixNode a.expr (o2.infixNode b.expr c.expr)))
      TokenType.Rparen.token [] (a.errors ++ b.errors ++ c.errors) := by
  have hl1 := (precedenceOf_binary h1).1
  have hl2 := (precedenceOf_binary h2).1
  apply triple_statement_expression _ _ _ _ _ _ _ _ (atom_not_let a) (atom_not_return a)
  apply triple_expressionStatement _ _ _ _ _ _ _ _ _ (by simp [eofToken])
  refine triple_expr_atom _ _ _ _ _ _ _ _ _ ?_
  refine triple_loop_binary _ _ _ (o1.infixNode a.expr (o2.infixNode b.expr c.expr)) _ _ _
    TokenType.Rparen.token _ _ [] _ _ ([] ++ a.errors ++ b.errors ++ c.errors) _ h1 hl1 ?_ ?_
  · refine triple_infixExpression _ _ _ _ _ _ _ _ _ _ ?_
    refine triple_expr_grouped _ _ (o2.infixNode b.expr c.expr) _ _ TokenType.Rparen.token _ _
      [] _ _ ([] ++ a.errors ++ b.errors ++ c.errors) _ rfl ?_ ?_
    · refine triple_grouped _ _ _ _ c.token TokenType.Rparen.token _ _ _ _ ?_ rfl
      refine triple_expr_atom _ _ _ _ _ _ _ _ _ ?_
      refine triple_loop_binary _ _ _ (o2.infixNode b.expr c.expr) _ _ _ c.token _ _
        [TokenType.Rparen.token] _ _ ([] ++ a.errors ++ b.errors ++ c.errors) _ h2 hl2 ?_ ?_
      · exact triple_infix_atom _ _ _ _ _ _ (not_lt_of_none _ (le_of_lt hl2) _ _ rfl)
      · exact triple_loop_stop _ _ _ _ _ _ (not_lt_of_none _ (le_refl _) _ _ rfl)
    · exact triple_loop_stop _ _ _ _ _ _ (not_lt_end _ (le_of_lt hl1))
  · simp only [List.nil_append, List.append_assoc]
    exact triple_loop_stop _ _ _ _ _ _ (not_lt_end _ (le_refl _))

theorem C9_source (a b c : Atom) (o1 o2 : TokenType)
    (ha : lexable a.token = true) (hb : lexable b.token = true) (hc : lexable c.token = true)
    (h1 : o1.isBinary = true) (h2 : o2.isBinary = true) (fuel : Nat) (hf : 14 ≤ fuel) :
    parseSource fuel ([40] ++ a.text ++ [32] ++ o1.token.Literal ++ [32] ++ b.text ++ [41] ++
        [32] ++ o2.token.Literal ++ [32] ++ c.text) =
      .ok ([.nil, .nil, .ExpressionStatement c.token
        (o2.infixNode (o1.infixNode a.expr b.expr) c.expr)],
        a.errors ++ b.errors ++ c.errors) ∧
    parseSource fuel (a.text ++ [32] ++ o1.token.Literal ++ [32] ++ [40] ++ b.text ++ [32] ++
        o2.token.Literal ++ [32] ++ c.text ++ [41]) =
      .ok ([.nil, .nil, .ExpressionStatement TokenType.Rparen.token
        (o1.infixNode a.expr (o2.infixNode b.expr c.expr))],
        a.errors ++ b.errors ++ c.errors) := by
  obtain ⟨m, rfl⟩ : ∃ m, fuel = m + 2 := ⟨fuel - 2, by omega⟩
  have t2 : TokenType.Lparen.token.Literal = [40] := rfl
  have t3 : TokenType.Rparen.token.Literal = [41] := rfl
  have l2 : lexable TokenType.Lparen.token = true := rfl
  have l3 : lexable TokenType.Rparen.token = true := rfl
  have f2 : ∀ n, canFollow TokenType.Lparen.token n = true := fun _ => rfl
  have f3 : ∀ n, canFollow TokenType.Rparen.token n = true := fun _ => rfl
  have fb : ∀ x : Atom, canFollow x.token (some 41) = true :=
    fun _ => canFollow_atom_of _ _ (by rfl) (by rfl)
  constructor
  · have hy := yields_sourceOf [([], TokenType.Lparen.token), ([], a.token),
      ([32], o1.token), ([32], b.token), ([], TokenType.Rparen.token), ([32], o2.token),
      ([32], c.token)] [] []
      (by simp [separated, sourceOf, ha, hb, hc, l2, l3, f2, f3, fb, t3, lexable_binary h1,
        lexable_binary h2, canFollow_space, canFollow_atom_none, isSpace])
    rw [← NewLexer_eq] at hy
    have hsrc : sourceOf [([], TokenType.Lparen.token), ([], a.token),
        ([32], o1.token), ([32], b.token), ([], TokenType.Rparen.token), ([32], o2.token),
        ([32], c.token)] [] = [40] ++ a.text ++ [32] ++ o1.token.Literal ++ [32] ++ b.text ++
          [41] ++ [32] ++ o2.token.Literal ++ [32] ++ c.text := by
      simp [sourceOf, Atom.text, t2, t3]
    rw [hsrc] at hy
    exact parseSource_single m _ _ _ _ _ _ hy (by decide)
      (by
        obtain ⟨n, rfl⟩ : ∃ n, m = n + 9 := ⟨m - 9, by omega⟩
        exact C9_tokens_left a b c o1 o2 h1 h2 n)
  · have hy := yields_sourceOf [([], a.token), ([32], o1.token),
      ([32], TokenType.Lparen.token), ([], b.token), ([32], o2.token), ([32], c.token),
      ([], TokenType.Rparen.token)] [] []
      (by simp [separated, sourceOf, ha, hb, hc, l2, l3, f2, f3, fb, t3, lexable_binary h1,
        lexable_binary h2, canFollow_space, canFollow_atom_none, isSpace])
    rw [← NewLexer_eq] at hy
    have hsrc : sourceOf [([], a.token), ([32], o1.token),
        ([32], TokenType.Lparen.token), ([], b.token), ([32], o2.token), ([32], c.token),
        ([], TokenType.Rparen.token)] [] = a.text ++ [32] ++ o1.token.Literal ++ [32] ++ [40] ++
          b.text ++ [32] ++ o2.token.Literal ++ [32] ++ c.text ++ [41] := by
      simp [sourceOf, Atom.text, t2, t3]
    rw [hsrc] at hy
    exact parseSource_single m _ _ _ _ _ _ hy (atom_not_eof a)
      (by
        obtain ⟨n, rfl⟩ : ∃ n, m = n + 11 := ⟨m - 11, by omega⟩
        exact C9_tokens_right a b c o1 o2 h1 h2 n)

/-- C9 (as amended).  For all atoms `a`, `b`, `c` and all binary operators
`o1`, `o2`, whatever their precedences, parsing `(a o1 b) o2 c` yields
`Infix(Infix(a, o1, b), o2, c)` and parsing `a o1 (b o2 c)` yields
`Infix(a, o1, Infix(b, o2, c))`, with no node for the parentheses; the errors
recorded are exactly those of the integer rule on `a`, `b`, `c`: none when
`ParseInt` accepts every integer literal among them.  The expression
statement carries the last token of the source, `c` or `)`.  `(a + b) * c`
renders
`((a+b)*c)` without error, at every fuel from 14 on. -/
theorem C9_grouping (a b c : Atom) (o1 o2 : TokenType)
    (ha : lexable a.token = true) (hb : lexable b.token = true) (hc : lexable c.token = true)
    (h1 : o1.isBinary = true) (h2 : o2.isBinary = true) (fuel : Nat) (hf : 14 ≤ fuel) :
    parseSource fuel ([40] ++ a.text ++ [32] ++ o1.token.Literal ++ [32] ++ b.text ++ [41] ++
        [32] ++ o2.token.Literal ++ [32] ++ c.text) =
      .ok ([.nil, .nil, .ExpressionStatement c.token
        (o2.infixNode (o1.infixNode a.expr b.expr) c.expr)],
        a.errors ++ b.errors ++ c.errors) ∧
    parseSource fuel (a.text ++ [32] ++ o1.token.Literal ++ [32] ++ [40] ++ b.text ++ [32] ++
        o2.token.Literal ++ [32] ++ c.text ++ [41]) =
      .ok ([.nil, .nil, .ExpressionStatement TokenType.Rparen.token
        (o1.infixNode a.expr (o2.infixNode b.expr c.expr))],
        a.errors ++ b.errors ++ c.errors) ∧
    (∀ extra : Nat, renderSource (14 + extra) (bytes "(a + b) * c") =
      .ok ([some (bytes "((a+b)*c)")], [])) :=
  ⟨(C9_source a b c o1 o2 ha hb hc h1 h2 fuel hf).1,
    (C9_source a b c o1 o2 ha hb hc h1 h2 fuel hf).2, renderSource_add (by decide!)⟩

/-- C9, witness: the theorem at `(a + b) * c` and `a * (b + c)`. -/
theorem C9_grouping_witness :
    lexable (Atom.ident (bytes "a")).token = true ∧
    lexable (Atom.ident (bytes "b")).token = true ∧
    lexable (Atom.ident (bytes "c")).token = true ∧
    TokenType.Plus.isBinary = true ∧ TokenType.Asterisk.isBinary = true ∧
    parseSource 14 (bytes "(a + b) * c") =
      .ok ([.nil, .nil, .ExpressionStatement ⟨.Ident, bytes "c"⟩
        (TokenType.Asterisk.infixNode
          (TokenType.Plus.infixNode (Atom.ident (bytes "a")).expr
            (Atom.ident (bytes "b")).expr)
          (Atom.ident (bytes "c")).expr)], []) ∧
    parseSource 14 (bytes "a * (b + c)") =
      .ok ([.nil, .nil, .ExpressionStatement ⟨.Rparen, bytes ")"⟩
        (TokenType.Asterisk.infixNode (Atom.ident (bytes "a")).expr
          (TokenType.Plus.infixNode (Atom.ident (bytes "b")).expr
            (Atom.ident (bytes "c")).expr))], []) :=
  ⟨by decide, by decide, by decide, by decide, by decide,
    (C9_grouping (.ident (bytes "a")) (.ident (bytes "b")) (.ident (bytes "c")) .Plus
      .Asterisk (by decide) (by decide) (by decide) (by decide) (by decide) 14
      (by decide)).1,
    (C9_grouping (.ident (bytes "a")) (.ident (bytes "b")) (.ident (bytes "c")) .Asterisk
      .Plus (by decide) (by decide) (by decide) (by decide) (by decide) 14
      (by decide)).2.1⟩

/-- C9, counterexample to the claim as stated: the first atom of
`(99999999999999999999 + b) * c` is an integer literal, and parsing the
source records an error. -/
theorem C9_counterexample :
    lexable (Atom.int (bytes "99999999999999999999")).token = true ∧
    (parseSource 14 (bytes "(99999999999999999999 + b) * c")).map Prod.snd =
      .ok [.couldNotParse ⟨.Int, bytes "99999999999999999999"⟩] := by
  decide!

/-! ## C10: unary operators -/

theorem C10_tokens_binary (p o : TokenType) (a b : Atom) (hp : p.isPrefixOperator = true)
    (ho : o.isBinary = true) (fuel : Nat) :
    Triple (parseStatement (fuel + 8)) p.token [a.token, o.token, b.token] []
      (.ExpressionStatement b.token (o.infixNode (p.prefixNode a.expr) b.expr))
      b.token [] (a.errors ++ b.errors) := by
  have hl := (precedenceOf_binary ho).1
  have hu := (precedenceOf_binary ho).2
  have hpt : p.token.Typ = .Bang ∨ p.token.Typ = .Minus := isPrefixOperator_cases hp
  have hnl : p.token.Typ ≠ .Let := by rcases hpt with h | h <;> rw [h] <;> decide
  have hnr : p.token.Typ ≠ .Return := by rcases hpt with h | h <;> rw [h] <;> decide
  apply triple_statement_expression _ _ _ _ _ _ _ _ hnl hnr
  apply triple_expressionStatement _ _ _ _ _ _ _ _ _ (by simp [eofToken])
  refine triple_expr_prefixExpression _ _ (p.prefixNode a.expr) _ _ a.token _ _
    [o.token, b.token] _ _ ([] ++ a.errors) _ hpt ?_ ?_
  · refine triple_prefixExpression _ _ _ _ _ _ _ _ _ ?_
    exact triple_atom _ _ _ _ _ (by
      have : precedenceOf ([o.token, b.token].headD eofToken).Typ = precedenceOf o := rfl
      omega)
  · refine triple_loop_binary _ _ _ (o.infixNode (p.prefixNode a.expr) b.expr) _ _ _ b.token
      _ _ [] _ _ ([] ++ a.errors ++ b.errors) _ ho hl ?_ ?_
    · exact triple_infix_atom _ _ _ _ _ _ (not_lt_end _ (le_of_lt hl))
    · simp only [List.nil_append, List.append_assoc]
      exact triple_loop_stop _ _ _ _ _ _ (not_lt_end _ (le_refl _))

theorem C10_tokens_call (p : TokenType) (f : List Nat) (a : Atom)
    (hp : p.isPrefixOperator = true) (fuel : Nat) :
    Triple (parseStatement (fuel + 11)) p.token
      [(Atom.ident f).token, TokenType.Lparen.token, a.token, TokenType.Rparen.token] []
      (.ExpressionStatement TokenType.Rparen.token
        (p.prefixNode (.CallExpression TokenType.Lparen.token (Atom.ident f).expr [a.expr])))
      TokenType.Rparen.token [] a.errors := by
  have hpt : p.token.Typ = .Bang ∨ p.token.Typ = .Minus := isPrefixOperator_cases hp
  have hnl : p.token.Typ ≠ .Let := by rcases hpt with h | h <;> rw [h] <;> decide
  have hnr : p.token.Typ ≠ .Return := by rcases hpt with h | h <;> rw [h] <;> decide
  have hcall := triple_call_atoms (Atom.ident f).expr [a] [] [] (fuel + 5) (by simp)
  simp only [List.append_nil, List.nil_append, argumentTokens, commaTokens, atomErrors,
    List.map_cons, List.map_nil] at hcall
  apply triple_statement_expression _ _ _ _ _ _ _ _ hnl hnr
  apply triple_expressionStatement _ _ _ _ _ _ _ _ _ (by simp [eofToken])
  refine triple_expr_prefixExpression _ _
    (p.prefixNode (.CallExpression TokenType.Lparen.token (Atom.ident f).expr [a.expr]))
    _ _ TokenType.Rparen.token _ _ [] _ _ a.errors _ hpt ?_ ?_
  · refine triple_prefixExpression _ _ _ _ _ _ _ _ _ ?_
    refine triple_expr_atom _ _ (Atom.ident f) _ _ _ _ _ _ ?_
    refine triple_loop_call _ _ _
      (.CallExpression TokenType.Lparen.token (Atom.ident f).expr [a.expr]) _ _ _
      TokenType.Rparen.token _ _ [] _ _ a.errors _ rfl (by decide) ?_ ?_
    · simpa [Atom.errors] using hcall
    · exact triple_loop_stop _ _ _ _ _ _ (not_lt_end _ (by decide))
  · exact triple_loop_stop _ _ _ _ _ _ (not_lt_end _ (le_refl _))

theorem C10_source (p o : TokenType) (f : List Nat) (a b : Atom)
    (hp : p.isPrefixOperator = true) (ho : o.isBinary = true)
    (hf : lexable (Atom.ident f).token = true)
    (ha : lexable a.token = true) (hb : lexable b.token = true) (fuel : Nat)
    (hfuel : 13 ≤ fuel) :
    parseSource fuel (p.token.Literal ++ [32] ++ a.text ++ [32] ++ o.token.Literal ++ [32] ++
        b.text) =
      .ok ([.nil, .nil, .ExpressionStatement b.token
        (o.infixNode (p.prefixNode a.expr) b.expr)], a.errors ++ b.errors) ∧
    parseSource fuel (p.token.Literal ++ [32] ++ f ++ [40] ++ a.text ++ [41]) =
      .ok ([.nil, .nil, .ExpressionStatement TokenType.Rparen.token
        (p.prefixNode (.CallExpression TokenType.Lparen.token (Atom.ident f).expr
          [a.expr]))], a.errors) := by
  obtain ⟨m, rfl⟩ : ∃ m, fuel = m + 11 + 2 := ⟨fuel - 13, by omega⟩
  have t2 : TokenType.Lparen.token.Literal = [40] := rfl
  have t3 : TokenType.Rparen.token.Literal = [41] := rfl
  have l2 : lexable TokenType.Lparen.token = true := rfl
  have l3 : lexable TokenType.Rparen.token = true := rfl
  have f2 : ∀ n, canFollow TokenType.Lparen.token n = true := fun _ => rfl
  have f3 : ∀ n, canFollow TokenType.Rparen.token n = true := fun _ => rfl
  have fb : ∀ x : Atom, canFollow x.token (some 41) = true :=
    fun _ => canFollow_atom_of _ _ (by rfl) (by rfl)
  have ff : canFollow (Atom.ident f).token (some 40) = true := rfl
  have hne : p.token.Typ ≠ .Eof := by
    rcases isPrefixOperator_cases hp with h | h <;> subst h <;> decide
  constructor
  · have hy := yields_sourceOf [([], p.token), ([32], a.token), ([32], o.token),
      ([32], b.token)] [] []
      (by simp [separated, sourceOf, ha, hb, lexable_binary ho, lexable_prefixOperator hp,
        canFollow_space, canFollow_atom_none, isSpace])
    rw [← NewLexer_eq] at hy
    have hsrc : sourceOf [([], p.token), ([32], a.token), ([32], o.token),
        ([32], b.token)] [] = p.token.Literal ++ [32] ++ a.text ++ [32] ++ o.token.Literal ++
          [32] ++ b.text := by
      simp [sourceOf, Atom.text]
    rw [hsrc] at hy
    exact parseSource_single _ _ _ _ _ _ _ hy hne (C10_tokens_binary p o a b hp ho (m + 4))
  · have hy := yields_sourceOf [([], p.token), ([32], (Atom.ident f).token),
      ([], TokenType.Lparen.token), ([], a.token), ([], TokenType.Rparen.token)] [] []
      (by simp [separated, sourceOf, ha, hf, l2, l3, f2, f3, fb, ff, t2, t3,
        lexable_prefixOperator hp, canFollow_space, isSpace])
    rw [← NewLexer_eq] at hy
    have hsrc : sourceOf [([], p.token), ([32], (Atom.ident f).token),
        ([], TokenType.Lparen.token), ([], a.token), ([], TokenType.Rparen.token)] [] =
        p.token.Literal ++ [32] ++ f ++ [40] ++ a.text ++ [41] := by
      simp [sourceOf, Atom.text, Atom.token, t2, t3]
    rw [hsrc] at hy
    exact parseSource_single _ _ _ _ _ _ _ hy hne (C10_tokens_call p f a hp (m + 1))

/-- C10.  For every prefix operator `p` (`!` or `-`), every binary operator
`o`, all atoms `a`, `b` and every identifier `f`, parsing `p a o b` yields
`Infix(Prefix(p, a), o, b)` and parsing `p f(a)` yields
`Prefix(p, Call(f, [a]))`, in an expression statement that carries the last
token of the source, `b` or `)`; `-a * b` renders `((-a)*b)` at every fuel
from 13 on. -/
theorem C10_unary_binding (p o : TokenType) (f : List Nat) (a b : Atom)
    (hp : p.isPrefixOperator = true) (ho : o.isBinary = true)
    (hf : lexable (Atom.ident f).token = true)
    (ha : lexable a.token = true) (hb : lexable b.token = true) (fuel : Nat)
    (hfuel : 13 ≤ fuel) :
    parseSource fuel (p.token.Literal ++ [32] ++ a.text ++ [32] ++ o.token.Literal ++ [32] ++
        b.text) =
      .ok ([.nil, .nil, .ExpressionStatement b.token
        (o.infixNode (p.prefixNode a.expr) b.expr)], a.errors ++ b.errors) ∧
    parseSource fuel (p.token.Literal ++ [32] ++ f ++ [40] ++ a.text ++ [41]) =
      .ok ([.nil, .nil, .ExpressionStatement TokenType.Rparen.token
        (p.prefixNode (.CallExpression TokenType.Lparen.token (Atom.ident f).expr
          [a.expr]))], a.errors) ∧
    (∀ extra : Nat, renderSource (13 + extra) (bytes "-a * b") =
      .ok ([some (bytes "((-a)*b)")], [])) :=
  ⟨(C10_source p o f a b hp ho hf ha hb fuel hfuel).1,
    (C10_source p o f a b hp ho hf ha hb fuel hfuel).2, renderSource_add (by decide!)⟩

/-- C10, witness: the theorem at `! x == 5` and `! g(x)`. -/
theorem C10_unary_binding_witness :
    TokenType.Bang.isPrefixOperator = true ∧ TokenType.Eq.isBinary = true ∧
    lexable (Atom.ident (bytes "g")).token = true ∧
    lexable (Atom.ident (bytes "x")).token = true ∧
    lexable (Atom.int (bytes "5")).token = true ∧
    parseSource 13 (bytes "! x == 5") =
      .ok ([.nil, .nil, .ExpressionStatement ⟨.Int, bytes "5"⟩
        (TokenType.Eq.infixNode (TokenType.Bang.prefixNode (Atom.ident (bytes "x")).expr)
          (Atom.int (bytes "5")).expr)], []) ∧
    parseSource 13 (bytes "! g(x)") =
      .ok ([.nil, .nil, .ExpressionStatement ⟨.Rparen, bytes ")"⟩
        (TokenType.Bang.prefixNode (.CallExpression ⟨.Lparen, bytes "("⟩
          (Atom.ident (bytes "g")).expr [(Atom.ident (bytes "x")).expr]))], []) :=
  ⟨by decide, by decide, by decide, by decide, by decide,
    (C10_unary_binding .Bang .Eq (bytes "g") (.ident (bytes "x")) (.int (bytes "5"))
      (by decide) (by decide) (by decide) (by decide) (by decide) 13 (by decide)).1,
    (C10_unary_binding .Bang .Eq (bytes "g") (.ident (bytes "x")) (.int (bytes "5"))
      (by decide) (by decide) (by decide) (by decide) (by decide) 13 (by decide)).2.1⟩

/-! ## C11: integer literals -/

theorem foldl_digits_ge (base : Nat) (hb : 1 ≤ base) (ds : List Nat) :
    ∀ n : Nat, n ≤ ds.foldl (fun n c => n * base + (c - 48)) n := by
  induction ds with
  | nil => intro n; exact le_refl n
  | cons c rest ih =>
    intro n
    have h1 := ih (n * base + (c - 48))
    have h2 : n ≤ n * base := Nat.le_mul_of_pos_right n hb
    simp only [List.foldl_cons]
    omega

/-- The digit loop of `ParseUint` on a run of digits below the base whose value
fits in 64 bits: the value, with no error. -/
theorem parseUintLoop_digits (base : Nat) (hb : 2 ≤ base) (hb10 : base ≤ 10)
    (ds : List Nat) : ∀ (n : Nat) (u : Bool),
    (∀ c ∈ ds, 48 ≤ c ∧ c < 48 + base) →
    ds.foldl (fun n c => n * base + (c - 48)) n < 2 ^ 64 →
    parseUintLoop base true ((2 ^ 64 - 1) / base + 1) (2 ^ 64 - 1) ds n u =
      (ds.foldl (fun n c => n * base + (c - 48)) n, u, none) := by
  induction ds with
  | nil => intro n u _ _; rfl
  | cons c rest ih =>
    intro n u hd hv
    have hc := hd c (List.mem_cons_self c rest)
    have hge := foldl_digits_ge base (by omega) rest (n * base + (c - 48))
    simp only [List.foldl_cons] at hv ⊢
    have hlt : n * base + (c - 48) < 2 ^ 64 := lt_of_le_of_lt hge hv
    have hn : ¬ n ≥ (2 ^ 64 - 1) / base + 1 := by
      have : n ≤ (2 ^ 64 - 1) / base := by
        rw [Nat.le_div_iff_mul_le (by omega)]
        omega
      omega
    have h0 : n * base % 2 ^ 64 = n * base := Nat.mod_eq_of_lt (by omega)
    have h1 : (n * base + (c - 48)) % 2 ^ 64 = n * base + (c - 48) := Nat.mod_eq_of_lt hlt
    rw [parseUintLoop]
    have e1 : ¬ (c = 95 ∧ true = true) := by omega
    have e2 : 48 ≤ c ∧ c ≤ 57 := by omega
    have e3 : ¬ c - 48 ≥ base := by omega
    simp only [e1, e2, if_false, if_true, and_self, e3, hn, h0, h1]
    have e4 : ¬ (n * base + (c - 48) < n * base ∨ n * base + (c - 48) > 2 ^ 64 - 1) := by
      omega
    have e5 : ¬ (c = 95 ∧ True) := by omega
    rw [if_neg e4, if_neg e5]
    exact ih _ u (fun x hx => hd x (List.mem_cons_of_mem c hx)) hv

theorem strconvLower_digit (c : Nat) (h1 : 48 ≤ c) (h2 : c ≤ 57) : strconvLower c = c := by
  unfold strconvLower
  interval_cases c <;> rfl

/-- `ParseUint` in base 0 on a digit run without a leading zero. -/
theorem ParseUint_decimal (c : Nat) (rest : List Nat)
    (hd : ∀ x ∈ c :: rest, 48 ≤ x ∧ x ≤ 57) (hc0 : c ≠ 48)
    (hv : digitsValue 10 (c :: rest) < 2 ^ 64) :
    ParseUint (c :: rest) 0 64 = (digitsValue 10 (c :: rest), none) := by
  have hloop := parseUintLoop_digits 10 (by omega) (by omega) (c :: rest) 0 false
    (fun x hx => by have := hd x hx; omega) (by unfold digitsValue at hv; omega)
  norm_num at hloop
  unfold ParseUint
  simp [hc0, hloop, digitsValue]

/-- `ParseUint` in base 0 on a digit run with a leading zero whose other digits
are below 8: the base-8 value of those digits. -/
theorem ParseUint_octal (r : List Nat) (hd : ∀ x ∈ r, 48 ≤ x ∧ x ≤ 55)
    (hv : digitsValue 8 r < 2 ^ 64) :
    ParseUint (48 :: r) 0 64 = (digitsValue 8 r, none) := by
  have hloop := parseUintLoop_digits 8 (by omega) (by omega) r 0 false
    (fun x hx => by have := hd x hx; omega) (by unfold digitsValue at hv; omega)
  norm_num at hloop
  unfold ParseUint
  cases r with
  | nil => simp [digitsValue, parseUintLoop]
  | cons d r2 =>
    have hdd := hd d (List.mem_cons_self d r2)
    have hl : strconvLower d = d := strconvLower_digit d hdd.1 (by omega)
    have h1 : ¬ d = 98 := by omega
    have h2 : ¬ d = 111 := by omega
    have h3 : ¬ d = 120 := by omega
    simp [hl, h1, h2, h3, hloop, digitsValue]

/-- The digit loop of `ParseUint` in base 8 on a digit run that contains an 8
or a 9: a syntax error with value 0, or a range error with the largest value. -/
theorem parseUintLoop_octal_error (cutoff maxVal : Nat) (r : List Nat) :
    ∀ (n : Nat) (u : Bool), (∀ x ∈ r, 48 ≤ x ∧ x ≤ 57) → (∃ x ∈ r, 56 ≤ x) →
    parseUintLoop 8 true cutoff maxVal r n u = (0, u, some .ErrSyntax) ∨
      parseUintLoop 8 true cutoff maxVal r n u = (maxVal, u, some .ErrRange) := by
  induction r with
  | nil => intro n u _ h; simp at h
  | cons c rest ih =>
    intro n u hd hx
    have hc := hd c (List.mem_cons_self c rest)
    rw [parseUintLoop]
    have e1 : ¬ (c = 95 ∧ true = true) := by omega
    have e2 : 48 ≤ c ∧ c ≤ 57 := by omega
    rw [if_neg e1, if_pos e2]
    simp only []
    by_cases h8 : c - 48 ≥ 8
    · rw [if_pos h8]
      exact Or.inl rfl
    · have hrest : ∃ x ∈ rest, 56 ≤ x := by
        obtain ⟨x, hx1, hx2⟩ := hx
        rcases List.mem_cons.1 hx1 with rfl | hm
        · omega
        · exact ⟨x, hm, hx2⟩
      rw [if_neg h8]
      split
      · exact Or.inr rfl
      · split
        · exact Or.inr rfl
        · exact ih _ u (fun x hx => hd x (List.mem_cons_of_mem c hx)) hrest

/-- The digit loop of `ParseUint` on a run of digits below the base whose value
does not fit in 64 bits: the largest value, with a range error. -/
theorem parseUintLoop_overflow (base : Nat) (hb : 2 ≤ base) (hb10 : base ≤ 10)
    (ds : List Nat) : ∀ (n : Nat) (u : Bool), n < 2 ^ 64 →
    (∀ c ∈ ds, 48 ≤ c ∧ c < 48 + base) →
    2 ^ 64 ≤ ds.foldl (fun n c => n * base + (c - 48)) n →
    parseUintLoop base true ((2 ^ 64 - 1) / base + 1) (2 ^ 64 - 1) ds n u =
      (2 ^ 64 - 1, u, some .ErrRange) := by
  induction ds with
  | nil => intro n u hn _ hv; simp only [List.foldl_nil] at hv; omega
  | cons c rest ih =>
    intro n u hn hd hv
    have hc := hd c (List.mem_cons_self c rest)
    simp only [List.foldl_cons] at hv
    rw [parseUintLoop]
    have e1 : ¬ (c = 95 ∧ true = true) := by omega
    have e2 : 48 ≤ c ∧ c ≤ 57 := by omega
    have e3 : ¬ c - 48 ≥ base := by omega
    rw [if_neg e1, if_pos e2]
    simp only []
    rw [if_neg e3]
    by_cases hcut : n ≥ (2 ^ 64 - 1) / base + 1
    · rw [if_pos hcut]
    · rw [if_neg hcut]
      have hle : n ≤ (2 ^ 64 - 1) / base := by omega
      rw [Nat.le_div_iff_mul_le (by omega)] at hle
      have h0 : n * base % 2 ^ 64 = n * base := Nat.mod_eq_of_lt (by omega)
      rw [h0]
      by_cases hov : 2 ^ 64 ≤ n * base + (c - 48)
      · have e4 : (n * base + (c - 48)) % 2 ^ 64 < n * base ∨
            (n * base + (c - 48)) % 2 ^ 64 > 2 ^ 64 - 1 := by
          left
          have : (n * base + (c - 48)) % 2 ^ 64 = n * base + (c - 48) - 2 ^ 64 := by
            rw [Nat.mod_eq_sub_mod hov]
            exact Nat.mod_eq_of_lt (by omega)
          omega
        rw [if_pos e4]
      · have h1 : (n * base + (c - 48)) % 2 ^ 64 = n * base + (c - 48) :=
          Nat.mod_eq_of_lt (by omega)
        rw [h1]
        have e4 : ¬ (n * base + (c - 48) < n * base ∨ n * base + (c - 48) > 2 ^ 64 - 1) := by
          omega
        rw [if_neg e4]
        exact ih _ u (by omega) (fun x hx => hd x (List.mem_cons_of_mem c hx)) hv

/-- `ParseInt` reads a digit run as `ParseUint` does, then applies the `int64`
bound. -/
theorem ParseInt_digits (c : Nat) (rest : List Nat) (hc : 48 ≤ c ∧ c ≤ 57) :
    ParseInt (c :: rest) 0 64 =
      match ParseUint (c :: rest) 0 64 with
      | (un, err) =>
        if err.isSome ∧ err ≠ some .ErrRange then (0, err)
        else if un ≥ 2 ^ 63 then (2 ^ 63 - 1, some .ErrRange)
        else ((un : Int), none) := by
  have h1 : c ≠ 43 := by omega
  have h2 : c ≠ 45 := by omega
  unfold ParseInt
  simp [h1, h2]

/-- `ParseUint` in base 0 on a digit run without a leading zero whose value
does not fit in 64 bits. -/
theorem ParseUint_decimal_overflow (c : Nat) (rest : List Nat)
    (hd : ∀ x ∈ c :: rest, 48 ≤ x ∧ x ≤ 57) (hc0 : c ≠ 48)
    (hv : 2 ^ 64 ≤ digitsValue 10 (c :: rest)) :
    ParseUint (c :: rest) 0 64 = (2 ^ 64 - 1, some .ErrRange) := by
  have hloop := parseUintLoop_overflow 10 (by omega) (by omega) (c :: rest) 0 false
    (by omega) (fun x hx => by have := hd x hx; omega) (by unfold digitsValue at hv; omega)
  norm_num at hloop
  unfold ParseUint
  simp [hc0, hloop]

/-- `ParseInt` in base 0 on a digit run without a leading zero: the decimal
value when it fits in 63 bits, else the largest `int64` with a range error. -/
theorem ParseInt_decimal (ds : List Nat) (hne : ds ≠ [])
    (hd : ∀ c ∈ ds, 48 ≤ c ∧ c ≤ 57) (h0 : ds.head? ≠ some 48) :
    ParseInt ds 0 64 =
      if digitsValue 10 ds ≤ 2 ^ 63 - 1 then (((digitsValue 10 ds : Nat) : Int), none)
      else (2 ^ 63 - 1, some NumError.ErrRange) := by
  obtain ⟨c, rest, rfl⟩ := List.exists_cons_of_ne_nil hne
  have hc := hd c (List.mem_cons_self c rest)
  have hc0 : c ≠ 48 := by simpa using h0
  rw [ParseInt_digits c rest hc]
  by_cases h64 : digitsValue 10 (c :: rest) < 2 ^ 64
  · rw [ParseUint_decimal c rest hd hc0 h64]
    by_cases h63 : digitsValue 10 (c :: rest) ≤ 2 ^ 63 - 1
    · simp
      split_ifs <;> first | rfl | omega
    · simp
      split_ifs <;> first | rfl | omega
  · rw [ParseUint_decimal_overflow c rest hd hc0 (by omega)]
    simp
    split_ifs <;> first | rfl | omega

/-- `ParseInt` in base 0 on a digit run with a leading zero whose other digits
are below 8: their base-8 value when it fits in 63 bits. -/
theorem ParseInt_octal (r : List Nat) (hd : ∀ x ∈ r, 48 ≤ x ∧ x ≤ 55)
    (hv : digitsValue 8 r ≤ 2 ^ 63 - 1) :
    ParseInt (48 :: r) 0 64 = (((digitsValue 8 r : Nat) : Int), none) := by
  rw [ParseInt_digits 48 r (by omega), ParseUint_octal r hd (by omega)]
  simp
  omega

/-- `ParseUint` in base 0 on a digit run with a leading zero that contains an 8
or a 9: a syntax error with value 0, or a range error with the largest value. -/
theorem ParseUint_octal_error (r : List Nat) (hd : ∀ x ∈ r, 48 ≤ x ∧ x ≤ 57)
    (hx : ∃ x ∈ r, 56 ≤ x) :
    ParseUint (48 :: r) 0 64 = (0, some .ErrSyntax) ∨
      ParseUint (48 :: r) 0 64 = (2 ^ 64 - 1, some .ErrRange) := by
  have hloop := parseUintLoop_octal_error ((2 ^ 64 - 1) / 8 + 1) (2 ^ 64 - 1) r 0 false hd hx
  norm_num at hloop
  unfold ParseUint
  cases r with
  | nil => simp at hx
  | cons d r2 =>
    have hdd := hd d (List.mem_cons_self d r2)
    have hl : strconvLower d = d := strconvLower_digit d hdd.1 hdd.2
    have h1 : ¬ d = 98 := by omega
    have h2 : ¬ d = 111 := by omega
    have h3 : ¬ d = 120 := by omega
    simp only [hl, h1, h2, h3]
    rcases hloop with h | h
    · left
      simp [h]
    · right
      simp [h]

/-- `ParseInt` in base 0 on a digit run with a leading zero that contains an 8
or a 9: a syntax error with value 0, or a range error with the largest
`int64`. -/
theorem ParseInt_octal_error (r : List Nat) (hd : ∀ x ∈ r, 48 ≤ x ∧ x ≤ 57)
    (hx : ∃ x ∈ r, 56 ≤ x) :
    ParseInt (48 :: r) 0 64 = (0, some .ErrSyntax) ∨
      ParseInt (48 :: r) 0 64 = (2 ^ 63 - 1, some .ErrRange) := by
  rw [ParseInt_digits 48 r (by omega)]
  rcases ParseUint_octal_error r hd hx with h | h
  · left
    rw [h]
    simp
  · right
    rw [h]
    simp

theorem digits_of_all {ds : List Nat} (hd : ds.all isDigit = true) :
    ∀ c ∈ ds, 48 ≤ c ∧ c ≤ 57 := by
  intro c hc
  have := List.all_eq_true.1 hd c hc
  simpa [isDigit] using this

/-- C11 (as amended).  The integer rule reads the literal as `ParseInt` with
base 0 does.  For every non-empty run of ASCII digits `ds` on which the parser
stands: when `ds` has no leading zero and its base-10 value is at most
`2^63 - 1`, the rule records no error and yields the integer node with that
value; when `ds` is a zero followed by digits below 8 whose base-8 value is at
most `2^63 - 1`, the rule records no error and yields that base-8 value; when
`ds` is a zero followed by digits among which there is an 8 or a 9, the rule
records one error and yields a node of value 0 or `2^63 - 1`.  So `010` has
value eight and `08` records an error, value 0. -/
theorem C11_integer_literals (p : Parser) (ds : List Nat)
    (hp : p.currentToken = ⟨.Int, ds⟩) (hd : ds.all isDigit = true) :
    (ds ≠ [] → ds.head? ≠ some 48 → digitsValue 10 ds ≤ 2 ^ 63 - 1 →
      p.parseInteger = (.Integer ⟨.Int, ds⟩ (digitsValue 10 ds), p)) ∧
    (∀ r, ds = 48 :: r → (∀ c ∈ r, c ≤ 55) → digitsValue 8 r ≤ 2 ^ 63 - 1 →
      p.parseInteger = (.Integer ⟨.Int, ds⟩ (digitsValue 8 r), p)) ∧
    (∀ r, ds = 48 :: r → (∃ c ∈ r, 56 ≤ c) →
      ∃ v : Int, (v = 0 ∨ v = 2 ^ 63 - 1) ∧
        p.parseInteger = (.Integer ⟨.Int, ds⟩ v, p.error (.couldNotParse ⟨.Int, ds⟩))) ∧
    (∀ q : Parser, q.currentToken = ⟨.Int, bytes "010"⟩ →
      q.parseInteger = (.Integer ⟨.Int, bytes "010"⟩ 8, q)) ∧
    (∀ q : Parser, q.currentToken = ⟨.Int, bytes "08"⟩ →
      q.parseInteger =
        (.Integer ⟨.Int, bytes "08"⟩ 0, q.error (.couldNotParse ⟨.Int, bytes "08"⟩))) := by
  have hds := digits_of_all hd
  refine ⟨?_, ?_, ?_, ?_, ?_⟩
  · intro hne h0 hv
    unfold parseInteger
    rw [hp]
    simp only []
    rw [ParseInt_decimal ds hne hds h0, if_pos hv]
  · intro r hr h8 hv
    subst hr
    unfold parseInteger
    rw [hp]
    simp only []
    rw [ParseInt_octal r (fun x hx =>
      ⟨(hds x (List.mem_cons_of_mem 48 hx)).1, h8 x hx⟩) hv]
  · intro r hr hx
    subst hr
    unfold parseInteger
    rw [hp]
    simp only []
    rcases ParseInt_octal_error r (fun x hx => hds x (List.mem_cons_of_mem 48 hx)) hx
      with h | h
    · rw [h]
      exact ⟨0, Or.inl rfl, rfl⟩
    · rw [h]
      exact ⟨2 ^ 63 - 1, Or.inr rfl, rfl⟩
  · intro q hq
    unfold parseInteger
    rw [hq]
    rfl
  · intro q hq
    unfold parseInteger
    rw [hq]
    rfl

/-- C11, witness: the theorem at the parser that stands on `1234` at the end
of the source `1234`. -/
theorem C11_integer_literals_witness :
    (parserAt (bytes "1234") ⟨.Int, bytes "1234"⟩ eofToken []).currentToken =
      ⟨.Int, bytes "1234"⟩ ∧
    (bytes "1234").all isDigit = true ∧
    (parserAt (bytes "1234") ⟨.Int, bytes "1234"⟩ eofToken []).parseInteger =
      (.Integer ⟨.Int, bytes "1234"⟩ 1234,
        parserAt (bytes "1234") ⟨.Int, bytes "1234"⟩ eofToken []) :=
  ⟨rfl, by decide,
    (C11_integer_literals (parserAt (bytes "1234") ⟨.Int, bytes "1234"⟩ eofToken [])
      (bytes "1234") rfl (by decide)).1 (by decide) (by decide) (by decide)⟩

/-- C11, counterexample to the claim as stated: `010` and `08` are non-empty
digit runs of base-10 value ten and eight, and the integer rule, applied where
`NewParser` stands on them, yields value eight for `010` and records an error
for `08`. -/
theorem C11_counterexample :
    (bytes "010").all isDigit = true ∧ digitsValue 10 (bytes "010") = 10 ∧
    NewParser (NewLexer (bytes "010")) =
      .ok (parserAt (bytes "010") ⟨.Int, bytes "010"⟩ eofToken []) ∧
    (parserAt (bytes "010") ⟨.Int, bytes "010"⟩ eofToken []).parseInteger =
      (.Integer ⟨.Int, bytes "010"⟩ 8,
        parserAt (bytes "010") ⟨.Int, bytes "010"⟩ eofToken []) ∧
    (bytes "08").all isDigit = true ∧ digitsValue 10 (bytes "08") = 8 ∧
    NewParser (NewLexer (bytes "08")) =
      .ok (parserAt (bytes "08") ⟨.Int, bytes "08"⟩ eofToken []) ∧
    (parserAt (bytes "08") ⟨.Int, bytes "08"⟩ eofToken []).parseInteger =
      (.Integer ⟨.Int, bytes "08"⟩ 0,
        parserAt (bytes "08") ⟨.Int, bytes "08"⟩ eofToken
          [.couldNotParse ⟨.Int, bytes "08"⟩]) :=
  ⟨by decide, by decide, by decide, rfl, by decide, by decide, by decide, rfl⟩

/-! ## C12: malformed numerals -/

/-- C12 (code bug).  `parseInteger` records the error of `ParseInt` and then
stores the value `ParseInt` returned all the same (`integer.Value = value`
comes after the error check, not in an else branch), so the node of a digit run
that is too large does not keep the value 0 it was created with: for every
non-empty digit run `ds` without a leading zero whose base-10 value exceeds
`2^63 - 1`, the rule records exactly one error and returns the integer node
with token literal `ds` and value `2^63 - 1`.  Parsing `9223372036854775808`
yields that node, at every fuel from 5 on. -/
theorem C12_overflow_keeps_largest_value (p : Parser) (ds : List Nat)
    (hp : p.currentToken = ⟨.Int, ds⟩) (hd : ds.all isDigit = true) (hne : ds ≠ [])
    (h0 : ds.head? ≠ some 48) (hv : 2 ^ 63 - 1 < digitsValue 10 ds) :
    p.parseInteger =
      (.Integer ⟨.Int, ds⟩ (2 ^ 63 - 1), p.error (.couldNotParse ⟨.Int, ds⟩)) ∧
    (p.error (.couldNotParse ⟨.Int, ds⟩)).errors = p.errors ++ [.couldNotParse ⟨.Int, ds⟩] ∧
    ∀ extra : Nat, parseSource (5 + extra) (bytes "9223372036854775808") =
      .ok ([.nil, .nil,
          .ExpressionStatement ⟨.Int, bytes "9223372036854775808"⟩
            (.Integer ⟨.Int, bytes "9223372036854775808"⟩ 9223372036854775807)],
        [.couldNotParse ⟨.Int, bytes "9223372036854775808"⟩]) := by
  refine ⟨?_, rfl, parseSource_add (of_yieldsResult (by decide!))⟩
  unfold parseInteger
  rw [hp]
  simp only []
  rw [ParseInt_decimal ds hne (digits_of_all hd) h0, if_neg (by omega)]

/-- C12, witness: the theorem at the parser that `NewParser` gives on the
source `9223372036854775808`, the first run past the largest `int64`. -/
theorem C12_overflow_keeps_largest_value_witness :
    NewParser (NewLexer (bytes "9223372036854775808")) =
      .ok (parserAt (bytes "9223372036854775808") ⟨.Int, bytes "9223372036854775808"⟩
        eofToken []) ∧
    (bytes "9223372036854775808").all isDigit = true ∧
    2 ^ 63 - 1 < digitsValue 10 (bytes "9223372036854775808") ∧
    (parserAt (bytes "9223372036854775808") ⟨.Int, bytes "9223372036854775808"⟩
        eofToken []).parseInteger =
      (.Integer ⟨.Int, bytes "9223372036854775808"⟩ 9223372036854775807,
        parserAt (bytes "9223372036854775808") ⟨.Int, bytes "9223372036854775808"⟩
          eofToken [.couldNotParse ⟨.Int, bytes "9223372036854775808"⟩]) :=
  ⟨by decide, by decide, by decide,
    (C12_overflow_keeps_largest_value
      (parserAt (bytes "9223372036854775808") ⟨.Int, bytes "9223372036854775808"⟩ eofToken [])
      (bytes "9223372036854775808") rfl (by decide) (by decide) (by decide) (by decide)).1⟩

/-! ## C13: no prefix rule -/

/-- C13.  For every token kind other than IDENT, INT, `!`, `-`, TRUE, FALSE,
`(`, IF and FUNCTION there is no prefix rule, and `parseExpression` called on
a current token of such a kind `K` returns the nil expression and the parser
with exactly one more error, `no prefix for K found`, its current and peek
tokens (and its lexer) unchanged.  Parsing the source `;` records that one
error and yields one expression statement whose expression is nil, at every
fuel from 4 on. -/
theorem C13_missing_prefix_rule (fuel precedence : Nat) (p : Parser)
    (hK : p.currentToken.Typ ∉ [TokenType.Ident, .Int, .Bang, .Minus, .True, .False, .Lparen,
      .If, .Function]) :
    prefixExprResolvers p.currentToken.Typ = none ∧
    parseExpression (fuel + 1) precedence p =
      .ok (.nil, p.error (.noPrefixFound p.currentToken.Typ)) ∧
    (p.error (.noPrefixFound p.currentToken.Typ)).errors =
      p.errors ++ [.noPrefixFound p.currentToken.Typ] ∧
    noPrefixText p.currentToken.Typ =
      bytes "no prefix for " ++ p.currentToken.Typ.name ++ bytes " found" ∧
    (p.error (.noPrefixFound p.currentToken.Typ)).currentToken = p.currentToken ∧
    (p.error (.noPrefixFound p.currentToken.Typ)).peekToken = p.peekToken ∧
    (p.error (.noPrefixFound p.currentToken.Typ)).lexer = p.lexer ∧
    (∀ K : TokenType, prefixExprResolvers K = none ↔
      K ∉ [TokenType.Ident, .Int, .Bang, .Minus, .True, .False, .Lparen, .If, .Function]) ∧
    ∀ extra : Nat, parseSource (4 + extra) (bytes ";") =
      .ok ([.nil, .nil, .ExpressionStatement ⟨.Semicolon, bytes ";"⟩ .nil],
        [.noPrefixFound .Semicolon]) := by
  have hall : ∀ K : TokenType, prefixExprResolvers K = none ↔
      K ∉ [TokenType.Ident, .Int, .Bang, .Minus, .True, .False, .Lparen, .If, .Function] := by
    intro K
    cases K <;> simp [prefixExprResolvers]
  have hnone := (hall p.currentToken.Typ).2 hK
  refine ⟨hnone, ?_, rfl, rfl, rfl, rfl, rfl, hall,
    parseSource_add (of_yieldsResult (by decide!))⟩
  rw [parseExpression, hnone]

/-- C13, witness: the theorem at the parser that `NewParser` gives on the
source `;`. -/
theorem C13_missing_prefix_rule_witness :
    NewParser (NewLexer (bytes ";")) =
      .ok (parserAt (bytes ";") ⟨.Semicolon, bytes ";"⟩ eofToken []) ∧
    parseExpression 1 Lowest (parserAt (bytes ";") ⟨.Semicolon, bytes ";"⟩ eofToken []) =
      .ok (.nil, parserAt (bytes ";") ⟨.Semicolon, bytes ";"⟩ eofToken
        [.noPrefixFound .Semicolon]) :=
  ⟨by decide,
    (C13_missing_prefix_rule 0 Lowest (parserAt (bytes ";") ⟨.Semicolon, bytes ";"⟩ eofToken [])
      (by decide)).2.1⟩

/-! ## The statement loop and the let and return rules -/

theorem triple_parseLoop_step (fuel : Nat) (stmts res : List Statement) (s : Statement)
    (c c1 t c2 : Token) (ts ts1 ts2 : List Token) (es es1 es2 : List ParseError)
    (hc : c.Typ ≠ .Eof)
    (h1 : Triple (parseStatement fuel) c ts es s c1 (t :: ts1) es1)
    (h2 : Triple (parseLoop fuel (stmts ++ [s])) t ts1 es1 res c2 ts2 es2) :
    Triple (parseLoop (fuel + 1) stmts) c ts es res c2 ts2 es2 := by
  intro p h
  obtain ⟨p1, hs, hat1⟩ := h1 p h
  obtain ⟨p2, hn, hat2⟩ := hat1.next
  obtain ⟨p3, hl, hat3⟩ := h2 p2 hat2
  refine ⟨p3, ?_, hat3⟩
  rw [parseLoop]
  have hc' : (p.currentToken.Typ != TokenType.Eof) = true := by rw [h.1]; simpa using hc
  simp only [hc', if_true, hs, hn, hl]

theorem triple_parseLoop_last (fuel : Nat) (stmts : List Statement) (s : Statement)
    (c c1 : Token) (ts : List Token) (es es1 : List ParseError)
    (hc : c.Typ ≠ .Eof)
    (h1 : Triple (parseStatement (fuel + 1)) c ts es s c1 [] es1) :
    Triple (parseLoop (fuel + 2) stmts) c ts es (stmts ++ [s]) eofToken [] es1 := by
  intro p h
  obtain ⟨p1, hs, hat1⟩ := h1 p h
  obtain ⟨p2, hn, hat2⟩ := hat1.next_nil
  have he : p2.currentToken.Typ = .Eof := by rw [hat2.1]; rfl
  refine ⟨p2, ?_, hat2⟩
  rw [parseLoop]
  have hc' : (p.currentToken.Typ != TokenType.Eof) = true := by rw [h.1]; simpa using hc
  simp only [hc', if_true, hs, hn, parseLoop_eof fuel _ p2 he]

/-- The statement slice and the errors of a source, from the run of the
statement loop on its tokens. -/
theorem parseSource_of_loop (fuel : Nat) (src : List Nat) (c c1 : Token) (ts ts1 : List Token)
    (stmts : List Statement) (es : List ParseError) (hy : Yields (NewLexer src) (c :: ts))
    (h1 : Triple (parseLoop fuel [.nil, .nil]) c ts [] stmts c1 ts1 es) :
    parseSource fuel src = .ok (stmts, es) := by
  obtain ⟨p, hp, hat⟩ := NewParser_of_yields _ _ _ hy
  obtain ⟨p1, hs, hat1⟩ := h1 p hat
  unfold parseSource parseProgram
  rw [hp]
  simp only [hs, hat1.2.1]

theorem triple_statement_let (fuel : Nat) (s : Statement) (c c1 : Token)
    (ts ts1 : List Token) (es es1 : List ParseError) (hl : c.Typ = .Let)
    (h1 : Triple (parseLetStatement fuel) c ts es s c1 ts1 es1) :
    Triple (parseStatement (fuel + 1)) c ts es s c1 ts1 es1 := by
  intro p h
  obtain ⟨p1, hi, hat1⟩ := h1 p h
  refine ⟨p1, ?_, hat1⟩
  rw [parseStatement, h.1, hl]
  exact hi

theorem triple_statement_return (fuel : Nat) (s : Statement) (c c1 : Token)
    (ts ts1 : List Token) (es es1 : List ParseError) (hl : c.Typ = .Return)
    (h1 : Triple (parseReturnStatement fuel) c ts es s c1 ts1 es1) :
    Triple (parseStatement (fuel + 1)) c ts es s c1 ts1 es1 := by
  intro p h
  obtain ⟨p1, hi, hat1⟩ := h1 p h
  refine ⟨p1, ?_, hat1⟩
  rw [parseStatement, h.1, hl]
  exact hi

/-- The let rule gives up when the token after `let` is not an identifier. -/
theorem triple_let_no_name (fuel : Nat) (c : Token) (ts : List Token) (es : List ParseError)
    (hk : (ts.headD eofToken).Typ ≠ .Ident) :
    Triple (parseLetStatement (fuel + 1)) c ts es .nilLetStatement c ts
      (es ++ [.expectedNext .Ident (ts.headD eofToken).Typ]) := by
  intro p h
  obtain ⟨p1, h1, hat1⟩ := h.assert_fail .Ident hk
  refine ⟨p1, ?_, hat1⟩
  rw [parseLetStatement]
  simp only [h1]

/-- The let rule gives up when the token after the name is not `=`. -/
theorem triple_let_no_assign (fuel : Nat) (c t : Token) (ts : List Token)
    (es : List ParseError) (ht : t.Typ = .Ident) (hk : (ts.headD eofToken).Typ ≠ .Assign) :
    Triple (parseLetStatement (fuel + 1)) c (t :: ts) es .nilLetStatement t ts
      (es ++ [.expectedNext .Assign (ts.headD eofToken).Typ]) := by
  intro p h
  obtain ⟨p1, h1, hat1⟩ := h.assert_ok .Ident ht
  obtain ⟨p2, h2, hat2⟩ := hat1.assert_fail .Assign hk
  refine ⟨p2, ?_, hat2⟩
  rw [parseLetStatement]
  simp only [h1, h2]

/-! ## C14: unexpected token -/

theorem C14_yields (x : List Nat) (hx : lexable ⟨.Ident, x⟩ = true) :
    Yields (NewLexer (bytes "let " ++ x ++ bytes " 5;"))
      [⟨.Let, bytes "let"⟩, ⟨.Ident, x⟩, ⟨.Int, bytes "5"⟩, ⟨.Semicolon, bytes ";"⟩] := by
  have hy := yields_sourceOf [([], ⟨.Let, bytes "let"⟩), ([32], ⟨.Ident, x⟩),
    ([32], ⟨.Int, bytes "5"⟩), ([], ⟨.Semicolon, bytes ";"⟩)] [] []
    (by
      have h1 : lexable ⟨.Let, bytes "let"⟩ = true := by decide
      have h2 : lexable ⟨.Int, bytes "5"⟩ = true := by decide
      have h3 : lexable ⟨.Semicolon, bytes ";"⟩ = true := by decide
      have h4 : canFollow ⟨.Int, bytes "5"⟩ (some 59) = true := by decide
      have h5 : canFollow ⟨.Semicolon, bytes ";"⟩ none = true := by decide
      have h6 : (bytes ";").head? = some 59 := by decide
      simp [separated, sourceOf, hx, h1, h2, h3, h4, h5, h6, canFollow_space, isSpace])
  rw [← NewLexer_eq] at hy
  have hsrc : sourceOf [([], ⟨.Let, bytes "let"⟩), ([32], ⟨.Ident, x⟩),
      ([32], ⟨.Int, bytes "5"⟩), ([], ⟨.Semicolon, bytes ";"⟩)] [] =
      bytes "let " ++ x ++ bytes " 5;" := by
    have e1 : bytes "let " = bytes "let" ++ [32] := by decide
    have e2 : bytes " 5;" = [32] ++ bytes "5" ++ bytes ";" := by decide
    simp [sourceOf, e1, e2]
  rw [hsrc] at hy
  exact hy

theorem C14_loop (x : List Nat) (m : Nat) :
    Triple (parseLoop (m + 6) [.nil, .nil]) ⟨.Let, bytes "let"⟩
      [⟨.Ident, x⟩, ⟨.Int, bytes "5"⟩, ⟨.Semicolon, bytes ";"⟩] []
      [.nil, .nil, .nilLetStatement,
        .ExpressionStatement ⟨.Int, bytes "5"⟩ (.Integer ⟨.Int, bytes "5"⟩ 5)]
      eofToken [] [.expectedNext .Assign .Int] := by
  refine triple_parseLoop_step (m + 5) _ _ .nilLetStatement _ ⟨.Ident, x⟩ ⟨.Int, bytes "5"⟩ _ _
    [⟨.Semicolon, bytes ";"⟩] _ _ [.expectedNext .Assign .Int] _ (by decide) ?_ ?_
  · exact triple_statement_let _ _ _ _ _ _ _ _ rfl
      (triple_let_no_assign (m + 3) _ ⟨.Ident, x⟩ _ [] rfl (by decide))
  · refine triple_parseLoop_last (m + 3) _ _ ⟨.Int, bytes "5"⟩ ⟨.Semicolon, bytes ";"⟩ _ _ _
      (by decide) ?_
    refine triple_statement_expression _ _ _ _ _ _ _ _ (by decide) (by decide) ?_
    refine triple_expressionStatement_semicolon _ _ _ ⟨.Int, bytes "5"⟩ _ _ [] _ _ ?_ rfl
    exact triple_atom (m + 0) Lowest (.int (bytes "5")) [⟨.Semicolon, bytes ";"⟩] _ (by decide)

/-- C14.  `assertPeekTokenIs(K)`: when the peek token has kind `K`, the call
is the advance of the cursor by one token (the peek token becomes current, the
next token of the lexer becomes the peek token), records nothing and returns
true; otherwise it returns false and the parser with exactly one more error,
`expected next token is K, but got` the kind of the peek token, its current
and peek tokens (and its lexer) unchanged.  For every identifier `x`, on the
source `let x 5;` the let rule returns its nil result with the one error that
`=` was expected and INT found, standing on `x` with `5` as peek token, and the
parse yields that nil let statement followed by the expression statement
`5`. -/
theorem C14_unexpected_token (p : Parser) (K : TokenType) (x : List Nat)
    (hx : lexable ⟨.Ident, x⟩ = true) (fuel : Nat) (hf : 6 ≤ fuel) :
    (p.peekToken.Typ = K → ∀ (t : Token) (l : Lexer), p.lexer.NextToken = some (t, l) →
      p.assertPeekTokenIs K = .ok (true,
        { lexer := l, errors := p.errors, currentToken := p.peekToken, peekToken := t })) ∧
    (p.peekToken.Typ ≠ K →
      p.assertPeekTokenIs K = .ok (false,
        { lexer := p.lexer, errors := p.errors ++ [.expectedNext K p.peekToken.Typ],
          currentToken := p.currentToken, peekToken := p.peekToken })) ∧
    expectedNextText K p.peekToken.Typ =
      bytes "expected next token is " ++ K.name ++ bytes ", but got " ++ p.peekToken.Typ.name ∧
    (∃ p0 p1 : Parser, NewParser (NewLexer (bytes "let " ++ x ++ bytes " 5;")) = .ok p0 ∧
      parseLetStatement fuel p0 = .ok (.nilLetStatement, p1) ∧
      p1.errors = [.expectedNext .Assign .Int] ∧ p1.currentToken = ⟨.Ident, x⟩ ∧
      p1.peekToken = ⟨.Int, bytes "5"⟩) ∧
    parseSource fuel (bytes "let " ++ x ++ bytes " 5;") =
      .ok ([.nil, .nil, .nilLetStatement,
          .ExpressionStatement ⟨.Int, bytes "5"⟩ (.Integer ⟨.Int, bytes "5"⟩ 5)],
        [.expectedNext .Assign .Int]) := by
  obtain ⟨m, rfl⟩ : ∃ m, fuel = m + 6 := ⟨fuel - 6, by omega⟩
  refine ⟨?_, ?_, rfl, ?_, ?_⟩
  · intro hk t l hl
    simp [assertPeekTokenIs, peekTokenIs, hk, nextToken, hl]
  · intro hk
    unfold assertPeekTokenIs peekTokenIs
    rw [if_neg (by simpa using hk)]
    rfl
  · obtain ⟨p0, hp0, hat⟩ := NewParser_of_yields _ _ _ (C14_yields x hx)
    obtain ⟨p1, h1, hat1⟩ :=
      triple_let_no_assign (m + 5) ⟨.Let, bytes "let"⟩ ⟨.Ident, x⟩
        [⟨.Int, bytes "5"⟩, ⟨.Semicolon, bytes ";"⟩] [] rfl (by decide) p0 hat
    exact ⟨p0, p1, hp0, h1, hat1.2.1, hat1.1, hat1.peek⟩
  · exact parseSource_of_loop _ _ _ _ _ _ _ _ (C14_yields x hx) (C14_loop x m)

/-- C14, witness: the theorem at the parser that `NewParser` gives on the
source `let x`, asked for `=` and asked for an identifier, and on the source
`let x 5;`. -/
theorem C14_unexpected_token_witness :
    lexable ⟨.Ident, bytes "x"⟩ = true ∧ 6 ≤ 6 ∧
    NewParser (NewLexer (bytes "let x")) =
      .ok (parserAt (bytes "let x") ⟨.Let, bytes "let"⟩ ⟨.Ident, bytes "x"⟩ []) ∧
    (parserAt (bytes "let x") ⟨.Let, bytes "let"⟩ ⟨.Ident, bytes "x"⟩ []).assertPeekTokenIs
        .Assign =
      .ok (false, parserAt (bytes "let x") ⟨.Let, bytes "let"⟩ ⟨.Ident, bytes "x"⟩
        [.expectedNext .Assign .Ident]) ∧
    (parserAt (bytes "let x") ⟨.Let, bytes "let"⟩ ⟨.Ident, bytes "x"⟩ []).assertPeekTokenIs
        .Ident =
      .ok (true, parserAt (bytes "let x") ⟨.Ident, bytes "x"⟩ eofToken []) ∧
    parseSource 6 (bytes "let x 5;") =
      .ok ([.nil, .nil, .nilLetStatement,
          .ExpressionStatement ⟨.Int, bytes "5"⟩ (.Integer ⟨.Int, bytes "5"⟩ 5)],
        [.expectedNext .Assign .Int]) :=
  ⟨by decide, by decide, by decide,
    (C14_unexpected_token
      (parserAt (bytes "let x") ⟨.Let, bytes "let"⟩ ⟨.Ident, bytes "x"⟩ []) .Assign
      (bytes "x") (by decide) 6 (by decide)).2.1 (by decide),
    (C14_unexpected_token
      (parserAt (bytes "let x") ⟨.Let, bytes "let"⟩ ⟨.Ident, bytes "x"⟩ []) .Ident
      (bytes "x") (by decide) 6 (by decide)).1 rfl eofToken (lexAt (bytes "let x") [])
      (by decide),
    (C14_unexpected_token
      (parserAt (bytes "let x") ⟨.Let, bytes "let"⟩ ⟨.Ident, bytes "x"⟩ []) .Assign
      (bytes "x") (by decide) 6 (by decide)).2.2.2.2⟩

/-! ## C15: identifiers and keywords -/

theorem spelling_of_isKeyword {w : List Nat} {k : TokenType} (h : isKeyword w = some k) :
    spelling k = some w ∧ k ≠ .Ident ∧ k ≠ .Int ∧ k ≠ .Assign ∧ k ≠ .Bang := by
  unfold isKeyword at h
  split_ifs at h with h1 h2 h3 h4 h5 h6 h7 <;>
    simp only [Option.some.injEq, reduceCtorEq] at h <;> subst h <;> subst_vars <;>
    simp [spelling]

/-- C15.  From a lexer state with `pre` consumed, standing before a run `ws`
of whitespace bytes followed by a non-empty run `w` of ASCII letters that is
maximal (the byte after it, if any, is not a letter), `NextToken` returns the
token with literal `w`, of the kind the keyword table gives for `w` and of
kind IDENT when `w` is not in the table, and leaves the lexer standing on the
first byte after `w` (at the end of the input when nothing follows).  The
table maps fn, let, if, else, true, false and return to their keyword kinds and
no other word. -/
theorem C15_word_scanning (pre ws w rest : List Nat) (hws : ws.all isSpace = true)
    (hne : w ≠ []) (hw : w.all isLetter = true) (hmax : isLetter (rest.headD 0) = false) :
    (lexAt pre (ws ++ w ++ rest)).NextToken =
      some (⟨(isKeyword w).getD .Ident, w⟩, lexAt (pre ++ ws ++ w) rest) ∧
    NewLexer (ws ++ w ++ rest) = lexAt [] (ws ++ w ++ rest) ∧
    isKeyword (bytes "fn") = some .Function ∧ isKeyword (bytes "let") = some .Let ∧
    isKeyword (bytes "if") = some .If ∧ isKeyword (bytes "else") = some .Else ∧
    isKeyword (bytes "true") = some .True ∧ isKeyword (bytes "false") = some .False ∧
    isKeyword (bytes "return") = some .Return ∧
    (∀ v : List Nat, v ∉ [bytes "fn", bytes "let", bytes "if", bytes "else", bytes "true",
      bytes "false", bytes "return"] → isKeyword v = none) := by
  refine ⟨?_, NewLexer_eq _, by decide, by decide, by decide, by decide, by decide, by decide,
    by decide, ?_⟩
  · have hws' : ∀ c ∈ ws, isSpace c = true := List.all_eq_true.1 hws
    have hnext : isLetter (rest.head?.getD 0) = false := by
      cases rest <;> simpa using hmax
    cases hk : isKeyword w with
    | none =>
      have ht : lexable ⟨.Ident, w⟩ = true := by
        simp only [lexable, Bool.and_eq_true, decide_eq_true_eq, beq_iff_eq]
        exact ⟨⟨hne, hw⟩, hk⟩
      have hf : canFollow ⟨.Ident, w⟩ rest.head? = true := by
        simp [canFollow, hnext]
      simpa [List.append_assoc] using NextToken_lexAt ⟨.Ident, w⟩ ws pre rest hws' ht hf
    | some k =>
      obtain ⟨hs, h1, h2, h3, h4⟩ := spelling_of_isKeyword hk
      have ht : lexable ⟨k, w⟩ = true := by
        cases k <;> simp_all [lexable]
      have hf : canFollow ⟨k, w⟩ rest.head? = true := by
        cases k <;> simp_all [canFollow, spelling]
      simpa [List.append_assoc] using NextToken_lexAt ⟨k, w⟩ ws pre rest hws' ht hf
  · intro v hv
    simp only [List.mem_cons, List.mem_singleton, List.not_mem_nil, or_false, not_or] at hv
    obtain ⟨h1, h2, h3, h4, h5, h6, h7⟩ := hv
    unfold isKeyword
    simp [h1, h2, h3, h4, h5, h6, h7]

/-- C15, witness: the theorem in the input `a let5`, after `a`, and in the
input `  foo`. -/
theorem C15_word_scanning_witness :
    (bytes " ").all isSpace = true ∧ (bytes "let").all isLetter = true ∧
    isLetter ((bytes "5").headD 0) = false ∧
    (lexAt (bytes "a") (bytes " let5")).NextToken =
      some (⟨.Let, bytes "let"⟩, lexAt (bytes "a let") (bytes "5")) ∧
    (NewLexer (bytes "  foo")).NextToken = some (⟨.Ident, bytes "foo"⟩, lexAt (bytes "  foo") []) :=
  ⟨by decide, by decide, by decide,
    (C15_word_scanning (bytes "a") (bytes " ") (bytes "let") (bytes "5") (by decide) (by decide)
      (by decide) (by decide)).1,
    (C15_word_scanning [] (bytes "  ") (bytes "foo") [] (by decide) (by decide)
      (by decide) (by decide)).1⟩

/-! ## C16: two-character lookahead -/

/-- C16.  From a lexer state with `pre` consumed, standing on `=` (on `!`):
when the next byte is `=`, `NextToken` returns the one token `==` (`!=`) and
leaves the lexer past both bytes; when the next byte is any other byte `c`,
it returns `=` (`!`) and leaves the lexer standing on `c`.  So `a==b` lexes to
IDENT, `==`, IDENT and `a=!b` to IDENT, `=`, `!`, IDENT, each followed by the
end of input. -/
theorem C16_two_character_lookahead (pre rest : List Nat) (c : Nat) (hc : c ≠ 61) :
    (lexAt pre (61 :: 61 :: rest)).NextToken =
      some (⟨.Eq, bytes "=="⟩, lexAt (pre ++ [61, 61]) rest) ∧
    (lexAt pre (33 :: 61 :: rest)).NextToken =
      some (⟨.Ne, bytes "!="⟩, lexAt (pre ++ [33, 61]) rest) ∧
    (lexAt pre (61 :: c :: rest)).NextToken =
      some (⟨.Assign, bytes "="⟩, lexAt (pre ++ [61]) (c :: rest)) ∧
    (lexAt pre (33 :: c :: rest)).NextToken =
      some (⟨.Bang, bytes "!"⟩, lexAt (pre ++ [33]) (c :: rest)) ∧
    lexTokens 4 (NewLexer (bytes "a==b")) =
      [some ⟨.Ident, bytes "a"⟩, some ⟨.Eq, bytes "=="⟩, some ⟨.Ident, bytes "b"⟩,
        some eofToken] ∧
    lexTokens 5 (NewLexer (bytes "a=!b")) =
      [some ⟨.Ident, bytes "a"⟩, some ⟨.Assign, bytes "="⟩, some ⟨.Bang, bytes "!"⟩,
        some ⟨.Ident, bytes "b"⟩, some eofToken] := by
  refine ⟨?_, ?_, ?_, ?_, by decide, by decide⟩
  · simpa using NextToken_lexAt ⟨.Eq, bytes "=="⟩ [] pre rest (by simp) (by decide) rfl
  · simpa using NextToken_lexAt ⟨.Ne, bytes "!="⟩ [] pre rest (by simp) (by decide) rfl
  · simpa using NextToken_lexAt ⟨.Assign, bytes "="⟩ [] pre (c :: rest) (by simp) (by decide)
      (by simp [canFollow, hc])
  · simpa using NextToken_lexAt ⟨.Bang, bytes "!"⟩ [] pre (c :: rest) (by simp) (by decide)
      (by simp [canFollow, hc])

/-- C16, witness: the theorem in the input `x=!y`, after `x`. -/
theorem C16_two_character_lookahead_witness :
    (33 : Nat) ≠ 61 ∧
    (lexAt (bytes "x") (bytes "=!y")).NextToken =
      some (⟨.Assign, bytes "="⟩, lexAt (bytes "x=") (bytes "!y")) :=
  ⟨by decide, (C16_two_character_lookahead (bytes "x") (bytes "y") 33 (by decide)).2.2.1⟩

/-! ## C18: the cursor between statements -/

/-- C18 (code bug).  The let and return rules test the current token for `;`
after the value has been parsed, where the current token is still the last
token of the value, and so advance whenever the value is not empty: on
`let a = 1 b` and on `return 1 b` the rule returns standing on `b` (the last
two parts below), the advance of the statement loop then steps over `b`, and
the parse yields the let (return) statement alone, without error.  The
expression statement rule tests the peek token instead: `1 b` yields two
expression statements.  With the semicolon, `let a = 1; b` yields two
statements.  (At every fuel from 6 on.) -/
theorem C18_let_and_return_skip_a_token :
    (∀ extra : Nat, parseSource (6 + extra) (bytes "let a = 1 b") =
      .ok ([.nil, .nil,
        .LetStatement ⟨.Let, bytes "let"⟩ ⟨⟨.Ident, bytes "a"⟩, bytes "a"⟩
          (.Integer ⟨.Int, bytes "1"⟩ 1)], [])) ∧
    (∀ extra : Nat, parseSource (6 + extra) (bytes "return 1 b") =
      .ok ([.nil, .nil,
        .ReturnStatement ⟨.Return, bytes "return"⟩ (.Integer ⟨.Int, bytes "1"⟩ 1)], [])) ∧
    (∀ extra : Nat, parseSource (6 + extra) (bytes "1 b") =
      .ok ([.nil, .nil,
        .ExpressionStatement ⟨.Int, bytes "1"⟩ (.Integer ⟨.Int, bytes "1"⟩ 1),
        .ExpressionStatement ⟨.Ident, bytes "b"⟩
          (.Identifier ⟨⟨.Ident, bytes "b"⟩, bytes "b"⟩)], [])) ∧
    (∀ extra : Nat, parseSource (6 + extra) (bytes "let a = 1; b") =
      .ok ([.nil, .nil,
        .LetStatement ⟨.Let, bytes "let"⟩ ⟨⟨.Ident, bytes "a"⟩, bytes "a"⟩
          (.Integer ⟨.Int, bytes "1"⟩ 1),
        .ExpressionStatement ⟨.Ident, bytes "b"⟩
          (.Identifier ⟨⟨.Ident, bytes "b"⟩, bytes "b"⟩)], [])) ∧
    ((NewParser (NewLexer (bytes "let a = 1 b"))).bind (parseLetStatement 4)).map
        (fun r => (r.2.currentToken, r.2.peekToken)) =
      .ok (⟨.Ident, bytes "b"⟩, eofToken) ∧
    ((NewParser (NewLexer (bytes "return 1 b"))).bind (parseReturnStatement 4)).map
        (fun r => (r.2.currentToken, r.2.peekToken)) =
      .ok (⟨.Ident, bytes "b"⟩, eofToken) :=
  ⟨parseSource_add (of_yieldsResult (by decide!)),
    parseSource_add (of_yieldsResult (by decide!)),
    parseSource_add (of_yieldsResult (by decide!)),
    parseSource_add (of_yieldsResult (by decide!)),
    by decide!, by decide!⟩

/-! ## C19: failing checks of required tokens -/

/-- C19 (code bug).  The parameter loop of `parseFunction` calls
`assertPeekTokenIs(Ident)` and does not look at the result: on `fn(1) { }` the
two failing checks record their errors and the loop goes on, appending the
current tokens `(` and `1` as parameters, and the rule returns a function node
with those two parameters.  Every other check of a required token returns nil
from its rule when it fails: the two checks of the let rule (`let 1`,
`let x 1`, the nil let statement), the check of the grouped rule (`(1;`), the
four checks of the conditional (`if x`, `if (x {`, `if (x) y`,
`if (x) { y } else z`), the checks for `(` and `{` of the function rule
(`fn x`, `fn(x) y`) and the check of the call rule (`f(1;`).  Each
expression statement carries the token on which its rule stopped.  (At every
fuel from 12 on.) -/
theorem C19_parameter_check_ignored :
    (∀ extra : Nat, parseSource (12 + extra) (bytes "fn(1) \x7b \x7d") =
      .ok ([.nil, .nil,
        .ExpressionStatement ⟨.Rbrace, bytes "\x7d"⟩
          (.Function ⟨.Function, bytes "fn"⟩
            [⟨⟨.Lparen, bytes "("⟩, bytes "("⟩, ⟨⟨.Int, bytes "1"⟩, bytes "1"⟩]
            (.mk ⟨.Lbrace, bytes "\x7b"⟩ []))],
        [.expectedNext .Ident .Int, .expectedNext .Ident .Rparen])) ∧
    (∀ extra : Nat, parseSource (12 + extra) (bytes "let 1") =
      .ok ([.nil, .nil, .nilLetStatement,
        .ExpressionStatement ⟨.Int, bytes "1"⟩ (.Integer ⟨.Int, bytes "1"⟩ 1)],
        [.expectedNext .Ident .Int])) ∧
    (∀ extra : Nat, parseSource (12 + extra) (bytes "let x 1") =
      .ok ([.nil, .nil, .nilLetStatement,
        .ExpressionStatement ⟨.Int, bytes "1"⟩ (.Integer ⟨.Int, bytes "1"⟩ 1)],
        [.expectedNext .Assign .Int])) ∧
    (∀ extra : Nat, parseSource (12 + extra) (bytes "(1;") =
      .ok ([.nil, .nil, .ExpressionStatement ⟨.Int, bytes "1"⟩ .nil],
        [.expectedNext .Rparen .Semicolon])) ∧
    (∀ extra : Nat, parseSource (12 + extra) (bytes "if x") =
      .ok ([.nil, .nil, .ExpressionStatement ⟨.If, bytes "if"⟩ .nil,
        .ExpressionStatement ⟨.Ident, bytes "x"⟩
          (.Identifier ⟨⟨.Ident, bytes "x"⟩, bytes "x"⟩)],
        [.expectedNext .Lparen .Ident])) ∧
    (∀ extra : Nat, parseSource (12 + extra) (bytes "if (x \x7b") =
      .ok ([.nil, .nil, .ExpressionStatement ⟨.Ident, bytes "x"⟩ .nil,
        .ExpressionStatement ⟨.Lbrace, bytes "\x7b"⟩ .nil],
        [.expectedNext .Rparen .Lbrace, .noPrefixFound .Lbrace])) ∧
    (∀ extra : Nat, parseSource (12 + extra) (bytes "if (x) y") =
      .ok ([.nil, .nil, .ExpressionStatement ⟨.Rparen, bytes ")"⟩ .nil,
        .ExpressionStatement ⟨.Ident, bytes "y"⟩
          (.Identifier ⟨⟨.Ident, bytes "y"⟩, bytes "y"⟩)],
        [.expectedNext .Lbrace .Ident])) ∧
    (∀ extra : Nat, parseSource (12 + extra) (bytes "if (x) \x7b y \x7d else z") =
      .ok ([.nil, .nil, .ExpressionStatement ⟨.Else, bytes "else"⟩ .nil,
        .ExpressionStatement ⟨.Ident, bytes "z"⟩
          (.Identifier ⟨⟨.Ident, bytes "z"⟩, bytes "z"⟩)],
        [.expectedNext .Lbrace .Ident])) ∧
    (∀ extra : Nat, parseSource (12 + extra) (bytes "fn x") =
      .ok ([.nil, .nil, .ExpressionStatement ⟨.Function, bytes "fn"⟩ .nil,
        .ExpressionStatement ⟨.Ident, bytes "x"⟩
          (.Identifier ⟨⟨.Ident, bytes "x"⟩, bytes "x"⟩)],
        [.expectedNext .Lparen .Ident])) ∧
    (∀ extra : Nat, parseSource (12 + extra) (bytes "fn(x) y") =
      .ok ([.nil, .nil, .ExpressionStatement ⟨.Rparen, bytes ")"⟩ .nil,
        .ExpressionStatement ⟨.Ident, bytes "y"⟩
          (.Identifier ⟨⟨.Ident, bytes "y"⟩, bytes "y"⟩)],
        [.expectedNext .Lbrace .Ident])) ∧
    (∀ extra : Nat, parseSource (12 + extra) (bytes "f(1;") =
      .ok ([.nil, .nil, .ExpressionStatement ⟨.Int, bytes "1"⟩ .nil],
        [.expectedNext .Rparen .Semicolon])) :=
  ⟨parseSource_add (of_yieldsResult (by decide!)),
    parseSource_add (of_yieldsResult (by decide!)),
    parseSource_add (of_yieldsResult (by decide!)),
    parseSource_add (of_yieldsResult (by decide!)),
    parseSource_add (of_yieldsResult (by decide!)),
    parseSource_add (of_yieldsResult (by decide!)),
    parseSource_add (of_yieldsResult (by decide!)),
    parseSource_add (of_yieldsResult (by decide!)),
    parseSource_add (of_yieldsResult (by decide!)),
    parseSource_add (of_yieldsResult (by decide!)),
    parseSource_add (of_yieldsResult (by decide!))⟩

/-! ## C20: termination -/

theorem nextToken_parserAt (src : List Nat) (cur peek : Token) (errs : List ParseError) :
    (parserAt src cur peek errs).nextToken = .ok (parserAt src peek eofToken errs) := by
  have h : (lexAt src []).NextToken = some (eofToken, lexAt src []) := by
    simpa using NextToken_lexAt_end src [] (by simp)
  simp [nextToken, parserAt, h]

/-- At the end of the input the parameter loop of `parseFunction` never
leaves: it uses up any fuel. -/
theorem parseFunctionParams_at_end (src : List Nat) (fuel : Nat) :
    ∀ (params : List Identifier) (errs : List ParseError),
      parseFunctionParams fuel params (parserAt src eofToken eofToken errs) =
        .error .outOfFuel := by
  induction fuel with
  | zero => intro params errs; rfl
  | succ n ih =>
    intro params errs
    rw [parseFunctionParams]
    have h1 : (parserAt src eofToken eofToken errs).assertPeekTokenIs .Ident =
        .ok (false, parserAt src eofToken eofToken (errs ++ [.expectedNext .Ident .Eof])) := rfl
    simp only [h1, nextToken_parserAt]
    have h2 : (parserAt src eofToken eofToken
        (errs ++ [.expectedNext .Ident .Eof])).currentTokenIs .Comma = false := rfl
    have h3 : (parserAt src eofToken eofToken
        (errs ++ [.expectedNext .Ident .Eof])).currentTokenIs .Rparen = false := rfl
    simp only [h2, h3]
    exact ih _ _

theorem parseFunctionParams_fn_x (fuel : Nat) (params : List Identifier) :
    parseFunctionParams fuel params
      (parserAt (bytes "fn(x") ⟨.Lparen, bytes "("⟩ ⟨.Ident, bytes "x"⟩ []) =
        .error .outOfFuel := by
  cases fuel with
  | zero => rfl
  | succ n =>
    rw [parseFunctionParams]
    have h1 : (parserAt (bytes "fn(x") ⟨.Lparen, bytes "("⟩ ⟨.Ident, bytes "x"⟩
        []).assertPeekTokenIs .Ident =
        .ok (true, parserAt (bytes "fn(x") ⟨.Ident, bytes "x"⟩ eofToken []) := by
      unfold assertPeekTokenIs
      have hc : (parserAt (bytes "fn(x") ⟨.Lparen, bytes "("⟩ ⟨.Ident, bytes "x"⟩
          []).peekTokenIs .Ident = true := rfl
      rw [if_pos hc, nextToken_parserAt]
    simp only [h1, nextToken_parserAt]
    have h2 : (parserAt (bytes "fn(x") eofToken eofToken []).currentTokenIs .Comma = false := rfl
    have h3 : (parserAt (bytes "fn(x") eofToken eofToken []).currentTokenIs .Rparen = false :=
      rfl
    simp only [h2, h3]
    exact parseFunctionParams_at_end _ _ _ _

theorem NewParser_fn_x :
    NewParser (NewLexer (bytes "fn(x")) =
      .ok (parserIn (bytes "fn(") (bytes "x") ⟨.Function, bytes "fn"⟩ ⟨.Lparen, bytes "("⟩ []) := by
  decide

theorem parseFunction_fn_x (fuel : Nat) :
    parseFunction fuel
      (parserIn (bytes "fn(") (bytes "x") ⟨.Function, bytes "fn"⟩ ⟨.Lparen, bytes "("⟩ []) =
      .error .outOfFuel := by
  cases fuel with
  | zero => rfl
  | succ n =>
    rw [parseFunction]
    have h1 : (parserIn (bytes "fn(") (bytes "x") ⟨.Function, bytes "fn"⟩
        ⟨.Lparen, bytes "("⟩ []).assertPeekTokenIs .Lparen =
        .ok (true, parserAt (bytes "fn(x") ⟨.Lparen, bytes "("⟩ ⟨.Ident, bytes "x"⟩ []) := by
      decide
    have h2 : (parserAt (bytes "fn(x") ⟨.Lparen, bytes "("⟩ ⟨.Ident, bytes "x"⟩
        []).peekTokenIs .Rparen = false := rfl
    simp only [h1, h2, parseFunctionParams_fn_x]
    rfl

/-- C20 (code bug).  On the source `fn(x` the lexer does not fail, and the
parameter loop of `parseFunction` never stops: once the end of the input is
the current token it is neither `,` nor `)`, and each round records one more
error, appends one more parameter and goes round again.  The run uses up any
amount of fuel: `Parse` does not return.  (The loop of `parseBlockStatement`
tests for the end of the input and does stop: `fn(x) { x` is parsed at
every fuel from 12 on, to an expression statement that carries the
end-of-input token, on which the function rule stopped.) -/
theorem C20_parameter_loop_does_not_stop :
    lexTokens 4 (NewLexer (bytes "fn(x")) =
      [some ⟨.Function, bytes "fn"⟩, some ⟨.Lparen, bytes "("⟩, some ⟨.Ident, bytes "x"⟩,
        some eofToken] ∧
    (∀ fuel : Nat, parseSource fuel (bytes "fn(x") = .error .outOfFuel) ∧
    (∀ fuel : Nat, ParseSource fuel (bytes "fn(x") = .error .outOfFuel) ∧
    (∀ extra : Nat, parseSource (12 + extra) (bytes "fn(x) \x7b x") =
      .ok ([.nil, .nil,
        .ExpressionStatement eofToken
          (.Function ⟨.Function, bytes "fn"⟩ [⟨⟨.Ident, bytes "x"⟩, bytes "x"⟩]
            (.mk ⟨.Lbrace, bytes "\x7b"⟩
              [.ExpressionStatement ⟨.Ident, bytes "x"⟩
                (.Identifier ⟨⟨.Ident, bytes "x"⟩, bytes "x"⟩)]))], [])) := by
  have hloop : ∀ fuel : Nat, parseLoop fuel [.nil, .nil]
      (parserIn (bytes "fn(") (bytes "x") ⟨.Function, bytes "fn"⟩ ⟨.Lparen, bytes "("⟩ []) =
      .error .outOfFuel := by
    intro fuel
    cases fuel with
    | zero => rfl
    | succ n1 =>
      have hc : ((parserIn (bytes "fn(") (bytes "x") ⟨.Function, bytes "fn"⟩
          ⟨.Lparen, bytes "("⟩ []).currentToken.Typ != TokenType.Eof) = true := rfl
      rw [parseLoop, if_pos hc]
      cases n1 with
      | zero => rfl
      | succ n2 =>
        rw [parseStatement]
        have hk : (parserIn (bytes "fn(") (bytes "x") ⟨.Function, bytes "fn"⟩
            ⟨.Lparen, bytes "("⟩ []).currentToken.Typ = .Function := rfl
        simp only [hk]
        cases n2 with
        | zero => rfl
        | succ n3 =>
          rw [parseExpressionStatement]
          cases n3 with
          | zero => rfl
          | succ n4 =>
            rw [parseExpression]
            have hr : prefixExprResolvers (TokenType.Function) = some .parseFunction := rfl
            simp only [hk, hr, parseFunction_fn_x]
  refine ⟨by decide, ?_, ?_, parseSource_add (of_yieldsResult (by decide!))⟩
  · intro fuel
    unfold parseSource parseProgram
    rw [NewParser_fn_x]
    simp only [hloop]
  · intro fuel
    unfold ParseSource Parse parseProgram
    rw [NewParser_fn_x]
    simp only [hloop]

/-! ## Rendering and parsing again -/

/-- A rule that returned at some fuel returns the same at every larger fuel. -/
theorem Triple.mono {α : Type} {F : Nat → Parser → Except Fault (α × Parser)}
    (hmono : ∀ n p, F n p ≠ .error .outOfFuel → F (n + 1) p = F n p)
    {n m : Nat} (hnm : n ≤ m) {c c1 : Token} {ts ts1 : List Token} {es es1 : List ParseError}
    {a : α} (h : Triple (F n) c ts es a c1 ts1 es1) : Triple (F m) c ts es a c1 ts1 es1 := by
  obtain ⟨k, rfl⟩ : ∃ k, m = n + k := ⟨m - n, by omega⟩
  clear hnm
  induction k with
  | zero => exact h
  | succ k ih =>
    intro p hp
    obtain ⟨p1, h1, h2⟩ := ih p hp
    refine ⟨p1, ?_, h2⟩
    rw [← Nat.add_assoc, hmono (n + k) p (by rw [h1]; simp), h1]

theorem triple_expression_mono {n m : Nat} (hnm : n ≤ m) {prec : Nat} {c c1 : Token}
    {ts ts1 : List Token} {es es1 : List ParseError} {a : Expression}
    (h : Triple (parseExpression n prec) c ts es a c1 ts1 es1) :
    Triple (parseExpression m prec) c ts es a c1 ts1 es1 :=
  Triple.mono (F := fun n => parseExpression n prec)
    (fun n p => (parse_mono n).2.2.2.2.1 prec p) hnm h

theorem triple_loop_mono {n m : Nat} (hnm : n ≤ m) {prec : Nat} {left : Expression}
    {c c1 : Token} {ts ts1 : List Token} {es es1 : List ParseError} {a : Expression}
    (h : Triple (parseExpressionLoop n prec left) c ts es a c1 ts1 es1) :
    Triple (parseExpressionLoop m prec left) c ts es a c1 ts1 es1 :=
  Triple.mono (F := fun n => parseExpressionLoop n prec left)
    (fun n p => (parse_mono n).2.2.2.2.2.1 prec left p) hnm h

theorem triple_callArguments_mono {n m : Nat} (hnm : n ≤ m) {arguments : List Expression}
    {c c1 : Token} {ts ts1 : List Token} {es es1 : List ParseError} {a : List Expression}
    (h : Triple (parseCallArguments n arguments) c ts es a c1 ts1 es1) :
    Triple (parseCallArguments m arguments) c ts es a c1 ts1 es1 :=
  Triple.mono (F := fun n => parseCallArguments n arguments)
    (fun n p => (parse_mono n).2.2.2.2.2.2.2.2.2.2.2.2.1 arguments p) hnm h

theorem triple_statement_mono {n m : Nat} (hnm : n ≤ m)
    {c c1 : Token} {ts ts1 : List Token} {es es1 : List ParseError} {a : Statement}
    (h : Triple (parseStatement n) c ts es a c1 ts1 es1) :
    Triple (parseStatement m) c ts es a c1 ts1 es1 :=
  Triple.mono (F := fun n => parseStatement n) (fun n p => (parse_mono n).1 p) hnm h

/-- The boolean rule. -/
theorem triple_expr_boolean (fuel prec : Nat) (c : Token) (res : Expression) (c1 : Token)
    (ts ts1 : List Token) (es es1 : List ParseError) (hc : c.Typ = .True ∨ c.Typ = .False)
    (h1 : Triple (parseExpressionLoop fuel prec (.Boolean c (c.Typ == .True))) c ts es
      res c1 ts1 es1) :
    Triple (parseExpression (fuel + 1) prec) c ts es res c1 ts1 es1 := by
  intro p h
  obtain ⟨p2, hi, hat2⟩ := h1 p h
  refine ⟨p2, ?_, hat2⟩
  rw [parseExpression]
  rcases hc with hc | hc <;>
    simp only [h.1, hc, prefixExprResolvers, parseBoolean, currentTokenIs] <;>
    simpa [h.1, hc] using hi

theorem lexable_fixed_eq (t : Token) (s : List Nat) (hs : spelling t.Typ = some s)
    (hl : lexable t = true) : t = t.Typ.token := by
  obtain ⟨k, lit⟩ := t
  cases k <;> simp_all [lexable, spelling, TokenType.token]

theorem Expression.size_pos : ∀ e : Expression, 1 ≤ e.size
  | .nil => by simp [Expression.size]
  | .Identifier _ => by simp [Expression.size]
  | .Integer _ _ => by simp [Expression.size]
  | .Boolean _ _ => by simp [Expression.size]
  | .PrefixExpression _ _ _ => by simp [Expression.size]
  | .InfixExpression _ _ _ _ => by simp [Expression.size]
  | .IfExpression _ _ _ _ => by simp [Expression.size]
  | .CallExpression _ _ _ => by simp [Expression.size]
  | .Function _ _ _ => by simp [Expression.size]

/-- The rendering of an operator-only expression starts with an identifier, an
integer, a boolean or `(`. -/
theorem tokens_cons : ∀ e : Expression, e.wellFormed = true → e.operatorOnly = true →
    ∃ c ts0, e.tokens = c :: ts0 ∧ lexable c = true ∧
      (c.Typ = .Ident ∨ c.Typ = .Int ∨ c.Typ = .True ∨ c.Typ = .False ∨ c.Typ = .Lparen)
  | .nil, h, _ => by simp [Expression.wellFormed] at h
  | .Identifier id, h, _ => by
    simp only [Expression.wellFormed, Identifier.wellFormed, Bool.and_eq_true, beq_iff_eq] at h
    exact ⟨id.Token, [], rfl, h.1.2, Or.inl h.1.1⟩
  | .Integer tok v, h, _ => by
    simp only [Expression.wellFormed, Bool.and_eq_true, beq_iff_eq] at h
    exact ⟨tok, [], rfl, h.1.2, Or.inr (Or.inl h.1.1)⟩
  | .Boolean tok v, h, _ => by
    simp only [Expression.wellFormed, Bool.and_eq_true, Bool.or_eq_true, beq_iff_eq] at h
    refine ⟨tok, [], rfl, h.1.2, ?_⟩
    rcases h.1.1 with h1 | h1
    · exact Or.inr (Or.inr (Or.inl h1))
    · exact Or.inr (Or.inr (Or.inr (Or.inl h1)))
  | .PrefixExpression _ _ _, _, _ =>
    ⟨_, _, rfl, by decide, Or.inr (Or.inr (Or.inr (Or.inr rfl)))⟩
  | .InfixExpression _ _ _ _, _, _ =>
    ⟨_, _, rfl, by decide, Or.inr (Or.inr (Or.inr (Or.inr rfl)))⟩
  | .IfExpression _ _ _ _, _, ho => by simp [Expression.operatorOnly] at ho
  | .CallExpression tok f args, h, ho => by
    simp only [Expression.wellFormed, Bool.and_eq_true] at h
    simp only [Expression.operatorOnly, Bool.and_eq_true] at ho
    obtain ⟨c, ts0, h1, h2, h3⟩ := tokens_cons f h.1.2 ho.1
    exact ⟨c, ts0 ++ tok :: (Expression.tokensAll args ++ [TokenType.Rparen.token]),
      by simp [Expression.tokens, h1], h2, h3⟩
  | .Function _ _ _, _, ho => by simp [Expression.operatorOnly] at ho

theorem not_lt_rparen (n : Nat) (hn : Lowest ≤ n) (ts : List Token) :
    ¬ n < precedenceOf ((TokenType.Rparen.token :: ts).headD eofToken).Typ :=
  not_lt_of_none n hn _ ts rfl

theorem tokensRest_head (rest : List Expression) (ts : List Token) :
    ((Expression.tokensRest rest ++ TokenType.Rparen.token :: ts).headD eofToken).Typ = .Comma ∨
    ((Expression.tokensRest rest ++ TokenType.Rparen.token :: ts).headD eofToken).Typ = .Rparen := by
  cases rest with
  | nil => right; rfl
  | cons e rest => left; rfl

theorem not_lt_tokensRest (rest : List Expression) (ts : List Token) :
    ¬ Lowest < precedenceOf
      ((Expression.tokensRest rest ++ TokenType.Rparen.token :: ts).headD eofToken).Typ := by
  rcases tokensRest_head rest ts with h | h <;> rw [h] <;> decide

mutual
/-- The expression rule on the tokens of the rendering of an operator-only
expression `e`: it builds `e` and goes on as the operator loop does from
there. -/
theorem parse_plain : ∀ (e : Expression), e.wellFormed = true → e.operatorOnly = true →
    ∀ (prec : Nat), prec < Call → ∀ (f : Nat) (ts : List Token) (es : List ParseError)
      (res : Expression) (c2 : Token) (ts2 : List Token) (es2 : List ParseError),
      Triple (parseExpressionLoop f prec e) e.lastToken ts es res c2 ts2 es2 →
      ∀ F, f + 5 * e.size ≤ F → ∀ c ts0, e.tokens = c :: ts0 →
        Triple (parseExpression F prec) c (ts0 ++ ts) es res c2 ts2 es2
  | .nil, hw, _, _, _, _, _, _, _, _, _, _, _, _, _, _, _, _ => by
    simp [Expression.wellFormed] at hw
  | .Identifier id, hw, _, prec, _, f, ts, es, res, c2, ts2, es2, h, F, hF, c, ts0, ht => by
    simp only [Expression.wellFormed, Identifier.wellFormed, Bool.and_eq_true, beq_iff_eq] at hw
    simp only [Expression.tokens, List.cons.injEq] at ht
    obtain ⟨rfl, rfl⟩ := ht
    obtain ⟨F1, rfl⟩ : ∃ F1, F = F1 + 1 := ⟨F - 1, by simp [Expression.size] at hF; omega⟩
    have hid : (Atom.ident id.Value).expr = .Identifier id := by
      obtain ⟨tok, value⟩ := id
      obtain ⟨k, lit⟩ := tok
      simp only at hw
      obtain ⟨⟨rfl, -⟩, rfl⟩ := hw
      rfl
    have htok : (Atom.ident id.Value).token = id.Token := by
      obtain ⟨tok, value⟩ := id
      obtain ⟨k, lit⟩ := tok
      simp only at hw
      obtain ⟨⟨rfl, -⟩, rfl⟩ := hw
      rfl
    have := triple_expr_atom F1 prec (.ident id.Value) res c2 ts ts2 es es2
      (by
        rw [hid, htok]
        simpa [Atom.errors, Expression.lastToken] using
          triple_loop_mono (by simp [Expression.size] at hF; omega) h)
    simpa [htok] using this
  | .Integer tok v, hw, _, prec, _, f, ts, es, res, c2, ts2, es2, h, F, hF, c, ts0, ht => by
    simp only [Expression.wellFormed, Bool.and_eq_true, beq_iff_eq] at hw
    simp only [Expression.tokens, List.cons.injEq] at ht
    obtain ⟨rfl, rfl⟩ := ht
    obtain ⟨F1, rfl⟩ : ∃ F1, F = F1 + 1 := ⟨F - 1, by simp [Expression.size] at hF; omega⟩
    obtain ⟨k, lit⟩ := tok
    simp only at hw
    obtain ⟨⟨rfl, hl⟩, hpi⟩ := hw
    have hid : (Atom.int lit).expr = .Integer ⟨.Int, lit⟩ v := by
      simp [Atom.expr, hpi]
    have her : (Atom.int lit).errors = [] := by
      simp [Atom.errors, hpi]
    have := triple_expr_atom F1 prec (.int lit) res c2 ts ts2 es es2
      (by
        rw [hid, her]
        simpa [Atom.token, Expression.lastToken] using
          triple_loop_mono (by simp [Expression.size] at hF; omega) h)
    simpa [Atom.token] using this
  | .Boolean tok v, hw, _, prec, _, f, ts, es, res, c2, ts2, es2, h, F, hF, c, ts0, ht => by
    simp only [Expression.wellFormed, Bool.and_eq_true, Bool.or_eq_true, beq_iff_eq] at hw
    simp only [Expression.tokens, List.cons.injEq] at ht
    obtain ⟨rfl, rfl⟩ := ht
    obtain ⟨F1, rfl⟩ : ∃ F1, F = F1 + 1 := ⟨F - 1, by simp [Expression.size] at hF; omega⟩
    obtain ⟨⟨hk, -⟩, rfl⟩ := hw
    have := triple_expr_boolean F1 prec tok res c2 ts ts2 es es2 hk
      (by
        simpa [Expression.lastToken] using
          triple_loop_mono (by simp [Expression.size] at hF; omega) h)
    simpa using this
  | .PrefixExpression tok op right, hw, ho, prec, _, f, ts, es, res, c2, ts2, es2, h, F, hF,
      c, ts0, ht => by
    simp only [Expression.wellFormed, Bool.and_eq_true, beq_iff_eq] at hw
    simp only [Expression.operatorOnly] at ho
    obtain ⟨⟨⟨hk, hl⟩, rfl⟩, hwr⟩ := hw
    simp only [Expression.tokens, List.cons.injEq] at ht
    obtain ⟨rfl, rfl⟩ := ht
    simp only [Expression.size] at hF
    obtain ⟨cr, tr, hr, -, -⟩ := tokens_cons right hwr ho
    obtain ⟨G, rfl⟩ : ∃ G, F = G + 4 := ⟨F - 4, by omega⟩
    have h1 := parse_plain right hwr ho Prefix (by decide) 1 (TokenType.Rparen.token :: ts) es
      right right.lastToken (TokenType.Rparen.token :: ts) es
      (triple_loop_stop 0 Prefix right right.lastToken _ es
        (not_lt_rparen Prefix (by decide) ts)) G (by omega) cr tr hr
    have h2 := triple_prefixExpression G right tok cr right.lastToken _ _ es es h1
    have h3 := triple_expr_prefixExpression (G + 1) Lowest _ _ tok right.lastToken
      right.lastToken _ _ _ es es es (isPrefixOperator_cases hk) h2
      (triple_loop_stop G Lowest _ right.lastToken _ es (not_lt_rparen Lowest (by decide) ts))
    have h4 := triple_grouped (G + 2) _ TokenType.Lparen.token tok right.lastToken
      TokenType.Rparen.token _ ts es es h3 rfl
    have h5 := triple_expr_grouped (G + 3) prec _ res TokenType.Lparen.token
      TokenType.Rparen.token c2 _ ts ts2 es es es2 rfl h4
      (by
        simpa [Expression.lastToken] using triple_loop_mono (by omega) h)
    simpa [hr] using h5
  | .InfixExpression tok left op right, hw, ho, prec, _, f, ts, es, res, c2, ts2, es2, h, F,
      hF, c, ts0, ht => by
    simp only [Expression.wellFormed, Bool.and_eq_true, beq_iff_eq] at hw
    simp only [Expression.operatorOnly, Bool.and_eq_true] at ho
    obtain ⟨⟨⟨⟨hk, hl⟩, rfl⟩, hwl⟩, hwr⟩ := hw
    simp only [Expression.tokens, List.cons.injEq] at ht
    obtain ⟨rfl, rfl⟩ := ht
    simp only [Expression.size] at hF
    obtain ⟨cr, tr, hr, -, -⟩ := tokens_cons right hwr ho.2
    obtain ⟨cl, tl, hl', -, -⟩ := tokens_cons left hwl ho.1
    have hprec := precedenceOf_binary hk
    have hC : Call = 7 := rfl
    have hP : Prefix = 6 := rfl
    have hL : Lowest = 1 := rfl
    obtain ⟨G, rfl⟩ : ∃ G, F = G + 4 + 5 * left.size := ⟨F - 4 - 5 * left.size, by omega⟩
    have h1 := parse_plain right hwr ho.2 (precedenceOf tok.Typ) (by omega) 1
      (TokenType.Rparen.token :: ts) es right right.lastToken (TokenType.Rparen.token :: ts) es
      (triple_loop_stop 0 _ right right.lastToken _ es
        (not_lt_rparen _ (by omega) ts)) G (by omega) cr tr hr
    have h2 := triple_infixExpression G left right tok cr right.lastToken _ _ es es h1
    have h3 := triple_loop_binary (G + 1) Lowest left _ _ left.lastToken tok right.lastToken
      right.lastToken _ _ _ es es es hk (by omega) h2
      (triple_loop_stop G Lowest _ right.lastToken _ es (not_lt_rparen Lowest (by decide) ts))
    have h4 := parse_plain left hwl ho.1 Lowest (by decide) (G + 2) _ es _ right.lastToken
      (TokenType.Rparen.token :: ts) es h3 (G + 2 + 5 * left.size) (by omega) cl tl hl'
    have h5 := triple_grouped (G + 2 + 5 * left.size) _ TokenType.Lparen.token cl
      right.lastToken TokenType.Rparen.token _ ts es es h4 rfl
    have h6 := triple_expr_grouped (G + 2 + 5 * left.size + 1) prec _ res
      TokenType.Lparen.token TokenType.Rparen.token c2 _ ts ts2 es es es2 rfl h5
      (by
        simpa [Expression.lastToken] using triple_loop_mono (by omega) h)
    have e : G + 2 + 5 * left.size + 1 + 1 = G + 4 + 5 * left.size := by omega
    rw [e] at h6
    simpa [hr, hl'] using h6
  | .IfExpression _ _ _ _, _, ho, _, _, _, _, _, _, _, _, _, _, _, _, _, _, _ => by
    simp [Expression.operatorOnly] at ho
  | .CallExpression tok g args, hw, ho, prec, hp, f, ts, es, res, c2, ts2, es2, h, F, hF,
      c, ts0, ht => by
    simp only [Expression.wellFormed, Bool.and_eq_true, beq_iff_eq] at hw
    simp only [Expression.operatorOnly, Bool.and_eq_true] at ho
    obtain ⟨⟨⟨hk, hl⟩, hwg⟩, hwa⟩ := hw
    have htok : tok = TokenType.Lparen.token := by
      have := lexable_fixed_eq tok [40] (by rw [hk]; rfl) hl
      rw [hk] at this
      exact this
    subst htok
    simp only [Expression.size] at hF
    obtain ⟨cg, tg, hg, -, -⟩ := tokens_cons g hwg ho.1
    simp only [Expression.tokens, hg, List.cons_append, List.cons.injEq] at ht
    obtain ⟨rfl, rfl⟩ := ht
    have hcall : ∀ Fc, 3 + 5 * Expression.sizeAll args ≤ Fc →
        Triple (parseCallExpression Fc g) TokenType.Lparen.token
          (Expression.tokensAll args ++ TokenType.Rparen.token :: ts) es
          (.CallExpression TokenType.Lparen.token g args) TokenType.Rparen.token ts es := by
      intro Fc hFc
      obtain ⟨F1, rfl⟩ : ∃ F1, Fc = F1 + 1 := ⟨Fc - 1, by omega⟩
      cases args with
      | nil => exact triple_call_empty F1 g _ _ ts es rfl
      | cons a rest =>
        simp only [Expression.wellFormedAll, Bool.and_eq_true] at hwa
        simp only [Expression.operatorOnlyAll, Bool.and_eq_true] at ho
        simp only [Expression.sizeAll] at hFc
        obtain ⟨ca, ta, ha, -, hty⟩ := tokens_cons a hwa.1 ho.2.1
        have h1 := parse_plain a hwa.1 ho.2.1 Lowest (by decide) 1
          (Expression.tokensRest rest ++ TokenType.Rparen.token :: ts) es a a.lastToken _ es
          (triple_loop_stop 0 Lowest a a.lastToken _ es (not_lt_tokensRest rest ts))
          F1 (by omega) ca ta ha
        have h2 := parse_plain_rest rest hwa.2 ho.2.2 [a] a.lastToken ts es F1 (by omega)
        have h3 := triple_call F1 g a (a :: rest) TokenType.Lparen.token ca a.lastToken
          (lastArgumentToken a.lastToken rest) TokenType.Rparen.token _ _ ts es es es
          (by rcases hty with h | h | h | h | h <;> rw [h] <;> decide) h1 h2 rfl
        simpa [Expression.tokensAll, ha] using h3
    obtain ⟨Fc, rfl⟩ : ∃ Fc, F = Fc + 1 + 5 * g.size := ⟨F - 1 - 5 * g.size, by omega⟩
    have h3 := triple_loop_call Fc prec g _ res g.lastToken TokenType.Lparen.token
      TokenType.Rparen.token c2 _ ts ts2 es es es2 rfl hp (hcall Fc (by omega))
      (by
        simpa [Expression.lastToken] using triple_loop_mono (by omega) h)
    have h4 := parse_plain g hwg ho.1 prec hp (Fc + 1) _ es res c2 ts2 es2 h3
      (Fc + 1 + 5 * g.size) (by omega) cg tg hg
    simpa using h4
  | .Function _ _ _, _, ho, _, _, _, _, _, _, _, _, _, _, _, _, _, _, _ => by
    simp [Expression.operatorOnly] at ho
/-- The argument loop of the call rule on the tokens `, e2 , e3 ... )`. -/
theorem parse_plain_rest : ∀ (rest : List Expression), Expression.wellFormedAll rest = true →
    Expression.operatorOnlyAll rest = true →
    ∀ (acc : List Expression) (cur : Token) (ts : List Token) (es : List ParseError) (F : Nat),
      2 + 5 * Expression.sizeAll rest ≤ F →
      Triple (parseCallArguments F acc) cur
        (Expression.tokensRest rest ++ TokenType.Rparen.token :: ts) es (acc ++ rest)
        (lastArgumentToken cur rest) (TokenType.Rparen.token :: ts) es
  | [], _, _, acc, cur, ts, es, F, hF => by
    obtain ⟨F1, rfl⟩ : ∃ F1, F = F1 + 1 := ⟨F - 1, by omega⟩
    simpa [Expression.tokensRest, lastArgumentToken] using
      triple_callArguments_stop F1 acc cur (TokenType.Rparen.token :: ts) es
        (by show TokenType.Rparen ≠ TokenType.Comma; decide)
  | b :: rest, hw, ho, acc, cur, ts, es, F, hF => by
    simp only [Expression.wellFormedAll, Bool.and_eq_true] at hw
    simp only [Expression.operatorOnlyAll, Bool.and_eq_true] at ho
    simp only [Expression.sizeAll] at hF
    obtain ⟨cb, tb, hb, -, -⟩ := tokens_cons b hw.1 ho.1
    obtain ⟨F1, rfl⟩ : ∃ F1, F = F1 + 1 := ⟨F - 1, by omega⟩
    have hs := Expression.size_pos b
    have h1 := parse_plain b hw.1 ho.1 Lowest (by decide) 1
      (Expression.tokensRest rest ++ TokenType.Rparen.token :: ts) es b b.lastToken _ es
      (triple_loop_stop 0 Lowest b b.lastToken _ es (not_lt_tokensRest rest ts))
      F1 (by omega) cb tb hb
    have h2 := parse_plain_rest rest hw.2 ho.2 (acc ++ [b]) b.lastToken ts es F1 (by omega)
    have h3 := triple_callArguments_step F1 acc (acc ++ [b] ++ rest) b cur
      TokenType.Comma.token cb b.lastToken (lastArgumentToken b.lastToken rest) _ _ _ es es es
      rfl h1 h2
    simpa [Expression.tokensRest, hb, lastArgumentToken] using h3
end

/-! ### The text of a rendering and its tokens -/

theorem separated_eq (ps : List (List Nat × Token)) (trail : List Nat) :
    separated ps trail = (adjoining ps trail && trail.all isSpace) := by
  induction ps with
  | nil => simp [separated, adjoining]
  | cons p ps ih =>
    obtain ⟨ws, t⟩ := p
    simp only [separated, adjoining, ih, Bool.and_assoc]

theorem sourceOf_append (ps qs : List (List Nat × Token)) (suffix : List Nat) :
    sourceOf (ps ++ qs) suffix = sourceOf ps (sourceOf qs suffix) := by
  induction ps with
  | nil => rfl
  | cons p ps ih =>
    obtain ⟨ws, t⟩ := p
    show ws ++ (t.Literal ++ sourceOf (ps ++ qs) suffix) = _
    rw [ih]
    rfl

theorem adjoining_append (ps qs : List (List Nat × Token)) (suffix : List Nat) :
    adjoining (ps ++ qs) suffix = (adjoining ps (sourceOf qs suffix) && adjoining qs suffix) := by
  induction ps with
  | nil => simp [adjoining]
  | cons p ps ih =>
    obtain ⟨ws, t⟩ := p
    show (ws.all isSpace && lexable t && canFollow t (sourceOf (ps ++ qs) suffix).head? &&
      adjoining (ps ++ qs) suffix) = _
    rw [ih, sourceOf_append]
    simp only [adjoining, Bool.and_assoc]

theorem bare_append (as bs : List Token) : bare (as ++ bs) = bare as ++ bare bs := by
  simp [bare]

theorem bare_cons (t : Token) (ts : List Token) : bare (t :: ts) = ([], t) :: bare ts := rfl

theorem textOf_append (as bs : List Token) : textOf (as ++ bs) = textOf as ++ textOf bs := by
  induction as with
  | nil => rfl
  | cons a as ih => simp [textOf, ih]

theorem sourceOf_bare (ts : List Token) (suffix : List Nat) :
    sourceOf (bare ts) suffix = textOf ts ++ suffix := by
  induction ts with
  | nil => rfl
  | cons t ts ih =>
    show [] ++ (t.Literal ++ sourceOf (bare ts) suffix) = _
    rw [ih]
    simp [textOf]

theorem adjoining_bare_cons (t : Token) (ts : List Token) (suffix : List Nat) :
    adjoining (bare (t :: ts)) suffix =
      (lexable t && canFollow t (textOf ts ++ suffix).head? && adjoining (bare ts) suffix) := by
  rw [bare_cons]
  simp only [adjoining, sourceOf_bare, List.all_nil, Bool.true_and]

theorem adjoining_bare_append (as bs : List Token) (suffix : List Nat) :
    adjoining (bare (as ++ bs)) suffix =
      (adjoining (bare as) (textOf bs ++ suffix) && adjoining (bare bs) suffix) := by
  rw [bare_append, adjoining_append, sourceOf_bare]

theorem adjoining_bare_nil (suffix : List Nat) : adjoining (bare []) suffix = true := rfl

/-- The last token of an operator-only expression ends before any byte that
is neither a letter nor a digit. -/
theorem canFollow_lastToken : ∀ (e : Expression), e.wellFormed = true →
    e.operatorOnly = true → ∀ next : Option Nat, isLetter (next.getD 0) = false →
    isDigit (next.getD 0) = false → canFollow e.lastToken next = true
  | .nil, h, _, _, _, _ => by simp [Expression.wellFormed] at h
  | .Identifier id, h, _, next, hl, hd => by
    simp only [Expression.wellFormed, Identifier.wellFormed, Bool.and_eq_true, beq_iff_eq] at h
    simp [Expression.lastToken, canFollow, h.1.1, hl]
  | .Integer tok v, h, _, next, hl, hd => by
    simp only [Expression.wellFormed, Bool.and_eq_true, beq_iff_eq] at h
    simp [Expression.lastToken, canFollow, h.1.1, hd]
  | .Boolean tok v, h, _, next, hl, hd => by
    simp only [Expression.wellFormed, Bool.and_eq_true, Bool.or_eq_true, beq_iff_eq] at h
    rcases h.1.1 with h1 | h1 <;> simp [Expression.lastToken, canFollow, h1, hl]
  | .PrefixExpression _ _ _, _, _, _, _, _ => rfl
  | .InfixExpression _ _ _ _, _, _, _, _, _ => rfl
  | .IfExpression _ _ _ _, _, ho, _, _, _ => by simp [Expression.operatorOnly] at ho
  | .CallExpression _ _ _, _, _, _, _, _ => rfl
  | .Function _ _ _, _, ho, _, _, _ => by simp [Expression.operatorOnly] at ho

/-- The text of an operator-only expression starts with a byte other than
`=`. -/
theorem text_head (e : Expression) (hw : e.wellFormed = true) (ho : e.operatorOnly = true)
    (suffix : List Nat) :
    ∃ b, (textOf e.tokens ++ suffix).head? = some b ∧ b ≠ 61 := by
  obtain ⟨c, ts0, h1, h2, h3⟩ := tokens_cons e hw ho
  rw [h1]
  obtain ⟨k, lit⟩ := c
  simp only at h3
  rcases h3 with rfl | rfl | rfl | rfl | rfl
  · simp only [lexable, Bool.and_eq_true, decide_eq_true_eq, List.all_eq_true, beq_iff_eq] at h2
    obtain ⟨b, w, rfl⟩ := List.exists_cons_of_ne_nil h2.1.1
    have hb := h2.1.2 b (by simp)
    refine ⟨b, by simp [textOf], ?_⟩
    intro h
    subst h
    simp [isLetter] at hb
  · simp only [lexable, Bool.and_eq_true, decide_eq_true_eq, List.all_eq_true] at h2
    obtain ⟨b, w, rfl⟩ := List.exists_cons_of_ne_nil h2.1
    have hb := h2.2 b (by simp)
    refine ⟨b, by simp [textOf], ?_⟩
    intro h
    subst h
    simp [isDigit] at hb
  · simp only [lexable, spelling, beq_iff_eq, Option.some.injEq] at h2
    subst h2
    exact ⟨116, rfl, by decide⟩
  · simp only [lexable, spelling, beq_iff_eq, Option.some.injEq] at h2
    subst h2
    exact ⟨102, rfl, by decide⟩
  · simp only [lexable, spelling, beq_iff_eq, Option.some.injEq] at h2
    subst h2
    exact ⟨40, rfl, by decide⟩

theorem binary_token {tok : Token} (hk : tok.Typ.isBinary = true) (hl : lexable tok = true) :
    (∀ next, canFollow tok next = true) ∧
    ∀ rest : List Nat, ∃ b, (tok.Literal ++ rest).head? = some b ∧ isLetter b = false ∧
      isDigit b = false := by
  obtain ⟨k, lit⟩ := tok
  rcases isBinary_cases hk with h | h | h | h | h | h | h | h <;> simp only at h <;> subst h <;>
    simp only [lexable, spelling, beq_iff_eq, Option.some.injEq] at hl <;> subst hl <;>
    exact ⟨fun _ => rfl, fun _ => ⟨_, rfl, by decide, by decide⟩⟩

theorem prefix_token {tok : Token} (hk : tok.Typ.isPrefixOperator = true)
    (hl : lexable tok = true) (next : Option Nat) (b : Nat) (hn : next = some b)
    (hb : b ≠ 61) : canFollow tok next = true := by
  obtain ⟨k, lit⟩ := tok
  subst hn
  rcases isPrefixOperator_cases hk with h | h <;> simp only at h <;> subst h
  · simp [canFollow, hb]
  · rfl

theorem tokensRest_text_head (rest : List Expression) (suffix : List Nat)
    (hs : suffix.head? = some 41) :
    (textOf (Expression.tokensRest rest) ++ suffix).head? = some 44 ∨
    (textOf (Expression.tokensRest rest) ++ suffix).head? = some 41 := by
  cases rest with
  | nil => right; simpa [Expression.tokensRest, textOf] using hs
  | cons e rest => left; rfl

theorem canFollow_last_of (e : Expression) (hw : e.wellFormed = true)
    (ho : e.operatorOnly = true) (next : Option Nat)
    (h : next = some 44 ∨ next = some 41 ∨ next = some 40 ∨ next = none) :
    canFollow e.lastToken next = true := by
  apply canFollow_lastToken e hw ho
  · rcases h with h | h | h | h <;> rw [h] <;> decide
  · rcases h with h | h | h | h <;> rw [h] <;> decide

mutual
/-- The rendering of an operator-only expression is the text of its tokens,
and in it each token ends where it is written. -/
theorem text_plain : ∀ (e : Expression), e.wellFormed = true → e.operatorOnly = true →
    e.String = some (textOf e.tokens) ∧
    ∀ suffix : List Nat, canFollow e.lastToken suffix.head? = true →
      adjoining (bare e.tokens) suffix = true
  | .nil, hw, _ => by simp [Expression.wellFormed] at hw
  | .Identifier id, hw, _ => by
    simp only [Expression.wellFormed, Identifier.wellFormed, Bool.and_eq_true, beq_iff_eq] at hw
    refine ⟨by simp [Expression.String, Expression.tokens, textOf, hw.2], ?_⟩
    intro suffix hc
    simp only [Expression.lastToken] at hc
    simp [Expression.tokens, bare, adjoining, sourceOf, hw.1.2, hc]
  | .Integer tok v, hw, _ => by
    simp only [Expression.wellFormed, Bool.and_eq_true, beq_iff_eq] at hw
    refine ⟨by simp [Expression.String, Expression.tokens, textOf], ?_⟩
    intro suffix hc
    simp only [Expression.lastToken] at hc
    simp [Expression.tokens, bare, adjoining, sourceOf, hw.1.2, hc]
  | .Boolean tok v, hw, _ => by
    simp only [Expression.wellFormed, Bool.and_eq_true, Bool.or_eq_true, beq_iff_eq] at hw
    obtain ⟨⟨hk, hl⟩, rfl⟩ := hw
    refine ⟨?_, ?_⟩
    · obtain ⟨k, lit⟩ := tok
      simp only at hk
      rcases hk with rfl | rfl <;>
        simp only [lexable, spelling, beq_iff_eq, Option.some.injEq] at hl <;> subst hl <;> rfl
    · intro suffix hc
      simp only [Expression.lastToken] at hc
      simp [Expression.tokens, bare, adjoining, sourceOf, hl, hc]
  | .PrefixExpression tok op right, hw, ho => by
    simp only [Expression.wellFormed, Bool.and_eq_true, beq_iff_eq] at hw
    simp only [Expression.operatorOnly] at ho
    obtain ⟨⟨⟨hk, hl⟩, rfl⟩, hwr⟩ := hw
    obtain ⟨h1, h2⟩ := text_plain right hwr ho
    refine ⟨?_, ?_⟩
    · simp [Expression.String, h1, Expression.tokens, textOf, textOf_append, TokenType.token,
        spelling, bytes_lits]
    · intro suffix _
      obtain ⟨b, hb1, hb2⟩ := text_head right hwr ho
        (textOf [TokenType.Rparen.token] ++ suffix)
      have h3 := h2 (textOf [TokenType.Rparen.token] ++ suffix)
        (canFollow_last_of right hwr ho _ (Or.inr (Or.inl rfl)))
      have h4 := prefix_token hk hl _ b hb1 hb2
      have e1 : canFollow TokenType.Lparen.token
        (tok.Literal ++ (textOf right.tokens ++
          (textOf [TokenType.Rparen.token] ++ suffix))).head? = true := rfl
      have e2 : lexable TokenType.Lparen.token = true := rfl
      have e3 : lexable TokenType.Rparen.token = true := rfl
      have e4 : canFollow TokenType.Rparen.token suffix.head? = true := rfl
      simp only [Expression.tokens, adjoining_bare_cons, adjoining_bare_append,
        adjoining_bare_nil, hl, e2, e3, h3, Bool.and_true, Bool.true_and, Bool.and_eq_true,
        textOf_append]
      simp only [textOf, List.append_nil, List.append_assoc] at h4 e1 e4 ⊢
      exact ⟨e1, h4, e4⟩
  | .InfixExpression tok left op right, hw, ho => by
    simp only [Expression.wellFormed, Bool.and_eq_true, beq_iff_eq] at hw
    simp only [Expression.operatorOnly, Bool.and_eq_true] at ho
    obtain ⟨⟨⟨⟨hk, hl⟩, rfl⟩, hwl⟩, hwr⟩ := hw
    obtain ⟨h1l, h2l⟩ := text_plain left hwl ho.1
    obtain ⟨h1r, h2r⟩ := text_plain right hwr ho.2
    refine ⟨?_, ?_⟩
    · simp [Expression.String, h1l, h1r, Expression.tokens, textOf, textOf_append,
        TokenType.token, spelling, bytes_lits]
    · intro suffix _
      obtain ⟨hb1, hb2⟩ := binary_token hk hl
      obtain ⟨b, hb3, hb4, hb5⟩ := hb2 (textOf (right.tokens ++ [TokenType.Rparen.token]) ++
        suffix)
      have h3 := h2r (textOf [TokenType.Rparen.token] ++ suffix)
        (canFollow_last_of right hwr ho.2 _ (Or.inr (Or.inl rfl)))
      have h4 := h2l (textOf (tok :: (right.tokens ++ [TokenType.Rparen.token])) ++ suffix)
        (canFollow_lastToken left hwl ho.1 _
          (by simp only [textOf, List.append_assoc] at hb3 ⊢; rw [hb3]; exact hb4)
          (by simp only [textOf, List.append_assoc] at hb3 ⊢; rw [hb3]; exact hb5))
      have e1 : ∀ x : Option Nat, canFollow TokenType.Lparen.token x = true := fun _ => rfl
      have e2 : lexable TokenType.Lparen.token = true := rfl
      have e3 : lexable TokenType.Rparen.token = true := rfl
      have e4 : ∀ x : Option Nat, canFollow TokenType.Rparen.token x = true := fun _ => rfl
      simp only [Expression.tokens, adjoining_bare_cons, adjoining_bare_append,
        adjoining_bare_nil, hl, e1, e2, e3, e4, h3, h4, hb1, Bool.and_true, Bool.true_and]
  | .IfExpression _ _ _ _, _, ho => by simp [Expression.operatorOnly] at ho
  | .CallExpression tok g args, hw, ho => by
    simp only [Expression.wellFormed, Bool.and_eq_true, beq_iff_eq] at hw
    simp only [Expression.operatorOnly, Bool.and_eq_true] at ho
    obtain ⟨⟨⟨hk, hl⟩, hwg⟩, hwa⟩ := hw
    have htok : tok = TokenType.Lparen.token := by
      have := lexable_fixed_eq tok [40] (by rw [hk]; rfl) hl
      rw [hk] at this
      exact this
    subst htok
    obtain ⟨h1g, h2g⟩ := text_plain g hwg ho.1
    have e1 : ∀ x : Option Nat, canFollow TokenType.Lparen.token x = true := fun _ => rfl
    have e2 : lexable TokenType.Lparen.token = true := rfl
    have e3 : lexable TokenType.Rparen.token = true := rfl
    have e4 : ∀ x : Option Nat, canFollow TokenType.Rparen.token x = true := fun _ => rfl
    cases args with
    | nil =>
      refine ⟨?_, ?_⟩
      · simp [Expression.String, h1g, Expression.StringAll, stringsJoin, Expression.tokens,
          Expression.tokensAll, textOf, textOf_append, TokenType.token, spelling, bytes_lits]
      · intro suffix _
        have h3 := h2g (textOf (TokenType.Lparen.token ::
            (Expression.tokensAll [] ++ [TokenType.Rparen.token])) ++ suffix)
          (canFollow_last_of g hwg ho.1 _ (Or.inr (Or.inr (Or.inl rfl))))
        simp only [Expression.tokens, adjoining_bare_cons, adjoining_bare_append,
          adjoining_bare_nil, e1, e2, e3, e4, Bool.and_true, Bool.true_and,
          Expression.tokensAll]
        exact h3
    | cons a rest =>
      simp only [Expression.wellFormedAll, Bool.and_eq_true] at hwa
      simp only [Expression.operatorOnlyAll, Bool.and_eq_true] at ho
      obtain ⟨h1a, h2a⟩ := text_plain a hwa.1 ho.2.1
      obtain ⟨⟨t, ht1, ht2⟩, h2r⟩ := text_plainRest rest hwa.2 ho.2.2
      refine ⟨?_, ?_⟩
      · have ht3 := ht2 (textOf a.tokens)
        simp only [bytes_lits] at ht3
        simp [Expression.String, h1g, Expression.StringAll, h1a, ht1, ht3, Expression.tokens,
          Expression.tokensAll, textOf, textOf_append, TokenType.token, spelling, bytes_lits]
      · intro suffix _
        have h3 := h2g (textOf (TokenType.Lparen.token ::
            (Expression.tokensAll (a :: rest) ++ [TokenType.Rparen.token])) ++ suffix)
          (canFollow_last_of g hwg ho.1 _ (Or.inr (Or.inr (Or.inl rfl))))
        have hs : (textOf [TokenType.Rparen.token] ++ suffix).head? = some 41 := rfl
        have h4 := h2a (textOf (Expression.tokensRest rest) ++
            (textOf [TokenType.Rparen.token] ++ suffix))
          (canFollow_last_of a hwa.1 ho.2.1 _
            (by
              rcases tokensRest_text_head rest _ hs with h | h
              · exact Or.inl h
              · exact Or.inr (Or.inl h)))
        have h5 := h2r _ hs
        simp only [Expression.tokens, adjoining_bare_cons, adjoining_bare_append,
          adjoining_bare_nil, e1, e2, e3, e4, h4, h5, Bool.and_true, Bool.true_and,
          Expression.tokensAll]
        exact h3
  | .Function _ _ _, _, ho => by simp [Expression.operatorOnly] at ho
/-- The renderings of the arguments after the first, joined with commas, are
the text of their tokens. -/
theorem text_plainRest : ∀ (rest : List Expression), Expression.wellFormedAll rest = true →
    Expression.operatorOnlyAll rest = true →
    (∃ t, Expression.StringAll rest = some t ∧
      ∀ s : List Nat, stringsJoin (s :: t) (bytes ",") = s ++ textOf (Expression.tokensRest rest)) ∧
    ∀ suffix : List Nat, suffix.head? = some 41 →
      adjoining (bare (Expression.tokensRest rest)) suffix = true
  | [], _, _ => ⟨⟨[], rfl, fun s => by simp [stringsJoin, Expression.tokensRest, textOf]⟩,
      fun _ _ => rfl⟩
  | b :: rest, hw, ho => by
    simp only [Expression.wellFormedAll, Bool.and_eq_true] at hw
    simp only [Expression.operatorOnlyAll, Bool.and_eq_true] at ho
    obtain ⟨h1b, h2b⟩ := text_plain b hw.1 ho.1
    obtain ⟨⟨t, ht1, ht2⟩, h2r⟩ := text_plainRest rest hw.2 ho.2
    refine ⟨⟨textOf b.tokens :: t, by simp [Expression.StringAll, h1b, ht1], ?_⟩, ?_⟩
    · intro s
      have e : stringsJoin (s :: textOf b.tokens :: t) (bytes ",") =
          s ++ bytes "," ++ stringsJoin (textOf b.tokens :: t) (bytes ",") := rfl
      rw [e, ht2]
      simp [Expression.tokensRest, textOf, textOf_append, TokenType.token, spelling, bytes_lits]
    · intro suffix hs
      have h3 := h2b (textOf (Expression.tokensRest rest) ++ suffix)
        (canFollow_last_of b hw.1 ho.1 _
          (by
            rcases tokensRest_text_head rest suffix hs with h | h
            · exact Or.inl h
            · exact Or.inr (Or.inl h)))
      have e1 : ∀ x : Option Nat, canFollow TokenType.Comma.token x = true := fun _ => rfl
      have e2 : lexable TokenType.Comma.token = true := rfl
      simp only [Expression.tokensRest, adjoining_bare_cons, adjoining_bare_append, e1, e2, h3,
        h2r suffix hs, Bool.and_true]
end

/-! ### Parsing a rendering -/

theorem adjoining_space (ws : List Nat) (t : Token) (ps : List (List Nat × Token))
    (suffix : List Nat) (hws : ws.all isSpace = true) :
    adjoining ((ws, t) :: ps) suffix = adjoining (([], t) :: ps) suffix := by
  simp [adjoining, hws]

/-- The let rule when the value is the last thing in the input. -/
theorem triple_let_end (fuel : Nat) (value : Expression) (c name a v c1 : Token)
    (ts : List Token) (es es1 : List ParseError)
    (hn : name.Typ = .Ident) (ha : a.Typ = .Assign)
    (h1 : Triple (parseExpression fuel Lowest) v ts es value c1 [] es1)
    (hs : c1.Typ ≠ .Semicolon) :
    Triple (parseLetStatement (fuel + 1)) c (name :: a :: v :: ts) es
      (.LetStatement c ⟨name, name.Literal⟩ value) eofToken [] es1 := by
  intro p h
  obtain ⟨p1, e1, hat1⟩ := h.assert_ok .Ident hn
  obtain ⟨p2, e2, hat2⟩ := hat1.assert_ok .Assign ha
  obtain ⟨p3, e3, hat3⟩ := hat2.next
  obtain ⟨p4, e4, hat4⟩ := h1 p3 hat3
  obtain ⟨p5, e5, hat5⟩ := hat4.next_nil
  refine ⟨p5, ?_, hat5⟩
  rw [parseLetStatement]
  have hc : p4.currentTokenIs .Semicolon = false := by
    simp [currentTokenIs, hat4.1, hs]
  simp only [e1, e2, e3, e4, hc, e5, hat1.1, h.1, Bool.not_false, if_true]

/-- The return rule when the value is the last thing in the input. -/
theorem triple_return_end (fuel : Nat) (value : Expression) (c v c1 : Token)
    (ts : List Token) (es es1 : List ParseError)
    (h1 : Triple (parseExpression fuel Lowest) v ts es value c1 [] es1)
    (hs : c1.Typ ≠ .Semicolon) :
    Triple (parseReturnStatement (fuel + 1)) c (v :: ts) es
      (.ReturnStatement c value) eofToken [] es1 := by
  intro p h
  obtain ⟨p3, e3, hat3⟩ := h.next
  obtain ⟨p4, e4, hat4⟩ := h1 p3 hat3
  obtain ⟨p5, e5, hat5⟩ := hat4.next_nil
  refine ⟨p5, ?_, hat5⟩
  rw [parseReturnStatement]
  have hc : p4.currentTokenIs .Semicolon = false := by
    simp [currentTokenIs, hat4.1, hs]
  simp only [e3, e4, hc, e5, h.1, Bool.not_false, if_true]

theorem lastToken_kind : ∀ (e : Expression), e.wellFormed = true → e.operatorOnly = true →
    e.lastToken.Typ = .Ident ∨ e.lastToken.Typ = .Int ∨ e.lastToken.Typ = .True ∨
      e.lastToken.Typ = .False ∨ e.lastToken.Typ = .Rparen
  | .nil, h, _ => by simp [Expression.wellFormed] at h
  | .Identifier id, h, _ => by
    simp only [Expression.wellFormed, Identifier.wellFormed, Bool.and_eq_true, beq_iff_eq] at h
    exact Or.inl h.1.1
  | .Integer tok v, h, _ => by
    simp only [Expression.wellFormed, Bool.and_eq_true, beq_iff_eq] at h
    exact Or.inr (Or.inl h.1.1)
  | .Boolean tok v, h, _ => by
    simp only [Expression.wellFormed, Bool.and_eq_true, Bool.or_eq_true, beq_iff_eq] at h
    rcases h.1.1 with h1 | h1
    · exact Or.inr (Or.inr (Or.inl h1))
    · exact Or.inr (Or.inr (Or.inr (Or.inl h1)))
  | .PrefixExpression _ _ _, _, _ => Or.inr (Or.inr (Or.inr (Or.inr rfl)))
  | .InfixExpression _ _ _ _, _, _ => Or.inr (Or.inr (Or.inr (Or.inr rfl)))
  | .IfExpression _ _ _ _, _, ho => by simp [Expression.operatorOnly] at ho
  | .CallExpression _ _ _, _, _ => Or.inr (Or.inr (Or.inr (Or.inr rfl)))
  | .Function _ _ _, _, ho => by simp [Expression.operatorOnly] at ho

theorem lastToken_not_semicolon (e : Expression) (hw : e.wellFormed = true)
    (ho : e.operatorOnly = true) : e.lastToken.Typ ≠ .Semicolon := by
  rcases lastToken_kind e hw ho with h | h | h | h | h <;> rw [h] <;> decide

/-- The expression rule on the whole rendering of an operator-only
expression. -/
theorem parse_plain_whole (e : Expression) (hw : e.wellFormed = true)
    (ho : e.operatorOnly = true) (F : Nat) (hF : 1 + 5 * e.size ≤ F) (c : Token)
    (ts0 : List Token) (ht : e.tokens = c :: ts0) :
    Triple (parseExpression F Lowest) c ts0 [] e e.lastToken [] [] := by
  have := parse_plain e hw ho Lowest (by decide) 1 [] [] e e.lastToken [] []
    (triple_loop_stop 0 Lowest e e.lastToken [] [] (not_lt_end Lowest (le_refl _))) F hF c ts0 ht
  simpa using this

/-- The lexer on a source made of `front`, tokens with whitespace before each,
then the rendering of an operator-only expression after one space, then
`trail`. -/
theorem yields_front_plain (front : List (List Nat × Token)) (e : Expression)
    (hw : e.wellFormed = true) (ho : e.operatorOnly = true) (ws trail : List Nat)
    (hws : ws.all isSpace = true) (htrail : trail.all isSpace = true)
    (hfront : adjoining front (ws ++ textOf e.tokens ++ trail) = true) :
    Yields (NewLexer (sourceOf front (ws ++ textOf e.tokens ++ trail)))
      (front.map Prod.snd ++ e.tokens) := by
  obtain ⟨c, ts0, ht, -, -⟩ := tokens_cons e hw ho
  have hcan : canFollow e.lastToken trail.head? = true := by
    apply canFollow_lastToken e hw ho
    · cases trail with
      | nil => rfl
      | cons b _ =>
        have hb : isSpace b = true := by simpa using (List.all_eq_true.1 htrail) b (by simp)
        simp only [isSpace, Bool.or_eq_true, beq_iff_eq] at hb
        rcases hb with ((rfl | rfl) | rfl) | rfl <;> rfl
    · cases trail with
      | nil => rfl
      | cons b _ =>
        have hb : isSpace b = true := by simpa using (List.all_eq_true.1 htrail) b (by simp)
        simp only [isSpace, Bool.or_eq_true, beq_iff_eq] at hb
        rcases hb with ((rfl | rfl) | rfl) | rfl <;> rfl
  have hadj := (text_plain e hw ho).2 trail hcan
  have hy := yields_sourceOf (front ++ (ws, c) :: bare ts0) trail []
    (by
      rw [separated_eq, adjoining_append, htrail, Bool.and_true, Bool.and_eq_true]
      constructor
      · have e1 : sourceOf ((ws, c) :: bare ts0) trail = ws ++ textOf e.tokens ++ trail := by
          rw [ht]
          simp [sourceOf, sourceOf_bare, textOf]
        rw [e1]
        exact hfront
      · rw [adjoining_space ws c _ _ hws, ← bare_cons, ← ht]
        exact hadj)
  rw [← NewLexer_eq] at hy
  have e2 : sourceOf (front ++ (ws, c) :: bare ts0) trail =
      sourceOf front (ws ++ textOf e.tokens ++ trail) := by
    rw [sourceOf_append, ht]
    simp [sourceOf, sourceOf_bare, textOf]
  have e3 : (front ++ (ws, c) :: bare ts0).map Prod.snd = front.map Prod.snd ++ e.tokens := by
    rw [ht]
    simp [bare]
  rw [e2, e3] at hy
  exact hy

theorem first_not_statement_keyword {c : Token}
    (h : c.Typ = .Ident ∨ c.Typ = .Int ∨ c.Typ = .True ∨ c.Typ = .False ∨ c.Typ = .Lparen) :
    c.Typ ≠ .Eof ∧ c.Typ ≠ .Let ∧ c.Typ ≠ .Return := by
  rcases h with h | h | h | h | h <;> rw [h] <;> decide

/-- Parsing the rendering of an operator-only expression yields the
expression, without error, in a statement that carries the last token of the
rendering. -/
theorem roundtrip_expression (e : Expression) (hw : e.wellFormed = true)
    (ho : e.operatorOnly = true) (fuel : Nat) (hf : 5 * e.size + 4 ≤ fuel) :
    e.String = some (textOf e.tokens) ∧
    parseSource fuel (textOf e.tokens) =
      .ok ([.nil, .nil, .ExpressionStatement e.lastToken e], []) := by
  refine ⟨(text_plain e hw ho).1, ?_⟩
  obtain ⟨c, ts0, ht, -, hk⟩ := tokens_cons e hw ho
  obtain ⟨hk1, hk2, hk3⟩ := first_not_statement_keyword hk
  have hy := yields_front_plain [] e hw ho [] [] rfl rfl rfl
  simp only [sourceOf, List.nil_append, List.append_nil, List.map_nil] at hy
  rw [ht] at hy
  obtain ⟨m, rfl⟩ : ∃ m, fuel = m + 2 := ⟨fuel - 2, by omega⟩
  have h1 := parse_plain_whole e hw ho (m - 1) (by omega) c ts0 ht
  have h2 := triple_expressionStatement (m - 1) e c e.lastToken ts0 [] [] [] h1
    (by show TokenType.Eof ≠ TokenType.Semicolon; decide)
  have h3 := triple_statement_expression (m - 1 + 1) _ c e.lastToken ts0 [] [] [] hk2 hk3 h2
  have e1 : m - 1 + 1 + 1 = m + 1 := by omega
  rw [e1] at h3
  have := parseSource_single m _ c e.lastToken ts0 _ [] hy hk1 h3
  simpa [ht] using this

theorem string_let (tok : Token) (name : Identifier) (e : Expression)
    (hs : e.String = some (textOf e.tokens)) :
    (Statement.LetStatement tok name e).String =
      some (tok.Literal ++ bytes " " ++ name.Value ++ bytes " = " ++ textOf e.tokens ++
        bytes "\n") := by
  cases e <;> simp_all [Statement.String, Expression.String]

/-- Parsing the rendering of a let statement whose value is an operator-only
expression yields the statement, without error. -/
theorem roundtrip_let (tok : Token) (name : Identifier) (e : Expression)
    (ht : tok.Typ = .Let) (hl : lexable tok = true) (hn : name.wellFormed = true)
    (hw : e.wellFormed = true) (ho : e.operatorOnly = true) (fuel : Nat)
    (hf : 5 * e.size + 5 ≤ fuel) :
    (Statement.LetStatement tok name e).String =
      some (bytes "let " ++ name.Value ++ bytes " = " ++ textOf e.tokens ++ bytes "\n") ∧
    parseSource fuel (bytes "let " ++ name.Value ++ bytes " = " ++ textOf e.tokens ++
        bytes "\n") = .ok ([.nil, .nil, .LetStatement tok name e], []) := by
  have htok : tok = TokenType.Let.token := by
    have := lexable_fixed_eq tok (bytes "let") (by rw [ht]; rfl) hl
    rw [ht] at this
    exact this
  subst htok
  obtain ⟨ntok, value⟩ := name
  obtain ⟨k, x⟩ := ntok
  simp only [Identifier.wellFormed, Bool.and_eq_true, beq_iff_eq] at hn
  obtain ⟨⟨rfl, hx⟩, hv⟩ := hn
  have hv1 := hv.symm
  subst hv1
  have e0 : bytes "let " ++ x ++ bytes " = " ++ textOf e.tokens ++ bytes "\n" =
      sourceOf [([], TokenType.Let.token), ([32], ⟨.Ident, x⟩), ([32], TokenType.Assign.token)]
        ([32] ++ textOf e.tokens ++ [10]) := by
    have b1 : bytes "let " = bytes "let" ++ [32] := by decide
    have b2 : bytes " = " = [32] ++ bytes "=" ++ [32] := by decide
    have b3 : bytes "\n" = [10] := by decide
    simp [sourceOf, TokenType.token, spelling, b1, b2, b3, bytes_lits]
  refine ⟨?_, ?_⟩
  · rw [string_let _ _ _ (text_plain e hw ho).1]
    have b1 : bytes "let " = bytes "let" ++ bytes " " := by decide
    simp [TokenType.token, spelling, b1]
  · rw [e0]
    obtain ⟨c, ts0, htk, -, hk⟩ := tokens_cons e hw ho
    have hy := yields_front_plain
      [([], TokenType.Let.token), ([32], ⟨.Ident, x⟩), ([32], TokenType.Assign.token)]
      e hw ho [32] [10] rfl rfl
      (by
        have c1 : lexable TokenType.Let.token = true := rfl
        have c2 : lexable TokenType.Assign.token = true := rfl
        simp [adjoining, sourceOf, canFollow_space, c1, c2, hx, isSpace])
    simp only [List.map_cons, List.map_nil, List.cons_append, List.nil_append] at hy
    rw [htk] at hy
    obtain ⟨m, rfl⟩ : ∃ m, fuel = m + 2 := ⟨fuel - 2, by omega⟩
    have h1 := parse_plain_whole e hw ho (m - 1) (by omega) c ts0 htk
    have h2 := triple_let_end (m - 1) e TokenType.Let.token ⟨.Ident, x⟩ TokenType.Assign.token
      c e.lastToken ts0 [] [] rfl rfl h1 (lastToken_not_semicolon e hw ho)
    have h3 := triple_statement_let (m - 1 + 1) _ TokenType.Let.token _ _ _ _ _ rfl h2
    have e1 : m - 1 + 1 + 1 = m + 1 := by omega
    rw [e1] at h3
    have h4 := triple_parseLoop_last m [.nil, .nil] _ TokenType.Let.token eofToken _ [] []
      (by decide) h3
    have h5 := parseSource_of_loop _ _ _ _ _ _ _ _ hy h4
    simpa [htk] using h5

/-- Parsing the rendering of a return statement whose value is an
operator-only expression yields the statement, without error. -/
theorem roundtrip_return (tok : Token) (e : Expression)
    (ht : tok.Typ = .Return) (hl : lexable tok = true)
    (hw : e.wellFormed = true) (ho : e.operatorOnly = true) (fuel : Nat)
    (hf : 5 * e.size + 5 ≤ fuel) :
    (Statement.ReturnStatement tok e).String = some (bytes "return " ++ textOf e.tokens) ∧
    parseSource fuel (bytes "return " ++ textOf e.tokens) =
      .ok ([.nil, .nil, .ReturnStatement tok e], []) := by
  have htok : tok = TokenType.Return.token := by
    have := lexable_fixed_eq tok (bytes "return") (by rw [ht]; rfl) hl
    rw [ht] at this
    exact this
  subst htok
  have e0 : bytes "return " ++ textOf e.tokens =
      sourceOf [([], TokenType.Return.token)] ([32] ++ textOf e.tokens ++ []) := by
    have b1 : bytes "return " = bytes "return" ++ [32] := by decide
    simp [sourceOf, TokenType.token, spelling, b1]
  refine ⟨by simp [Statement.String, (text_plain e hw ho).1], ?_⟩
  rw [e0]
  obtain ⟨c, ts0, htk, -, hk⟩ := tokens_cons e hw ho
  have hy := yields_front_plain [([], TokenType.Return.token)] e hw ho [32] [] rfl rfl
    (by
      have c1 : lexable TokenType.Return.token = true := rfl
      simp [adjoining, sourceOf, canFollow_space, c1])
  simp only [List.map_cons, List.map_nil, List.cons_append, List.nil_append] at hy
  rw [htk] at hy
  obtain ⟨m, rfl⟩ : ∃ m, fuel = m + 2 := ⟨fuel - 2, by omega⟩
  have h1 := parse_plain_whole e hw ho (m - 1) (by omega) c ts0 htk
  have h2 := triple_return_end (m - 1) e TokenType.Return.token c e.lastToken ts0 [] [] h1
    (lastToken_not_semicolon e hw ho)
  have h3 := triple_statement_return (m - 1 + 1) _ TokenType.Return.token _ _ _ _ _ rfl h2
  have e1 : m - 1 + 1 + 1 = m + 1 := by omega
  rw [e1] at h3
  have h4 := triple_parseLoop_last m [.nil, .nil] _ TokenType.Return.token eofToken _ [] []
    (by decide) h3
  have h5 := parseSource_of_loop _ _ _ _ _ _ _ _ hy h4
  simpa [htk] using h5

/-! ## What the lexer returns -/

theorem split_run (p : Nat → Bool) (hp0 : p 0 = false) (s : List Nat) :
    ∃ w rest, s = w ++ rest ∧ (∀ c ∈ w, p c = true) ∧ p (rest.headD 0) = false := by
  induction s with
  | nil => exact ⟨[], [], rfl, by simp, hp0⟩
  | cons c s ih =>
    by_cases hc : p c = true
    · obtain ⟨w, rest, rfl, hw, hr⟩ := ih
      exact ⟨c :: w, rest, rfl, by
        intro x hx
        rcases List.mem_cons.1 hx with rfl | hx
        · exact hc
        · exact hw x hx, hr⟩
    · exact ⟨[], c :: s, rfl, by simp, by simpa using hc⟩

theorem word_token (w : List Nat) (hne : w ≠ []) (hw : ∀ c ∈ w, isLetter c = true)
    (next : Option Nat) (hn : isLetter (next.getD 0) = false) :
    lexable ⟨(isKeyword w).getD .Ident, w⟩ = true ∧
      canFollow ⟨(isKeyword w).getD .Ident, w⟩ next = true := by
  cases hk : isKeyword w with
  | none =>
    refine ⟨?_, by simp [canFollow, hn]⟩
    simp only [lexable, Option.getD_none, Bool.and_eq_true, decide_eq_true_eq, beq_iff_eq,
      List.all_eq_true]
    exact ⟨⟨hne, hw⟩, hk⟩
  | some k =>
    obtain ⟨hs, h1, h2, h3, h4⟩ := spelling_of_isKeyword hk
    constructor
    · cases k <;> simp_all [lexable]
    · cases k <;> simp_all [canFollow, spelling]

theorem NextToken_panic (pre ws : List Nat) (c : Nat) (hws : ∀ b ∈ ws, isSpace b = true)
    (hc : c = 61 ∨ c = 33) : (lexAt pre (ws ++ [c])).NextToken = none := by
  have hskip := skipWhitespaces_lexAt ws pre [c] hws (by rcases hc with rfl | rfl <;> rfl)
  unfold NextToken
  rw [hskip]
  rcases hc with rfl | rfl <;> simp [lexAt_char, peekChar_lexAt_last]

theorem NextToken_other (pre ws r : List Nat) (c : Nat) (hws : ∀ b ∈ ws, isSpace b = true)
    (hsp : isSpace c = false) (hl : isLetter c = false) (hd : isDigit c = false)
    (hc : c ∉ [61, 59, 44, 40, 41, 123, 125, 43, 45, 33, 42, 47, 60, 62]) :
    (lexAt pre (ws ++ c :: r)).NextToken =
      some (if c = 0 then eofToken else ⟨.Illegal, []⟩, lexAt (pre ++ ws ++ [c]) r) := by
  have hskip := skipWhitespaces_lexAt ws pre (c :: r) hws (by simpa using hsp)
  simp only [List.mem_cons, List.mem_singleton, List.not_mem_nil, or_false, not_or] at hc
  obtain ⟨h1, h2, h3, h4, h5, h6, h7, h8, h9, h10, h11, h12, h13, h14⟩ := hc
  unfold NextToken
  rw [hskip]
  simp only [lexAt_char, List.headD_cons, readChar_lexAt_cons, h1, h2, h3, h4, h5, h6, h7, h8,
    h9, h10, h11, h12, h13, h14, if_false, hl, hd, Bool.false_eq_true]
  by_cases h0 : c = 0
  · simp [h0, newToken, eofToken, bytes_lits]
  · simp [h0, newToken, bytes_lits]

/-- Every token the lexer returns is genuine, and the lexer is left standing
somewhere in its input. -/
theorem NextToken_genuine (pre suf : List Nat) (t : Token) (l : Lexer)
    (h : (lexAt pre suf).NextToken = some (t, l)) :
    t.genuine = true ∧ ∃ pre1 suf1, l = lexAt pre1 suf1 := by
  obtain ⟨ws, rest, rfl, hws, hr⟩ := split_run isSpace rfl suf
  cases rest with
  | nil =>
    rw [List.append_nil, NextToken_lexAt_end pre ws hws] at h
    simp only [Option.some.injEq, Prod.mk.injEq] at h
    obtain ⟨rfl, rfl⟩ := h
    exact ⟨rfl, _, _, rfl⟩
  | cons c r =>
    have key : ∀ (t0 : Token) (r0 : List Nat), c :: r = t0.Literal ++ r0 →
        lexable t0 = true → canFollow t0 r0.head? = true →
        t.genuine = true ∧ ∃ pre1 suf1, l = lexAt pre1 suf1 := by
      intro t0 r0 he hl hc
      have h1 := NextToken_lexAt t0 ws pre r0 hws hl hc
      rw [← he, h] at h1
      simp only [Option.some.injEq, Prod.mk.injEq] at h1
      obtain ⟨rfl, rfl⟩ := h1
      exact ⟨by simp [Token.genuine, hl], _, _, rfl⟩
    have hsp : isSpace c = false := by simpa using hr
    by_cases hl : isLetter c = true
    · obtain ⟨w, rest1, he, hw, hr1⟩ := split_run isLetter rfl (c :: r)
      have hne : w ≠ [] := by
        rintro rfl
        simp only [List.nil_append] at he
        rw [← he] at hr1
        simp [hl] at hr1
      have hn : isLetter (rest1.head?.getD 0) = false := by
        cases rest1 <;> simpa using hr1
      obtain ⟨h1, h2⟩ := word_token w hne hw rest1.head? hn
      exact key ⟨(isKeyword w).getD .Ident, w⟩ rest1 he h1 h2
    by_cases hd : isDigit c = true
    · obtain ⟨w, rest1, he, hw, hr1⟩ := split_run isDigit rfl (c :: r)
      have hne : w ≠ [] := by
        rintro rfl
        simp only [List.nil_append] at he
        rw [← he] at hr1
        simp [hd] at hr1
      have hn : isDigit (rest1.head?.getD 0) = false := by
        cases rest1 <;> simpa using hr1
      refine key ⟨.Int, w⟩ rest1 he ?_ (by simp [canFollow, hn])
      simp only [lexable, Bool.and_eq_true, decide_eq_true_eq, List.all_eq_true]
      exact ⟨hne, hw⟩
    by_cases hc : c ∈ [61, 59, 44, 40, 41, 123, 125, 43, 45, 33, 42, 47, 60, 62]
    · simp only [List.mem_cons, List.mem_singleton, List.not_mem_nil, or_false] at hc
      rcases hc with rfl | rfl | rfl | rfl | rfl | rfl | rfl | rfl | rfl | rfl | rfl | rfl |
        rfl | rfl
      · cases r with
        | nil => rw [NextToken_panic pre ws 61 hws (Or.inl rfl)] at h; cases h
        | cons d r1 =>
          by_cases hd1 : d = 61
          · subst hd1
            exact key TokenType.Eq.token r1 rfl rfl rfl
          · exact key TokenType.Assign.token (d :: r1) rfl rfl (by simp [canFollow, TokenType.token, hd1])
      · exact key TokenType.Semicolon.token r rfl rfl rfl
      · exact key TokenType.Comma.token r rfl rfl rfl
      · exact key TokenType.Lparen.token r rfl rfl rfl
      · exact key TokenType.Rparen.token r rfl rfl rfl
      · exact key TokenType.Lbrace.token r rfl rfl rfl
      · exact key TokenType.Rbrace.token r rfl rfl rfl
      · exact key TokenType.Plus.token r rfl rfl rfl
      · exact key TokenType.Minus.token r rfl rfl rfl
      · cases r with
        | nil => rw [NextToken_panic pre ws 33 hws (Or.inr rfl)] at h; cases h
        | cons d r1 =>
          by_cases hd1 : d = 61
          · subst hd1
            exact key TokenType.Ne.token r1 rfl rfl rfl
          · exact key TokenType.Bang.token (d :: r1) rfl rfl (by simp [canFollow, TokenType.token, hd1])
      · exact key TokenType.Asterisk.token r rfl rfl rfl
      · exact key TokenType.Slash.token r rfl rfl rfl
      · exact key TokenType.Lt.token r rfl rfl rfl
      · exact key TokenType.Gt.token r rfl rfl rfl
    · rw [NextToken_other pre ws r c hws hsp (by simpa using hl) (by simpa using hd) hc] at h
      simp only [Option.some.injEq, Prod.mk.injEq] at h
      obtain ⟨rfl, rfl⟩ := h
      refine ⟨?_, _, _, rfl⟩
      by_cases h0 : c = 0 <;> simp [h0, Token.genuine, eofToken]

/-! ## What the parser builds -/

theorem Parser.genuine_next {p q : Parser} (hp : p.genuine) (h : p.nextToken = .ok q) :
    q.genuine ∧ q.errors = p.errors ∧ q.currentToken = p.peekToken := by
  obtain ⟨h1, h2, pre, suf, h3⟩ := hp
  unfold nextToken at h
  cases hn : p.lexer.NextToken with
  | none => rw [hn] at h; cases h
  | some r =>
    obtain ⟨t, l⟩ := r
    rw [hn] at h
    simp only [Except.ok.injEq] at h
    subst h
    rw [h3] at hn
    obtain ⟨g1, g2⟩ := NextToken_genuine pre suf t l hn
    exact ⟨⟨h2, g1, g2⟩, rfl, rfl⟩

theorem Parser.Extends.refl {p : Parser} {P : Prop} (hp : p.genuine) (h : P) :
    p.Extends p P :=
  ⟨hp, [], by simp, fun _ => h⟩

theorem Parser.Extends.trans {p q r : Parser} {A B : Prop} (h1 : p.Extends q A)
    (h2 : q.Extends r B) : p.Extends r (A ∧ B) := by
  obtain ⟨-, n1, e1, a⟩ := h1
  obtain ⟨g, n2, e2, b⟩ := h2
  refine ⟨g, n1 ++ n2, by rw [e2, e1, List.append_assoc], ?_⟩
  intro h
  rw [List.append_eq_nil] at h
  exact ⟨a h.1, b h.2⟩

theorem Parser.Extends.imp {p q : Parser} {A B : Prop} (h1 : p.Extends q A) (h : A → B) :
    p.Extends q B := by
  obtain ⟨g, n1, e1, a⟩ := h1
  exact ⟨g, n1, e1, fun hn => h (a hn)⟩

theorem Parser.Extends.genuine {p q : Parser} {A : Prop} (h1 : p.Extends q A) : q.genuine :=
  h1.1

theorem Parser.Extends.record {p : Parser} (hp : p.genuine) (e : ParseError) (P : Prop) :
    p.Extends (p.error e) P :=
  ⟨hp, [e], rfl, fun h => by cases h⟩

theorem Parser.Extends.advance {p q : Parser} (hp : p.genuine) (h : p.nextToken = .ok q) :
    p.Extends q (q.currentToken = p.peekToken) := by
  obtain ⟨g, e, c⟩ := Parser.genuine_next hp h
  exact ⟨g, [], by simp [e], fun _ => c⟩

theorem Parser.Extends.assert {p q : Parser} {k : TokenType} {b : Bool} (hp : p.genuine)
    (h : p.assertPeekTokenIs k = .ok (b, q)) :
    p.Extends q (b = true ∧ q.currentToken.Typ = k) := by
  unfold assertPeekTokenIs at h
  split at h
  · next hk =>
    cases hn : p.nextToken with
    | error f => rw [hn] at h; cases h
    | ok r =>
      rw [hn] at h
      simp only [Except.ok.injEq, Prod.mk.injEq] at h
      obtain ⟨rfl, rfl⟩ := h
      refine (Parser.Extends.advance hp hn).imp ?_
      intro hc
      refine ⟨rfl, ?_⟩
      rw [hc]
      simpa [peekTokenIs] using hk
  · simp only [Except.ok.injEq, Prod.mk.injEq] at h
    obtain ⟨rfl, rfl⟩ := h
    exact Parser.Extends.record hp _ _

theorem lexable_of_genuine {t : Token} (h : t.genuine = true) (h1 : t.Typ ≠ .Eof)
    (h2 : t.Typ ≠ .Illegal) : lexable t = true := by
  simp only [Token.genuine, Bool.or_eq_true, beq_iff_eq] at h
  rcases h with (h | rfl) | rfl
  · exact h
  · exact absurd rfl h1
  · exact absurd rfl h2

theorem lexable_of_kind {t : Token} {k : TokenType} (h : t.genuine = true) (hk : t.Typ = k)
    (h1 : k ≠ .Eof) (h2 : k ≠ .Illegal) : lexable t = true :=
  lexable_of_genuine h (by rw [hk]; exact h1) (by rw [hk]; exact h2)

theorem lexable_of_prefixOperator {t : Token} (h : t.genuine = true)
    (hk : t.Typ.isPrefixOperator = true) : lexable t = true := by
  apply lexable_of_genuine h
  · intro e; rw [e] at hk; revert hk; decide
  · intro e; rw [e] at hk; revert hk; decide

theorem lexable_of_binary {t : Token} (h : t.genuine = true)
    (hk : t.Typ.isBinary = true) : lexable t = true := by
  apply lexable_of_genuine h
  · intro e; rw [e] at hk; revert hk; decide
  · intro e; rw [e] at hk; revert hk; decide

theorem all_wellFormed_append {params : List Identifier} {id : Identifier}
    (h : params.all Identifier.wellFormed = true) (h1 : id.wellFormed = true) :
    (params ++ [id]).all Identifier.wellFormed = true := by
  simp only [List.all_append, List.all_cons, List.all_nil, Bool.and_true, Bool.and_eq_true]
  exact ⟨h, h1⟩

theorem wellFormed_identifier {t : Token} (h : t.genuine = true) (hk : t.Typ = .Ident) :
    Identifier.wellFormed (Identifier.mk t t.Literal) = true := by
  simp [Identifier.wellFormed, hk, lexable_of_kind h hk (by decide) (by decide)]

theorem builds_params (n : Nat) : ∀ params, Builds (parseFunctionParams n params) (fun _ => True)
    (fun res => params.all Identifier.wellFormed = true →
      res.all Identifier.wellFormed = true) := by
  induction n with
  | zero => intro params p a q _ _ h; simp [parseFunctionParams] at h
  | succ n ih =>
    intro params p a q hp _ h
    rw [parseFunctionParams] at h
    rcases h1 : p.assertPeekTokenIs .Ident with f | ⟨b, p1⟩
    · simp [h1] at h
    rw [h1] at h
    dsimp only at h
    have a1 := Parser.Extends.assert hp h1
    rcases h2 : p1.nextToken with f | p2
    · simp [h2] at h
    rw [h2] at h
    dsimp only at h
    have a2 := Parser.Extends.advance a1.genuine h2
    have a12 := a1.trans a2
    have hid : (b = true ∧ p1.currentToken.Typ = .Ident) ∧ p2.currentToken = p1.peekToken →
        params.all Identifier.wellFormed = true →
        (params ++ [Identifier.mk p1.currentToken p1.currentToken.Literal]).all
          Identifier.wellFormed = true := by
      rintro ⟨⟨-, hk⟩, -⟩ hparams
      exact all_wellFormed_append hparams (wellFormed_identifier a1.genuine.1 hk)
    have key : ∀ res q, parseFunctionParams n
        (params ++ [Identifier.mk p1.currentToken p1.currentToken.Literal]) p2 =
          .ok (res, q) →
        p.Extends q (params.all Identifier.wellFormed = true →
          res.all Identifier.wellFormed = true) := by
      intro res q h3
      have a3 := ih _ p2 res q a2.genuine trivial h3
      refine (a12.trans a3).imp ?_
      rintro ⟨h12, h4⟩ hparams
      exact h4 (hid h12 hparams)
    split at h
    · exact key _ _ h
    · split at h
      · simp only [Except.ok.injEq, Prod.mk.injEq] at h
        obtain ⟨rfl, rfl⟩ := h
        exact a12.imp hid
      · exact key _ _ h

theorem Parser.Extends.step {p q : Parser} (hp : p.genuine) (h : p.nextToken = .ok q) :
    p.Extends q True :=
  (Parser.Extends.advance hp h).imp (fun _ => trivial)

theorem Parser.Extends.assert_false {p q : Parser} {k : TokenType} (hp : p.genuine)
    (h : p.assertPeekTokenIs k = .ok (false, q)) (P : Prop) : p.Extends q P :=
  (Parser.Extends.assert hp h).imp (fun hh => absurd hh.1 (by decide))

theorem Parser.Extends.assert_true {p q : Parser} {k : TokenType} (hp : p.genuine)
    (h : p.assertPeekTokenIs k = .ok (true, q)) : p.Extends q True :=
  (Parser.Extends.assert hp h).imp (fun _ => trivial)

theorem Parser.assert_kind {p q : Parser} {k : TokenType}
    (h : p.assertPeekTokenIs k = .ok (true, q)) : q.currentToken.Typ = k := by
  unfold assertPeekTokenIs at h
  split at h
  · next hk =>
    unfold nextToken at h
    cases hn : p.lexer.NextToken with
    | none => simp [hn] at h
    | some r =>
      rw [hn] at h
      simp only [Except.ok.injEq, Prod.mk.injEq, true_and] at h
      subst h
      simpa [peekTokenIs] using hk
  · simp at h

theorem Parser.Extends.andThen {p q r : Parser} {A B : Prop} (h1 : p.Extends q A)
    (h2 : q.Extends r B) : p.Extends r B :=
  (h1.trans h2).imp (fun h => h.2)

theorem Parser.Extends.abort {p q r : Parser} {A : Prop} (h1 : p.Extends q A) {k : TokenType}
    (h : q.assertPeekTokenIs k = .ok (false, r)) (P : Prop) : p.Extends r P :=
  h1.andThen (Parser.Extends.assert_false h1.genuine h P)

theorem builds_statement_step (n : Nat)
    (hL : Builds (parseLetStatement n) (fun p => p.currentToken.Typ = .Let)
      (fun s => s.wellFormed = true))
    (hR : Builds (parseReturnStatement n) (fun p => p.currentToken.Typ = .Return)
      (fun s => s.wellFormed = true))
    (hE : Builds (parseExpressionStatement n) (fun _ => True) (fun s => s.wellFormed = true)) :
    Builds (parseStatement (n + 1)) (fun _ => True) (fun s => s.wellFormed = true) := by
  intro p a q hp _ h
  rw [parseStatement] at h
  split at h
  · next hk => exact hL p a q hp hk h
  · next hk => exact hR p a q hp hk h
  · exact hE p a q hp trivial h

theorem builds_let_step (n : Nat)
    (hX : ∀ prec, Builds (parseExpression n prec) (fun _ => True)
      (fun e => e.wellFormed = true)) :
    Builds (parseLetStatement (n + 1)) (fun p => p.currentToken.Typ = .Let)
      (fun s => s.wellFormed = true) := by
  intro p a q hp hk h
  rw [parseLetStatement] at h
  rcases h1 : p.assertPeekTokenIs .Ident with f | ⟨b1, p1⟩
  · simp [h1] at h
  rw [h1] at h
  cases b1 with
  | false =>
    simp only [Except.ok.injEq, Prod.mk.injEq] at h
    obtain ⟨rfl, rfl⟩ := h
    exact Parser.Extends.assert_false hp h1 _
  | true =>
    dsimp only at h
    have a1 := Parser.Extends.assert_true hp h1
    have k1 := Parser.assert_kind h1
    rcases h2 : p1.assertPeekTokenIs .Assign with f | ⟨b2, p2⟩
    · simp [h2] at h
    rw [h2] at h
    cases b2 with
    | false =>
      simp only [Except.ok.injEq, Prod.mk.injEq] at h
      obtain ⟨rfl, rfl⟩ := h
      exact a1.abort h2 _
    | true =>
      dsimp only at h
      have a2 := a1.andThen (Parser.Extends.assert_true a1.genuine h2)
      rcases h3 : p2.nextToken with f | p3
      · simp [h3] at h
      rw [h3] at h
      dsimp only at h
      have a3 := a2.andThen (Parser.Extends.step a2.genuine h3)
      rcases h4 : parseExpression n Lowest p3 with f | ⟨value, p4⟩
      · simp [h4] at h
      rw [h4] at h
      dsimp only at h
      have a4 := a3.andThen (hX Lowest p3 value p4 a3.genuine trivial h4)
      have wf : value.wellFormed = true →
          (Statement.LetStatement p.currentToken
            (Identifier.mk p1.currentToken p1.currentToken.Literal) value).wellFormed = true := by
        intro hv
        simp [Statement.wellFormed, hk, hv, lexable_of_kind hp.1 hk (by decide) (by decide),
          wellFormed_identifier a1.genuine.1 k1]
      split at h
      · rcases h5 : p4.nextToken with f | p5
        · simp [h5] at h
        rw [h5] at h
        simp only [Except.ok.injEq, Prod.mk.injEq] at h
        obtain ⟨rfl, rfl⟩ := h
        exact ((a4.trans (Parser.Extends.step a4.genuine h5))).imp (fun hh => wf hh.1)
      · simp only [Except.ok.injEq, Prod.mk.injEq] at h
        obtain ⟨rfl, rfl⟩ := h
        exact a4.imp wf

theorem builds_return_step (n : Nat)
    (hX : ∀ prec, Builds (parseExpression n prec) (fun _ => True)
      (fun e => e.wellFormed = true)) :
    Builds (parseReturnStatement (n + 1)) (fun p => p.currentToken.Typ = .Return)
      (fun s => s.wellFormed = true) := by
  intro p a q hp hk h
  rw [parseReturnStatement] at h
  rcases h1 : p.nextToken with f | p1
  · simp [h1] at h
  rw [h1] at h
  dsimp only at h
  have a1 := Parser.Extends.step hp h1
  rcases h2 : parseExpression n Lowest p1 with f | ⟨value, p2⟩
  · simp [h2] at h
  rw [h2] at h
  dsimp only at h
  have a2 := a1.andThen (hX Lowest p1 value p2 a1.genuine trivial h2)
  have wf : value.wellFormed = true →
      (Statement.ReturnStatement p.currentToken value).wellFormed = true := by
    intro hv
    simp [Statement.wellFormed, hk, hv, lexable_of_kind hp.1 hk (by decide) (by decide)]
  split at h
  · rcases h5 : p2.nextToken with f | p5
    · simp [h5] at h
    rw [h5] at h
    simp only [Except.ok.injEq, Prod.mk.injEq] at h
    obtain ⟨rfl, rfl⟩ := h
    exact ((a2.trans (Parser.Extends.step a2.genuine h5))).imp (fun hh => wf hh.1)
  · simp only [Except.ok.injEq, Prod.mk.injEq] at h
    obtain ⟨rfl, rfl⟩ := h
    exact a2.imp wf

theorem builds_expressionStatement_step (n : Nat)
    (hX : ∀ prec, Builds (parseExpression n prec) (fun _ => True)
      (fun e => e.wellFormed = true)) :
    Builds (parseExpressionStatement (n + 1)) (fun _ => True)
      (fun s => s.wellFormed = true) := by
  intro p a q hp _ h
  rw [parseExpressionStatement] at h
  rcases h2 : parseExpression n Lowest p with f | ⟨value, p2⟩
  · simp [h2] at h
  rw [h2] at h
  dsimp only at h
  have a2 := hX Lowest p value p2 hp trivial h2
  have wf : value.wellFormed = true →
      (Statement.ExpressionStatement p.currentToken value).wellFormed = true := by
    intro hv
    simp [Statement.wellFormed, hv]
  split at h
  · rcases h5 : p2.nextToken with f | p5
    · simp [h5] at h
    rw [h5] at h
    simp only [Except.ok.injEq, Prod.mk.injEq] at h
    obtain ⟨rfl, rfl⟩ := h
    exact ((a2.trans (Parser.Extends.step a2.genuine h5))).imp (fun hh => wf hh.1)
  · simp only [Except.ok.injEq, Prod.mk.injEq] at h
    obtain ⟨rfl, rfl⟩ := h
    exact a2.imp wf

theorem builds_integer {p q : Parser} {e : Expression} (hp : p.genuine)
    (hk : p.currentToken.Typ = .Int) (h : p.parseInteger = (e, q)) :
    p.Extends q (e.wellFormed = true) := by
  unfold parseInteger at h
  split at h
  · simp only [Prod.mk.injEq] at h
    obtain ⟨rfl, rfl⟩ := h
    exact Parser.Extends.record hp _ _
  · next value hv =>
    simp only [Prod.mk.injEq] at h
    obtain ⟨rfl, rfl⟩ := h
    apply Parser.Extends.refl hp
    simp [Expression.wellFormed, hk, hv, lexable_of_kind hp.1 hk (by decide) (by decide)]

theorem builds_expression_step (n : Nat)
    (hLoop : ∀ prec left, Builds (parseExpressionLoop n prec left) (fun _ => True)
      (fun e => left.wellFormed = true → e.wellFormed = true))
    (hP : Builds (parsePrefixExpression n)
      (fun p => p.currentToken.Typ.isPrefixOperator = true) (fun e => e.wellFormed = true))
    (hG : Builds (parseGroupedExpression n) (fun _ => True) (fun e => e.wellFormed = true))
    (hI : Builds (parseIfExpression n) (fun _ => True) (fun e => e.wellFormed = true))
    (hF : Builds (parseFunction n) (fun p => p.currentToken.Typ = .Function)
      (fun e => e.wellFormed = true)) :
    ∀ prec, Builds (parseExpression (n + 1) prec) (fun _ => True)
      (fun e => e.wellFormed = true) := by
  intro prec p a q hp _ h
  rw [parseExpression] at h
  have finish : ∀ left p1, p.Extends p1 (left.wellFormed = true) →
      parseExpressionLoop n prec left p1 = .ok (a, q) → p.Extends q (a.wellFormed = true) :=
    fun left p1 a1 h3 =>
      (a1.trans (hLoop prec left p1 a q a1.genuine trivial h3)).imp (fun hh => hh.2 hh.1)
  rcases hr : prefixExprResolvers p.currentToken.Typ with _ | resolver
  · simp only [hr, Except.ok.injEq, Prod.mk.injEq] at h
    obtain ⟨rfl, rfl⟩ := h
    exact Parser.Extends.record hp _ _
  rw [hr] at h
  dsimp only at h
  cases resolver with
  | parseIdentifier =>
    dsimp only at h
    have hk : p.currentToken.Typ = .Ident := by
      revert hr; cases p.currentToken.Typ <;> simp [prefixExprResolvers]
    refine finish _ _ (Parser.Extends.refl hp ?_) h
    simpa [parseIdentifier, Expression.wellFormed] using wellFormed_identifier hp.1 hk
  | parseInteger =>
    dsimp only at h
    have hk : p.currentToken.Typ = .Int := by
      revert hr; cases p.currentToken.Typ <;> simp [prefixExprResolvers]
    rcases hi : p.parseInteger with ⟨left, p1⟩
    rw [hi] at h
    exact finish _ _ (builds_integer hp hk hi) h
  | parsePrefixExpression =>
    dsimp only at h
    have hk : p.currentToken.Typ.isPrefixOperator = true := by
      simp [TokenType.isPrefixOperator, hr]
    rcases h1 : parsePrefixExpression n p with f | ⟨left, p1⟩
    · simp [h1] at h
    rw [h1] at h
    exact finish _ _ (hP p left p1 hp hk h1) h
  | parseBoolean =>
    dsimp only at h
    have hk : p.currentToken.Typ = .True ∨ p.currentToken.Typ = .False := by
      revert hr; cases p.currentToken.Typ <;> simp [prefixExprResolvers]
    refine finish _ _ (Parser.Extends.refl hp ?_) h
    rcases hk with hk | hk
    · simp [parseBoolean, Expression.wellFormed, currentTokenIs, hk,
        lexable_of_kind hp.1 hk (by decide) (by decide)]
    · simp [parseBoolean, Expression.wellFormed, currentTokenIs, hk,
        lexable_of_kind hp.1 hk (by decide) (by decide)]
  | parseGroupedExpression =>
    dsimp only at h
    rcases h1 : parseGroupedExpression n p with f | ⟨left, p1⟩
    · simp [h1] at h
    rw [h1] at h
    exact finish _ _ (hG p left p1 hp trivial h1) h
  | parseIfExpression =>
    dsimp only at h
    rcases h1 : parseIfExpression n p with f | ⟨left, p1⟩
    · simp [h1] at h
    rw [h1] at h
    exact finish _ _ (hI p left p1 hp trivial h1) h
  | parseFunction =>
    dsimp only at h
    have hk : p.currentToken.Typ = .Function := by
      revert hr; cases p.currentToken.Typ <;> simp [prefixExprResolvers]
    rcases h1 : parseFunction n p with f | ⟨left, p1⟩
    · simp [h1] at h
    rw [h1] at h
    exact finish _ _ (hF p left p1 hp hk h1) h

theorem builds_loop_step (n : Nat)
    (hI : ∀ left, Builds (parseInfixExpression n left)
      (fun p => p.currentToken.Typ.isBinary = true)
      (fun e => left.wellFormed = true → e.wellFormed = true))
    (hC : ∀ function, Builds (parseCallExpression n function)
      (fun p => p.currentToken.Typ = .Lparen)
      (fun e => function.wellFormed = true → e.wellFormed = true))
    (hLoop : ∀ prec left, Builds (parseExpressionLoop n prec left) (fun _ => True)
      (fun e => left.wellFormed = true → e.wellFormed = true)) :
    ∀ prec left, Builds (parseExpressionLoop (n + 1) prec left) (fun _ => True)
      (fun e => left.wellFormed = true → e.wellFormed = true) := by
  intro prec left p a q hp _ h
  rw [parseExpressionLoop] at h
  split at h
  · rcases hr : infixExprResolvers p.peekToken.Typ with _ | resolver
    · simp only [hr, Except.ok.injEq, Prod.mk.injEq] at h
      obtain ⟨rfl, rfl⟩ := h
      exact Parser.Extends.refl hp id
    rw [hr] at h
    dsimp only at h
    rcases h1 : p.nextToken with f | p1
    · simp [h1] at h
    rw [h1] at h
    dsimp only at h
    have a1 := Parser.Extends.step hp h1
    have c1 := (Parser.genuine_next hp h1).2.2
    have finish : ∀ left1 p2, p.Extends p2 (left.wellFormed = true → left1.wellFormed = true) →
        parseExpressionLoop n prec left1 p2 = .ok (a, q) →
        p.Extends q (left.wellFormed = true → a.wellFormed = true) :=
      fun left1 p2 a2 h3 =>
        (a2.trans (hLoop prec left1 p2 a q a2.genuine trivial h3)).imp
          (fun hh hl => hh.2 (hh.1 hl))
    cases resolver with
    | parseInfixExpression =>
      dsimp only at h
      have hk : p1.currentToken.Typ.isBinary = true := by
        rw [c1]; simp [TokenType.isBinary, hr]
      rcases h2 : parseInfixExpression n left p1 with f | ⟨left1, p2⟩
      · simp [h2] at h
      rw [h2] at h
      exact finish _ _ (a1.andThen (hI left p1 left1 p2 a1.genuine hk h2)) h
    | parseCallExpression =>
      dsimp only at h
      have hk : p1.currentToken.Typ = .Lparen := by
        rw [c1]; revert hr; cases p.peekToken.Typ <;> simp [infixExprResolvers]
      rcases h2 : parseCallExpression n left p1 with f | ⟨left1, p2⟩
      · simp [h2] at h
      rw [h2] at h
      exact finish _ _ (a1.andThen (hC left p1 left1 p2 a1.genuine hk h2)) h
  · simp only [Except.ok.injEq, Prod.mk.injEq] at h
    obtain ⟨rfl, rfl⟩ := h
    exact Parser.Extends.refl hp id

theorem builds_grouped_step (n : Nat)
    (hX : ∀ prec, Builds (parseExpression n prec) (fun _ => True)
      (fun e => e.wellFormed = true)) :
    Builds (parseGroupedExpression (n + 1)) (fun _ => True)
      (fun e => e.wellFormed = true) := by
  intro p a q hp _ h
  rw [parseGroupedExpression] at h
  rcases h1 : p.nextToken with f | p1
  · simp [h1] at h
  rw [h1] at h
  dsimp only at h
  have a1 := Parser.Extends.step hp h1
  rcases h2 : parseExpression n Lowest p1 with f | ⟨value, p2⟩
  · simp [h2] at h
  rw [h2] at h
  dsimp only at h
  have a2 := a1.andThen (hX Lowest p1 value p2 a1.genuine trivial h2)
  rcases h3 : p2.assertPeekTokenIs .Rparen with f | ⟨b3, p3⟩
  · simp [h3] at h
  rw [h3] at h
  cases b3 with
  | false =>
    simp only [Except.ok.injEq, Prod.mk.injEq] at h
    obtain ⟨rfl, rfl⟩ := h
    exact a2.abort h3 _
  | true =>
    simp only [Except.ok.injEq, Prod.mk.injEq] at h
    obtain ⟨rfl, rfl⟩ := h
    exact (a2.trans (Parser.Extends.assert_true a2.genuine h3)).imp (fun hh => hh.1)

theorem builds_prefix_step (n : Nat)
    (hX : ∀ prec, Builds (parseExpression n prec) (fun _ => True)
      (fun e => e.wellFormed = true)) :
    Builds (parsePrefixExpression (n + 1))
      (fun p => p.currentToken.Typ.isPrefixOperator = true)
      (fun e => e.wellFormed = true) := by
  intro p a q hp hk h
  rw [parsePrefixExpression] at h
  rcases h1 : p.nextToken with f | p1
  · simp [h1] at h
  rw [h1] at h
  dsimp only at h
  have a1 := Parser.Extends.step hp h1
  rcases h2 : parseExpression n Prefix p1 with f | ⟨value, p2⟩
  · simp [h2] at h
  rw [h2] at h
  simp only [Except.ok.injEq, Prod.mk.injEq] at h
  obtain ⟨rfl, rfl⟩ := h
  refine (a1.andThen (hX Prefix p1 value p2 a1.genuine trivial h2)).imp ?_
  intro hv
  simp [Expression.wellFormed, hk, hv, lexable_of_prefixOperator hp.1 hk]

theorem builds_infix_step (n : Nat)
    (hX : ∀ prec, Builds (parseExpression n prec) (fun _ => True)
      (fun e => e.wellFormed = true)) :
    ∀ left, Builds (parseInfixExpression (n + 1) left)
      (fun p => p.currentToken.Typ.isBinary = true)
      (fun e => left.wellFormed = true → e.wellFormed = true) := by
  intro left p a q hp hk h
  rw [parseInfixExpression] at h
  rcases h1 : p.nextToken with f | p1
  · simp [h1] at h
  rw [h1] at h
  dsimp only at h
  have a1 := Parser.Extends.step hp h1
  rcases h2 : parseExpression n p.currentPrecedence p1 with f | ⟨value, p2⟩
  · simp [h2] at h
  rw [h2] at h
  simp only [Except.ok.injEq, Prod.mk.injEq] at h
  obtain ⟨rfl, rfl⟩ := h
  refine (a1.andThen (hX _ p1 value p2 a1.genuine trivial h2)).imp ?_
  intro hv hl
  simp [Expression.wellFormed, hk, hv, hl, lexable_of_binary hp.1 hk]

theorem expressions_wellFormed_append (xs : List Expression) (e : Expression) :
    Expression.wellFormedAll (xs ++ [e]) = (Expression.wellFormedAll xs && e.wellFormed) := by
  induction xs with
  | nil => simp [Expression.wellFormedAll]
  | cons x xs ih => simp [Expression.wellFormedAll, ih, Bool.and_assoc]

theorem statements_wellFormed_append (xs : List Statement) (s : Statement) :
    Statement.wellFormedAll (xs ++ [s]) = (Statement.wellFormedAll xs && s.wellFormed) := by
  induction xs with
  | nil => simp [Statement.wellFormedAll]
  | cons x xs ih => simp [Statement.wellFormedAll, ih, Bool.and_assoc]

theorem builds_block_step (n : Nat)
    (hLoop : ∀ statements, Builds (parseBlockStatementLoop n statements) (fun _ => True)
      (fun res => Statement.wellFormedAll statements = true →
        Statement.wellFormedAll res = true)) :
    Builds (parseBlockStatement (n + 1)) (fun p => p.currentToken.Typ = .Lbrace)
      (fun b => b.wellFormed = true) := by
  intro p a q hp hk h
  rw [parseBlockStatement] at h
  rcases h1 : p.nextToken with f | p1
  · simp [h1] at h
  rw [h1] at h
  dsimp only at h
  have a1 := Parser.Extends.step hp h1
  rcases h2 : parseBlockStatementLoop n [] p1 with f | ⟨statements, p2⟩
  · simp [h2] at h
  rw [h2] at h
  simp only [Except.ok.injEq, Prod.mk.injEq] at h
  obtain ⟨rfl, rfl⟩ := h
  refine (a1.andThen (hLoop [] p1 statements p2 a1.genuine trivial h2)).imp ?_
  intro hv
  simp [BlockStatement.wellFormed, hk, hv rfl, lexable_of_kind hp.1 hk (by decide) (by decide)]

theorem builds_blockLoop_step (n : Nat)
    (hS : Builds (parseStatement n) (fun _ => True) (fun s => s.wellFormed = true))
    (hLoop : ∀ statements, Builds (parseBlockStatementLoop n statements) (fun _ => True)
      (fun res => Statement.wellFormedAll statements = true →
        Statement.wellFormedAll res = true)) :
    ∀ statements, Builds (parseBlockStatementLoop (n + 1) statements) (fun _ => True)
      (fun res => Statement.wellFormedAll statements = true →
        Statement.wellFormedAll res = true) := by
  intro statements p a q hp _ h
  rw [parseBlockStatementLoop] at h
  split at h
  · rcases h1 : parseStatement n p with f | ⟨stmt, p1⟩
    · simp [h1] at h
    rw [h1] at h
    dsimp only at h
    have a1 := hS p stmt p1 hp trivial h1
    rcases h2 : p1.nextToken with f | p2
    · simp [h2] at h
    rw [h2] at h
    dsimp only at h
    have a2 := a1.trans (Parser.Extends.step a1.genuine h2)
    refine (a2.trans (hLoop _ p2 a q a2.genuine trivial h)).imp ?_
    rintro ⟨⟨hs, -⟩, hh⟩ hall
    apply hh
    cases stmt <;> simp_all [statements_wellFormed_append, Statement.wellFormed]
  · simp only [Except.ok.injEq, Prod.mk.injEq] at h
    obtain ⟨rfl, rfl⟩ := h
    exact Parser.Extends.refl hp id

theorem builds_callArguments_step (n : Nat)
    (hX : ∀ prec, Builds (parseExpression n prec) (fun _ => True)
      (fun e => e.wellFormed = true))
    (hLoop : ∀ arguments, Builds (parseCallArguments n arguments) (fun _ => True)
      (fun res => Expression.wellFormedAll arguments = true →
        Expression.wellFormedAll res = true)) :
    ∀ arguments, Builds (parseCallArguments (n + 1) arguments) (fun _ => True)
      (fun res => Expression.wellFormedAll arguments = true →
        Expression.wellFormedAll res = true) := by
  intro arguments p a q hp _ h
  rw [parseCallArguments] at h
  split at h
  · rcases h1 : p.nextToken with f | p1
    · simp [h1] at h
    rw [h1] at h
    dsimp only at h
    have a1 := Parser.Extends.step hp h1
    rcases h2 : p1.nextToken with f | p2
    · simp [h2] at h
    rw [h2] at h
    dsimp only at h
    have a2 := a1.andThen (Parser.Extends.step a1.genuine h2)
    rcases h3 : parseExpression n Lowest p2 with f | ⟨argument, p3⟩
    · simp [h3] at h
    rw [h3] at h
    dsimp only at h
    have a3 := a2.andThen (hX Lowest p2 argument p3 a2.genuine trivial h3)
    refine (a3.trans (hLoop _ p3 a q a3.genuine trivial h)).imp ?_
    rintro ⟨hs, hh⟩ hall
    apply hh
    simp [expressions_wellFormed_append, hs, hall]
  · simp only [Except.ok.injEq, Prod.mk.injEq] at h
    obtain ⟨rfl, rfl⟩ := h
    exact Parser.Extends.refl hp id

theorem builds_call_step (n : Nat)
    (hX : ∀ prec, Builds (parseExpression n prec) (fun _ => True)
      (fun e => e.wellFormed = true))
    (hA : ∀ arguments, Builds (parseCallArguments n arguments) (fun _ => True)
      (fun res => Expression.wellFormedAll arguments = true →
        Expression.wellFormedAll res = true)) :
    ∀ function, Builds (parseCallExpression (n + 1) function)
      (fun p => p.currentToken.Typ = .Lparen)
      (fun e => function.wellFormed = true → e.wellFormed = true) := by
  intro function p a q hp hk h
  rw [parseCallExpression] at h
  rcases h1 : p.nextToken with f | p1
  · simp [h1] at h
  rw [h1] at h
  dsimp only at h
  have a1 := Parser.Extends.step hp h1
  have hl := lexable_of_kind hp.1 hk (by decide) (by decide)
  split at h
  · rcases h2 : parseExpression n Lowest p1 with f | ⟨argument, p2⟩
    · simp [h2] at h
    rw [h2] at h
    dsimp only at h
    have a2 := a1.andThen (hX Lowest p1 argument p2 a1.genuine trivial h2)
    rcases h3 : parseCallArguments n [argument] p2 with f | ⟨arguments, p3⟩
    · simp [h3] at h
    rw [h3] at h
    dsimp only at h
    have a3 := a2.trans (hA [argument] p2 arguments p3 a2.genuine trivial h3)
    rcases h4 : p3.assertPeekTokenIs .Rparen with f | ⟨b4, p4⟩
    · simp [h4] at h
    rw [h4] at h
    cases b4 with
    | false =>
      simp only [Except.ok.injEq, Prod.mk.injEq] at h
      obtain ⟨rfl, rfl⟩ := h
      exact a3.abort h4 _
    | true =>
      simp only [Except.ok.injEq, Prod.mk.injEq] at h
      obtain ⟨rfl, rfl⟩ := h
      refine (a3.trans (Parser.Extends.assert_true a3.genuine h4)).imp ?_
      rintro ⟨⟨ha, hh⟩, -⟩ hf
      have := hh (by simp [Expression.wellFormedAll, ha])
      simp [Expression.wellFormed, hk, hl, hf, this]
  · simp only [Except.ok.injEq, Prod.mk.injEq] at h
    obtain ⟨rfl, rfl⟩ := h
    refine a1.imp ?_
    intro _ hf
    simp [Expression.wellFormed, hk, hl, hf, Expression.wellFormedAll]

theorem builds_if_step (n : Nat)
    (hX : ∀ prec, Builds (parseExpression n prec) (fun _ => True)
      (fun e => e.wellFormed = true))
    (hB : Builds (parseBlockStatement n) (fun p => p.currentToken.Typ = .Lbrace)
      (fun b => b.wellFormed = true)) :
    Builds (parseIfExpression (n + 1)) (fun _ => True) (fun e => e.wellFormed = true) := by
  intro p a q hp _ h
  rw [parseIfExpression] at h
  rcases h1 : p.assertPeekTokenIs .Lparen with f | ⟨b1, p1⟩
  · simp [h1] at h
  rw [h1] at h
  cases b1 with
  | false =>
    simp only [Except.ok.injEq, Prod.mk.injEq] at h
    obtain ⟨rfl, rfl⟩ := h
    exact Parser.Extends.assert_false hp h1 _
  | true =>
    dsimp only at h
    have a1 := Parser.Extends.assert_true hp h1
    rcases h2 : p1.nextToken with f | p2
    · simp [h2] at h
    rw [h2] at h
    dsimp only at h
    have a2 := a1.andThen (Parser.Extends.step a1.genuine h2)
    rcases h3 : parseExpression n Lowest p2 with f | ⟨condition, p3⟩
    · simp [h3] at h
    rw [h3] at h
    dsimp only at h
    have a3 := a2.andThen (hX Lowest p2 condition p3 a2.genuine trivial h3)
    rcases h4 : p3.assertPeekTokenIs .Rparen with f | ⟨b4, p4⟩
    · simp [h4] at h
    rw [h4] at h
    cases b4 with
    | false =>
      simp only [Except.ok.injEq, Prod.mk.injEq] at h
      obtain ⟨rfl, rfl⟩ := h
      exact a3.abort h4 _
    | true =>
      dsimp only at h
      have a4 := (a3.trans (Parser.Extends.assert_true a3.genuine h4)).imp (fun hh => hh.1)
      rcases h5 : p4.assertPeekTokenIs .Lbrace with f | ⟨b5, p5⟩
      · simp [h5] at h
      rw [h5] at h
      cases b5 with
      | false =>
        simp only [Except.ok.injEq, Prod.mk.injEq] at h
        obtain ⟨rfl, rfl⟩ := h
        exact a4.abort h5 _
      | true =>
        dsimp only at h
        have a5 := (a4.trans (Parser.Extends.assert_true a4.genuine h5)).imp (fun hh => hh.1)
        have k5 := Parser.assert_kind h5
        rcases h6 : parseBlockStatement n p5 with f | ⟨consequence, p6⟩
        · simp [h6] at h
        rw [h6] at h
        dsimp only at h
        have a6 := a5.trans (hB p5 consequence p6 a5.genuine k5 h6)
        split at h
        · rcases h7 : p6.nextToken with f | p7
          · simp [h7] at h
          rw [h7] at h
          dsimp only at h
          have a7 := (a6.trans (Parser.Extends.step a6.genuine h7)).imp (fun hh => hh.1)
          rcases h8 : p7.assertPeekTokenIs .Lbrace with f | ⟨b8, p8⟩
          · simp [h8] at h
          rw [h8] at h
          cases b8 with
          | false =>
            simp only [Except.ok.injEq, Prod.mk.injEq] at h
            obtain ⟨rfl, rfl⟩ := h
            exact a7.abort h8 _
          | true =>
            dsimp only at h
            have a8 := (a7.trans (Parser.Extends.assert_true a7.genuine h8)).imp (fun hh => hh.1)
            have k8 := Parser.assert_kind h8
            rcases h9 : parseBlockStatement n p8 with f | ⟨alternative, p9⟩
            · simp [h9] at h
            rw [h9] at h
            simp only [Except.ok.injEq, Prod.mk.injEq] at h
            obtain ⟨rfl, rfl⟩ := h
            refine (a8.trans (hB p8 alternative p9 a8.genuine k8 h9)).imp ?_
            rintro ⟨⟨hc, hk⟩, ha⟩
            simp [Expression.wellFormed, hc, hk, ha, BlockStatement.wellFormedElse]
        · simp only [Except.ok.injEq, Prod.mk.injEq] at h
          obtain ⟨rfl, rfl⟩ := h
          refine a6.imp ?_
          rintro ⟨hc, hk⟩
          simp [Expression.wellFormed, hc, hk, BlockStatement.wellFormedElse]

theorem builds_function_step (n : Nat)
    (hB : Builds (parseBlockStatement n) (fun p => p.currentToken.Typ = .Lbrace)
      (fun b => b.wellFormed = true)) :
    Builds (parseFunction (n + 1)) (fun p => p.currentToken.Typ = .Function)
      (fun e => e.wellFormed = true) := by
  intro p a q hp hk h
  rw [parseFunction] at h
  rcases h1 : p.assertPeekTokenIs .Lparen with f | ⟨b1, p1⟩
  · simp [h1] at h
  rw [h1] at h
  cases b1 with
  | false =>
    simp only [Except.ok.injEq, Prod.mk.injEq] at h
    obtain ⟨rfl, rfl⟩ := h
    exact Parser.Extends.assert_false hp h1 _
  | true =>
    dsimp only at h
    have a1 := Parser.Extends.assert_true hp h1
    have rest : ∀ (params : List Identifier) (p2 : Parser),
        p.Extends p2 (params.all Identifier.wellFormed = true) →
        (match p2.assertPeekTokenIs .Lbrace with
          | .error f => (Except.error f : Except Fault (Expression × Parser))
          | .ok (false, parser3) => Except.ok (Expression.nil, parser3)
          | .ok (true, parser3) =>
            match parseBlockStatement n parser3 with
            | .error f => Except.error f
            | .ok (body, parser4) =>
              Except.ok (Expression.Function p.currentToken params body, parser4)) =
          Except.ok (a, q) →
        p.Extends q (a.wellFormed = true) := by
      intro params p2 a2 h
      rcases h3 : p2.assertPeekTokenIs .Lbrace with f | ⟨b3, p3⟩
      · simp [h3] at h
      rw [h3] at h
      cases b3 with
      | false =>
        simp only [Except.ok.injEq, Prod.mk.injEq] at h
        obtain ⟨rfl, rfl⟩ := h
        exact a2.abort h3 _
      | true =>
        dsimp only at h
        have a3 := (a2.trans (Parser.Extends.assert_true a2.genuine h3)).imp (fun hh => hh.1)
        have k3 := Parser.assert_kind h3
        rcases h4 : parseBlockStatement n p3 with f | ⟨body, p4⟩
        · simp [h4] at h
        rw [h4] at h
        simp only [Except.ok.injEq, Prod.mk.injEq] at h
        obtain ⟨rfl, rfl⟩ := h
        refine (a3.trans (hB p3 body p4 a3.genuine k3 h4)).imp ?_
        rintro ⟨hps, hb⟩
        simp only [Expression.wellFormed, hk, hb, lexable_of_kind hp.1 hk (by decide) (by decide),
          hps, beq_self_eq_true, Bool.and_self]
    split at h
    · simp at h
    · next hr =>
      refine rest _ _ ?_ h
      split at hr
      · exact (a1.andThen (builds_params n [] p1 _ _ a1.genuine trivial hr)).imp (fun hh => hh rfl)
      · simp only [Except.ok.injEq, Prod.mk.injEq] at hr
        obtain ⟨rfl, rfl⟩ := hr
        exact a1.imp (fun _ => rfl)

theorem builds_all (n : Nat) :
    Builds (parseStatement n) (fun _ => True) (fun s => s.wellFormed = true) ∧
    Builds (parseLetStatement n) (fun p => p.currentToken.Typ = .Let)
      (fun s => s.wellFormed = true) ∧
    Builds (parseReturnStatement n) (fun p => p.currentToken.Typ = .Return)
      (fun s => s.wellFormed = true) ∧
    Builds (parseExpressionStatement n) (fun _ => True) (fun s => s.wellFormed = true) ∧
    (∀ prec, Builds (parseExpression n prec) (fun _ => True) (fun e => e.wellFormed = true)) ∧
    (∀ prec left, Builds (parseExpressionLoop n prec left) (fun _ => True)
      (fun e => left.wellFormed = true → e.wellFormed = true)) ∧
    Builds (parseGroupedExpression n) (fun _ => True) (fun e => e.wellFormed = true) ∧
    Builds (parsePrefixExpression n) (fun p => p.currentToken.Typ.isPrefixOperator = true)
      (fun e => e.wellFormed = true) ∧
    (∀ left, Builds (parseInfixExpression n left) (fun p => p.currentToken.Typ.isBinary = true)
      (fun e => left.wellFormed = true → e.wellFormed = true)) ∧
    Builds (parseIfExpression n) (fun _ => True) (fun e => e.wellFormed = true) ∧
    Builds (parseFunction n) (fun p => p.currentToken.Typ = .Function)
      (fun e => e.wellFormed = true) ∧
    (∀ function, Builds (parseCallExpression n function)
      (fun p => p.currentToken.Typ = .Lparen)
      (fun e => function.wellFormed = true → e.wellFormed = true)) ∧
    (∀ arguments, Builds (parseCallArguments n arguments) (fun _ => True)
      (fun res => Expression.wellFormedAll arguments = true →
        Expression.wellFormedAll res = true)) ∧
    Builds (parseBlockStatement n) (fun p => p.currentToken.Typ = .Lbrace)
      (fun b => b.wellFormed = true) ∧
    (∀ statements, Builds (parseBlockStatementLoop n statements) (fun _ => True)
      (fun res => Statement.wellFormedAll statements = true →
        Statement.wellFormedAll res = true)) := by
  induction n with
  | zero =>
    refine ⟨?_, ?_, ?_, ?_, ?_, ?_, ?_, ?_, ?_, ?_, ?_, ?_, ?_, ?_, ?_⟩
    · intro p a q _ _ h; simp [parseStatement] at h
    · intro p a q _ _ h; simp [parseLetStatement] at h
    · intro p a q _ _ h; simp [parseReturnStatement] at h
    · intro p a q _ _ h; simp [parseExpressionStatement] at h
    · intro prec p a q _ _ h; simp [parseExpression] at h
    · intro prec left p a q _ _ h; simp [parseExpressionLoop] at h
    · intro p a q _ _ h; simp [parseGroupedExpression] at h
    · intro p a q _ _ h; simp [parsePrefixExpression] at h
    · intro left p a q _ _ h; simp [parseInfixExpression] at h
    · intro p a q _ _ h; simp [parseIfExpression] at h
    · intro p a q _ _ h; simp [parseFunction] at h
    · intro function p a q _ _ h; simp [parseCallExpression] at h
    · intro arguments p a q _ _ h; simp [parseCallArguments] at h
    · intro p a q _ _ h; simp [parseBlockStatement] at h
    · intro statements p a q _ _ h; simp [parseBlockStatementLoop] at h
  | succ n ih =>
    obtain ⟨i1, i2, i3, i4, i5, i6, i7, i8, i9, i10, i11, i12, i13, i14, i15⟩ := ih
    exact ⟨builds_statement_step n i2 i3 i4, builds_let_step n i5, builds_return_step n i5,
      builds_expressionStatement_step n i5, builds_expression_step n i6 i8 i7 i10 i11,
      builds_loop_step n i9 i12 i6, builds_grouped_step n i5, builds_prefix_step n i5,
      builds_infix_step n i5, builds_if_step n i5 i14, builds_function_step n i14,
      builds_call_step n i5 i13, builds_callArguments_step n i5 i13,
      builds_block_step n i15, builds_blockLoop_step n i1 i15⟩

theorem builds_parseLoop (n : Nat) : ∀ statements, Builds (parseLoop n statements)
    (fun _ => True)
    (fun res => (∀ s ∈ statements, s = .nil ∨ s.wellFormed = true) →
      ∀ s ∈ res, s = .nil ∨ s.wellFormed = true) := by
  induction n with
  | zero => intro statements p a q _ _ h; simp [parseLoop] at h
  | succ n ih =>
    intro statements p a q hp _ h
    rw [parseLoop] at h
    split at h
    · rcases h1 : parseStatement n p with f | ⟨stmt, p1⟩
      · simp [h1] at h
      rw [h1] at h
      dsimp only at h
      have a1 := (builds_all n).1 p stmt p1 hp trivial h1
      rcases h2 : p1.nextToken with f | p2
      · simp [h2] at h
      rw [h2] at h
      dsimp only at h
      have a2 := a1.trans (Parser.Extends.step a1.genuine h2)
      refine (a2.trans (ih _ p2 a q a2.genuine trivial h)).imp ?_
      rintro ⟨⟨hs, -⟩, hh⟩ hall
      apply hh
      intro s hmem
      rw [List.mem_append, List.mem_singleton] at hmem
      rcases hmem with hmem | rfl
      · exact hall s hmem
      · exact Or.inr hs
    · simp only [Except.ok.injEq, Prod.mk.injEq] at h
      obtain ⟨rfl, rfl⟩ := h
      exact Parser.Extends.refl hp id

theorem NewParser_genuine {src : List Nat} {p : Parser} (h : NewParser (NewLexer src) = .ok p) :
    p.genuine ∧ p.errors = [] := by
  unfold NewParser at h
  rw [NewLexer_eq] at h
  rcases h1 : (lexAt [] src).NextToken with _ | ⟨t1, l1⟩
  · simp [h1] at h
  rw [h1] at h
  dsimp only at h
  obtain ⟨g1, pre1, suf1, rfl⟩ := NextToken_genuine _ _ _ _ h1
  rcases h2 : (lexAt pre1 suf1).NextToken with _ | ⟨t2, l2⟩
  · simp [h2] at h
  rw [h2] at h
  simp only [Except.ok.injEq] at h
  subst h
  obtain ⟨g2, e2⟩ := NextToken_genuine _ _ _ _ h2
  exact ⟨⟨g1, g2, e2⟩, rfl⟩

/-- Every statement of a source that parses without error is nil or well
formed. -/
theorem parseSource_wellFormed {fuel : Nat} {src : List Nat} {stmts : List Statement}
    (h : parseSource fuel src = .ok (stmts, [])) :
    ∀ s ∈ stmts, s = .nil ∨ s.wellFormed = true := by
  unfold parseSource at h
  rcases h1 : NewParser (NewLexer src) with f | p
  · simp [h1] at h
  rw [h1] at h
  dsimp only at h
  obtain ⟨hp, he⟩ := NewParser_genuine h1
  unfold parseProgram at h
  rcases h2 : parseLoop fuel [.nil, .nil] p with f | ⟨res, q⟩
  · simp [h2] at h
  rw [h2] at h
  simp only [Except.ok.injEq, Prod.mk.injEq] at h
  obtain ⟨rfl, hq⟩ := h
  obtain ⟨-, new, hnew, hP⟩ := builds_parseLoop fuel _ p res q hp trivial h2
  rw [he, hq] at hnew
  have : new = [] := by simpa using hnew.symm
  apply hP this
  intro s hs
  simp only [List.mem_cons, List.mem_singleton, List.not_mem_nil, or_false, or_self] at hs
  exact Or.inl hs

mutual
/-- Every node of a well-formed expression is well formed. -/
theorem expression_nodes_wellFormed : ∀ (e : Expression), e.wellFormed = true →
    ∀ n ∈ e.nodes, n.wellFormed = true
  | .nil, hw, _, _ => by simp [Expression.wellFormed] at hw
  | .Identifier id, hw, n, hn => by
    simp only [Expression.nodes, List.mem_singleton] at hn
    subst hn
    exact hw
  | .Integer tok v, hw, n, hn => by
    simp only [Expression.nodes, List.mem_singleton] at hn
    subst hn
    exact hw
  | .Boolean tok v, hw, n, hn => by
    simp only [Expression.nodes, List.mem_singleton] at hn
    subst hn
    exact hw
  | .PrefixExpression tok op right, hw, n, hn => by
    simp only [Expression.nodes, List.mem_cons] at hn
    rcases hn with rfl | hn
    · exact hw
    · simp only [Expression.wellFormed, Bool.and_eq_true] at hw
      exact expression_nodes_wellFormed right hw.2 n hn
  | .InfixExpression tok left op right, hw, n, hn => by
    simp only [Expression.nodes, List.mem_cons, List.mem_append] at hn
    rcases hn with rfl | hn | hn
    · exact hw
    · simp only [Expression.wellFormed, Bool.and_eq_true] at hw
      exact expression_nodes_wellFormed left hw.1.2 n hn
    · simp only [Expression.wellFormed, Bool.and_eq_true] at hw
      exact expression_nodes_wellFormed right hw.2 n hn
  | .IfExpression tok c k a, hw, n, hn => by
    simp only [Expression.nodes, List.mem_cons, List.mem_append] at hn
    rcases hn with rfl | hn | hn | hn
    · exact hw
    · simp only [Expression.wellFormed, Bool.and_eq_true] at hw
      exact expression_nodes_wellFormed c hw.1.1.2 n hn
    · simp only [Expression.wellFormed, Bool.and_eq_true] at hw
      exact block_nodes_wellFormed k hw.1.2 n hn
    · simp only [Expression.wellFormed, Bool.and_eq_true] at hw
      exact alternative_nodes_wellFormed a hw.2 n hn
  | .CallExpression tok f args, hw, n, hn => by
    simp only [Expression.nodes, List.mem_cons, List.mem_append] at hn
    rcases hn with rfl | hn | hn
    · exact hw
    · simp only [Expression.wellFormed, Bool.and_eq_true] at hw
      exact expression_nodes_wellFormed f hw.1.2 n hn
    · simp only [Expression.wellFormed, Bool.and_eq_true] at hw
      exact expressions_nodes_wellFormed args hw.2 n hn
  | .Function tok params body, hw, n, hn => by
    simp only [Expression.nodes, List.mem_cons, List.mem_append, List.mem_map] at hn
    rcases hn with rfl | ⟨p, hp, rfl⟩ | hn
    · exact hw
    · simp only [Expression.wellFormed, Bool.and_eq_true, List.all_eq_true] at hw
      exact hw.1.2 p hp
    · simp only [Expression.wellFormed, Bool.and_eq_true] at hw
      exact block_nodes_wellFormed body hw.2 n hn
/-- Every node of a list of well-formed expressions is well formed. -/
theorem expressions_nodes_wellFormed : ∀ (es : List Expression),
    Expression.wellFormedAll es = true → ∀ n ∈ Expression.nodesAll es, n.wellFormed = true
  | [], _, n, hn => by simp [Expression.nodesAll] at hn
  | e :: rest, hw, n, hn => by
    simp only [Expression.nodesAll, List.mem_append] at hn
    simp only [Expression.wellFormedAll, Bool.and_eq_true] at hw
    rcases hn with hn | hn
    · exact expression_nodes_wellFormed e hw.1 n hn
    · exact expressions_nodes_wellFormed rest hw.2 n hn
/-- Every node of a well-formed statement is well formed. -/
theorem statement_nodes_wellFormed : ∀ (s : Statement), s.wellFormed = true →
    ∀ n ∈ s.nodes, n.wellFormed = true
  | .nil, hw, _, _ => by simp [Statement.wellFormed] at hw
  | .nilLetStatement, hw, _, _ => by simp [Statement.wellFormed] at hw
  | .LetStatement tok name value, hw, n, hn => by
    simp only [Statement.nodes, List.mem_cons] at hn
    rcases hn with rfl | rfl | hn
    · exact hw
    · simp only [Statement.wellFormed, Bool.and_eq_true] at hw
      exact hw.1.2
    · simp only [Statement.wellFormed, Bool.and_eq_true] at hw
      exact expression_nodes_wellFormed value hw.2 n hn
  | .ReturnStatement tok value, hw, n, hn => by
    simp only [Statement.nodes, List.mem_cons] at hn
    rcases hn with rfl | hn
    · exact hw
    · simp only [Statement.wellFormed, Bool.and_eq_true] at hw
      exact expression_nodes_wellFormed value hw.2 n hn
  | .ExpressionStatement tok value, hw, n, hn => by
    simp only [Statement.nodes, List.mem_cons] at hn
    rcases hn with rfl | hn
    · exact hw
    · simp only [Statement.wellFormed] at hw
      exact expression_nodes_wellFormed value hw n hn
/-- Every node of a list of well-formed statements is well formed. -/
theorem statements_nodes_wellFormed : ∀ (ss : List Statement),
    Statement.wellFormedAll ss = true → ∀ n ∈ Statement.nodesAll ss, n.wellFormed = true
  | [], _, n, hn => by simp [Statement.nodesAll] at hn
  | s :: rest, hw, n, hn => by
    simp only [Statement.nodesAll, List.mem_append] at hn
    simp only [Statement.wellFormedAll, Bool.and_eq_true] at hw
    rcases hn with hn | hn
    · exact statement_nodes_wellFormed s hw.1 n hn
    · exact statements_nodes_wellFormed rest hw.2 n hn
/-- Every node inside a well-formed block is well formed. -/
theorem block_nodes_wellFormed : ∀ (b : BlockStatement), b.wellFormed = true →
    ∀ n ∈ b.nodes, n.wellFormed = true
  | .mk tok statements, hw, n, hn => by
    simp only [BlockStatement.nodes] at hn
    simp only [BlockStatement.wellFormed, Bool.and_eq_true] at hw
    exact statements_nodes_wellFormed statements hw.2 n hn
/-- Every node inside a well-formed alternative is well formed. -/
theorem alternative_nodes_wellFormed : ∀ (a : Option BlockStatement),
    BlockStatement.wellFormedElse a = true →
    ∀ n ∈ BlockStatement.nodesElse a, n.wellFormed = true
  | none, _, n, hn => by simp [BlockStatement.nodesElse] at hn
  | some b, hw, n, hn => by
    simp only [BlockStatement.nodesElse] at hn
    simp only [BlockStatement.wellFormedElse] at hw
    exact block_nodes_wellFormed b hw n hn
end

/-- Every node of a source that parses without error is well formed. -/
theorem parseSource_nodes {fuel : Nat} {src : List Nat} {stmts : List Statement}
    (h : parseSource fuel src = .ok (stmts, [])) :
    ∀ n ∈ Statement.nodesAll stmts, n.wellFormed = true := by
  have hall := parseSource_wellFormed h
  clear h
  induction stmts with
  | nil => intro n hn; simp [Statement.nodesAll] at hn
  | cons s rest ih =>
    intro n hn
    simp only [Statement.nodesAll, List.mem_append] at hn
    rcases hn with hn | hn
    · rcases hall s (List.mem_cons_self _ _) with rfl | hw
      · simp [Statement.nodes] at hn
      · exact statement_nodes_wellFormed s hw n hn
    · exact ih (fun s hs => hall s (List.mem_cons_of_mem _ hs)) n hn

/-- The rendering of a well-formed node free of if-expressions and function
literals parses again, without error, to the node. -/
theorem roundtrip_node : ∀ (n : Node), n.wellFormed = true → n.plain = true →
    ∃ text, n.String = some text ∧ n.reparsed.String = some text ∧
      ∀ fuel, 5 * n.root.size + 5 ≤ fuel →
        parseSource fuel text = .ok ([.nil, .nil, n.reparsed], [])
  | .expression e, hw, ho => by
    obtain ⟨h1, -⟩ := roundtrip_expression e hw ho _ (le_refl _)
    exact ⟨_, h1, h1, fun fuel hf =>
      (roundtrip_expression e hw ho fuel (Nat.le_of_succ_le hf)).2⟩
  | .statement .nil, hw, _ => by simp [Node.wellFormed, Statement.wellFormed] at hw
  | .statement .nilLetStatement, hw, _ => by simp [Node.wellFormed, Statement.wellFormed] at hw
  | .statement (.LetStatement tok name e), hw, ho => by
    simp only [Node.wellFormed, Statement.wellFormed, Bool.and_eq_true, beq_iff_eq] at hw
    obtain ⟨⟨⟨ht, hl⟩, hn⟩, he⟩ := hw
    obtain ⟨h1, -⟩ := roundtrip_let tok name e ht hl hn he ho _ (le_refl _)
    exact ⟨_, h1, h1, fun fuel hf => (roundtrip_let tok name e ht hl hn he ho fuel hf).2⟩
  | .statement (.ReturnStatement tok e), hw, ho => by
    simp only [Node.wellFormed, Statement.wellFormed, Bool.and_eq_true, beq_iff_eq] at hw
    obtain ⟨⟨ht, hl⟩, he⟩ := hw
    obtain ⟨h1, -⟩ := roundtrip_return tok e ht hl he ho _ (le_refl _)
    exact ⟨_, h1, h1, fun fuel hf => (roundtrip_return tok e ht hl he ho fuel hf).2⟩
  | .statement (.ExpressionStatement tok e), hw, ho => by
    obtain ⟨h1, -⟩ := roundtrip_expression e hw ho _ (le_refl _)
    exact ⟨_, h1, h1, fun fuel hf =>
      (roundtrip_expression e hw ho fuel (Nat.le_of_succ_le hf)).2⟩

/-! ## C17: rendering and parsing again -/

/-- C17 (as amended): for every source that parses without error, take any
expression node of the resulting tree that is built only from identifier,
integer, boolean, prefix, infix and call nodes, or any let, return or
expression statement node over such an expression, at any depth (inside
blocks, conditions, arguments and function bodies as well).  Its `String`
rendering is defined and parsing that rendering again returns, at every fuel
from `5 * size + 5` on, without error, exactly one statement (after the two
leading nil entries): the same let or return statement, tokens included, and
for an expression or expression statement node the expression statement of the
same expression, tokens included, whose statement token is the last token of
the rendering (the token current when the expression has been parsed).  That
statement has the same rendering as the node. -/
theorem C17_rendering_reparses (src : List Nat) (fuel : Nat) (stmts : List Statement)
    (h : parseSource fuel src = .ok (stmts, []))
    (n : Node) (hn : n ∈ Statement.nodesAll stmts) (hp : n.plain = true) :
    n.reparsed.expression = n.root ∧
    ∃ text, n.String = some text ∧ n.reparsed.String = some text ∧
      ∀ fuel1, 5 * n.root.size + 5 ≤ fuel1 →
        parseSource fuel1 text = .ok ([.nil, .nil, n.reparsed], []) := by
  refine ⟨?_, roundtrip_node n (parseSource_nodes h n hn) hp⟩
  cases n with
  | expression e => rfl
  | statement s => cases s <;> rfl

/-- C17, witness: the theorem at the source `return -a;` and the node `-a` of
its tree. -/
theorem C17_rendering_reparses_witness :
    parseSource 30 (bytes "return -a;") =
      .ok ([.nil, .nil, .ReturnStatement ⟨.Return, bytes "return"⟩
        (.PrefixExpression ⟨.Minus, bytes "-"⟩ (bytes "-")
          (.Identifier ⟨⟨.Ident, bytes "a"⟩, bytes "a"⟩))], []) ∧
    Node.expression (.PrefixExpression ⟨.Minus, bytes "-"⟩ (bytes "-")
        (.Identifier ⟨⟨.Ident, bytes "a"⟩, bytes "a"⟩)) ∈
      Statement.nodesAll [.nil, .nil, .ReturnStatement ⟨.Return, bytes "return"⟩
        (.PrefixExpression ⟨.Minus, bytes "-"⟩ (bytes "-")
          (.Identifier ⟨⟨.Ident, bytes "a"⟩, bytes "a"⟩))] ∧
    (Node.expression (.PrefixExpression ⟨.Minus, bytes "-"⟩ (bytes "-")
        (.Identifier ⟨⟨.Ident, bytes "a"⟩, bytes "a"⟩))).String = some (bytes "(-a)") ∧
    ∃ text, (Node.expression (.PrefixExpression ⟨.Minus, bytes "-"⟩ (bytes "-")
        (.Identifier ⟨⟨.Ident, bytes "a"⟩, bytes "a"⟩))).String = some text ∧
      parseSource 15 text =
        .ok ([.nil, .nil, .ExpressionStatement ⟨.Rparen, bytes ")"⟩
          (.PrefixExpression ⟨.Minus, bytes "-"⟩ (bytes "-")
            (.Identifier ⟨⟨.Ident, bytes "a"⟩, bytes "a"⟩))], []) := by
  have h : parseSource 30 (bytes "return -a;") =
      .ok ([.nil, .nil, .ReturnStatement ⟨.Return, bytes "return"⟩
        (.PrefixExpression ⟨.Minus, bytes "-"⟩ (bytes "-")
          (.Identifier ⟨⟨.Ident, bytes "a"⟩, bytes "a"⟩))], []) :=
    of_yieldsResult (by decide!)
  have hn : Node.expression (.PrefixExpression ⟨.Minus, bytes "-"⟩ (bytes "-")
        (.Identifier ⟨⟨.Ident, bytes "a"⟩, bytes "a"⟩)) ∈
      Statement.nodesAll [.nil, .nil, .ReturnStatement ⟨.Return, bytes "return"⟩
        (.PrefixExpression ⟨.Minus, bytes "-"⟩ (bytes "-")
          (.Identifier ⟨⟨.Ident, bytes "a"⟩, bytes "a"⟩))] := by
    simp [Statement.nodesAll, Statement.nodes, Expression.nodes]
  obtain ⟨-, text, h1, -, h3⟩ := C17_rendering_reparses (bytes "return -a;") 30 _ h _ hn rfl
  exact ⟨h, hn, rfl, text, h1, h3 15 (by decide)⟩

/-- C17, counterexample to the claim as stated.  The source `if (x) { y }`
parses without error to one if-expression; the rendering of that node is
`if x {\n\ty\n}\n\n`, without the parentheses, and parsing it again records
three errors.  The source `fn(x) { x }` parses without error to one function
literal; its rendering `(x) {\n\tx\n}\n` has lost the `fn`, and parsing it
again records two errors. -/
theorem C17_counterexample :
    (∀ extra : Nat, parseSource (12 + extra) (bytes "if (x) \x7b y \x7d") =
      .ok ([.nil, .nil, .ExpressionStatement ⟨.Rbrace, bytes "\x7d"⟩
        (.IfExpression none (.Identifier ⟨⟨.Ident, bytes "x"⟩, bytes "x"⟩)
          (.mk ⟨.Lbrace, bytes "\x7b"⟩
            [.ExpressionStatement ⟨.Ident, bytes "y"⟩
              (.Identifier ⟨⟨.Ident, bytes "y"⟩, bytes "y"⟩)]) none)], [])) ∧
    (Expression.IfExpression none (.Identifier ⟨⟨.Ident, bytes "x"⟩, bytes "x"⟩)
        (.mk ⟨.Lbrace, bytes "\x7b"⟩
          [.ExpressionStatement ⟨.Ident, bytes "y"⟩
            (.Identifier ⟨⟨.Ident, bytes "y"⟩, bytes "y"⟩)]) none).String =
      some (bytes "if x \x7b\n\ty\n\x7d\n\n") ∧
    (∀ extra : Nat, renderSource (12 + extra) (bytes "if x \x7b\n\ty\n\x7d\n\n") =
      .ok ([none, some (bytes "x"), none, some (bytes "y"), none],
        [.expectedNext .Lparen .Ident, .noPrefixFound .Lbrace, .noPrefixFound .Rbrace])) ∧
    (∀ extra : Nat, parseSource (12 + extra) (bytes "fn(x) \x7b x \x7d") =
      .ok ([.nil, .nil, .ExpressionStatement ⟨.Rbrace, bytes "\x7d"⟩
        (.Function ⟨.Function, bytes "fn"⟩ [⟨⟨.Ident, bytes "x"⟩, bytes "x"⟩]
          (.mk ⟨.Lbrace, bytes "\x7b"⟩
            [.ExpressionStatement ⟨.Ident, bytes "x"⟩
              (.Identifier ⟨⟨.Ident, bytes "x"⟩, bytes "x"⟩)]))], [])) ∧
    (Expression.Function ⟨.Function, bytes "fn"⟩ [⟨⟨.Ident, bytes "x"⟩, bytes "x"⟩]
        (.mk ⟨.Lbrace, bytes "\x7b"⟩
          [.ExpressionStatement ⟨.Ident, bytes "x"⟩
            (.Identifier ⟨⟨.Ident, bytes "x"⟩, bytes "x"⟩)])).String =
      some (bytes "(x) \x7b\n\tx\n\x7d\n") ∧
    (∀ extra : Nat, renderSource (12 + extra) (bytes "(x) \x7b\n\tx\n\x7d\n") =
      .ok ([some (bytes "x"), none, some (bytes "x"), none],
        [.noPrefixFound .Lbrace, .noPrefixFound .Rbrace])) :=
  ⟨parseSource_add (of_yieldsResult (by decide!)), by decide,
    renderSource_add (by decide!),
    parseSource_add (of_yieldsResult (by decide!)), by decide,
    renderSource_add (by decide!)⟩

/-! ## Running the lexer over an input -/

theorem lexable_text {t : Token} (h : lexable t = true) :
    t.Literal ≠ [] ∧ (∀ c ∈ t.Literal, isSpace c = false) ∧ t.Typ ≠ .Eof ∧ t.Typ ≠ .Illegal := by
  obtain ⟨k, lit⟩ := t
  cases k
  case Ident =>
    simp only [lexable, Bool.and_eq_true, decide_eq_true_eq, List.all_eq_true, beq_iff_eq] at h
    refine ⟨h.1.1, ?_, by simp, by simp⟩
    intro c hc
    have := h.1.2 c hc
    simp only [isLetter, Bool.or_eq_true, Bool.and_eq_true, decide_eq_true_eq] at this
    simp only [isSpace, Bool.or_eq_false_iff, beq_eq_false_iff_ne]
    omega
  case Int =>
    simp only [lexable, Bool.and_eq_true, decide_eq_true_eq, List.all_eq_true] at h
    refine ⟨h.1, ?_, by simp, by simp⟩
    intro c hc
    have := h.2 c hc
    simp only [isDigit, Bool.and_eq_true, decide_eq_true_eq] at this
    simp only [isSpace, Bool.or_eq_false_iff, beq_eq_false_iff_ne]
    omega
  all_goals
    simp only [lexable, spelling, beq_iff_eq, Option.some.injEq] at h
    first
      | (cases h; done)
      | (subst h; decide)

theorem endsOpen_suffix {a b : List Nat} (hb : b ≠ []) (h : endsOpen (a ++ b) = false) :
    endsOpen b = false := by
  simpa [endsOpen, List.getLast?_append_of_ne_nil a hb] using h

theorem endsOpen_tail (a b : List Nat) (h : endsOpen (a ++ b) = false) :
    endsOpen b = false := by
  cases b with
  | nil => rfl
  | cons c r => exact endsOpen_suffix (by simp) h

/-- The first token of an input that starts on a byte of the alphabet other
than whitespace and does not end in `=` or `!`. -/
theorem first_token (c : Nat) (r : List Nat) (ha : inAlphabet c = true)
    (hsp : isSpace c = false) (he : endsOpen (c :: r) = false) :
    ∃ t r0, c :: r = t.Literal ++ r0 ∧ lexable t = true ∧ canFollow t r0.head? = true := by
  by_cases hl : isLetter c = true
  · obtain ⟨w, rest1, he1, hw, hr1⟩ := split_run isLetter rfl (c :: r)
    have hne : w ≠ [] := by
      rintro rfl
      simp only [List.nil_append] at he1
      rw [← he1] at hr1
      simp [hl] at hr1
    have hn : isLetter (rest1.head?.getD 0) = false := by
      cases rest1 <;> simpa using hr1
    obtain ⟨h1, h2⟩ := word_token w hne hw rest1.head? hn
    exact ⟨⟨(isKeyword w).getD .Ident, w⟩, rest1, he1, h1, h2⟩
  by_cases hd : isDigit c = true
  · obtain ⟨w, rest1, he1, hw, hr1⟩ := split_run isDigit rfl (c :: r)
    have hne : w ≠ [] := by
      rintro rfl
      simp only [List.nil_append] at he1
      rw [← he1] at hr1
      simp [hd] at hr1
    have hn : isDigit (rest1.head?.getD 0) = false := by
      cases rest1 <;> simpa using hr1
    refine ⟨⟨.Int, w⟩, rest1, he1, ?_, by simp [canFollow, hn]⟩
    simp only [lexable, Bool.and_eq_true, decide_eq_true_eq, List.all_eq_true]
    exact ⟨hne, hw⟩
  have hs : isSymbol c = true := by
    simp only [inAlphabet, Bool.or_eq_true] at ha
    rcases ha with ((ha | ha) | ha) | ha
    · exact absurd ha hl
    · exact absurd ha hd
    · rw [hsp] at ha; cases ha
    · exact ha
  simp only [isSymbol, List.mem_cons, List.mem_singleton, List.not_mem_nil, or_false,
    decide_eq_true_eq] at hs
  rcases hs with rfl | rfl | rfl | rfl | rfl | rfl | rfl | rfl | rfl | rfl | rfl | rfl |
    rfl | rfl
  · cases r with
    | nil => simp [endsOpen] at he
    | cons d r1 =>
      by_cases hd1 : d = 61
      · subst hd1
        exact ⟨TokenType.Eq.token, r1, rfl, rfl, rfl⟩
      · exact ⟨TokenType.Assign.token, d :: r1, rfl, rfl,
          by simp [canFollow, TokenType.token, hd1]⟩
  · exact ⟨TokenType.Plus.token, r, rfl, rfl, rfl⟩
  · exact ⟨TokenType.Minus.token, r, rfl, rfl, rfl⟩
  · cases r with
    | nil => simp [endsOpen] at he
    | cons d r1 =>
      by_cases hd1 : d = 61
      · subst hd1
        exact ⟨TokenType.Ne.token, r1, rfl, rfl, rfl⟩
      · exact ⟨TokenType.Bang.token, d :: r1, rfl, rfl,
          by simp [canFollow, TokenType.token, hd1]⟩
  · exact ⟨TokenType.Asterisk.token, r, rfl, rfl, rfl⟩
  · exact ⟨TokenType.Slash.token, r, rfl, rfl, rfl⟩
  · exact ⟨TokenType.Lt.token, r, rfl, rfl, rfl⟩
  · exact ⟨TokenType.Gt.token, r, rfl, rfl, rfl⟩
  · exact ⟨TokenType.Comma.token, r, rfl, rfl, rfl⟩
  · exact ⟨TokenType.Semicolon.token, r, rfl, rfl, rfl⟩
  · exact ⟨TokenType.Lparen.token, r, rfl, rfl, rfl⟩
  · exact ⟨TokenType.Rparen.token, r, rfl, rfl, rfl⟩
  · exact ⟨TokenType.Lbrace.token, r, rfl, rfl, rfl⟩
  · exact ⟨TokenType.Rbrace.token, r, rfl, rfl, rfl⟩

theorem filter_spaces (ws : List Nat) (h : ∀ c ∈ ws, isSpace c = true) :
    ws.filter (fun c => !isSpace c) = [] := by
  rw [List.filter_eq_nil_iff]
  intro c hc
  simp [h c hc]

theorem filter_text (w : List Nat) (h : ∀ c ∈ w, isSpace c = false) :
    w.filter (fun c => !isSpace c) = w := by
  rw [List.filter_eq_self]
  intro c hc
  simp [h c hc]

/-- From any place in an input of the alphabet that does not end in `=` or
`!`, the lexer reaches the end of the input within one call per byte left and
one more, the tokens it returns are lexable, and their literals make up the
bytes left without the whitespace. -/
theorem tokens_lexAt : ∀ (n : Nat) (suf pre : List Nat), suf.length ≤ n →
    suf.all inAlphabet = true → endsOpen suf = false →
    ∀ fuel, suf.length + 1 ≤ fuel →
      ∃ ts, tokensUntilEof fuel (lexAt pre suf) = some ts ∧
        (∀ t ∈ ts, lexable t = true) ∧
        textOf ts = suf.filter (fun c => !isSpace c) := by
  intro n
  induction n with
  | zero =>
    intro suf pre hlen _ _ fuel hf
    have hnil : suf = [] := List.length_eq_zero.1 (Nat.le_zero.1 hlen)
    subst hnil
    obtain ⟨f, rfl⟩ : ∃ f, fuel = f + 1 := ⟨fuel - 1, by omega⟩
    refine ⟨[], ?_, by simp, by simp [textOf]⟩
    have h := NextToken_lexAt_end pre [] (by simp)
    rw [tokensUntilEof, h]
    simp [eofToken]
  | succ n ih =>
    intro suf pre hlen ha he fuel hf
    obtain ⟨f, rfl⟩ : ∃ f, fuel = f + 1 := ⟨fuel - 1, by omega⟩
    obtain ⟨ws, rest, rfl, hws, hr⟩ := split_run isSpace rfl suf
    cases rest with
    | nil =>
      refine ⟨[], ?_, by simp, ?_⟩
      · have h := NextToken_lexAt_end pre ws hws
        rw [List.append_nil, tokensUntilEof, h]
        simp [eofToken]
      · rw [List.append_nil, filter_spaces ws hws]
        rfl
    | cons c r =>
      have hsp : isSpace c = false := by simpa using hr
      rw [List.all_append, Bool.and_eq_true] at ha
      have hac : inAlphabet c = true := by
        have := ha.2
        simp only [List.all_cons, Bool.and_eq_true] at this
        exact this.1
      obtain ⟨t, r0, hsplit, hl, hc⟩ := first_token c r hac hsp (endsOpen_tail ws _ he)
      obtain ⟨hne, hnosp, hEof, -⟩ := lexable_text hl
      have hnext := NextToken_lexAt t ws pre r0 hws hl hc
      rw [← hsplit] at hnext
      have hlen0 : r0.length ≤ n := by
        have h1 : (c :: r).length = t.Literal.length + r0.length := by
          rw [hsplit, List.length_append]
        have h2 : 0 < t.Literal.length := List.length_pos.2 hne
        simp only [List.length_append] at hlen
        omega
      have ha0 : r0.all inAlphabet = true := by
        have := ha.2
        rw [hsplit, List.all_append, Bool.and_eq_true] at this
        exact this.2
      have he0 : endsOpen r0 = false := by
        have h1 := endsOpen_tail ws _ he
        rw [hsplit] at h1
        exact endsOpen_tail _ _ h1
      have hf0 : r0.length + 1 ≤ f := by
        have h1 : (c :: r).length = t.Literal.length + r0.length := by
          rw [hsplit, List.length_append]
        have h2 : 0 < t.Literal.length := List.length_pos.2 hne
        simp only [List.length_append] at hf
        omega
      obtain ⟨ts, h1, h2, h3⟩ := ih r0 (pre ++ ws ++ t.Literal) hlen0 ha0 he0 f hf0
      refine ⟨t :: ts, ?_, ?_, ?_⟩
      · rw [tokensUntilEof, hnext]
        simp only [hEof, if_false, h1]
      · intro u hu
        rcases List.mem_cons.1 hu with rfl | hu
        · exact hl
        · exact h2 u hu
      · rw [textOf, h3, hsplit, List.filter_append, List.filter_append, filter_spaces ws hws,
          filter_text _ hnosp, List.nil_append]

/-! ## C21: the token of a node -/

theorem if_rule_token (fuel : Nat) (p q : Parser) (e : Expression)
    (h : parseIfExpression fuel p = .ok (e, q)) :
    e = .nil ∨ ∃ condition consequence alternative,
      e = .IfExpression none condition consequence alternative := by
  cases fuel with
  | zero => simp [parseIfExpression] at h
  | succ n =>
    rw [parseIfExpression] at h
    repeat' split at h
    all_goals
      simp only [Except.ok.injEq, Prod.mk.injEq, reduceCtorEq] at h
    all_goals
      obtain ⟨rfl, -⟩ := h
      first
        | exact Or.inl rfl
        | exact Or.inr ⟨_, _, _, rfl⟩

theorem literal_of_wellFormed (e : Expression) (hw : e.wellFormed = true) :
    e.Literal = none ↔ ∃ condition consequence alternative,
      e = .IfExpression none condition consequence alternative := by
  cases e with
  | IfExpression tok c k a =>
    simp only [Expression.wellFormed, Bool.and_eq_true, Option.isNone_iff_eq_none] at hw
    obtain ⟨⟨⟨rfl, -⟩, -⟩, -⟩ := hw
    simp [Expression.Literal]
  | nil => simp [Expression.wellFormed] at hw
  | _ => simp [Expression.Literal]

theorem expression_statement_token (fuel : Nat) (p q : Parser) (s : Statement)
    (h : parseExpressionStatement fuel p = .ok (s, q)) :
    ∃ e p1, parseExpression (fuel - 1) Lowest p = .ok (e, p1) ∧
      s = .ExpressionStatement p1.currentToken e := by
  cases fuel with
  | zero => simp [parseExpressionStatement] at h
  | succ n =>
    rw [parseExpressionStatement] at h
    rcases h1 : parseExpression n Lowest p with f | ⟨e, p1⟩
    · simp [h1] at h
    rw [h1] at h
    dsimp only at h
    refine ⟨e, p1, h1, ?_⟩
    split at h
    · rcases h2 : p1.nextToken with f | p2
      · simp [h2] at h
      rw [h2] at h
      simp only [Except.ok.injEq, Prod.mk.injEq] at h
      exact h.1.symm
    · simp only [Except.ok.injEq, Prod.mk.injEq] at h
      exact h.1.symm

/-- C21: two rules do not store the token that is current when they start.
The if rule builds its node without a token: whatever `parseIfExpression`
returns, at every fuel and from every parser state, is the nil expression or
an if-expression whose `Token` is nil, so `Literal()` on it is a nil
dereference; in the tree of every source that parses without error the
expression nodes whose `Literal()` is not defined are exactly the
if-expressions.  The expression statement rule stores the token that is
current when its expression has been parsed: on `a + b`, where the rule starts
on `a`, the statement carries `b`.  The source `if (x) { y }` parses without
error to an expression statement with token `}` over an if-expression without
token, whereas the function rule on `fn(x) { x }` stores the `fn` token in
its node and `Literal()` gives `fn`. -/
theorem C21_if_expression_carries_no_token (fuel : Nat) (p q : Parser) (e : Expression)
    (h : parseIfExpression fuel p = .ok (e, q)) :
    (e = .nil ∨ ∃ condition consequence alternative,
      e = .IfExpression none condition consequence alternative) ∧
    e.Literal = none ∧
    (∀ (src : List Nat) (fuel1 : Nat) (stmts : List Statement),
      parseSource fuel1 src = .ok (stmts, []) →
      ∀ e1, Node.expression e1 ∈ Statement.nodesAll stmts →
        (e1.Literal = none ↔ ∃ condition consequence alternative,
          e1 = .IfExpression none condition consequence alternative)) ∧
    (∀ (fuel1 : Nat) (p1 q1 : Parser) (s : Statement),
      parseExpressionStatement fuel1 p1 = .ok (s, q1) →
      ∃ e1 p2, parseExpression (fuel1 - 1) Lowest p1 = .ok (e1, p2) ∧
        s = .ExpressionStatement p2.currentToken e1) ∧
    (NewParser (NewLexer (bytes "a + b"))).map (fun p0 => p0.currentToken) =
      .ok ⟨.Ident, bytes "a"⟩ ∧
    (∀ extra : Nat, parseSource (12 + extra) (bytes "a + b") =
      .ok ([.nil, .nil, .ExpressionStatement ⟨.Ident, bytes "b"⟩
        (.InfixExpression ⟨.Plus, bytes "+"⟩ (.Identifier ⟨⟨.Ident, bytes "a"⟩, bytes "a"⟩)
          (bytes "+") (.Identifier ⟨⟨.Ident, bytes "b"⟩, bytes "b"⟩))], [])) ∧
    (∀ extra : Nat, parseSource (12 + extra) (bytes "if (x) \x7b y \x7d") =
      .ok ([.nil, .nil, .ExpressionStatement ⟨.Rbrace, bytes "\x7d"⟩
        (.IfExpression none (.Identifier ⟨⟨.Ident, bytes "x"⟩, bytes "x"⟩)
          (.mk ⟨.Lbrace, bytes "\x7b"⟩
            [.ExpressionStatement ⟨.Ident, bytes "y"⟩
              (.Identifier ⟨⟨.Ident, bytes "y"⟩, bytes "y"⟩)]) none)], [])) ∧
    (Expression.IfExpression none (.Identifier ⟨⟨.Ident, bytes "x"⟩, bytes "x"⟩)
        (.mk ⟨.Lbrace, bytes "\x7b"⟩
          [.ExpressionStatement ⟨.Ident, bytes "y"⟩
            (.Identifier ⟨⟨.Ident, bytes "y"⟩, bytes "y"⟩)]) none).Literal = none ∧
    (∀ extra : Nat, parseSource (12 + extra) (bytes "fn(x) \x7b x \x7d") =
      .ok ([.nil, .nil, .ExpressionStatement ⟨.Rbrace, bytes "\x7d"⟩
        (.Function ⟨.Function, bytes "fn"⟩ [⟨⟨.Ident, bytes "x"⟩, bytes "x"⟩]
          (.mk ⟨.Lbrace, bytes "\x7b"⟩
            [.ExpressionStatement ⟨.Ident, bytes "x"⟩
              (.Identifier ⟨⟨.Ident, bytes "x"⟩, bytes "x"⟩)]))], [])) ∧
    (Expression.Function ⟨.Function, bytes "fn"⟩ [⟨⟨.Ident, bytes "x"⟩, bytes "x"⟩]
        (.mk ⟨.Lbrace, bytes "\x7b"⟩
          [.ExpressionStatement ⟨.Ident, bytes "x"⟩
            (.Identifier ⟨⟨.Ident, bytes "x"⟩, bytes "x"⟩)])).Literal = some (bytes "fn") := by
  have h1 := if_rule_token fuel p q e h
  refine ⟨h1, ?_, ?_, expression_statement_token, by decide,
    parseSource_add (of_yieldsResult (by decide!)),
    parseSource_add (of_yieldsResult (by decide!)), rfl,
    parseSource_add (of_yieldsResult (by decide!)), rfl⟩
  · rcases h1 with rfl | ⟨c, k, a, rfl⟩ <;> rfl
  · intro src fuel1 stmts hs e1 hn
    exact literal_of_wellFormed e1 (parseSource_nodes hs _ hn)

/-- C21, witness: the theorem at the parser that `NewParser` gives on the
source `if (x) { y }`, where the if rule returns a node that has a rendering
and no literal. -/
theorem C21_if_expression_carries_no_token_witness :
    NewParser (NewLexer (bytes "if (x) \x7b y \x7d")) =
      .ok (parserIn (bytes "if (") (bytes "x) \x7b y \x7d") ⟨.If, bytes "if"⟩
        ⟨.Lparen, bytes "("⟩ []) ∧
    ∃ e q, parseIfExpression 12 (parserIn (bytes "if (") (bytes "x) \x7b y \x7d")
        ⟨.If, bytes "if"⟩ ⟨.Lparen, bytes "("⟩ []) = .ok (e, q) ∧
      e.String = some (bytes "if x \x7b\n\ty\n\x7d\n\n") ∧ e.Literal = none := by
  refine ⟨by decide, ?_⟩
  have hok : ((parseIfExpression 12 (parserIn (bytes "if (") (bytes "x) \x7b y \x7d")
      ⟨.If, bytes "if"⟩ ⟨.Lparen, bytes "("⟩ [])).map
        (fun r => r.1.String)).toOption = some (some (bytes "if x \x7b\n\ty\n\x7d\n\n")) := by
    decide!
  rcases hq : parseIfExpression 12 (parserIn (bytes "if (") (bytes "x) \x7b y \x7d")
      ⟨.If, bytes "if"⟩ ⟨.Lparen, bytes "("⟩ []) with f | ⟨e, q⟩
  · rw [hq] at hok
    cases hok
  · rw [hq] at hok
    exact ⟨e, q, rfl, Option.some.inj hok,
      (C21_if_expression_carries_no_token 12 _ q e hq).2.1⟩

/-! ## C22: round trip on operator expressions -/

/-- C22: for every source that parses without error to a single expression
statement (after the two leading nil entries of the statement slice) whose
expression `e` is built only from identifier, integer, boolean, prefix, infix
and call nodes, `e.String()` is defined, and parsing it returns at every fuel
from `5 * size + 4` on, records no error and yields a single expression
statement whose expression is `e` itself: the same node kinds, operators,
names and integer values, and the same tokens.  The statement of the second
parse carries the last token of the rendering and renders as `e.String()`
again. -/
theorem C22_operator_round_trip (src : List Nat) (fuel : Nat) (tok : Token) (e : Expression)
    (h : parseSource fuel src = .ok ([.nil, .nil, .ExpressionStatement tok e], []))
    (ho : e.operatorOnly = true) :
    ∃ text, e.String = some text ∧
      ∀ fuel1, 5 * e.size + 4 ≤ fuel1 →
        parseSource fuel1 text =
          .ok ([.nil, .nil, .ExpressionStatement e.lastToken e], []) ∧
        renderSource fuel1 text = .ok ([some text], []) := by
  have hw : e.wellFormed = true := by
    rcases parseSource_wellFormed h (.ExpressionStatement tok e) (by simp) with h1 | h1
    · cases h1
    · simpa [Statement.wellFormed] using h1
  have h1 := (roundtrip_expression e hw ho _ (le_refl _)).1
  refine ⟨_, h1, ?_⟩
  intro fuel1 hf
  have h2 := (roundtrip_expression e hw ho fuel1 hf).2
  refine ⟨h2, ?_⟩
  simp [renderSource, h2, Statement.isNil, Statement.String, h1]

/-- C22, witness: the theorem at the source `-a * f(1, b)`, whose expression
renders as `((-a)*f(1,b))`. -/
theorem C22_operator_round_trip_witness :
    parseSource 30 (bytes "-a * f(1, b)") =
      .ok ([.nil, .nil, .ExpressionStatement ⟨.Rparen, bytes ")"⟩
        (.InfixExpression ⟨.Asterisk, bytes "*"⟩
          (.PrefixExpression ⟨.Minus, bytes "-"⟩ (bytes "-")
            (.Identifier ⟨⟨.Ident, bytes "a"⟩, bytes "a"⟩))
          (bytes "*")
          (.CallExpression ⟨.Lparen, bytes "("⟩
            (.Identifier ⟨⟨.Ident, bytes "f"⟩, bytes "f"⟩)
            [.Integer ⟨.Int, bytes "1"⟩ 1,
              .Identifier ⟨⟨.Ident, bytes "b"⟩, bytes "b"⟩]))], []) ∧
    ∃ text, text = bytes "((-a)*f(1,b))" ∧
      parseSource 40 text =
        .ok ([.nil, .nil, .ExpressionStatement ⟨.Rparen, bytes ")"⟩
          (.InfixExpression ⟨.Asterisk, bytes "*"⟩
            (.PrefixExpression ⟨.Minus, bytes "-"⟩ (bytes "-")
              (.Identifier ⟨⟨.Ident, bytes "a"⟩, bytes "a"⟩))
            (bytes "*")
            (.CallExpression ⟨.Lparen, bytes "("⟩
              (.Identifier ⟨⟨.Ident, bytes "f"⟩, bytes "f"⟩)
              [.Integer ⟨.Int, bytes "1"⟩ 1,
                .Identifier ⟨⟨.Ident, bytes "b"⟩, bytes "b"⟩]))], []) ∧
      renderSource 40 text = .ok ([some text], []) := by
  have h : parseSource 30 (bytes "-a * f(1, b)") =
      .ok ([.nil, .nil, .ExpressionStatement ⟨.Rparen, bytes ")"⟩
        (.InfixExpression ⟨.Asterisk, bytes "*"⟩
          (.PrefixExpression ⟨.Minus, bytes "-"⟩ (bytes "-")
            (.Identifier ⟨⟨.Ident, bytes "a"⟩, bytes "a"⟩))
          (bytes "*")
          (.CallExpression ⟨.Lparen, bytes "("⟩
            (.Identifier ⟨⟨.Ident, bytes "f"⟩, bytes "f"⟩)
            [.Integer ⟨.Int, bytes "1"⟩ 1,
              .Identifier ⟨⟨.Ident, bytes "b"⟩, bytes "b"⟩]))], []) :=
    of_yieldsResult (by decide!)
  obtain ⟨text, h1, h2⟩ := C22_operator_round_trip (bytes "-a * f(1, b)") 30 _ _ h rfl
  have ht : text = bytes "((-a)*f(1,b))" := by
    have h3 : some text = some (bytes "((-a)*f(1,b))") := by
      rw [← h1]
      decide
    exact Option.some.inj h3
  exact ⟨h, text, ht, h2 40 (by decide)⟩

/-! ## C23: tokenization loses no text -/

/-- C23: for every input made only of letters, digits, the whitespace bytes
space, tab, carriage return and newline, and the symbol bytes
`= + - ! * / < > , ; ( ) { }`, and not ending in `=` or `!`, repeated
`NextToken` reaches the end-of-input token within one call per byte and one
more without a panic; the tokens returned before it contain no ILLEGAL token
(each is a word, a number or a symbol carrying its source text), and the
concatenation of their literals in order is the input with all whitespace
bytes removed. -/
theorem C23_tokenization_loses_no_text (s : List Nat) (hs : s.all inAlphabet = true)
    (he : endsOpen s = false) (fuel : Nat) (hf : s.length + 1 ≤ fuel) :
    ∃ ts, tokensUntilEof fuel (NewLexer s) = some ts ∧
      (∀ t ∈ ts, t.Typ ≠ .Illegal ∧ t.Typ ≠ .Eof ∧ lexable t = true) ∧
      textOf ts = s.filter (fun c => !isSpace c) := by
  obtain ⟨ts, h1, h2, h3⟩ := tokens_lexAt s.length s [] (le_refl _) hs he fuel hf
  rw [← NewLexer_eq] at h1
  refine ⟨ts, h1, ?_, h3⟩
  intro t ht
  obtain ⟨-, -, h4, h5⟩ := lexable_text (h2 t ht)
  exact ⟨h5, h4, h2 t ht⟩

/-- C23, witness: the theorem at the input `let x = 5 == !a;` followed by a
newline. -/
theorem C23_tokenization_loses_no_text_witness :
    (bytes "let x = 5 == !a;\n").all inAlphabet = true ∧
    endsOpen (bytes "let x = 5 == !a;\n") = false ∧
    tokensUntilEof 18 (NewLexer (bytes "let x = 5 == !a;\n")) =
      some [⟨.Let, bytes "let"⟩, ⟨.Ident, bytes "x"⟩, ⟨.Assign, bytes "="⟩, ⟨.Int, bytes "5"⟩,
        ⟨.Eq, bytes "=="⟩, ⟨.Bang, bytes "!"⟩, ⟨.Ident, bytes "a"⟩, ⟨.Semicolon, bytes ";"⟩] ∧
    ∃ ts, tokensUntilEof 18 (NewLexer (bytes "let x = 5 == !a;\n")) = some ts ∧
      (∀ t ∈ ts, t.Typ ≠ .Illegal ∧ t.Typ ≠ .Eof ∧ lexable t = true) ∧
      textOf ts = bytes "letx=5==!a;" :=
  ⟨by decide, by decide, by decide,
    C23_tokenization_loses_no_text (bytes "let x = 5 == !a;\n") (by decide) (by decide) 18
      (by decide)⟩

end Monkey
